import Mathlib

/-! # jsonbc: a shallow embedding of the binary container codec

Source files embedded here: `jsonbc.h`, `jsonbc_util.c`, `jsonbc_op.c`, and of `jsonbc.c`
and `dict.c` the functions `jsonbc_recv` and `getNameById`.

Conventions of the embedding.

* A byte buffer is a `List Nat`; every cell written by the code holds a value below 256.
  A C pointer into a buffer is an offset into that list (or the suffix starting there),
  reading past the end yields 0.
* `uint32` values are natural numbers reduced `% 2 ^ 32` where the C arithmetic can wrap;
  `int` counters that the source guards against overflow are exact natural numbers.
* `Assert(...)` is compiled out in production builds; the embedding follows the
  production build and mentions the assertion in the doc comment of the definition.
* PostgreSQL services that are not part of this repository (numeric arithmetic, string
  collation, hashing, the dictionary table) are fields of `Env`; the message and parser
  services that `jsonbc_recv` calls are arguments of its definition.
-/

namespace JB

/-! ## Basic types -/

/-- Byte buffer (`unsigned char *`, `StringInfo` data). -/
abbrev Bytes := List Nat

/-- Opaque numeric datum: the bytes of its varlena image (`VARSIZE_ANY` is the length). -/
abbrev Numeric := Bytes

/-- Read `*(buf + p)`. -/
def byteAt (buf : Bytes) (p : Nat) : Nat := buf.getD p 0

/-- Conversion of a value to `uint32`. -/
def toUInt32 (i : Int) : Nat := (i % 2 ^ 32).toNat

/-- Conversion of a `uint32` to `int32`. -/
def toInt32 (n : Nat) : Int :=
  if n % 2 ^ 32 < 2 ^ 31 then ((n % 2 ^ 32 : Nat) : Int) else ((n % 2 ^ 32 : Nat) : Int) - 2 ^ 32

/-! ## Varbyte codec (`jsonbc_util.c`, lines 73-144) -/

def MAX_VARBYTE_SIZE : Nat := 5

/-- The `while (val > 0x7F)` loop of `encode_varbyte` followed by the final store.
The first argument bounds the number of loop iterations; a 32-bit `val` needs at most 4. -/
def encode_varbyte_loop : Nat → Nat → Bytes
  | 0, val => [val % 256]
  | fuel + 1, val =>
    if val > 0x7F then
      ((0x80 ||| (val &&& 0x7F)) % 256) :: encode_varbyte_loop fuel (val >>> 7)
    else
      [val % 256]

/-- Source `encode_varbyte(uint32 val, unsigned char **ptr)`: the bytes stored at `*ptr`;
`*ptr` advances by their number. -/
def encode_varbyte (val : Nat) : Bytes := encode_varbyte_loop 4 (val % 2 ^ 32)

/-- Source `decode_varbyte(unsigned char **ptr)` with `*ptr = buf + p`: the decoded value
(a `uint64` accumulator returned as `uint32`) and the advanced pointer. -/
def decode_varbyte (buf : Bytes) (p : Nat) : Nat × Nat :=
  let c := byteAt buf p
  let val := c &&& 0x7F
  if c &&& 0x80 ≠ 0 then
    let c := byteAt buf (p + 1)
    let val := val ||| ((c &&& 0x7F) <<< 7)
    if c &&& 0x80 ≠ 0 then
      let c := byteAt buf (p + 2)
      let val := val ||| ((c &&& 0x7F) <<< 14)
      if c &&& 0x80 ≠ 0 then
        let c := byteAt buf (p + 3)
        let val := val ||| ((c &&& 0x7F) <<< 21)
        if c &&& 0x80 ≠ 0 then
          let c := byteAt buf (p + 4)
          let val := val ||| (c <<< 28)
          (val % 2 ^ 32, p + 5)
        else (val % 2 ^ 32, p + 4)
      else (val % 2 ^ 32, p + 3)
    else (val % 2 ^ 32, p + 2)
  else (val % 2 ^ 32, p + 1)

/-- Source `varbyte_size(uint32 value)`. -/
def varbyte_size (value : Nat) : Nat :=
  if value < 0x80 then 1
  else if value < 0x4000 then 2
  else if value < 0x200000 then 3
  else if value < 0x10000000 then 4
  else 5


/-! ## Tokens, entries and the in-memory value (`jsonbc.h`) -/

/-- Tokens used when sequentially processing a jsonbc value. -/
inductive JsonbcIteratorToken where
  | WJB_DONE
  | WJB_KEY
  | WJB_VALUE
  | WJB_ELEM
  | WJB_BEGIN_ARRAY
  | WJB_END_ARRAY
  | WJB_BEGIN_OBJECT
  | WJB_END_OBJECT
  deriving DecidableEq, Repr

open JsonbcIteratorToken

def JENTRY_SHIFT : Nat := 0x3
def JENTRY_OFFLENMASK : Nat := 0x10000000
def JENTRY_TYPEMASK : Nat := 0x7

def JENTRY_ISSTRING : Nat := 0x1
def JENTRY_ISNUMERIC : Nat := 0x2
def JENTRY_ISINTEGER : Nat := 0x3
def JENTRY_ISBOOL_FALSE : Nat := 0x4
def JENTRY_ISBOOL_TRUE : Nat := 0x5
def JENTRY_ISNULL : Nat := 0x6
def JENTRY_ISCONTAINER : Nat := 0x7

def JBE_OFFLENFLD (je : Nat) : Nat := je >>> JENTRY_SHIFT
def JBE_ISSTRING (je : Nat) : Bool := (je &&& JENTRY_TYPEMASK) == JENTRY_ISSTRING
def JBE_ISNUMERIC (je : Nat) : Bool := (je &&& JENTRY_TYPEMASK) == JENTRY_ISNUMERIC
def JBE_ISCONTAINER (je : Nat) : Bool := (je &&& JENTRY_TYPEMASK) == JENTRY_ISCONTAINER
def JBE_ISNULL (je : Nat) : Bool := (je &&& JENTRY_TYPEMASK) == JENTRY_ISNULL
def JBE_ISBOOL_TRUE (je : Nat) : Bool := (je &&& JENTRY_TYPEMASK) == JENTRY_ISBOOL_TRUE
def JBE_ISBOOL_FALSE (je : Nat) : Bool := (je &&& JENTRY_TYPEMASK) == JENTRY_ISBOOL_FALSE
def JBE_ISINTEGER (je : Nat) : Bool := (je &&& JENTRY_TYPEMASK) == JENTRY_ISINTEGER

/-! flags for the header field of a container -/
def JB_CSHIFT : Nat := 2
def JB_FSCALAR : Nat := 0
def JB_FOBJECT : Nat := 1
def JB_FARRAY : Nat := 2
def JB_MASK : Nat := 3

/-- Size of the varlena length word that starts a `Jsonbc` datum. -/
def VARHDRSZ : Nat := 4

mutual
/-- Source `struct JsonbcValue`. The `type` tag is the constructor. An array keeps the count
`nElems` next to the element buffer `elems`, an object keeps `nPairs` next to `pairs`,
as the C struct does: the iterator fills in the count only. A string is the `len` bytes
at `val`. A binary value is the pointer `data` (the bytes from that address on) and `len`. -/
inductive JsonbcValue where
  | jbvNull
  | jbvString (val : Bytes)
  | jbvNumeric (numeric : Numeric)
  | jbvBool (boolean : Bool)
  | jbvArray (nElems : Nat) (elems : List JsonbcValue) (rawScalar : Bool)
  | jbvObject (nPairs : Nat) (pairs : List JsonbcPair)
  | jbvBinary (len : Nat) (data : Bytes)
/-- Source `struct JsonbcPair`: key id, value, index in the original sequence. -/
inductive JsonbcPair where
  | mk (key : Int) (value : JsonbcValue) (order : Nat)
end

open JsonbcValue

def JsonbcPair.key : JsonbcPair → Int
  | .mk k _ _ => k

def JsonbcPair.value : JsonbcPair → JsonbcValue
  | .mk _ v _ => v

def JsonbcPair.order : JsonbcPair → Nat
  | .mk _ _ o => o

/-- Ordinal of the `type` enum of `struct JsonbcValue` ("influences sort order"). -/
def JsonbcValue.type : JsonbcValue → Nat
  | jbvNull => 0x0
  | jbvString _ => 0x1
  | jbvNumeric _ => 0x2
  | jbvBool _ => 0x3
  | jbvArray _ _ _ => 0x10
  | jbvObject _ _ => 0x11
  | jbvBinary _ _ => 0x12

/-- Source `IsAJsonbcScalar(jsonbcval)`: `type >= jbvNull && type <= jbvBool`. -/
def IsAJsonbcScalar (v : JsonbcValue) : Bool := decide (0x0 ≤ v.type) && decide (v.type ≤ 0x3)

/-- Ways in which an operation does not return normally. -/
inductive Err where
  /-- Source `ereport(ERROR, (errcode(ERRCODE_PROGRAM_LIMIT_EXCEEDED), ...))`. -/
  | program_limit_exceeded
  /-- Source `elog(ERROR, ...)`. -/
  | elog_error
  /-- An `Assert(...)` of the source does not hold; the production build, which compiles
  assertions out, then runs into behaviour the C standard leaves undefined. -/
  | assert_failed
  /-- The source reads a variable that was never written, or dereferences an address that
  is not a pointer. -/
  | undefined_behaviour
  /-- The iteration bound of a loop of the embedding was exhausted before the loop ended. -/
  | out_of_fuel
  deriving DecidableEq, Repr

/-- Services of the host database that the codec calls but this repository does not define. -/
structure Env where
  /-- Source `getIdByName` of `dict.h`: get-or-create id of a key name. -/
  getIdByName : Bytes → Int
  /-- Source `getNameById` of `dict.h`. -/
  getNameById : Int → Bytes
  /-- Source `numeric_get_small(Numeric value, uint32 *out)` of `numeric_utils.c`. -/
  numeric_get_small : Numeric → Option Nat
  /-- Source `small_to_numeric(uint32 value)` of `numeric_utils.c`. -/
  small_to_numeric : Nat → Numeric
  /-- Source `numeric_cmp`. -/
  numeric_cmp : Numeric → Numeric → Int
  /-- Source `numeric_eq`. -/
  numeric_eq : Numeric → Numeric → Bool
  /-- Source `varstr_cmp` under the default collation. -/
  varstr_cmp : Bytes → Bytes → Int
  /-- Source `hash_any`. -/
  hash_any : Bytes → Nat
  /-- Source `hash_numeric`. -/
  hash_numeric : Numeric → Nat

/-! ## Binary container encoder (`jsonbc_util.c`, lines 1357-1725) -/

/-- The on-disk datum `Jsonbc`: the varlena length word `vl_len_` (as set by `SET_VARSIZE`)
and the bytes of the root container that follow it. -/
structure Jsonbc where
  vl_len_ : Nat
  root : Bytes

/-- Source `reserveFromBuffer(buffer, len)`: the enlarged buffer and the offset of the
reserved area. The reserved cells are filled in by the caller. -/
def reserveFromBuffer (buffer : Bytes) (len : Nat) : Bytes × Nat :=
  (buffer ++ List.replicate len 0, buffer.length)

/-- Source `appendToBuffer(buffer, data, len)` with `len` the length of `data`:
`reserveFromBuffer` followed by `copyToBuffer`. -/
def appendToBuffer (buffer : Bytes) (data : Bytes) : Bytes := buffer ++ data

/-- The buffer surgery that ends `convertJsonbcArray` and `convertJsonbcObject`:
`reserveFromBuffer(buffer, offsets_len)`, the `memmove` of everything written since
`base_offset` forward by `offsets_len`, then `encode_varbyte(header)` and the `memcpy` of
the collected entries into the gap. -/
def insertHeaderAndEntries (buffer : Bytes) (base_offset : Nat) (header : Nat)
    (offsets : Bytes) : Bytes :=
  buffer.take base_offset ++ (encode_varbyte header ++ offsets) ++ buffer.drop base_offset

/-- Source `convertJsonbcScalar(buffer, jentry, scalarVal)`: the buffer after the call and
the entry stored in `*jentry`. -/
def convertJsonbcScalar (X : Env) (buffer : Bytes) (scalarVal : JsonbcValue) :
    Except Err (Bytes × Nat) :=
  match scalarVal with
  | jbvNull => .ok (buffer, JENTRY_ISNULL)
  | jbvString val =>
    .ok (appendToBuffer buffer val,
      (JENTRY_ISSTRING ||| (val.length <<< JENTRY_SHIFT)) % 2 ^ 32)
  | jbvNumeric numeric =>
    match X.numeric_get_small numeric with
    | some small =>
      let small := small % 2 ^ 32
      let size := varbyte_size small
      .ok (buffer ++ encode_varbyte small,
        (JENTRY_ISINTEGER ||| (size <<< JENTRY_SHIFT)) % 2 ^ 32)
    | none =>
      let numlen := numeric.length
      let padlen := 0
      .ok (appendToBuffer buffer numeric,
        (JENTRY_ISNUMERIC ||| ((padlen + numlen) <<< JENTRY_SHIFT)) % 2 ^ 32)
  | jbvBool boolean =>
    .ok (buffer, if boolean then JENTRY_ISBOOL_TRUE else JENTRY_ISBOOL_FALSE)
  | _ => .error .elog_error

/-- The part of `convertJsonbcArray` after its element loop: header construction, buffer
surgery, final length check and the entry stored in `*pheader`. `loopResult` is the
state in which the loop ended. (`Assert(nElems == 1)` and `Assert(level == 0)` guard the
raw-scalar branch.) -/
def convertJsonbcArray_finish (base_offset : Nat) (rawScalar : Bool)
    (loopResult : Except Err (Bytes × Bytes × Nat)) : Except Err (Bytes × Nat) :=
  match loopResult with
  | .error e => .error e
  | .ok (buffer, offsets, _) =>
    let offsets_len := offsets.length
    let header := (offsets_len <<< JB_CSHIFT) % 2 ^ 32
    let header := if rawScalar then header ||| JB_FSCALAR else header ||| JB_FARRAY
    let buffer := insertHeaderAndEntries buffer base_offset header offsets
    let totallen := buffer.length - base_offset
    if totallen > JENTRY_OFFLENMASK then .error .program_limit_exceeded
    else .ok (buffer, (JENTRY_ISCONTAINER ||| (totallen <<< JENTRY_SHIFT)) % 2 ^ 32)

/-- The part of `convertJsonbcObject` after its pair loop. -/
def convertJsonbcObject_finish (base_offset : Nat)
    (loopResult : Except Err (Bytes × Bytes × Nat)) : Except Err (Bytes × Nat) :=
  match loopResult with
  | .error e => .error e
  | .ok (buffer, offsets, _) =>
    let offsets_len := offsets.length
    let header := ((offsets_len <<< JB_CSHIFT) % 2 ^ 32) ||| JB_FOBJECT
    let buffer := insertHeaderAndEntries buffer base_offset header offsets
    let totallen := buffer.length - base_offset
    if totallen > JENTRY_OFFLENMASK then .error .program_limit_exceeded
    else .ok (buffer, (JENTRY_ISCONTAINER ||| (totallen <<< JENTRY_SHIFT)) % 2 ^ 32)

mutual
/-- Source `convertJsonbcValue(buffer, header, val, level)`: the buffer after the call and
the entry stored in `*header`. The bodies of `convertJsonbcArray` and
`convertJsonbcObject` appear in place (loop, then the rest), see the definitions of these
names below. (`check_stack_depth()` is not modelled.) -/
def convertJsonbcValue (X : Env) (buffer : Bytes) (val : JsonbcValue) (level : Nat) :
    Except Err (Bytes × Nat) :=
  match val with
  | jbvNull => convertJsonbcScalar X buffer jbvNull
  | jbvString s => convertJsonbcScalar X buffer (jbvString s)
  | jbvNumeric n => convertJsonbcScalar X buffer (jbvNumeric n)
  | jbvBool b => convertJsonbcScalar X buffer (jbvBool b)
  | jbvArray nElems elems rawScalar =>
    convertJsonbcArray_finish buffer.length rawScalar
      (convertJsonbcArray_loop X buffer [] 0 nElems elems level)
  | jbvObject nPairs pairs =>
    convertJsonbcObject_finish buffer.length
      (convertJsonbcObject_loop X buffer [] 0 0 nPairs pairs level)
  | jbvBinary _ _ => .error .elog_error
termination_by structural val
/-- The `for (i = 0; i < nElems; i++)` loop of `convertJsonbcArray`; `n` counts the
iterations left, `elems` is the rest of the element buffer, `offsets` the entries
written so far. -/
def convertJsonbcArray_loop (X : Env) (buffer offsets : Bytes) (totallen : Nat) (n : Nat)
    (elems : List JsonbcValue) (level : Nat) : Except Err (Bytes × Bytes × Nat) :=
  match n, elems with
  | 0, _ => .ok (buffer, offsets, totallen)
  | _ + 1, [] => .error .undefined_behaviour
  | n + 1, elem :: rest =>
    match convertJsonbcValue X buffer elem (level + 1) with
    | .error e => .error e
    | .ok (buffer, meta) =>
      let len := JBE_OFFLENFLD meta
      let totallen := totallen + len
      if totallen > JENTRY_OFFLENMASK then .error .program_limit_exceeded
      else convertJsonbcArray_loop X buffer (offsets ++ encode_varbyte meta) totallen n rest level
termination_by structural elems
/-- The `for (i = 0; i < nPairs; i++)` loop of `convertJsonbcObject`; `prev_key` is the
`uint32` of that name. (`Assert(pair->key > prev_key)` precedes the delta.) -/
def convertJsonbcObject_loop (X : Env) (buffer offsets : Bytes) (totallen : Nat)
    (prev_key : Nat) (n : Nat) (pairs : List JsonbcPair) (level : Nat) :
    Except Err (Bytes × Bytes × Nat) :=
  match n, pairs with
  | 0, _ => .ok (buffer, offsets, totallen)
  | _ + 1, [] => .error .undefined_behaviour
  | n + 1, (JsonbcPair.mk key value _) :: rest =>
    match convertJsonbcValue X buffer value (level + 1) with
    | .error e => .error e
    | .ok (buffer, meta) =>
      let len := JBE_OFFLENFLD meta
      let totallen := totallen + len
      if totallen > JENTRY_OFFLENMASK then .error .program_limit_exceeded
      else
        convertJsonbcObject_loop X buffer
          (offsets ++ encode_varbyte (toUInt32 (key - (prev_key : Int))) ++ encode_varbyte meta)
          totallen (toUInt32 key) n rest level
termination_by structural pairs
end

/-- Source `convertJsonbcArray(buffer, pheader, val, level)`, with the fields of
`val->val.array` passed one by one. -/
def convertJsonbcArray (X : Env) (buffer : Bytes) (nElems : Nat) (elems : List JsonbcValue)
    (rawScalar : Bool) (level : Nat) : Except Err (Bytes × Nat) :=
  convertJsonbcArray_finish buffer.length rawScalar
    (convertJsonbcArray_loop X buffer [] 0 nElems elems level)

/-- Source `convertJsonbcObject(buffer, pheader, val, level)`, with the fields of
`val->val.object` passed one by one. -/
def convertJsonbcObject (X : Env) (buffer : Bytes) (nPairs : Nat) (pairs : List JsonbcPair)
    (level : Nat) : Except Err (Bytes × Nat) :=
  convertJsonbcObject_finish buffer.length
    (convertJsonbcObject_loop X buffer [] 0 0 nPairs pairs level)

/-- Source `convertToJsonbc(val)`. (`Assert(val->type != jbvBinary)`.) -/
def convertToJsonbc (X : Env) (val : JsonbcValue) : Except Err Jsonbc :=
  let buffer := (reserveFromBuffer [] VARHDRSZ).1
  match convertJsonbcValue X buffer val 0 with
  | .error e => .error e
  | .ok (buffer, _) => .ok ⟨buffer.length, buffer.drop VARHDRSZ⟩

/-! ## Value tree builder (`jsonbc_util.c`, lines 559-738 and 1727-1820) -/

/-- PostgreSQL's `MaxAllocSize`. -/
def MaxAllocSize : Nat := 0x3fffffff

/-- Source `JSONB_MAX_ELEMS`, `MaxAllocSize / sizeof(JsonbcValue)`, with the LP64 size 32. -/
def JSONB_MAX_ELEMS : Nat := MaxAllocSize / 32

/-- Source `JSONB_MAX_PAIRS`, `MaxAllocSize / sizeof(JsonbcPair)`, with the LP64 size 48. -/
def JSONB_MAX_PAIRS : Nat := MaxAllocSize / 48

/-- One frame of `struct JsonbcParseState`; the chain through `next` is the rest of the
list that holds the frame, the empty list is the `NULL` state. -/
structure JsonbcParseState where
  contVal : JsonbcValue
  size : Nat

/-- Source `convertKeyNameToId(string)`. -/
def convertKeyNameToId (X : Env) (string : Bytes) : Int := X.getIdByName string

/-- Source `appendKey(pstate, string)`: stages key id and order in the slot
`pairs[nPairs]` without counting it. (`Assert(object->type == jbvObject)`,
`Assert(string->type == jbvString)`.)

The type of the frame is stated by the first `Assert` only. On an array frame the
statements run through the member `val.object` of the union, whose `nPairs` and `pairs`
are the cells of `nElems` and `elems`: the count is tested against `JSONB_MAX_PAIRS` and
against `size`, the element buffer is resized to `size` pairs when the count has reached
`size`, and key id and order are stored at the bytes `48 * nElems` and `48 * nElems + 40`
of the element buffer (LP64: `sizeof(JsonbcValue)` is 32, `sizeof(JsonbcPair)` is 48).
These bytes lie behind the `nElems` elements of the frame, which stay as they are, and
the count is not changed. A buffer that was not resized has `32 * size` bytes, a resized
one `48 * size`; a store beyond the buffer is undefined. (A frame is an array or an
object: `pushJsonbcValue` makes frames for `WJB_BEGIN_ARRAY` and `WJB_BEGIN_OBJECT`
only.) -/
def appendKey (X : Env) (pstate : JsonbcParseState) (string : JsonbcValue) :
    Except Err JsonbcParseState :=
  match pstate.contVal, string with
  | jbvObject nPairs pairs, jbvString s =>
    if nPairs ≥ JSONB_MAX_PAIRS then .error .program_limit_exceeded
    else
      let size := if nPairs ≥ pstate.size then pstate.size * 2 else pstate.size
      .ok (JsonbcParseState.mk
        (jbvObject nPairs
          (pairs.take nPairs ++ [JsonbcPair.mk (convertKeyNameToId X s) jbvNull nPairs]))
        size)
  | jbvArray nElems elems rawScalar, jbvString _ =>
    if nElems ≥ JSONB_MAX_PAIRS then .error .program_limit_exceeded
    else if nElems ≥ pstate.size then
      if 48 * nElems + 44 ≤ 48 * (pstate.size * 2) then
        .ok (JsonbcParseState.mk (jbvArray nElems (elems.take nElems) rawScalar)
          (pstate.size * 2))
      else .error .undefined_behaviour
    else if 48 * nElems + 44 ≤ 32 * pstate.size then
      .ok (JsonbcParseState.mk (jbvArray nElems (elems.take nElems) rawScalar) pstate.size)
    else .error .undefined_behaviour
  | _, _ => .error .assert_failed

/-- Source `appendValue(pstate, scalarVal)`: `pairs[nPairs++].value = *scalarVal`. The
slot must have been staged by `appendKey`, else its key and order were never written.
(`Assert(object->type == jbvObject)`.)

The type of the frame is stated by the `Assert` only. On an array frame the statement
runs through the member `val.object`: `*scalarVal` is stored at the bytes
`48 * nElems + 8` to `48 * nElems + 40` of the element buffer, behind the `nElems`
elements of the frame, and the count, which is the cell of `nElems`, is incremented. The
element slot that the count includes from then on was not written as an element (its
`type` cell is not among the bytes stored): the list keeps the `nElems` elements, and the
count exceeds its length by one. A later read of that slot reads cells that were not
written as an element. The element buffer has `32 * size` bytes; a store beyond it is
undefined. -/
def appendValue (pstate : JsonbcParseState) (scalarVal : JsonbcValue) :
    Except Err JsonbcParseState :=
  match pstate.contVal with
  | jbvObject nPairs pairs =>
    match pairs.drop nPairs with
    | (JsonbcPair.mk key _ order) :: _ =>
      .ok (JsonbcParseState.mk
        (jbvObject (nPairs + 1) (pairs.take nPairs ++ [JsonbcPair.mk key scalarVal order]))
        pstate.size)
    | [] => .error .undefined_behaviour
  | jbvArray nElems elems rawScalar =>
    if 48 * nElems + 40 ≤ 32 * pstate.size then
      .ok (JsonbcParseState.mk (jbvArray (nElems + 1) (elems.take nElems) rawScalar)
        pstate.size)
    else .error .undefined_behaviour
  | _ => .error .assert_failed

/-- Source `appendElement(pstate, scalarVal)`. (`Assert(array->type == jbvArray)`.)

The type of the frame is stated by the `Assert` only. On an object frame the statements
run through the member `val.array` of the union, whose `nElems` and `elems` are the cells
of `nPairs` and `pairs`: the count is tested against `JSONB_MAX_ELEMS` and against
`size`, the pair buffer is resized to `size` elements when the count has reached `size`,
`*scalarVal` is stored at the bytes `32 * nPairs` to `32 * nPairs + 32` of the pair
buffer, and the count is incremented. The store overwrites cells of the pairs from index
`32 * nPairs / 48` on, and the pair slot that the count includes from then on was not
written as a pair: the list keeps the pairs before that index, and a later read of a
slot behind them reads cells that were not written as a pair. A buffer that was not
resized has `48 * size` bytes, a resized one `32 * size`; a store beyond the buffer is
undefined. -/
def appendElement (pstate : JsonbcParseState) (scalarVal : JsonbcValue) :
    Except Err JsonbcParseState :=
  match pstate.contVal with
  | jbvArray nElems elems rawScalar =>
    if nElems ≥ JSONB_MAX_ELEMS then .error .program_limit_exceeded
    else
      let size := if nElems ≥ pstate.size then pstate.size * 2 else pstate.size
      .ok (JsonbcParseState.mk
        (jbvArray (nElems + 1) (elems.take nElems ++ [scalarVal]) rawScalar) size)
  | jbvObject nPairs pairs =>
    if nPairs ≥ JSONB_MAX_ELEMS then .error .program_limit_exceeded
    else if nPairs ≥ pstate.size then
      if 32 * nPairs + 32 ≤ 32 * (pstate.size * 2) then
        .ok (JsonbcParseState.mk (jbvObject (nPairs + 1) (pairs.take (32 * nPairs / 48)))
          (pstate.size * 2))
      else .error .undefined_behaviour
    else
      .ok (JsonbcParseState.mk (jbvObject (nPairs + 1) (pairs.take (32 * nPairs / 48)))
        pstate.size)
  | _ => .error .assert_failed

/-- The C library `memcmp(a, b, n)`, as a sign. -/
def memcmp (a b : Bytes) : Nat → Int
  | 0 => 0
  | n + 1 =>
    if byteAt a 0 < byteAt b 0 then -1
    else if byteAt a 0 > byteAt b 0 then 1
    else memcmp a.tail b.tail n

/-- Source `lengthCompareJsonbcStringValue(a, b)` on two string values.
(`Assert(va->type == jbvString)`, `Assert(vb->type == jbvString)`.) -/
def lengthCompareJsonbcStringValue (va vb : JsonbcValue) : Except Err Int :=
  match va, vb with
  | jbvString a, jbvString b =>
    if a.length = b.length then .ok (memcmp a b a.length)
    else .ok (if a.length > b.length then 1 else -1)
  | _, _ => .error .assert_failed

/-- The call `lengthCompareJsonbcStringValue(ptr, res)` made by `uniqueifyJsonbcObject`,
where `ptr` and `res` point to `JsonbcPair` and are read as `JsonbcValue`. In
`struct JsonbcPair` the `int32 key` is followed, at the alignment of `JsonbcValue`, by
`value`; in `struct JsonbcValue` the 4-byte `type` is followed, at the same alignment, by
the union `val`. Hence through the cast `val.string.len` is the storage of
`pair->value.type`, and `val.string.val` is the first pointer-sized word of
`pair->value.val`: the `Numeric` pointer of a numeric value, no pointer at all for the
other types. The lengths compared are thus the type tags of the two values; when they
agree, `memcmp` runs over that many bytes: none for `jbvNull` (tag 0), the first two
bytes of the two numeric data for `jbvNumeric` (tag 2), and an address that is not a
pointer for every other type. (The two `Assert`s read `pair->key` as the type tag.) -/
def lengthCompareJsonbcStringValue_onPairs (ptr res : JsonbcPair) : Except Err Int :=
  if ptr.value.type = res.value.type then
    match ptr.value, res.value with
    | jbvNull, jbvNull => .ok 0
    | jbvNumeric a, jbvNumeric b => .ok (memcmp a b 2)
    | _, _ => .error .undefined_behaviour
  else .ok (if ptr.value.type > res.value.type then 1 else -1)

/-- Source `compareJsonbcPair(a, b, binequal)`: the result, and whether `*binequal` was set. -/
def compareJsonbcPair (pa pb : JsonbcPair) : Int × Bool :=
  if pa.key ≠ pb.key then (if pa.key < pb.key then -1 else 1, false)
  else (if pa.order > pb.order then -1 else 1, true)

/-- Insertion step of `qsort_arg`: the list with `x` inserted and whether a comparison set
the flag. -/
def qsort_arg_insert (x : JsonbcPair) : List JsonbcPair → List JsonbcPair × Bool
  | [] => ([x], false)
  | y :: ys =>
    if (compareJsonbcPair x y).1 < 0 then (x :: y :: ys, (compareJsonbcPair x y).2)
    else ((y :: (qsort_arg_insert x ys).1), (compareJsonbcPair x y).2 || (qsort_arg_insert x ys).2)

/-- PostgreSQL's `qsort_arg` with comparator `compareJsonbcPair` and its flag argument,
as an insertion sort. The comparator is a strict total order on pairs with distinct
`order` fields, so that every comparison sort returns this array; a comparison sort
compares two pairs with equal keys exactly when such pairs exist. -/
def qsort_arg : List JsonbcPair → List JsonbcPair × Bool
  | [] => ([], false)
  | x :: xs =>
    ((qsort_arg_insert x (qsort_arg xs).1).1,
      (qsort_arg xs).2 || (qsort_arg_insert x (qsort_arg xs).1).2)

/-- The `while (ptr - pairs < nPairs)` loop of `uniqueifyJsonbcObject`: `kept` are the
slots before `res`, `res` is the slot `*res`, the last argument the slots from `ptr` on.
Returns the slots up to and including `*res`. -/
def uniqueifyJsonbcObject_loop (res : JsonbcPair) (kept : List JsonbcPair) :
    List JsonbcPair → Except Err (List JsonbcPair)
  | [] => .ok (kept ++ [res])
  | ptr :: rest =>
    match lengthCompareJsonbcStringValue_onPairs ptr res with
    | .error e => .error e
    | .ok c =>
      if c ≠ 0 then uniqueifyJsonbcObject_loop ptr (kept ++ [res]) rest
      else uniqueifyJsonbcObject_loop res kept rest

/-- Source `uniqueifyJsonbcObject(object)`. Slots at index `nPairs` and beyond are not
part of the value and are dropped. (`Assert(object->type == jbvObject)`.) -/
def uniqueifyJsonbcObject (object : JsonbcValue) : Except Err JsonbcValue :=
  match object with
  | jbvObject nPairs pairs =>
    if nPairs > 1 then
      let sorted := qsort_arg (pairs.take nPairs)
      if sorted.2 then
        match sorted.1 with
        | [] => .ok (jbvObject nPairs [])
        | first :: rest =>
          match uniqueifyJsonbcObject_loop first [] rest with
          | .error e => .error e
          | .ok l => .ok (jbvObject l.length l)
      else .ok (jbvObject nPairs sorted.1)
    else .ok (jbvObject nPairs (pairs.take nPairs))
  | _ => .error .assert_failed

/-- The steps of `pushJsonbcValue` shared by `WJB_END_ARRAY` and `WJB_END_OBJECT`: pop
the frame whose finished value is `result` and attach it to the new top frame. -/
def pushJsonbcValue_end (next : List JsonbcParseState) (result : JsonbcValue) :
    Except Err (List JsonbcParseState × Option JsonbcValue) :=
  match next with
  | [] => .ok ([], some result)
  | parent :: up =>
    match parent.contVal with
    | jbvArray _ _ _ =>
      match appendElement parent result with
      | .error e => .error e
      | .ok parent => .ok (parent :: up, some result)
    | jbvObject _ _ =>
      match appendValue parent result with
      | .error e => .error e
      | .ok parent => .ok (parent :: up, some result)
    | _ => .error .elog_error

/-- Source `pushJsonbcValue(pstate, seq, scalarVal)`: the new `*pstate` and the value the
returned pointer refers to (`none` for `NULL`). -/
def pushJsonbcValue (X : Env) (pstate : List JsonbcParseState) (seq : JsonbcIteratorToken)
    (scalarVal : Option JsonbcValue) : Except Err (List JsonbcParseState × Option JsonbcValue) :=
  match seq with
  | WJB_BEGIN_ARRAY =>
    match scalarVal with
    | none => .ok (JsonbcParseState.mk (jbvArray 0 [] false) 4 :: pstate,
        some (jbvArray 0 [] false))
    | some (jbvArray nElems _ rawScalar) =>
      .ok (JsonbcParseState.mk (jbvArray 0 [] rawScalar) (if nElems > 0 then nElems else 4)
        :: pstate, some (jbvArray 0 [] rawScalar))
    | some _ => .error .assert_failed
  | WJB_BEGIN_OBJECT =>
    .ok (JsonbcParseState.mk (jbvObject 0 []) 4 :: pstate, some (jbvObject 0 []))
  | WJB_KEY =>
    match pstate, scalarVal with
    | top :: next, some string =>
      match appendKey X top string with
      | .error e => .error e
      | .ok top => .ok (top :: next, none)
    | _, _ => .error .undefined_behaviour
  | WJB_VALUE =>
    match pstate, scalarVal with
    | top :: next, some v =>
      match appendValue top v with
      | .error e => .error e
      | .ok top => .ok (top :: next, none)
    | _, _ => .error .undefined_behaviour
  | WJB_ELEM =>
    match pstate, scalarVal with
    | top :: next, some v =>
      match appendElement top v with
      | .error e => .error e
      | .ok top => .ok (top :: next, none)
    | _, _ => .error .undefined_behaviour
  | WJB_END_OBJECT =>
    match pstate with
    | top :: next =>
      match uniqueifyJsonbcObject top.contVal with
      | .error e => .error e
      | .ok result => pushJsonbcValue_end next result
    | [] => .error .undefined_behaviour
  | WJB_END_ARRAY =>
    match pstate with
    | top :: next => pushJsonbcValue_end next top.contVal
    | [] => .error .undefined_behaviour
  | _ => .error .elog_error

/-- Source `JsonbcValueToJsonbc(val)`. -/
def JsonbcValueToJsonbc (X : Env) (val : JsonbcValue) : Except Err Jsonbc :=
  if IsAJsonbcScalar val then
    let scalarArray := jbvArray 1 [] true
    match pushJsonbcValue X [] WJB_BEGIN_ARRAY (some scalarArray) with
    | .error e => .error e
    | .ok (pstate, _) =>
      match pushJsonbcValue X pstate WJB_ELEM (some val) with
      | .error e => .error e
      | .ok (pstate, _) =>
        match pushJsonbcValue X pstate WJB_END_ARRAY none with
        | .error e => .error e
        | .ok (_, none) => .error .undefined_behaviour
        | .ok (_, some res) => convertToJsonbc X res
  else
    match val with
    | jbvBinary len data => .ok ⟨VARHDRSZ + len, data.take len⟩
    | _ => convertToJsonbc X val

/-! ## Iterator (`jsonbc_util.c`, lines 501-557 and 740-984) -/

inductive JsonbcIterState where
  | JBI_ARRAY_START
  | JBI_ARRAY_ELEM
  | JBI_OBJECT_START
  | JBI_OBJECT_KEY
  | JBI_OBJECT_VALUE
  deriving DecidableEq, Repr

open JsonbcIterState

/-- One level of `struct JsonbcIterator`. `container` is the pointer of that name: the
bytes from the container's address on. The pointers `children`, `childrenPtr` and
`dataProper` are offsets into `container`. The `parent` chain is the rest of the list that
holds the level; the empty list is the `NULL` iterator. -/
structure JsonbcIterator where
  container : Bytes
  childrenSize : Nat
  curKey : Nat
  isScalar : Bool
  children : Nat
  childrenPtr : Nat
  dataProper : Nat
  curDataOffset : Nat
  curValueOffset : Nat
  state : JsonbcIterState

/-- Source `fillJsonbcValue(entry, base_addr, offset, result)`: the value stored in
`*result`. `base_addr` is the bytes from that address on. A string is the `len` bytes at
`base_addr + offset`; a numeric is the datum at `base_addr + offset`, whose extent is the
length field of the entry that the encoder wrote for it. (`Assert(JBE_ISCONTAINER(entry))`
guards the last branch.) -/
def fillJsonbcValue (X : Env) (entry : Nat) (base_addr : Bytes) (offset : Nat) : JsonbcValue :=
  if JBE_ISNULL entry then jbvNull
  else if JBE_ISSTRING entry then
    jbvString ((base_addr.drop offset).take (entry >>> JENTRY_SHIFT))
  else if JBE_ISNUMERIC entry then
    jbvNumeric ((base_addr.drop offset).take (entry >>> JENTRY_SHIFT))
  else if JBE_ISINTEGER entry then
    jbvNumeric (X.small_to_numeric (decode_varbyte base_addr offset).1)
  else if JBE_ISBOOL_TRUE entry then jbvBool true
  else if JBE_ISBOOL_FALSE entry then jbvBool false
  else jbvBinary (entry >>> JENTRY_SHIFT) (base_addr.drop offset)

/-- Source `iteratorFromContainer(container, parent)`: the chain headed by the new level. -/
def iteratorFromContainer (container : Bytes) (parent : List JsonbcIterator) :
    Except Err (List JsonbcIterator) :=
  let header := (decode_varbyte container 0).1
  let ptr := (decode_varbyte container 0).2
  let childrenSize := header >>> JB_CSHIFT
  if header &&& JB_MASK = JB_FSCALAR then
    .ok (JsonbcIterator.mk container childrenSize 0 true ptr ptr (ptr + childrenSize) 0 0
      JBI_ARRAY_START :: parent)
  else if header &&& JB_MASK = JB_FARRAY then
    .ok (JsonbcIterator.mk container childrenSize 0 false ptr ptr (ptr + childrenSize) 0 0
      JBI_ARRAY_START :: parent)
  else if header &&& JB_MASK = JB_FOBJECT then
    .ok (JsonbcIterator.mk container childrenSize 0 false ptr ptr (ptr + childrenSize) 0 0
      JBI_OBJECT_START :: parent)
  else .error .elog_error

/-- Source `JsonbcIteratorInit(container)`. -/
def JsonbcIteratorInit (container : Bytes) : Except Err (List JsonbcIterator) :=
  iteratorFromContainer container []

/-- Result of one call of `JsonbcIteratorNext`: the token returned, the value written to
`*val` (`none` when the call leaves `*val` untouched) and the new `*it`. -/
abbrev NextResult := Except Err (JsonbcIteratorToken × Option JsonbcValue × List JsonbcIterator)

/-- The `switch ((*it)->state)` of `JsonbcIteratorNext`. `it` is the level `*it`, `parent`
its chain. `recurse` is what the jump `goto recurse` continues with: the switch once
more, on the fresh child. -/
def JsonbcIteratorNext_switch (X : Env) (skipNested : Bool)
    (recurse : JsonbcIterator → List JsonbcIterator → NextResult)
    (it : JsonbcIterator) (parent : List JsonbcIterator) : NextResult :=
  match it.state with
  | JBI_ARRAY_START =>
    .ok (WJB_BEGIN_ARRAY, some (jbvArray it.childrenSize [] it.isScalar),
      JsonbcIterator.mk it.container it.childrenSize it.curKey it.isScalar it.children
        it.children it.dataProper 0 0 JBI_ARRAY_ELEM :: parent)
  | JBI_ARRAY_ELEM =>
    if it.childrenPtr ≥ it.children + it.childrenSize then
      .ok (WJB_END_ARRAY, none, parent)
    else
      let entry := (decode_varbyte it.container it.childrenPtr).1
      let val := fillJsonbcValue X entry (it.container.drop it.dataProper) it.curDataOffset
      let it := JsonbcIterator.mk it.container it.childrenSize it.curKey it.isScalar
        it.children (decode_varbyte it.container it.childrenPtr).2 it.dataProper
        (it.curDataOffset + (entry >>> JENTRY_SHIFT)) it.curValueOffset it.state
      if !IsAJsonbcScalar val && !skipNested then
        match val with
        | jbvBinary _ data =>
          match iteratorFromContainer data (it :: parent) with
          | .error e => .error e
          | .ok [] => .error .undefined_behaviour
          | .ok (child :: chain) => recurse child chain
        | _ => .error .undefined_behaviour
      else .ok (WJB_ELEM, some val, it :: parent)
  | JBI_OBJECT_START =>
    .ok (WJB_BEGIN_OBJECT, some (jbvObject it.childrenSize []),
      JsonbcIterator.mk it.container it.childrenSize 0 it.isScalar it.children
        it.children it.dataProper 0 0 JBI_OBJECT_KEY :: parent)
  | JBI_OBJECT_KEY =>
    if it.childrenPtr ≥ it.children + it.childrenSize then
      .ok (WJB_END_OBJECT, none, parent)
    else
      let keyIncr := (decode_varbyte it.container it.childrenPtr).1
      let curKey := (it.curKey + keyIncr) % 2 ^ 32
      let keyName := X.getNameById (toInt32 curKey)
      .ok (WJB_KEY, some (jbvString keyName),
        JsonbcIterator.mk it.container it.childrenSize curKey it.isScalar it.children
          (decode_varbyte it.container it.childrenPtr).2 it.dataProper it.curDataOffset
          it.curValueOffset JBI_OBJECT_VALUE :: parent)
  | JBI_OBJECT_VALUE =>
    let entry := (decode_varbyte it.container it.childrenPtr).1
    let val := fillJsonbcValue X entry (it.container.drop it.dataProper) it.curDataOffset
    let it := JsonbcIterator.mk it.container it.childrenSize it.curKey it.isScalar
      it.children (decode_varbyte it.container it.childrenPtr).2 it.dataProper
      (it.curDataOffset + (entry >>> JENTRY_SHIFT)) it.curValueOffset JBI_OBJECT_KEY
    if !IsAJsonbcScalar val && !skipNested then
      match val with
      | jbvBinary _ data =>
        match iteratorFromContainer data (it :: parent) with
        | .error e => .error e
        | .ok [] => .error .undefined_behaviour
        | .ok (child :: chain) => recurse child chain
      | _ => .error .undefined_behaviour
    else .ok (WJB_VALUE, some val, it :: parent)

/-- The switch as entered through `goto recurse`. The child it is entered on was made by
`iteratorFromContainer` an instant before and is in a start state, for which the switch
returns without a further jump. -/
def JsonbcIteratorNext_recurse (X : Env) (skipNested : Bool) (it : JsonbcIterator)
    (parent : List JsonbcIterator) : NextResult :=
  JsonbcIteratorNext_switch X skipNested (fun _ _ => .error .out_of_fuel) it parent

/-- Source `JsonbcIteratorNext(it, val, skipNested)`. -/
def JsonbcIteratorNext (X : Env) (it : List JsonbcIterator) (skipNested : Bool) : NextResult :=
  match it with
  | [] => .ok (WJB_DONE, none, [])
  | top :: parent =>
    JsonbcIteratorNext_switch X skipNested (JsonbcIteratorNext_recurse X skipNested) top parent

/-- The client loop `while ((r = JsonbcIteratorNext(&it, &v, skipNested)) != WJB_DONE)`
(as in `jsonbc_hash` and `JsonbcToCString`), collecting every token with the value
written for it. The first argument bounds the number of calls. -/
def iterateTokens (X : Env) (skipNested : Bool) :
    Nat → List JsonbcIterator → Except Err (List (JsonbcIteratorToken × Option JsonbcValue))
  | 0, _ => .error .out_of_fuel
  | fuel + 1, it =>
    match JsonbcIteratorNext X it skipNested with
    | .error e => .error e
    | .ok (WJB_DONE, _, _) => .ok []
    | .ok (r, v, it) =>
      match iterateTokens X skipNested fuel it with
      | .error e => .error e
      | .ok l => .ok ((r, v) :: l)

/-! ## Scalar comparison and container ordering (`jsonbc_util.c`, lines 226-357, 1287-1354) -/

/-- Source `equalsJsonbcScalarValue(aScalar, bScalar)`. -/
def equalsJsonbcScalarValue (X : Env) (aScalar bScalar : JsonbcValue) : Except Err Bool :=
  match aScalar, bScalar with
  | jbvNull, jbvNull => .ok true
  | jbvString a, jbvString b =>
    match lengthCompareJsonbcStringValue (jbvString a) (jbvString b) with
    | .error e => .error e
    | .ok c => .ok (c == 0)
  | jbvNumeric a, jbvNumeric b => .ok (X.numeric_eq a b)
  | jbvBool a, jbvBool b => .ok (a == b)
  | _, _ => .error .elog_error

/-- Source `compareJsonbcScalarValue(aScalar, bScalar)`. -/
def compareJsonbcScalarValue (X : Env) (aScalar bScalar : JsonbcValue) : Except Err Int :=
  match aScalar, bScalar with
  | jbvNull, jbvNull => .ok 0
  | jbvString a, jbvString b => .ok (X.varstr_cmp a b)
  | jbvNumeric a, jbvNumeric b => .ok (X.numeric_cmp a b)
  | jbvBool a, jbvBool b => .ok (if a = b then 0 else if a && !b then 1 else -1)
  | _, _ => .error .elog_error

/-- The value of `res` that one pass through the body of the `do` loop of
`compareJsonbcContainers` computes from the two tokens and the values written for them,
for tokens other than a common `WJB_DONE`, `WJB_END_ARRAY` or `WJB_END_OBJECT`. `va` and
`vb` are declared inside the loop body: a value the iterator did not write in this pass
is indeterminate when the body reads its `type`. (`Assert`s in the branch `ra != rb`
state that neither token is an end token and that the types differ.) -/
def compareJsonbcContainers_step (X : Env) (ra rb : JsonbcIteratorToken)
    (va vb : Option JsonbcValue) : Except Err Int :=
  match va, vb with
  | some va, some vb =>
    if ra = rb then
      if va.type = vb.type then
        match va, vb with
        | jbvArray na _ rawa, jbvArray nb _ rawb =>
          let res := if rawa ≠ rawb then (if rawa then -1 else 1) else 0
          let res := if na ≠ nb then (if na > nb then 1 else -1) else res
          .ok res
        | jbvObject na _, jbvObject nb _ =>
          .ok (if na ≠ nb then (if na > nb then 1 else -1) else 0)
        | jbvBinary _ _, _ => .error .elog_error
        | va, vb => compareJsonbcScalarValue X va vb
      else .ok (if va.type > vb.type then 1 else -1)
    else .ok (if va.type > vb.type then 1 else -1)
  | _, _ => .error .undefined_behaviour

/-- The `do ... while (res == 0)` loop of `compareJsonbcContainers`. The first argument
bounds the number of passes. -/
def compareJsonbcContainers_loop (X : Env) :
    Nat → List JsonbcIterator → List JsonbcIterator → Except Err Int
  | 0, _, _ => .error .out_of_fuel
  | fuel + 1, ita, itb =>
    match JsonbcIteratorNext X ita false with
    | .error e => .error e
    | .ok (ra, va, ita) =>
      match JsonbcIteratorNext X itb false with
      | .error e => .error e
      | .ok (rb, vb, itb) =>
        if ra = rb ∧ ra = WJB_DONE then .ok 0
        else if ra = rb ∧ (ra = WJB_END_ARRAY ∨ ra = WJB_END_OBJECT) then
          compareJsonbcContainers_loop X fuel ita itb
        else
          match compareJsonbcContainers_step X ra rb va vb with
          | .error e => .error e
          | .ok res =>
            if res = 0 then compareJsonbcContainers_loop X fuel ita itb else .ok res

/-- Source `compareJsonbcContainers(a, b)`. Every pass of the loop consumes a token of
each container, and a container of `n` bytes yields at most `2 * n` tokens, which bounds
the passes. -/
def compareJsonbcContainers (X : Env) (a b : Bytes) : Except Err Int :=
  match JsonbcIteratorInit a with
  | .error e => .error e
  | .ok ita =>
    match JsonbcIteratorInit b with
    | .error e => .error e
    | .ok itb => compareJsonbcContainers_loop X (2 * a.length + 2) ita itb

/-! ## Containment (`jsonbc_util.c`, lines 359-499, 986-1240; `jsonbc_op.c`, lines 110-146) -/

/-- Source `findJsonbcValueFromContainer(container, flags, key)`. The search through the
container is enclosed in `#ifdef NOT_USED`, a symbol that no file of the repository
defines; the function as compiled consists of `return NULL`. -/
def findJsonbcValueFromContainer (_container : Bytes) (_flags : Nat) (_key : JsonbcValue) :
    Option JsonbcValue :=
  none

/-- Source `getIthJsonbcValueFromContainer(container, i)`; its body is enclosed in
`#ifdef NOT_USED` as well. -/
def getIthJsonbcValueFromContainer (_container : Bytes) (_i : Nat) : Option JsonbcValue :=
  none

/-- Source `getJsonbcOffset(jc, index)`; as compiled, `return 0`. -/
def getJsonbcOffset (_jc : Bytes) (_index : Nat) : Nat := 0

/-- The data pointer of a binary value, `v.val.binary.data`. -/
def binaryData : JsonbcValue → Except Err Bytes
  | jbvBinary _ data => .ok data
  | _ => .error .undefined_behaviour

/-- The loop `for (i = 0; i < nLhsElems; i++)` of `JsonbcDeepContains` that stores the
container elements of the lhs array in `lhsConts`. `vval` is the variable of that name:
a call of the iterator that writes no value leaves it as it was.
(`Assert(rcont == WJB_ELEM)`.) Returns the iterator, `vval` and `lhsConts`. -/
def JsonbcDeepContains_fill (X : Env) :
    Nat → List JsonbcIterator → JsonbcValue → List JsonbcValue →
      Except Err (List JsonbcIterator × JsonbcValue × List JsonbcValue)
  | 0, val, vval, lhsConts => .ok (val, vval, lhsConts)
  | n + 1, val, vval, lhsConts =>
    match JsonbcIteratorNext X val true with
    | .error e => .error e
    | .ok (_, w, val) =>
      let vval := w.getD vval
      JsonbcDeepContains_fill X n val vval
        (if vval.type = 0x12 then lhsConts ++ [vval] else lhsConts)

mutual
/-- Source `JsonbcDeepContains(val, mContained)`. The first argument bounds the depth of
calls and the passes of the loops together; `check_stack_depth()` is not modelled.
(`Assert`s state that after differing tokens both are container starts.) -/
def JsonbcDeepContains (X : Env) :
    Nat → List JsonbcIterator → List JsonbcIterator → Except Err Bool
  | 0, _, _ => .error .out_of_fuel
  | fuel + 1, val, mContained =>
    match JsonbcIteratorNext X val false with
    | .error e => .error e
    | .ok (rval, vval, val) =>
      match JsonbcIteratorNext X mContained false with
      | .error e => .error e
      | .ok (rcont, vcontained, mContained) =>
        if rval ≠ rcont then .ok false
        else if rcont = WJB_BEGIN_OBJECT then
          match vval, vcontained with
          | some (jbvObject nl _), some (jbvObject nr _) =>
            if nl < nr then .ok false
            else JsonbcDeepContains_object X fuel val mContained
          | _, _ => .error .undefined_behaviour
        else if rcont = WJB_BEGIN_ARRAY then
          match vval, vcontained with
          | some (jbvArray nLhsElems e rawl), some (jbvArray _ _ rawr) =>
            if rawl && !rawr then .ok false
            else
              JsonbcDeepContains_array X fuel val mContained (jbvArray nLhsElems e rawl)
                nLhsElems none
          | _, _ => .error .undefined_behaviour
        else .error .elog_error
/-- The `for (;;)` loop of the object branch of `JsonbcDeepContains`.
(`Assert(rcont == WJB_KEY)`, `Assert(rcont == WJB_VALUE)`.) -/
def JsonbcDeepContains_object (X : Env) :
    Nat → List JsonbcIterator → List JsonbcIterator → Except Err Bool
  | 0, _, _ => .error .out_of_fuel
  | fuel + 1, val, mContained =>
    match JsonbcIteratorNext X mContained false with
    | .error e => .error e
    | .ok (rcont, vcontained, mContained) =>
      if rcont = WJB_END_OBJECT then .ok true
      else
        match val, vcontained with
        | top :: _, some key =>
          match findJsonbcValueFromContainer top.container JB_FOBJECT key with
          | none => .ok false
          | some lhsVal =>
            match JsonbcIteratorNext X mContained true with
            | .error e => .error e
            | .ok (_, w, mContained) =>
              let vcontained := w.getD key
              if lhsVal.type ≠ vcontained.type then .ok false
              else if IsAJsonbcScalar lhsVal then
                match equalsJsonbcScalarValue X lhsVal vcontained with
                | .error e => .error e
                | .ok false => .ok false
                | .ok true => JsonbcDeepContains_object X fuel val mContained
              else
                match binaryData lhsVal, binaryData vcontained with
                | .ok dl, .ok dr =>
                  match JsonbcIteratorInit dl, JsonbcIteratorInit dr with
                  | .ok nestval, .ok nestContained =>
                    match JsonbcDeepContains X fuel nestval nestContained with
                    | .error e => .error e
                    | .ok false => .ok false
                    | .ok true => JsonbcDeepContains_object X fuel val mContained
                  | .error e, _ => .error e
                  | _, .error e => .error e
                | .error e, _ => .error e
                | _, .error e => .error e
        | _, _ => .error .undefined_behaviour
/-- The `for (;;)` loop of the array branch of `JsonbcDeepContains`. `vval` and
`nLhsElems` are the variables of these names, `lhsConts` is `none` for `NULL`.
(`Assert(rcont == WJB_ELEM)`.) -/
def JsonbcDeepContains_array (X : Env) :
    Nat → List JsonbcIterator → List JsonbcIterator → JsonbcValue → Nat →
      Option (List JsonbcValue) → Except Err Bool
  | 0, _, _, _, _, _ => .error .out_of_fuel
  | fuel + 1, val, mContained, vval, nLhsElems, lhsConts =>
    match JsonbcIteratorNext X mContained true with
    | .error e => .error e
    | .ok (rcont, w, mContained) =>
      if rcont = WJB_END_ARRAY then .ok true
      else
        match w with
        | none => .error .undefined_behaviour
        | some vcontained =>
          if IsAJsonbcScalar vcontained then
            match val with
            | [] => .error .undefined_behaviour
            | top :: _ =>
              match findJsonbcValueFromContainer top.container JB_FARRAY vcontained with
              | none => .ok false
              | some _ =>
                JsonbcDeepContains_array X fuel val mContained vval nLhsElems lhsConts
          else
            match lhsConts with
            | none =>
              match JsonbcDeepContains_fill X nLhsElems val vval [] with
              | .error e => .error e
              | .ok (val, vval, conts) =>
                if conts.length = 0 then .ok false
                else
                  match JsonbcDeepContains_any X fuel conts vcontained with
                  | .error e => .error e
                  | .ok false => .ok false
                  | .ok true =>
                    JsonbcDeepContains_array X fuel val mContained vval conts.length
                      (some conts)
            | some conts =>
              match JsonbcDeepContains_any X fuel (conts.take nLhsElems) vcontained with
              | .error e => .error e
              | .ok false => .ok false
              | .ok true =>
                JsonbcDeepContains_array X fuel val mContained vval nLhsElems (some conts)
/-- The loop `for (i = 0; i < nLhsElems; i++)` of `JsonbcDeepContains` that looks for an
lhs container containing the rhs element: `true` when it ends by `break`, `false` when
`i == nLhsElems`. -/
def JsonbcDeepContains_any (X : Env) :
    Nat → List JsonbcValue → JsonbcValue → Except Err Bool
  | 0, _, _ => .error .out_of_fuel
  | _ + 1, [], _ => .ok false
  | fuel + 1, c :: rest, vcontained =>
    match binaryData c, binaryData vcontained with
    | .ok dl, .ok dr =>
      match JsonbcIteratorInit dl, JsonbcIteratorInit dr with
      | .ok nestval, .ok nestContained =>
        match JsonbcDeepContains X fuel nestval nestContained with
        | .error e => .error e
        | .ok true => .ok true
        | .ok false => JsonbcDeepContains_any X fuel rest vcontained
      | .error e, _ => .error e
      | _, .error e => .error e
    | .error e, _ => .error e
    | _, .error e => .error e
end

/-- Modelled from the spec: `jsonbc_header(Jsonbc *value)`, declared in `jsonbc.h` and
used by the `JB_ROOT_*` macros but defined in no file of the repository. The spec says
that `header` is the varbyte-encoded integer that starts a container. -/
def jsonbc_header (value : Jsonbc) : Nat := (decode_varbyte value.root 0).1

def JB_ROOT_COUNT (jbp : Jsonbc) : Nat := jsonbc_header jbp >>> JB_CSHIFT
def JB_ROOT_IS_SCALAR (jbp : Jsonbc) : Bool := (jsonbc_header jbp &&& JB_MASK) == JB_FSCALAR
def JB_ROOT_IS_OBJECT (jbp : Jsonbc) : Bool := (jsonbc_header jbp &&& JB_MASK) == JB_FOBJECT
def JB_ROOT_IS_ARRAY (jbp : Jsonbc) : Bool := (jsonbc_header jbp &&& JB_MASK) == JB_FARRAY

/-- Source `jsonbc_contains(val, tmpl)`. The recursion of `JsonbcDeepContains` descends
into a container that lies strictly inside the current one and each pass of its loops
consumes an entry, which bounds calls and passes by the sizes of the two data. -/
def jsonbc_contains (X : Env) (val tmpl : Jsonbc) : Except Err Bool :=
  if JB_ROOT_IS_OBJECT val ≠ JB_ROOT_IS_OBJECT tmpl then .ok false
  else
    match JsonbcIteratorInit val.root, JsonbcIteratorInit tmpl.root with
    | .ok it1, .ok it2 =>
      JsonbcDeepContains X (3 * (val.root.length + tmpl.root.length) + 3) it1 it2
    | .error e, _ => .error e
    | _, .error e => .error e

/-! ## Hashing (`jsonbc_util.c`, lines 1242-1285; `jsonbc_op.c`, lines 249-292) -/

/-- Source `JsonbcHashScalarValue(scalarVal, hash)`: the new value of `*hash`. -/
def JsonbcHashScalarValue (X : Env) (scalarVal : JsonbcValue) (hash : Nat) : Except Err Nat :=
  let tmp : Except Err Nat :=
    match scalarVal with
    | jbvNull => .ok 0x01
    | jbvString val => .ok (X.hash_any val % 2 ^ 32)
    | jbvNumeric numeric => .ok (X.hash_numeric numeric % 2 ^ 32)
    | jbvBool boolean => .ok (if boolean then 0x02 else 0x04)
    | _ => .error .elog_error
  match tmp with
  | .error e => .error e
  | .ok tmp =>
    let hash := ((hash <<< 1) % 2 ^ 32) ||| (hash >>> 31)
    .ok (hash ^^^ tmp)

/-- The `while ((r = JsonbcIteratorNext(&it, &v, false)) != WJB_DONE)` loop of
`jsonbc_hash`. The first argument bounds the number of passes. -/
def jsonbc_hash_loop (X : Env) : Nat → List JsonbcIterator → Nat → Except Err Nat
  | 0, _, _ => .error .out_of_fuel
  | fuel + 1, it, hash =>
    match JsonbcIteratorNext X it false with
    | .error e => .error e
    | .ok (r, v, it) =>
      match r with
      | WJB_DONE => .ok hash
      | WJB_BEGIN_ARRAY => jsonbc_hash_loop X fuel it (hash ^^^ JB_FARRAY)
      | WJB_BEGIN_OBJECT => jsonbc_hash_loop X fuel it (hash ^^^ JB_FOBJECT)
      | WJB_KEY | WJB_VALUE | WJB_ELEM =>
        match v with
        | none => .error .undefined_behaviour
        | some v =>
          match JsonbcHashScalarValue X v hash with
          | .error e => .error e
          | .ok hash => jsonbc_hash_loop X fuel it hash
      | WJB_END_ARRAY | WJB_END_OBJECT => jsonbc_hash_loop X fuel it hash

/-- Source `jsonbc_hash(jb)`: the `int32` returned by `PG_RETURN_INT32(hash)`. A container
of `n` bytes yields at most `2 * n` tokens, which bounds the passes of the loop. -/
def jsonbc_hash (X : Env) (jb : Jsonbc) : Except Err Int :=
  if JB_ROOT_COUNT jb = 0 then .ok 0
  else
    match JsonbcIteratorInit jb.root with
    | .error e => .error e
    | .ok it =>
      match jsonbc_hash_loop X (2 * jb.root.length + 2) it 0 with
      | .error e => .error e
      | .ok hash => .ok (toInt32 hash)

/-! ## Operators (`jsonbc_op.c`, lines 129-247) -/

/-- Source `jsonbc_contained(tmpl, val)`, the commutator of "contains": its first
argument is the template. -/
def jsonbc_contained (X : Env) (tmpl val : Jsonbc) : Except Err Bool :=
  if JB_ROOT_IS_OBJECT val ≠ JB_ROOT_IS_OBJECT tmpl then .ok false
  else
    match JsonbcIteratorInit val.root, JsonbcIteratorInit tmpl.root with
    | .ok it1, .ok it2 =>
      JsonbcDeepContains X (3 * (val.root.length + tmpl.root.length) + 3) it1 it2
    | .error e, _ => .error e
    | _, .error e => .error e

/-- Source `jsonbc_ne(jba, jbb)`. -/
def jsonbc_ne (X : Env) (jba jbb : Jsonbc) : Except Err Bool :=
  match compareJsonbcContainers X jba.root jbb.root with
  | .error e => .error e
  | .ok res => .ok (decide (res ≠ 0))

/-- Source `jsonbc_lt(jba, jbb)`. -/
def jsonbc_lt (X : Env) (jba jbb : Jsonbc) : Except Err Bool :=
  match compareJsonbcContainers X jba.root jbb.root with
  | .error e => .error e
  | .ok res => .ok (decide (res < 0))

/-- Source `jsonbc_gt(jba, jbb)`. -/
def jsonbc_gt (X : Env) (jba jbb : Jsonbc) : Except Err Bool :=
  match compareJsonbcContainers X jba.root jbb.root with
  | .error e => .error e
  | .ok res => .ok (decide (res > 0))

/-- Source `jsonbc_le(jba, jbb)`. -/
def jsonbc_le (X : Env) (jba jbb : Jsonbc) : Except Err Bool :=
  match compareJsonbcContainers X jba.root jbb.root with
  | .error e => .error e
  | .ok res => .ok (decide (res ≤ 0))

/-- Source `jsonbc_ge(jba, jbb)`. -/
def jsonbc_ge (X : Env) (jba jbb : Jsonbc) : Except Err Bool :=
  match compareJsonbcContainers X jba.root jbb.root with
  | .error e => .error e
  | .ok res => .ok (decide (res ≥ 0))

/-- Source `jsonbc_eq(jba, jbb)`. -/
def jsonbc_eq (X : Env) (jba jbb : Jsonbc) : Except Err Bool :=
  match compareJsonbcContainers X jba.root jbb.root with
  | .error e => .error e
  | .ok res => .ok (decide (res = 0))

/-- Source `jsonbc_cmp(jba, jbb)`. -/
def jsonbc_cmp (X : Env) (jba jbb : Jsonbc) : Except Err Int :=
  match compareJsonbcContainers X jba.root jbb.root with
  | .error e => .error e
  | .ok res => .ok res

/-! ## Layout of an encoded value, stated as functions of the value

These functions describe, without buffer and without error checks, what the encoder
writes; the theorems below relate them to `convertJsonbcValue`. -/

/-- The entry `tag | (len << JENTRY_SHIFT)` as a `uint32`. -/
def mkEntry (tag len : Nat) : Nat := (tag ||| (len <<< JENTRY_SHIFT)) % 2 ^ 32

/-- The container header `(size << JB_CSHIFT) | flag` as a `uint32`. -/
def mkHeader (size flag : Nat) : Nat := ((size <<< JB_CSHIFT) % 2 ^ 32) ||| flag

mutual
/-- Payload bytes and entry of a value: what `convertJsonbcValue` appends to the buffer
and stores in `*header` when it returns. -/
def enc (X : Env) : JsonbcValue → Bytes × Nat
  | jbvNull => ([], JENTRY_ISNULL)
  | jbvString s => (s, mkEntry JENTRY_ISSTRING s.length)
  | jbvNumeric n =>
    match X.numeric_get_small n with
    | some small =>
      (encode_varbyte (small % 2 ^ 32), mkEntry JENTRY_ISINTEGER (varbyte_size (small % 2 ^ 32)))
    | none => (n, mkEntry JENTRY_ISNUMERIC n.length)
  | jbvBool b => ([], if b then JENTRY_ISBOOL_TRUE else JENTRY_ISBOOL_FALSE)
  | jbvArray _ elems rawScalar =>
    ((encode_varbyte (mkHeader (encElems X elems).1.length
          (if rawScalar then JB_FSCALAR else JB_FARRAY))
        ++ (encElems X elems).1) ++ (encElems X elems).2,
      mkEntry JENTRY_ISCONTAINER
        (((encode_varbyte (mkHeader (encElems X elems).1.length
            (if rawScalar then JB_FSCALAR else JB_FARRAY))
          ++ (encElems X elems).1) ++ (encElems X elems).2).length))
  | jbvObject _ pairs =>
    ((encode_varbyte (mkHeader (encPairs X 0 pairs).1.length JB_FOBJECT)
        ++ (encPairs X 0 pairs).1) ++ (encPairs X 0 pairs).2,
      mkEntry JENTRY_ISCONTAINER
        (((encode_varbyte (mkHeader (encPairs X 0 pairs).1.length JB_FOBJECT)
          ++ (encPairs X 0 pairs).1) ++ (encPairs X 0 pairs).2).length))
  | jbvBinary _ _ => ([], 0)
termination_by structural v => v
/-- Entries and payloads of the elements of an array, each in element order. -/
def encElems (X : Env) : List JsonbcValue → Bytes × Bytes
  | [] => ([], [])
  | e :: rest =>
    (encode_varbyte (enc X e).2 ++ (encElems X rest).1, (enc X e).1 ++ (encElems X rest).2)
termination_by structural l => l
/-- Key deltas with entries, and payloads, of the pairs of an object; the first argument
is the previous key as a `uint32`. -/
def encPairs (X : Env) : Nat → List JsonbcPair → Bytes × Bytes
  | _, [] => ([], [])
  | prev_key, (JsonbcPair.mk key value _) :: rest =>
    ((encode_varbyte (toUInt32 (key - (prev_key : Int))) ++ encode_varbyte (enc X value).2)
        ++ (encPairs X (toUInt32 key) rest).1,
      (enc X value).1 ++ (encPairs X (toUInt32 key) rest).2)
termination_by structural _ l => l
end

mutual
/-- Well-formed value tree: every count equals the length of its buffer, every key id is
an `int32`, and no node is binary. -/
def WellFormed : JsonbcValue → Prop
  | jbvArray nElems elems _ => nElems = elems.length ∧ WellFormedElems elems
  | jbvObject nPairs pairs => nPairs = pairs.length ∧ WellFormedPairs pairs
  | jbvBinary _ _ => False
  | _ => True
termination_by structural v => v
def WellFormedElems : List JsonbcValue → Prop
  | [] => True
  | e :: rest => WellFormed e ∧ WellFormedElems rest
termination_by structural l => l
def WellFormedPairs : List JsonbcPair → Prop
  | [] => True
  | (JsonbcPair.mk key value _) :: rest =>
    (-(2 : Int) ^ 31 ≤ key ∧ key < 2 ^ 31) ∧ WellFormed value ∧ WellFormedPairs rest
termination_by structural l => l
end

/-! ## The token stream of a value tree

What the iterator is expected to report for the encoding of a tree, as a function of
the tree; the theorems below prove that it does. -/

/-- A token together with the value written for it. -/
abbrev TokenVal := JsonbcIteratorToken × Option JsonbcValue

/-- The scalar that `fillJsonbcValue` rebuilds from what `convertJsonbcScalar` stored:
a numeric that took the small-integer path comes back as `small_to_numeric` of the
stored integer, every other scalar as it went in. -/
def decodedScalar (X : Env) : JsonbcValue → JsonbcValue
  | jbvNumeric n =>
    match X.numeric_get_small n with
    | some small => jbvNumeric (X.small_to_numeric (small % 2 ^ 32))
    | none => jbvNumeric n
  | v => v

mutual
/-- Tokens of a value that is a child reported under token `kind` (`WJB_ELEM` or
`WJB_VALUE`): one token for a scalar, the run from begin to end for a container. The
count in a begin token is the byte size of the entries region of the container, which is
what the iterator stores into `nElems` and `nPairs`. -/
def tokensOf (X : Env) (kind : JsonbcIteratorToken) : JsonbcValue → List TokenVal
  | jbvArray _ elems rawScalar =>
    (WJB_BEGIN_ARRAY, some (jbvArray (encElems X elems).1.length [] rawScalar))
      :: (tokensOfElems X elems ++ [(WJB_END_ARRAY, none)])
  | jbvObject _ pairs =>
    (WJB_BEGIN_OBJECT, some (jbvObject (encPairs X 0 pairs).1.length []))
      :: (tokensOfPairs X pairs ++ [(WJB_END_OBJECT, none)])
  | jbvNull => [(kind, some jbvNull)]
  | jbvString s => [(kind, some (jbvString s))]
  | jbvNumeric n => [(kind, some (decodedScalar X (jbvNumeric n)))]
  | jbvBool b => [(kind, some (jbvBool b))]
  | jbvBinary len data => [(kind, some (jbvBinary len data))]
termination_by structural v => v
def tokensOfElems (X : Env) : List JsonbcValue → List TokenVal
  | [] => []
  | e :: rest => tokensOf X WJB_ELEM e ++ tokensOfElems X rest
termination_by structural l => l
def tokensOfPairs (X : Env) : List JsonbcPair → List TokenVal
  | [] => []
  | (JsonbcPair.mk key value _) :: rest =>
    (WJB_KEY, some (jbvString (X.getNameById key)))
      :: (tokensOf X WJB_VALUE value ++ tokensOfPairs X rest)
termination_by structural l => l
end

/-- A fixed number of successive calls of `JsonbcIteratorNext`: the tokens returned, with
their values, and the iterator after the last call. -/
def iterateSteps (X : Env) (skipNested : Bool) :
    Nat → List JsonbcIterator → Except Err (List TokenVal × List JsonbcIterator)
  | 0, it => .ok ([], it)
  | n + 1, it =>
    match JsonbcIteratorNext X it skipNested with
    | .error e => .error e
    | .ok (r, v, it) =>
      match iterateSteps X skipNested n it with
      | .error e => .error e
      | .ok (l, it) => .ok ((r, v) :: l, it)

/-! ## The token stream of a container when nested containers are skipped -/

/-- The value that the iterator writes for a child that it does not descend into: a
scalar as `decodedScalar`, a container as the binary value of its encoding, with the
length of the encoding and the bytes from its first byte on (`rest` is what follows the
encoding in the buffer). -/
def skipValue (X : Env) (v : JsonbcValue) (rest : Bytes) : JsonbcValue :=
  if IsAJsonbcScalar v then decodedScalar X v
  else jbvBinary (enc X v).1.length ((enc X v).1 ++ rest)

/-- One `WJB_ELEM` token for each element; `tail` is what follows the payloads of the
elements in the buffer. -/
def tokensOfElemsSkip (X : Env) : List JsonbcValue → Bytes → List TokenVal
  | [], _ => []
  | e :: rest, tail =>
    (WJB_ELEM, some (skipValue X e ((encElems X rest).2 ++ tail)))
      :: tokensOfElemsSkip X rest tail

/-- One `WJB_KEY` and one `WJB_VALUE` token for each pair. -/
def tokensOfPairsSkip (X : Env) : List JsonbcPair → Bytes → List TokenVal
  | [], _ => []
  | (JsonbcPair.mk key value _) :: rest, tail =>
    (WJB_KEY, some (jbvString (X.getNameById key)))
      :: (WJB_VALUE, some (skipValue X value ((encPairs X (toUInt32 key) rest).2 ++ tail)))
      :: tokensOfPairsSkip X rest tail

/-- Tokens of a container iterated with `skipNested = true`: begin, one token for each
element (a key and a value token for each pair), end. -/
def tokensOfSkip (X : Env) : JsonbcValue → Bytes → List TokenVal
  | jbvArray _ elems rawScalar, tail =>
    (WJB_BEGIN_ARRAY, some (jbvArray (encElems X elems).1.length [] rawScalar))
      :: (tokensOfElemsSkip X elems tail ++ [(WJB_END_ARRAY, none)])
  | jbvObject _ pairs, tail =>
    (WJB_BEGIN_OBJECT, some (jbvObject (encPairs X 0 pairs).1.length []))
      :: (tokensOfPairsSkip X pairs tail ++ [(WJB_END_OBJECT, none)])
  | _, _ => []

/-! ## The token stream of a tree as the claims describe it

An `Event` is a token with the content that the round-trip property speaks about:
the nesting, scalar values and key names. The count carried by a begin token is left
out here (see `tokensOf` for the count the iterator reports). -/

inductive Event where
  | beginArray (rawScalar : Bool)
  | endArray
  | beginObject
  | endObject
  | key (name : Bytes)
  | value (v : JsonbcValue)
  | elem (v : JsonbcValue)

/-- The event that a token returned by `JsonbcIteratorNext` stands for; `none` for a
token that carries no value where one is due, and for `WJB_DONE`. -/
def eventOf : TokenVal → Option Event
  | (WJB_BEGIN_ARRAY, some (jbvArray _ _ rawScalar)) => some (.beginArray rawScalar)
  | (WJB_END_ARRAY, _) => some .endArray
  | (WJB_BEGIN_OBJECT, some (jbvObject _ _)) => some .beginObject
  | (WJB_END_OBJECT, _) => some .endObject
  | (WJB_KEY, some (jbvString name)) => some (.key name)
  | (WJB_VALUE, some v) => some (.value v)
  | (WJB_ELEM, some v) => some (.elem v)
  | _ => none

mutual
/-- Token stream of a value tree: begin and end around the children of a container,
array elements in the order of the element buffer, object pairs in the order of the pair
buffer, each key under the name `names key`. `asElem` tells whether a scalar is
reported as an element or as the value of a pair. -/
def eventsOf (names : Int → Bytes) (asElem : Bool) : JsonbcValue → List Event
  | jbvArray _ elems rawScalar =>
    Event.beginArray rawScalar :: (eventsOfElems names elems ++ [Event.endArray])
  | jbvObject _ pairs =>
    Event.beginObject :: (eventsOfPairs names pairs ++ [Event.endObject])
  | jbvNull => [if asElem then Event.elem jbvNull else Event.value jbvNull]
  | jbvString s => [if asElem then Event.elem (jbvString s) else Event.value (jbvString s)]
  | jbvNumeric n => [if asElem then Event.elem (jbvNumeric n) else Event.value (jbvNumeric n)]
  | jbvBool b => [if asElem then Event.elem (jbvBool b) else Event.value (jbvBool b)]
  | jbvBinary len data =>
    [if asElem then Event.elem (jbvBinary len data) else Event.value (jbvBinary len data)]
termination_by structural v => v
def eventsOfElems (names : Int → Bytes) : List JsonbcValue → List Event
  | [] => []
  | e :: rest => eventsOf names true e ++ eventsOfElems names rest
termination_by structural l => l
def eventsOfPairs (names : Int → Bytes) : List JsonbcPair → List Event
  | [] => []
  | (JsonbcPair.mk key value _) :: rest =>
    Event.key (names key) :: (eventsOf names false value ++ eventsOfPairs names rest)
termination_by structural l => l
end

mutual
/-- Every key id of the tree was obtained from the name `names key` through the
dictionary, and the dictionary maps it back: `getIdByName (names key) = key` and
`getNameById (getIdByName (names key)) = names key`. -/
def KeysNamed (X : Env) (names : Int → Bytes) : JsonbcValue → Prop
  | jbvArray _ elems _ => KeysNamedElems X names elems
  | jbvObject _ pairs => KeysNamedPairs X names pairs
  | _ => True
termination_by structural v => v
def KeysNamedElems (X : Env) (names : Int → Bytes) : List JsonbcValue → Prop
  | [] => True
  | e :: rest => KeysNamed X names e ∧ KeysNamedElems X names rest
termination_by structural l => l
def KeysNamedPairs (X : Env) (names : Int → Bytes) : List JsonbcPair → Prop
  | [] => True
  | (JsonbcPair.mk key value _) :: rest =>
    (X.getIdByName (names key) = key ∧ X.getNameById (X.getIdByName (names key)) = names key)
      ∧ KeysNamed X names value ∧ KeysNamedPairs X names rest
termination_by structural l => l
end

/-- The small-integer path of the numeric codec loses nothing: a numeric that
`numeric_get_small` accepts is what `small_to_numeric` makes of the integer. -/
def SmallNumericExact (X : Env) : Prop :=
  ∀ (n : Numeric) (small : Nat),
    X.numeric_get_small n = some small → X.small_to_numeric (small % 2 ^ 32) = n

/-! ## The container ordering on token streams

`compareJsonbcContainers` walks two iterators in lockstep. `cmpTokens` is its loop run
on the two token streams; `lexCmp` with `tokenCmp` is the lexicographic three-way
comparison that the theorems below prove it to compute on encoded trees. -/

/-- The `do ... while (res == 0)` loop of `compareJsonbcContainers` on the tokens that
the two iterators return before `WJB_DONE`. -/
def cmpTokens (X : Env) : List TokenVal → List TokenVal → Except Err Int
  | [], [] => .ok 0
  | [], y :: _ => compareJsonbcContainers_step X WJB_DONE y.1 none y.2
  | x :: _, [] => compareJsonbcContainers_step X x.1 WJB_DONE x.2 none
  | x :: xs, y :: ys =>
    if x.1 = y.1 ∧ (x.1 = WJB_END_ARRAY ∨ x.1 = WJB_END_OBJECT) then cmpTokens X xs ys
    else
      match compareJsonbcContainers_step X x.1 y.1 x.2 y.2 with
      | .error e => .error e
      | .ok res => if res = 0 then cmpTokens X xs ys else .ok res

/-- Rank of a token value in the type-defined order (`va.type > vb.type`); a token
without value ranks below all others. -/
def valueRank : Option JsonbcValue → Int
  | some v => v.type
  | none => -1

/-- Three-way comparison of two token values of one type, as in the `switch` of
`compareJsonbcContainers` and in `compareJsonbcScalarValue`. -/
def valueCmp (X : Env) : Option JsonbcValue → Option JsonbcValue → Int
  | some (jbvString a), some (jbvString b) => X.varstr_cmp a b
  | some (jbvNumeric a), some (jbvNumeric b) => X.numeric_cmp a b
  | some (jbvBool a), some (jbvBool b) => if a = b then 0 else if a && !b then 1 else -1
  | some (jbvArray na _ rawa), some (jbvArray nb _ rawb) =>
    if na ≠ nb then (if na > nb then 1 else -1)
    else if rawa ≠ rawb then (if rawa then -1 else 1) else 0
  | some (jbvObject na _), some (jbvObject nb _) =>
    if na ≠ nb then (if na > nb then 1 else -1) else 0
  | _, _ => 0

/-- Three-way comparison of two tokens: by type first, then by value. -/
def tokenCmp (X : Env) (x y : TokenVal) : Int :=
  if valueRank x.2 < valueRank y.2 then -1
  else if valueRank y.2 < valueRank x.2 then 1
  else valueCmp X x.2 y.2

/-- Lexicographic three-way comparison of two lists under the comparison `c` of their
members; a proper initial segment comes first. -/
def lexCmp {α : Type} (c : α → α → Int) : List α → List α → Int
  | [], [] => 0
  | [], _ :: _ => -1
  | _ :: _, [] => 1
  | x :: xs, y :: ys => if c x y = 0 then lexCmp c xs ys else c x y

/-- A three-way comparison that changes sign when its arguments are exchanged and
answers 0 only for equal arguments. -/
def CmpAntisymmetric {α : Type} (c : α → α → Int) : Prop :=
  (∀ x y, c x y < 0 ↔ 0 < c y x) ∧ (∀ x y, c x y = 0 → x = y)

/-- A three-way comparison whose relation `c x y ≤ 0` is transitive. -/
def CmpTransitive {α : Type} (c : α → α → Int) : Prop :=
  ∀ x y z, c x y ≤ 0 → c y z ≤ 0 → c x z ≤ 0

/-! ## Pairs without a match -/

/-- Whether the pair `p` of the rhs has no match among the pairs `pl` of the lhs: its key
is absent, or present with a scalar of another type or an unequal scalar. -/
def PairUnmatched (X : Env) (pl : List JsonbcPair) (p : JsonbcPair) : Prop :=
  (∀ q ∈ pl, q.key ≠ p.key)
    ∨ ∃ q ∈ pl, q.key = p.key ∧ IsAJsonbcScalar q.value = true
        ∧ (q.value.type ≠ p.value.type
          ∨ equalsJsonbcScalarValue X q.value p.value = .ok false)

/-! ## The hash as a fold over the token stream -/

/-- Rotation of a `uint32` to the left by one bit. -/
def rotateLeft1 (acc : Nat) : Nat := ((acc <<< 1) % 2 ^ 32) ||| (acc >>> 31)

/-- Hash of the value of a scalar token: 1 for null, `hash_any` of a string,
`hash_numeric` of a numeric, 2 for true and 4 for false. -/
def scalarHash (X : Env) : Option JsonbcValue → Nat
  | some jbvNull => 1
  | some (jbvString s) => X.hash_any s % 2 ^ 32
  | some (jbvNumeric n) => X.hash_numeric n % 2 ^ 32
  | some (jbvBool b) => if b then 2 else 4
  | _ => 0

/-- One step of the fold: the array flag constant is XORed in at `WJB_BEGIN_ARRAY`, the
object flag constant at `WJB_BEGIN_OBJECT`; a key, value or element token replaces `acc`
by `rotateLeft1 acc` XOR the hash of its scalar; end tokens leave `acc` as it is. -/
def hashToken (X : Env) (acc : Nat) (t : TokenVal) : Nat :=
  match t.1 with
  | WJB_BEGIN_ARRAY => acc ^^^ 2
  | WJB_BEGIN_OBJECT => acc ^^^ 1
  | WJB_KEY | WJB_VALUE | WJB_ELEM => rotateLeft1 acc ^^^ scalarHash X t.2
  | _ => acc

/-- Tag stored in the entry of a child: the `JENTRY_IS...` constant of its type. -/
def entryTag (X : Env) : JsonbcValue → Nat
  | jbvNull => JENTRY_ISNULL
  | jbvString _ => JENTRY_ISSTRING
  | jbvNumeric n => if (X.numeric_get_small n).isSome then JENTRY_ISINTEGER else JENTRY_ISNUMERIC
  | jbvBool b => if b then JENTRY_ISBOOL_TRUE else JENTRY_ISBOOL_FALSE
  | _ => JENTRY_ISCONTAINER

/-! ## A concrete environment

Used to evaluate the definitions on concrete inputs. Key names of one byte get the ids
1, 2, ... from the letter `a` on; a numeric is the byte 0 followed by a varbyte, and it
is small when the varbyte is the encoding of a 32-bit integer. -/

/-- Three-way lexicographic comparison of byte strings. -/
def cmpBytes : Bytes → Bytes → Int
  | [], [] => 0
  | [], _ :: _ => -1
  | _ :: _, [] => 1
  | a :: as, b :: bs => if a < b then -1 else if b < a then 1 else cmpBytes as bs

def demo_getIdByName (name : Bytes) : Int :=
  match name with
  | [c] => (c : Int) - 96
  | [_, m] => -(m : Int)
  | _ => 0

def demo_getNameById (id : Int) : Bytes :=
  if 0 ≤ id then [id.toNat + 96] else [0, (-id).toNat]

def demo_numeric_get_small (n : Numeric) : Option Nat :=
  match n with
  | 0 :: r => if r = encode_varbyte (decode_varbyte r 0).1 then some (decode_varbyte r 0).1 else none
  | _ => none

def demo_small_to_numeric (small : Nat) : Numeric := 0 :: encode_varbyte small

def demoEnv : Env :=
  Env.mk demo_getIdByName demo_getNameById demo_numeric_get_small demo_small_to_numeric
    cmpBytes (fun a b => a == b) cmpBytes (fun b => b.sum % 2 ^ 32) (fun b => b.sum % 2 ^ 32)

/-- Successive calls of `pushJsonbcValue`, starting from the state `pstate`; the result
of the last call. -/
def pushJsonbcValues (X : Env) :
    List JsonbcParseState → List (JsonbcIteratorToken × Option JsonbcValue) →
      Except Err (List JsonbcParseState × Option JsonbcValue)
  | pstate, [] => .ok (pstate, none)
  | pstate, [(seq, scalarVal)] => pushJsonbcValue X pstate seq scalarVal
  | pstate, (seq, scalarVal) :: rest =>
    match pushJsonbcValue X pstate seq scalarVal with
    | .error e => .error e
    | .ok (pstate, _) => pushJsonbcValues X pstate rest

/-- The tree of `{"a": 1, "b": [true, null, "x"]}` under `demoEnv`. -/
def demoDocument : JsonbcValue :=
  jbvObject 2 [JsonbcPair.mk 1 (jbvNumeric [0, 1]) 0,
    JsonbcPair.mk 2 (jbvArray 3 [jbvBool true, jbvNull, jbvString [120]] false) 1]

/-! ## Building an object through `pushJsonbcValue` -/

/-- The calls of `pushJsonbcValue` for the pairs of an object, in list order: `WJB_KEY`
with the key name, then `WJB_VALUE` with the value. -/
def pairPushes : List (Bytes × JsonbcValue) → List (JsonbcIteratorToken × Option JsonbcValue)
  | [] => []
  | (k, v) :: rest =>
    (WJB_KEY, some (jbvString k)) :: (WJB_VALUE, some v) :: pairPushes rest

/-- The calls of `pushJsonbcValue` that build one object from key names and values:
`WJB_BEGIN_OBJECT`, the pairs in list order, `WJB_END_OBJECT`. -/
def objectPushes (kvs : List (Bytes × JsonbcValue)) :
    List (JsonbcIteratorToken × Option JsonbcValue) :=
  (WJB_BEGIN_OBJECT, none) :: (pairPushes kvs ++ [(WJB_END_OBJECT, none)])

/-- The slots that `appendKey` and `appendValue` fill for the pairs pushed from slot
index `i` on. -/
def pushedPairs (X : Env) : Nat → List (Bytes × JsonbcValue) → List JsonbcPair
  | _, [] => []
  | i, (k, v) :: rest => JsonbcPair.mk (convertKeyNameToId X k) v i :: pushedPairs X (i + 1) rest

/-- Key id and value of a pair, without its `order`. -/
def pairContent (p : JsonbcPair) : Int × JsonbcValue := (p.key, p.value)

/-! ## Existence operator (`jsonbc_op.c`, lines 20-43) -/

/-- Source `jsonbc_exists(jb, key)`: `v != NULL` for the value `v` that
`findJsonbcValueFromContainer(&jb->root, JB_FOBJECT | JB_FARRAY, &kval)` returns, with
`kval` the string value made of the bytes of `key`. -/
def jsonbc_exists (jb : Jsonbc) (key : Bytes) : Bool :=
  (findJsonbcValueFromContainer jb.root (JB_FOBJECT ||| JB_FARRAY) (jbvString key)).isSome

/-! ## Binary input (`jsonbc.c`, lines 94-116) -/

/-- Source `jsonbc_recv(buf)`. The message services `pq_getmsgint(buf, 1)` (one byte of the
message as an integer, with the rest of the message) and `pq_getmsgtext` (the rest of the
message as text in the server encoding), and `jsonbc_from_cstring`, which runs
PostgreSQL's JSON parser, are arguments. -/
def jsonbc_recv (pq_getmsgint : Bytes → Except Err (Nat × Bytes))
    (pq_getmsgtext : Bytes → Except Err Bytes)
    (jsonbc_from_cstring : Bytes → Except Err Jsonbc) (buf : Bytes) : Except Err Jsonbc :=
  match pq_getmsgint buf with
  | .error e => .error e
  | .ok (version, buf) =>
    if version = 1 then
      match pq_getmsgtext buf with
      | .error e => .error e
      | .ok str => jsonbc_from_cstring str
    else .error .elog_error

/-- A message service for evaluation: the first byte of the message and the rest. -/
def demo_pq_getmsgint (buf : Bytes) : Except Err (Nat × Bytes) :=
  match buf with
  | [] => .error .elog_error
  | v :: rest => .ok (v, rest)

/-- A message service for evaluation: the text is the bytes as they are. -/
def demo_pq_getmsgtext (buf : Bytes) : Except Err Bytes := .ok buf

/-- A parser for evaluation that knows the text `null` only. -/
def demo_jsonbc_from_cstring (json : Bytes) : Except Err Jsonbc :=
  if json = [110, 117, 108, 108] then JsonbcValueToJsonbc demoEnv jbvNull
  else .error .elog_error

/-! ## Key dictionary (`dict.c`, lines 159-209) -/

/-- Source `getNameById(id)` of `dict.c`, as a function of the rows `(id, name)` of the
table `jsonbc_dict`: the name of the row with that id, and `none` for the `NULL` that is
returned when the query finds no row (`SPI_processed < 1`). The hash table holds rows
seen before. -/
def getNameById (rows : List (Int × Bytes)) (id : Int) : Option Bytes :=
  match rows.find? (fun r => decide (r.1 = id)) with
  | some r => some r.2
  | none => none

/-- An environment whose dictionary is the table `rows`: `demoEnv` with the key names
taken from `rows`. For an id without a row the `NULL` of `getNameById` is read as a name
of no bytes. -/
def dictEnv (rows : List (Int × Bytes)) : Env :=
  Env.mk demoEnv.getIdByName (fun id => (getNameById rows id).getD [])
    demoEnv.numeric_get_small demoEnv.small_to_numeric demoEnv.numeric_cmp demoEnv.numeric_eq
    demoEnv.varstr_cmp demoEnv.hash_any demoEnv.hash_numeric

/-! ## Agreement of two tokens -/

/-- Two tokens agree: they are of the same kind and, unless they are end tokens, begin
tokens report equal counts (and equal raw-scalar flags for arrays), and scalars are equal
under `compareJsonbcScalarValue`. -/
def tokensAgree (X : Env) (x y : TokenVal) : Prop :=
  x.1 = y.1 ∧
    (if x.1 = WJB_END_ARRAY ∨ x.1 = WJB_END_OBJECT then True
    else
      match x.2, y.2 with
      | some (jbvArray na _ rawa), some (jbvArray nb _ rawb) => na = nb ∧ rawa = rawb
      | some (jbvObject na _), some (jbvObject nb _) => na = nb
      | some a, some b => compareJsonbcScalarValue X a b = .ok 0
      | _, _ => False)

/-! ## The nodes of a value tree -/

mutual
/-- The value itself and every value below it, in encoding order. -/
def subtrees : JsonbcValue → List JsonbcValue
  | jbvArray n elems raw => jbvArray n elems raw :: subtreesElems elems
  | jbvObject n pairs => jbvObject n pairs :: subtreesPairs pairs
  | jbvNull => [jbvNull]
  | jbvString s => [jbvString s]
  | jbvNumeric n => [jbvNumeric n]
  | jbvBool b => [jbvBool b]
  | jbvBinary len data => [jbvBinary len data]
termination_by structural v => v
def subtreesElems : List JsonbcValue → List JsonbcValue
  | [] => []
  | e :: rest => subtrees e ++ subtreesElems rest
termination_by structural l => l
def subtreesPairs : List JsonbcPair → List JsonbcValue
  | [] => []
  | (JsonbcPair.mk _ value _) :: rest => subtrees value ++ subtreesPairs rest
termination_by structural l => l
end

/-- The tree that `JsonbcValueToJsonbc` hands to `convertToJsonbc`: a scalar is wrapped by
the builder calls in a raw-scalar array of one element. -/
def encodedTree (val : JsonbcValue) : JsonbcValue :=
  if IsAJsonbcScalar val then jbvArray 1 [val] true else val

/-! ## An environment whose numeric comparison is by value -/

/-- The image of a numeric without its trailing zero bytes. -/
def stripZeros (n : Numeric) : Numeric :=
  (n.reverse.dropWhile (fun b => b == 0)).reverse

/-- A numeric comparison for evaluation that compares values and not images, as
PostgreSQL's `numeric_cmp` does: trailing zero bytes of an image do not count, so that
two images of different lengths can compare as 0. -/
def demo_numeric_cmp_value (a b : Numeric) : Int := cmpBytes (stripZeros a) (stripZeros b)

/-- The environment `demoEnv` with the numeric comparison by value. -/
def valueEnv : Env :=
  Env.mk demoEnv.getIdByName demoEnv.getNameById demoEnv.numeric_get_small
    demoEnv.small_to_numeric demo_numeric_cmp_value
    (fun a b => demo_numeric_cmp_value a b == 0) demoEnv.varstr_cmp demoEnv.hash_any
    demoEnv.hash_numeric

/-! # Theorems -/

/-! ## Varbyte codec: lemmas -/

theorem and_7F (v : Nat) : v &&& 0x7F = v % 128 := Nat.and_pow_two_sub_one_eq_mod v 7

theorem or_80 (x : Nat) (h : x < 128) : 0x80 ||| x = 128 + x := by
  have := Nat.mul_add_lt_is_or (i := 7) (b := x) (by simpa using h) 1
  simpa using this.symm

theorem and_80_hi : ∀ x, x < 128 → (128 + x) &&& 0x80 = 128 := by decide
theorem and_80_lo : ∀ x, x < 128 → x &&& 0x80 = 0 := by decide

theorem or_shiftLeft (k a b : Nat) (h : a < 2 ^ k) : a ||| (b <<< k) = a + b * 2 ^ k := by
  have := Nat.mul_add_lt_is_or h b
  rw [Nat.or_comm, Nat.shiftLeft_eq, Nat.mul_comm b, ← this, Nat.add_comm]

theorem byteAt_append (pre l : Bytes) (i : Nat) :
    byteAt (pre ++ l) (pre.length + i) = byteAt l i := by
  simp [byteAt, List.getD_eq_getElem?_getD, List.getElem?_append_right]

/-- arithmetic form of the bytes written by encode_varbyte -/
theorem encode_varbyte_cases (v : Nat) (hv : v < 2 ^ 32) :
    encode_varbyte v =
      if v < 0x80 then [v]
      else if v < 0x4000 then [128 + v % 128, v / 128]
      else if v < 0x200000 then [128 + v % 128, 128 + v / 128 % 128, v / 16384]
      else if v < 0x10000000 then
        [128 + v % 128, 128 + v / 128 % 128, 128 + v / 16384 % 128, v / 2097152]
      else [128 + v % 128, 128 + v / 128 % 128, 128 + v / 16384 % 128,
            128 + v / 2097152 % 128, v / 268435456] := by
  have hb : ∀ x : Nat, (0x80 ||| (x &&& 0x7F)) % 256 = 128 + x % 128 := by
    intro x
    rw [and_7F, or_80 _ (Nat.mod_lt _ (by norm_num))]
    omega
  have hs : ∀ x : Nat, x >>> 7 = x / 128 := fun x => by
    rw [Nat.shiftRight_eq_div_pow]
  simp only [encode_varbyte, encode_varbyte_loop, hb, hs, Nat.mod_eq_of_lt hv]
  split_ifs <;> simp_all <;> omega

theorem encode_varbyte_length (v : Nat) (hv : v < 2 ^ 32) :
    (encode_varbyte v).length = varbyte_size v := by
  rw [encode_varbyte_cases v hv, varbyte_size]
  split_ifs <;> rfl

theorem byteAt_append_zero (pre l : Bytes) :
    byteAt (pre ++ l) pre.length = byteAt l 0 := byteAt_append pre l 0

theorem decode_varbyte_append (pre l : Bytes) :
    decode_varbyte (pre ++ l) pre.length =
      ((decode_varbyte l 0).1, pre.length + (decode_varbyte l 0).2) := by
  simp only [decode_varbyte, byteAt_append, byteAt_append_zero, Nat.zero_add]
  split_ifs <;> rfl

theorem or_shl7 (a b : Nat) (h : a < 128) : a ||| (b <<< 7) = a + b * 128 :=
  or_shiftLeft 7 a b h
theorem or_shl14 (a b : Nat) (h : a < 16384) : a ||| (b <<< 14) = a + b * 16384 :=
  or_shiftLeft 14 a b h
theorem or_shl21 (a b : Nat) (h : a < 2097152) : a ||| (b <<< 21) = a + b * 2097152 :=
  or_shiftLeft 21 a b h
theorem or_shl28 (a b : Nat) (h : a < 268435456) : a ||| (b <<< 28) = a + b * 268435456 :=
  or_shiftLeft 28 a b h

theorem and_7F_hi (x : Nat) (h : x < 128) : (128 + x) &&& 0x7F = x := by
  rw [and_7F]; omega

theorem decode_varbyte_one (a : Nat) (rest : Bytes) (ha : a < 128) :
    decode_varbyte (a :: rest) 0 = (a, 1) := by
  simp [decode_varbyte, byteAt, and_7F, and_80_lo a ha]
  omega

theorem decode_varbyte_two (a b : Nat) (rest : Bytes) (ha : a < 128) (hb : b < 128) :
    decode_varbyte ((128 + a) :: b :: rest) 0 = (a + b * 128, 2) := by
  simp [decode_varbyte, byteAt, and_7F_hi, and_80_hi, and_80_lo, ha, hb, or_shl7,
    Nat.mod_eq_of_lt, and_7F]
  omega

theorem decode_varbyte_three (a b c : Nat) (rest : Bytes) (ha : a < 128) (hb : b < 128)
    (hc : c < 128) :
    decode_varbyte ((128 + a) :: (128 + b) :: c :: rest) 0 = (a + b * 128 + c * 16384, 3) := by
  have e2 := or_shl14 (a + b * 128) c (by omega)
  simp [decode_varbyte, byteAt, and_7F_hi, and_80_hi, and_80_lo, ha, hb, hc, or_shl7,
    Nat.mod_eq_of_lt, and_7F, e2]
  omega

theorem decode_varbyte_four (a b c d : Nat) (rest : Bytes) (ha : a < 128) (hb : b < 128)
    (hc : c < 128) (hd : d < 128) :
    decode_varbyte ((128 + a) :: (128 + b) :: (128 + c) :: d :: rest) 0
      = (a + b * 128 + c * 16384 + d * 2097152, 4) := by
  have e2 := or_shl14 (a + b * 128) c (by omega)
  have e3 := or_shl21 (a + b * 128 + c * 16384) d (by omega)
  simp [decode_varbyte, byteAt, and_7F_hi, and_80_hi, and_80_lo, ha, hb, hc, hd, or_shl7,
    Nat.mod_eq_of_lt, and_7F, e2, e3]
  omega

theorem decode_varbyte_five (a b c d e : Nat) (rest : Bytes) (ha : a < 128) (hb : b < 128)
    (hc : c < 128) (hd : d < 128) :
    decode_varbyte ((128 + a) :: (128 + b) :: (128 + c) :: (128 + d) :: e :: rest) 0
      = ((a + b * 128 + c * 16384 + d * 2097152 + e * 268435456) % 2 ^ 32, 5) := by
  have e2 := or_shl14 (a + b * 128) c (by omega)
  have e3 := or_shl21 (a + b * 128 + c * 16384) d (by omega)
  have e4 := or_shl28 (a + b * 128 + c * 16384 + d * 2097152) e (by omega)
  simp [decode_varbyte, byteAt, and_7F_hi, and_80_hi, ha, hb, hc, hd, or_shl7, e2, e3, e4]

theorem decode_encode_varbyte (v : Nat) (hv : v < 2 ^ 32) (rest : Bytes) :
    decode_varbyte (encode_varbyte v ++ rest) 0 = (v, varbyte_size v) := by
  have m : ∀ x : Nat, x % 128 < 128 := fun x => Nat.mod_lt _ (by norm_num)
  rw [encode_varbyte_cases v hv, varbyte_size]
  split_ifs with h1 h2 h3 h4
  · exact decode_varbyte_one v rest h1
  · rw [List.cons_append, List.cons_append, List.nil_append,
      decode_varbyte_two _ _ _ (m _) (by omega)]
    congr 1; omega
  · simp only [List.cons_append, List.nil_append]
    rw [decode_varbyte_three _ _ _ _ (m _) (m _) (by omega)]
    congr 1; omega
  · simp only [List.cons_append, List.nil_append]
    rw [decode_varbyte_four _ _ _ _ _ (m _) (m _) (m _) (by omega)]
    congr 1; omega
  · simp only [List.cons_append, List.nil_append]
    rw [decode_varbyte_five _ _ _ _ _ _ (m _) (m _) (m _) (m _)]
    congr 1; omega


/-! ## The encoder writes the layout `enc` -/

theorem mkHeader_array (size : Nat) (raw : Bool) :
    (if raw then ((size <<< JB_CSHIFT) % 2 ^ 32) ||| JB_FSCALAR
      else ((size <<< JB_CSHIFT) % 2 ^ 32) ||| JB_FARRAY)
      = mkHeader size (if raw then JB_FSCALAR else JB_FARRAY) := by
  cases raw <;> simp [mkHeader]

theorem insertHeaderAndEntries_append (buffer data : Bytes) (header : Nat) (offsets : Bytes) :
    insertHeaderAndEntries (buffer ++ data) buffer.length header offsets
      = buffer ++ ((encode_varbyte header ++ offsets) ++ data) := by
  simp [insertHeaderAndEntries]

theorem convertJsonbcArray_finish_ok (buffer data offs : Bytes) (tl : Nat) (raw : Bool)
    (r : Bytes × Nat)
    (h : convertJsonbcArray_finish buffer.length raw (.ok (buffer ++ data, offs, tl)) = .ok r) :
    r = (buffer ++ ((encode_varbyte (mkHeader offs.length
              (if raw then JB_FSCALAR else JB_FARRAY)) ++ offs) ++ data),
          mkEntry JENTRY_ISCONTAINER
            ((encode_varbyte (mkHeader offs.length
              (if raw then JB_FSCALAR else JB_FARRAY)) ++ offs) ++ data).length)
      ∧ ((encode_varbyte (mkHeader offs.length
              (if raw then JB_FSCALAR else JB_FARRAY)) ++ offs) ++ data).length
          ≤ JENTRY_OFFLENMASK := by
  simp only [convertJsonbcArray_finish, mkHeader_array, insertHeaderAndEntries_append] at h
  by_cases hfit : (buffer ++ ((encode_varbyte (mkHeader offs.length
      (if raw then JB_FSCALAR else JB_FARRAY)) ++ offs) ++ data)).length - buffer.length
      > JENTRY_OFFLENMASK
  · rw [if_pos hfit] at h
    exact absurd h (by simp)
  · rw [if_neg hfit] at h
    simp only [Except.ok.injEq] at h
    subst h
    rw [List.length_append, Nat.add_sub_cancel_left] at hfit
    refine ⟨?_, by omega⟩
    rw [List.length_append buffer, Nat.add_sub_cancel_left]
    rfl

theorem convertJsonbcObject_finish_ok (buffer data offs : Bytes) (tl : Nat)
    (r : Bytes × Nat)
    (h : convertJsonbcObject_finish buffer.length (.ok (buffer ++ data, offs, tl)) = .ok r) :
    r = (buffer ++ ((encode_varbyte (mkHeader offs.length JB_FOBJECT) ++ offs) ++ data),
          mkEntry JENTRY_ISCONTAINER
            ((encode_varbyte (mkHeader offs.length JB_FOBJECT) ++ offs) ++ data).length)
      ∧ ((encode_varbyte (mkHeader offs.length JB_FOBJECT) ++ offs) ++ data).length
          ≤ JENTRY_OFFLENMASK := by
  simp only [convertJsonbcObject_finish, insertHeaderAndEntries_append] at h
  by_cases hfit : (buffer ++ ((encode_varbyte (((offs.length <<< JB_CSHIFT) % 2 ^ 32)
      ||| JB_FOBJECT) ++ offs) ++ data)).length - buffer.length > JENTRY_OFFLENMASK
  · rw [if_pos hfit] at h
    exact absurd h (by simp)
  · rw [if_neg hfit] at h
    simp only [Except.ok.injEq] at h
    subst h
    rw [List.length_append, Nat.add_sub_cancel_left] at hfit
    refine ⟨?_, by simpa [mkHeader] using Nat.le_of_not_lt hfit⟩
    rw [List.length_append buffer, Nat.add_sub_cancel_left]
    rfl

mutual
theorem convertJsonbcValue_ok (X : Env) :
    ∀ (val : JsonbcValue) (buffer : Bytes) (level : Nat) (r : Bytes × Nat),
      WellFormed val → convertJsonbcValue X buffer val level = .ok r →
        r = (buffer ++ (enc X val).1, (enc X val).2)
          ∧ (¬ IsAJsonbcScalar val = true → (enc X val).1.length ≤ JENTRY_OFFLENMASK)
  | jbvNull, buffer, level, r, _, h => by
    simp only [convertJsonbcValue, convertJsonbcScalar, Except.ok.injEq] at h
    subst h
    simp [enc, IsAJsonbcScalar, JsonbcValue.type]
  | jbvString s, buffer, level, r, _, h => by
    simp only [convertJsonbcValue, convertJsonbcScalar, Except.ok.injEq] at h
    subst h
    simp [enc, IsAJsonbcScalar, JsonbcValue.type, appendToBuffer, mkEntry]
  | jbvNumeric n, buffer, level, r, _, h => by
    simp only [convertJsonbcValue, convertJsonbcScalar] at h
    cases hs : X.numeric_get_small n with
    | none =>
      simp only [hs, Except.ok.injEq] at h
      subst h
      simp [enc, hs, IsAJsonbcScalar, JsonbcValue.type, appendToBuffer, mkEntry]
    | some u =>
      simp only [hs, Except.ok.injEq] at h
      subst h
      simp [enc, hs, IsAJsonbcScalar, JsonbcValue.type, mkEntry]
  | jbvBool b, buffer, level, r, _, h => by
    simp only [convertJsonbcValue, convertJsonbcScalar, Except.ok.injEq] at h
    subst h
    simp [enc, IsAJsonbcScalar, JsonbcValue.type]
  | jbvArray nElems elems raw, buffer, level, r, hw, h => by
    simp only [WellFormed] at hw
    obtain ⟨hn, hwe⟩ := hw
    subst hn
    simp only [convertJsonbcValue] at h
    cases hl : convertJsonbcArray_loop X buffer [] 0 elems.length elems level with
    | error e => rw [hl] at h; simp [convertJsonbcArray_finish] at h
    | ok lr =>
      obtain ⟨b, offs, tl⟩ := lr
      obtain ⟨h1, h2⟩ := convertJsonbcArray_loop_ok X elems buffer [] 0 level _ hwe hl
      simp only at h1 h2
      subst h1
      rw [List.nil_append] at h2
      subst h2
      rw [hl] at h
      obtain ⟨e1, e2⟩ := convertJsonbcArray_finish_ok _ _ _ _ _ _ h
      exact ⟨by rw [e1]; simp only [enc], fun _ => by simpa only [enc] using e2⟩
  | jbvObject nPairs pairs, buffer, level, r, hw, h => by
    simp only [WellFormed] at hw
    obtain ⟨hn, hwe⟩ := hw
    subst hn
    simp only [convertJsonbcValue] at h
    cases hl : convertJsonbcObject_loop X buffer [] 0 0 pairs.length pairs level with
    | error e => rw [hl] at h; simp [convertJsonbcObject_finish] at h
    | ok lr =>
      obtain ⟨b, offs, tl⟩ := lr
      obtain ⟨h1, h2⟩ := convertJsonbcObject_loop_ok X pairs buffer [] 0 0 level _ hwe hl
      simp only at h1 h2
      subst h1
      rw [List.nil_append] at h2
      subst h2
      rw [hl] at h
      obtain ⟨e1, e2⟩ := convertJsonbcObject_finish_ok _ _ _ _ _ h
      exact ⟨by rw [e1]; simp only [enc], fun _ => by simpa only [enc] using e2⟩
  | jbvBinary _ _, buffer, level, r, hw, h => by
    simp [WellFormed] at hw
theorem convertJsonbcArray_loop_ok (X : Env) :
    ∀ (elems : List JsonbcValue) (buffer offsets : Bytes) (totallen level : Nat)
      (r : Bytes × Bytes × Nat),
      WellFormedElems elems →
      convertJsonbcArray_loop X buffer offsets totallen elems.length elems level = .ok r →
        r.1 = buffer ++ (encElems X elems).2 ∧ r.2.1 = offsets ++ (encElems X elems).1
  | [], buffer, offsets, totallen, level, r, _, h => by
    simp only [List.length_nil, convertJsonbcArray_loop, Except.ok.injEq] at h
    subst h
    simp [encElems]
  | e :: rest, buffer, offsets, totallen, level, r, hw, h => by
    simp only [WellFormedElems] at hw
    simp only [List.length_cons, convertJsonbcArray_loop] at h
    split at h
    · exact absurd h (by simp)
    · rename_i b meta hc
      obtain ⟨h1, -⟩ := convertJsonbcValue_ok X e buffer (level + 1) _ hw.1 hc
      simp only [Prod.mk.injEq] at h1
      obtain ⟨hb, hm⟩ := h1
      subst hb hm
      split at h
      · exact absurd h (by simp)
      · obtain ⟨h1, h2⟩ := convertJsonbcArray_loop_ok X rest _ _ _ level r hw.2 h
        simp [encElems, h1, h2]
theorem convertJsonbcObject_loop_ok (X : Env) :
    ∀ (pairs : List JsonbcPair) (buffer offsets : Bytes) (totallen prev_key level : Nat)
      (r : Bytes × Bytes × Nat),
      WellFormedPairs pairs →
      convertJsonbcObject_loop X buffer offsets totallen prev_key pairs.length pairs level
          = .ok r →
        r.1 = buffer ++ (encPairs X prev_key pairs).2
          ∧ r.2.1 = offsets ++ (encPairs X prev_key pairs).1
  | [], buffer, offsets, totallen, prev_key, level, r, _, h => by
    simp only [List.length_nil, convertJsonbcObject_loop, Except.ok.injEq] at h
    subst h
    simp [encPairs]
  | (JsonbcPair.mk key value order) :: rest, buffer, offsets, totallen, prev_key, level, r,
      hw, h => by
    simp only [WellFormedPairs] at hw
    simp only [List.length_cons, convertJsonbcObject_loop] at h
    split at h
    · exact absurd h (by simp)
    · rename_i b meta hc
      obtain ⟨h1, -⟩ := convertJsonbcValue_ok X value buffer (level + 1) _ hw.2.1 hc
      simp only [Prod.mk.injEq] at h1
      obtain ⟨hb, hm⟩ := h1
      subst hb hm
      split at h
      · exact absurd h (by simp)
      · obtain ⟨h1, h2⟩ := convertJsonbcObject_loop_ok X rest _ _ _ _ level r hw.2.2 h
        simp [encPairs, h1, h2]
end

/-! ## Entries and headers: bit-level facts -/

theorem and_7 (x : Nat) : x &&& 7 = x % 8 := Nat.and_pow_two_sub_one_eq_mod x 3

theorem and_3 (x : Nat) : x &&& 3 = x % 4 := Nat.and_pow_two_sub_one_eq_mod x 2

theorem mkEntry_eq (tag len : Nat) (ht : tag < 8) (hl : len < 2 ^ 29) :
    mkEntry tag len = tag + len * 8 := by
  have h := or_shiftLeft 3 tag len (by simpa using ht)
  simp only [mkEntry, JENTRY_SHIFT]
  rw [h]
  exact Nat.mod_eq_of_lt (by omega)

theorem mkEntry_lt (tag len : Nat) : mkEntry tag len < 2 ^ 32 :=
  Nat.mod_lt _ (by norm_num)

theorem mkEntry_tag (tag len : Nat) (ht : tag < 8) (hl : len < 2 ^ 29) :
    mkEntry tag len &&& JENTRY_TYPEMASK = tag := by
  rw [mkEntry_eq tag len ht hl]
  simp only [JENTRY_TYPEMASK]
  rw [and_7]
  omega

theorem mkEntry_len (tag len : Nat) (ht : tag < 8) (hl : len < 2 ^ 29) :
    mkEntry tag len >>> JENTRY_SHIFT = len := by
  rw [mkEntry_eq tag len ht hl]
  simp only [JENTRY_SHIFT, Nat.shiftRight_eq_div_pow]
  omega

theorem mkHeader_eq (size flag : Nat) (hf : flag < 4) (hs : size < 2 ^ 30) :
    mkHeader size flag = size * 4 + flag := by
  have h := Nat.mul_add_lt_is_or (i := 2) (b := flag) (by simpa using hf) size
  simp only [mkHeader, JB_CSHIFT, Nat.shiftLeft_eq]
  rw [Nat.mod_eq_of_lt (by omega), Nat.mul_comm size, ← h]

theorem mkHeader_lt (size flag : Nat) (hf : flag < 4) (hs : size < 2 ^ 30) :
    mkHeader size flag < 2 ^ 32 := by
  rw [mkHeader_eq size flag hf hs]; omega

theorem mkHeader_flag (size flag : Nat) (hf : flag < 4) (hs : size < 2 ^ 30) :
    mkHeader size flag &&& JB_MASK = flag := by
  rw [mkHeader_eq size flag hf hs]
  simp only [JB_MASK]
  rw [and_3]
  omega

theorem mkHeader_size (size flag : Nat) (hf : flag < 4) (hs : size < 2 ^ 30) :
    mkHeader size flag >>> JB_CSHIFT = size := by
  rw [mkHeader_eq size flag hf hs]
  simp only [JB_CSHIFT, Nat.shiftRight_eq_div_pow]
  omega

theorem encode_varbyte_ne_nil (v : Nat) : encode_varbyte v ≠ [] := by
  simp only [encode_varbyte, encode_varbyte_loop]
  split_ifs <;> simp

theorem encode_varbyte_length_pos (v : Nat) : 0 < (encode_varbyte v).length :=
  List.length_pos.mpr (encode_varbyte_ne_nil v)

theorem varbyte_size_le (v : Nat) : varbyte_size v ≤ 5 := by
  simp only [varbyte_size]; split_ifs <;> omega

theorem varbyte_size_pos (v : Nat) : 0 < varbyte_size v := by
  simp only [varbyte_size]; split_ifs <;> omega

/-- Decoding at the position where `encode_varbyte v` was written. -/
theorem decode_varbyte_at (pre post : Bytes) (v : Nat) (hv : v < 2 ^ 32) :
    decode_varbyte (pre ++ (encode_varbyte v ++ post)) pre.length
      = (v, pre.length + (encode_varbyte v).length) := by
  rw [decode_varbyte_append, decode_encode_varbyte v hv post, encode_varbyte_length v hv]

/-! ## Running the iterator step by step -/

theorem iterateSteps_add (X : Env) (skip : Bool) :
    ∀ (a b : Nat) (it it1 it2 : List JsonbcIterator) (l1 l2 : List TokenVal),
      iterateSteps X skip a it = .ok (l1, it1) →
      iterateSteps X skip b it1 = .ok (l2, it2) →
      iterateSteps X skip (a + b) it = .ok (l1 ++ l2, it2)
  | 0, b, it, it1, it2, l1, l2, h1, h2 => by
    simp only [iterateSteps, Except.ok.injEq, Prod.mk.injEq] at h1
    obtain ⟨rfl, rfl⟩ := h1
    simpa using h2
  | a + 1, b, it, it1, it2, l1, l2, h1, h2 => by
    rw [Nat.add_right_comm]
    simp only [iterateSteps] at h1 ⊢
    cases hn : JsonbcIteratorNext X it skip with
    | error e => rw [hn] at h1; simp at h1
    | ok res =>
      obtain ⟨r, v, it'⟩ := res
      rw [hn] at h1
      simp only at h1 ⊢
      cases hs : iterateSteps X skip a it' with
      | error e => rw [hs] at h1; simp at h1
      | ok res2 =>
        obtain ⟨l, it''⟩ := res2
        rw [hs] at h1
        simp only [Except.ok.injEq, Prod.mk.injEq] at h1
        obtain ⟨rfl, rfl⟩ := h1
        rw [iterateSteps_add X skip a b it' it'' it2 l l2 hs h2]
        rfl

theorem iterateSteps_one (X : Env) (skip : Bool) (it it' : List JsonbcIterator)
    (r : JsonbcIteratorToken) (v : Option JsonbcValue)
    (h : JsonbcIteratorNext X it skip = .ok (r, v, it')) :
    iterateSteps X skip 1 it = .ok ([(r, v)], it') := by
  simp [iterateSteps, h]

/-- A complete run: when `n` steps return tokens other than `WJB_DONE` and leave the
`NULL` iterator, the client loop returns exactly these tokens for every bound above `n`. -/
theorem iterateTokens_of_steps (X : Env) (skip : Bool) :
    ∀ (n : Nat) (it : List JsonbcIterator) (l : List TokenVal) (fuel : Nat),
      iterateSteps X skip n it = .ok (l, []) → (∀ t ∈ l, t.1 ≠ WJB_DONE) → n < fuel →
      iterateTokens X skip fuel it = .ok l
  | 0, it, l, fuel, h, _, hf => by
    simp only [iterateSteps, Except.ok.injEq, Prod.mk.injEq] at h
    obtain ⟨rfl, rfl⟩ := h
    obtain ⟨f, rfl⟩ : ∃ f, fuel = f + 1 := ⟨fuel - 1, by omega⟩
    simp [iterateTokens, JsonbcIteratorNext]
  | n + 1, it, l, fuel, h, hd, hf => by
    obtain ⟨f, rfl⟩ : ∃ f, fuel = f + 1 := ⟨fuel - 1, by omega⟩
    simp only [iterateSteps] at h
    cases hn : JsonbcIteratorNext X it skip with
    | error e => rw [hn] at h; simp at h
    | ok res =>
      obtain ⟨r, v, it'⟩ := res
      rw [hn] at h
      simp only at h
      cases hs : iterateSteps X skip n it' with
      | error e => rw [hs] at h; simp at h
      | ok res2 =>
        obtain ⟨l', it''⟩ := res2
        rw [hs] at h
        simp only [Except.ok.injEq, Prod.mk.injEq] at h
        obtain ⟨rfl, rfl⟩ := h
        have hr : r ≠ WJB_DONE := hd (r, v) (by simp)
        have ih := iterateTokens_of_steps X skip n it' l' f hs
          (fun t ht => hd t (by simp [ht])) (by omega)
        simp only [iterateTokens, hn]
        cases r <;> simp_all

/-! ## What `fillJsonbcValue` rebuilds from an entry written by the encoder -/

theorem byteAt_drop (base : Bytes) (off i : Nat) :
    byteAt (base.drop off) i = byteAt base (off + i) := by
  simp [byteAt, List.getD_eq_getElem?_getD, List.getElem?_drop]

theorem decode_varbyte_drop (base : Bytes) (off : Nat) :
    decode_varbyte base off
      = ((decode_varbyte (base.drop off) 0).1, off + (decode_varbyte (base.drop off) 0).2) := by
  simp only [decode_varbyte, byteAt_drop, Nat.add_zero, Nat.zero_add, Nat.add_assoc]
  split_ifs <;> rfl

/-- The length field of the entry is the payload length, provided the payload fits. -/
theorem enc_entry_len (X : Env) (v : JsonbcValue) (hw : WellFormed v)
    (hfit : (enc X v).1.length ≤ JENTRY_OFFLENMASK) :
    (enc X v).2 >>> JENTRY_SHIFT = (enc X v).1.length := by
  have hm : JENTRY_OFFLENMASK < 2 ^ 29 := by decide
  cases v with
  | jbvNull => simp [enc, JENTRY_ISNULL, JENTRY_SHIFT]
  | jbvString s =>
    simp only [enc] at hfit ⊢
    exact mkEntry_len _ _ (by decide) (by omega)
  | jbvNumeric n =>
    cases hs : X.numeric_get_small n with
    | none =>
      simp only [enc, hs] at hfit ⊢
      exact mkEntry_len _ _ (by decide) (by omega)
    | some u =>
      simp only [enc, hs] at hfit ⊢
      rw [encode_varbyte_length _ (Nat.mod_lt _ (by norm_num))]
      exact mkEntry_len _ _ (by decide) (by have := varbyte_size_le (u % 2 ^ 32); omega)
  | jbvBool b => cases b <;> simp [enc, JENTRY_ISBOOL_TRUE, JENTRY_ISBOOL_FALSE, JENTRY_SHIFT]
  | jbvArray n es raw =>
    simp only [enc] at hfit ⊢
    exact mkEntry_len _ _ (by decide) (by omega)
  | jbvObject n ps =>
    simp only [enc] at hfit ⊢
    exact mkEntry_len _ _ (by decide) (by omega)
  | jbvBinary _ _ => simp [WellFormed] at hw

theorem enc_entry_lt (X : Env) (v : JsonbcValue) : (enc X v).2 < 2 ^ 32 := by
  cases v with
  | jbvNull => simp [enc, JENTRY_ISNULL]
  | jbvString s => exact mkEntry_lt _ _
  | jbvNumeric n =>
    cases hs : X.numeric_get_small n <;> simp only [enc, hs] <;> exact mkEntry_lt _ _
  | jbvBool b => cases b <;> simp [enc, JENTRY_ISBOOL_TRUE, JENTRY_ISBOOL_FALSE]
  | jbvArray n es raw => exact mkEntry_lt _ _
  | jbvObject n ps => exact mkEntry_lt _ _
  | jbvBinary _ _ => simp [enc]

/-- The dispatch of `fillJsonbcValue` on the type bits of the entry. -/
theorem fill_tag (X : Env) (entry t : Nat) (h : entry &&& JENTRY_TYPEMASK = t)
    (base : Bytes) (off : Nat) :
    fillJsonbcValue X entry base off =
      if t = 6 then jbvNull
      else if t = 1 then jbvString ((base.drop off).take (entry >>> JENTRY_SHIFT))
      else if t = 2 then jbvNumeric ((base.drop off).take (entry >>> JENTRY_SHIFT))
      else if t = 3 then jbvNumeric (X.small_to_numeric (decode_varbyte base off).1)
      else if t = 5 then jbvBool true
      else if t = 4 then jbvBool false
      else jbvBinary (entry >>> JENTRY_SHIFT) (base.drop off) := by
  subst h
  simp [fillJsonbcValue, JBE_ISNULL, JBE_ISSTRING, JBE_ISNUMERIC, JBE_ISINTEGER,
    JBE_ISBOOL_TRUE, JBE_ISBOOL_FALSE, JENTRY_ISSTRING, JENTRY_ISNULL,
    JENTRY_ISNUMERIC, JENTRY_ISINTEGER, JENTRY_ISBOOL_TRUE, JENTRY_ISBOOL_FALSE]

theorem fill_scalar (X : Env) (v : JsonbcValue) (hs : IsAJsonbcScalar v = true)
    (hfit : (enc X v).1.length ≤ JENTRY_OFFLENMASK) (base rest : Bytes) (off : Nat)
    (hb : base.drop off = (enc X v).1 ++ rest) :
    fillJsonbcValue X (enc X v).2 base off = decodedScalar X v := by
  have hm : JENTRY_OFFLENMASK < 2 ^ 29 := by decide
  cases v with
  | jbvNull =>
    rw [fill_tag X _ 6 (by simp only [enc, JENTRY_ISNULL, JENTRY_TYPEMASK]; decide)]
    simp [decodedScalar]
  | jbvString s =>
    simp only [enc] at hfit hb ⊢
    have ht := mkEntry_tag JENTRY_ISSTRING s.length (by decide) (by omega)
    have hl := mkEntry_len JENTRY_ISSTRING s.length (by decide) (by omega)
    rw [fill_tag X _ 1 ht, hl, hb]
    simp [decodedScalar]
  | jbvNumeric n =>
    cases hsm : X.numeric_get_small n with
    | none =>
      simp only [enc, hsm] at hfit hb ⊢
      have ht := mkEntry_tag JENTRY_ISNUMERIC n.length (by decide) (by omega)
      have hl := mkEntry_len JENTRY_ISNUMERIC n.length (by decide) (by omega)
      rw [fill_tag X _ 2 ht, hl, hb]
      simp [decodedScalar, hsm]
    | some u =>
      simp only [enc, hsm] at hfit hb ⊢
      have hu : u % 2 ^ 32 < 2 ^ 32 := Nat.mod_lt _ (by norm_num)
      have ht := mkEntry_tag JENTRY_ISINTEGER (varbyte_size (u % 2 ^ 32)) (by decide)
        (by have := varbyte_size_le (u % 2 ^ 32); omega)
      have hd : (decode_varbyte base off).1 = u % 2 ^ 32 := by
        rw [decode_varbyte_drop, hb, decode_encode_varbyte _ hu]
      rw [fill_tag X _ 3 ht, hd]
      simp [decodedScalar, hsm]
  | jbvBool b =>
    cases b
    · rw [fill_tag X _ 4 (by simp only [enc, JENTRY_ISBOOL_FALSE, JENTRY_TYPEMASK]; decide)]
      simp [decodedScalar]
    · rw [fill_tag X _ 5 (by simp only [enc, JENTRY_ISBOOL_TRUE, JENTRY_TYPEMASK]; decide)]
      simp [decodedScalar]
  | jbvArray n es raw => simp [IsAJsonbcScalar, JsonbcValue.type] at hs
  | jbvObject n ps => simp [IsAJsonbcScalar, JsonbcValue.type] at hs
  | jbvBinary _ _ => simp [IsAJsonbcScalar, JsonbcValue.type] at hs

theorem fill_container_entry (X : Env) (len : Nat) (hl : len ≤ JENTRY_OFFLENMASK)
    (base : Bytes) (off : Nat) :
    fillJsonbcValue X (mkEntry JENTRY_ISCONTAINER len) base off
      = jbvBinary len (base.drop off) := by
  have hm : JENTRY_OFFLENMASK < 2 ^ 29 := by decide
  have ht := mkEntry_tag JENTRY_ISCONTAINER len (by decide) (by omega)
  have hl := mkEntry_len JENTRY_ISCONTAINER len (by decide) (by omega)
  rw [fill_tag X _ 7 ht, hl]
  simp

theorem decodedScalar_isScalar (X : Env) (v : JsonbcValue) (hs : IsAJsonbcScalar v = true) :
    IsAJsonbcScalar (decodedScalar X v) = true := by
  cases v with
  | jbvNumeric n =>
    cases hsm : X.numeric_get_small n <;>
      simp [decodedScalar, hsm, IsAJsonbcScalar, JsonbcValue.type]
  | jbvNull => exact hs
  | jbvString s => exact hs
  | jbvBool b => exact hs
  | jbvArray n es raw => exact hs
  | jbvObject n ps => exact hs
  | jbvBinary _ _ => exact hs

/-! ## Single steps of the iterator on encoder output -/

/-- Opening a container whose bytes start with the header the encoder wrote. -/
theorem iteratorFromContainer_header (size flag : Nat) (hf : flag < 3) (hs : size < 2 ^ 30)
    (tail : Bytes) (parent : List JsonbcIterator) :
    iteratorFromContainer (encode_varbyte (mkHeader size flag) ++ tail) parent
      = .ok (JsonbcIterator.mk (encode_varbyte (mkHeader size flag) ++ tail) size 0
          (decide (flag = 0))
          (encode_varbyte (mkHeader size flag)).length
          (encode_varbyte (mkHeader size flag)).length
          ((encode_varbyte (mkHeader size flag)).length + size) 0 0
          (if flag = 1 then JBI_OBJECT_START else JBI_ARRAY_START) :: parent) := by
  have hlt := mkHeader_lt size flag (by omega) hs
  have hd : decode_varbyte (encode_varbyte (mkHeader size flag) ++ tail) 0
      = (mkHeader size flag, (encode_varbyte (mkHeader size flag)).length) := by
    rw [decode_encode_varbyte _ hlt, encode_varbyte_length _ hlt]
  have hfl := mkHeader_flag size flag (by omega) hs
  have hsz := mkHeader_size size flag (by omega) hs
  simp only [iteratorFromContainer, hd, hfl, hsz]
  have : flag = 0 ∨ flag = 1 ∨ flag = 2 := by omega
  rcases this with rfl | rfl | rfl <;> simp [JB_FSCALAR, JB_FARRAY, JB_FOBJECT]

theorem switch_array_start (X : Env) (skip : Bool)
    (rc : JsonbcIterator → List JsonbcIterator → NextResult) (C : Bytes)
    (size ck : Nat) (sc : Bool) (children ptr dp off cvo : Nat)
    (parent : List JsonbcIterator) :
    JsonbcIteratorNext_switch X skip rc
        (JsonbcIterator.mk C size ck sc children ptr dp off cvo JBI_ARRAY_START) parent
      = .ok (WJB_BEGIN_ARRAY, some (jbvArray size [] sc),
          JsonbcIterator.mk C size ck sc children children dp 0 0 JBI_ARRAY_ELEM :: parent) := by
  simp [JsonbcIteratorNext_switch]

theorem switch_object_start (X : Env) (skip : Bool)
    (rc : JsonbcIterator → List JsonbcIterator → NextResult) (C : Bytes)
    (size ck : Nat) (sc : Bool) (children ptr dp off cvo : Nat)
    (parent : List JsonbcIterator) :
    JsonbcIteratorNext_switch X skip rc
        (JsonbcIterator.mk C size ck sc children ptr dp off cvo JBI_OBJECT_START) parent
      = .ok (WJB_BEGIN_OBJECT, some (jbvObject size []),
          JsonbcIterator.mk C size 0 sc children children dp 0 0 JBI_OBJECT_KEY :: parent) := by
  simp [JsonbcIteratorNext_switch]

theorem switch_array_end (X : Env) (skip : Bool)
    (rc : JsonbcIterator → List JsonbcIterator → NextResult) (C : Bytes)
    (size ck : Nat) (sc : Bool) (children ptr dp off cvo : Nat)
    (parent : List JsonbcIterator) (h : ptr ≥ children + size) :
    JsonbcIteratorNext_switch X skip rc
        (JsonbcIterator.mk C size ck sc children ptr dp off cvo JBI_ARRAY_ELEM) parent
      = .ok (WJB_END_ARRAY, none, parent) := by
  simp [JsonbcIteratorNext_switch, h]

theorem switch_object_end (X : Env) (skip : Bool)
    (rc : JsonbcIterator → List JsonbcIterator → NextResult) (C : Bytes)
    (size ck : Nat) (sc : Bool) (children ptr dp off cvo : Nat)
    (parent : List JsonbcIterator) (h : ptr ≥ children + size) :
    JsonbcIteratorNext_switch X skip rc
        (JsonbcIterator.mk C size ck sc children ptr dp off cvo JBI_OBJECT_KEY) parent
      = .ok (WJB_END_OBJECT, none, parent) := by
  simp [JsonbcIteratorNext_switch, h]

theorem switch_object_key (X : Env) (skip : Bool)
    (rc : JsonbcIterator → List JsonbcIterator → NextResult) (A B : Bytes) (delta : Nat)
    (hdl : delta < 2 ^ 32)
    (size ck : Nat) (sc : Bool) (children dp off cvo : Nat)
    (parent : List JsonbcIterator) (h : A.length < children + size) :
    JsonbcIteratorNext_switch X skip rc
        (JsonbcIterator.mk (A ++ (encode_varbyte delta ++ B)) size ck sc children A.length dp
          off cvo JBI_OBJECT_KEY) parent
      = .ok (WJB_KEY, some (jbvString (X.getNameById (toInt32 ((ck + delta) % 2 ^ 32)))),
          JsonbcIterator.mk (A ++ (encode_varbyte delta ++ B)) size ((ck + delta) % 2 ^ 32) sc
            children (A.length + (encode_varbyte delta).length) dp off cvo JBI_OBJECT_VALUE
            :: parent) := by
  have hd := decode_varbyte_at A B delta hdl
  have hn : ¬ (A.length ≥ children + size) := by omega
  simp [JsonbcIteratorNext_switch, hd, hn]

theorem drop_drop_add (l : Bytes) (dp off : Nat) : (l.drop dp).drop off = l.drop (dp + off) := by
  rw [List.drop_drop, Nat.add_comm]

theorem switch_elem_scalar (X : Env)
    (rc : JsonbcIterator → List JsonbcIterator → NextResult) (v : JsonbcValue)
    (hw : WellFormed v) (hs : IsAJsonbcScalar v = true)
    (hfit : (enc X v).1.length ≤ JENTRY_OFFLENMASK) (A B rest : Bytes)
    (size ck : Nat) (sc : Bool) (children dp off cvo : Nat) (parent : List JsonbcIterator)
    (hlt : A.length < children + size)
    (hdata : (A ++ (encode_varbyte (enc X v).2 ++ B)).drop (dp + off) = (enc X v).1 ++ rest) :
    JsonbcIteratorNext_switch X false rc
        (JsonbcIterator.mk (A ++ (encode_varbyte (enc X v).2 ++ B)) size ck sc children
          A.length dp off cvo JBI_ARRAY_ELEM) parent
      = .ok (WJB_ELEM, some (decodedScalar X v),
          JsonbcIterator.mk (A ++ (encode_varbyte (enc X v).2 ++ B)) size ck sc children
            (A.length + (encode_varbyte (enc X v).2).length) dp (off + (enc X v).1.length) cvo
            JBI_ARRAY_ELEM :: parent) := by
  have hd := decode_varbyte_at A B (enc X v).2 (enc_entry_lt X v)
  have hn : ¬ (A.length ≥ children + size) := by omega
  have hf := fill_scalar X v hs hfit
    ((A ++ (encode_varbyte (enc X v).2 ++ B)).drop dp) rest off
    (by rw [drop_drop_add]; exact hdata)
  have hl := enc_entry_len X v hw hfit
  have hsc := decodedScalar_isScalar X v hs
  simp [JsonbcIteratorNext_switch, hd, hn, hf, hl, hsc]

theorem switch_value_scalar (X : Env)
    (rc : JsonbcIterator → List JsonbcIterator → NextResult) (v : JsonbcValue)
    (hw : WellFormed v) (hs : IsAJsonbcScalar v = true)
    (hfit : (enc X v).1.length ≤ JENTRY_OFFLENMASK) (A B rest : Bytes)
    (size ck : Nat) (sc : Bool) (children dp off cvo : Nat) (parent : List JsonbcIterator)
    (hdata : (A ++ (encode_varbyte (enc X v).2 ++ B)).drop (dp + off) = (enc X v).1 ++ rest) :
    JsonbcIteratorNext_switch X false rc
        (JsonbcIterator.mk (A ++ (encode_varbyte (enc X v).2 ++ B)) size ck sc children
          A.length dp off cvo JBI_OBJECT_VALUE) parent
      = .ok (WJB_VALUE, some (decodedScalar X v),
          JsonbcIterator.mk (A ++ (encode_varbyte (enc X v).2 ++ B)) size ck sc children
            (A.length + (encode_varbyte (enc X v).2).length) dp (off + (enc X v).1.length) cvo
            JBI_OBJECT_KEY :: parent) := by
  have hd := decode_varbyte_at A B (enc X v).2 (enc_entry_lt X v)
  have hf := fill_scalar X v hs hfit
    ((A ++ (encode_varbyte (enc X v).2 ++ B)).drop dp) rest off
    (by rw [drop_drop_add]; exact hdata)
  have hl := enc_entry_len X v hw hfit
  have hsc := decodedScalar_isScalar X v hs
  simp [JsonbcIteratorNext_switch, hd, hf, hl, hsc]

/-- The entry of a container child. -/
theorem enc_container_entry (X : Env) (v : JsonbcValue) (hw : WellFormed v)
    (hs : IsAJsonbcScalar v = false) :
    (enc X v).2 = mkEntry JENTRY_ISCONTAINER (enc X v).1.length := by
  cases v with
  | jbvArray n es raw => simp only [enc]
  | jbvObject n ps => simp only [enc]
  | jbvBinary _ _ => simp [WellFormed] at hw
  | jbvNull => simp [IsAJsonbcScalar, JsonbcValue.type] at hs
  | jbvString _ => simp [IsAJsonbcScalar, JsonbcValue.type] at hs
  | jbvNumeric _ => simp [IsAJsonbcScalar, JsonbcValue.type] at hs
  | jbvBool _ => simp [IsAJsonbcScalar, JsonbcValue.type] at hs

theorem switch_elem_container (X : Env)
    (rc : JsonbcIterator → List JsonbcIterator → NextResult) (v : JsonbcValue)
    (hw : WellFormed v) (hs : IsAJsonbcScalar v = false)
    (hfit : (enc X v).1.length ≤ JENTRY_OFFLENMASK) (A B rest : Bytes)
    (size ck : Nat) (sc : Bool) (children dp off cvo : Nat) (parent : List JsonbcIterator)
    (hlt : A.length < children + size)
    (hdata : (A ++ (encode_varbyte (enc X v).2 ++ B)).drop (dp + off) = (enc X v).1 ++ rest) :
    JsonbcIteratorNext_switch X false rc
        (JsonbcIterator.mk (A ++ (encode_varbyte (enc X v).2 ++ B)) size ck sc children
          A.length dp off cvo JBI_ARRAY_ELEM) parent
      = match iteratorFromContainer ((enc X v).1 ++ rest)
          (JsonbcIterator.mk (A ++ (encode_varbyte (enc X v).2 ++ B)) size ck sc children
            (A.length + (encode_varbyte (enc X v).2).length) dp (off + (enc X v).1.length) cvo
            JBI_ARRAY_ELEM :: parent) with
        | .error e => .error e
        | .ok [] => .error .undefined_behaviour
        | .ok (child :: chain) => rc child chain := by
  have hd := decode_varbyte_at A B (enc X v).2 (enc_entry_lt X v)
  have hn : ¬ (A.length ≥ children + size) := by omega
  have hl := enc_entry_len X v hw hfit
  have hf : fillJsonbcValue X (enc X v).2
      ((A ++ (encode_varbyte (enc X v).2 ++ B)).drop dp) off
      = jbvBinary (enc X v).1.length ((enc X v).1 ++ rest) := by
    rw [enc_container_entry X v hw hs, fill_container_entry X _ hfit, drop_drop_add,
      ← enc_container_entry X v hw hs, hdata]
  simp [JsonbcIteratorNext_switch, hd, hn, hf, hl, IsAJsonbcScalar, JsonbcValue.type]

theorem switch_value_container (X : Env)
    (rc : JsonbcIterator → List JsonbcIterator → NextResult) (v : JsonbcValue)
    (hw : WellFormed v) (hs : IsAJsonbcScalar v = false)
    (hfit : (enc X v).1.length ≤ JENTRY_OFFLENMASK) (A B rest : Bytes)
    (size ck : Nat) (sc : Bool) (children dp off cvo : Nat) (parent : List JsonbcIterator)
    (hdata : (A ++ (encode_varbyte (enc X v).2 ++ B)).drop (dp + off) = (enc X v).1 ++ rest) :
    JsonbcIteratorNext_switch X false rc
        (JsonbcIterator.mk (A ++ (encode_varbyte (enc X v).2 ++ B)) size ck sc children
          A.length dp off cvo JBI_OBJECT_VALUE) parent
      = match iteratorFromContainer ((enc X v).1 ++ rest)
          (JsonbcIterator.mk (A ++ (encode_varbyte (enc X v).2 ++ B)) size ck sc children
            (A.length + (encode_varbyte (enc X v).2).length) dp (off + (enc X v).1.length) cvo
            JBI_OBJECT_KEY :: parent) with
        | .error e => .error e
        | .ok [] => .error .undefined_behaviour
        | .ok (child :: chain) => rc child chain := by
  have hd := decode_varbyte_at A B (enc X v).2 (enc_entry_lt X v)
  have hl := enc_entry_len X v hw hfit
  have hf : fillJsonbcValue X (enc X v).2
      ((A ++ (encode_varbyte (enc X v).2 ++ B)).drop dp) off
      = jbvBinary (enc X v).1.length ((enc X v).1 ++ rest) := by
    rw [enc_container_entry X v hw hs, fill_container_entry X _ hfit, drop_drop_add,
      ← enc_container_entry X v hw hs, hdata]
  simp [JsonbcIteratorNext_switch, hd, hf, hl, IsAJsonbcScalar, JsonbcValue.type]

/-! ## Iterating an encoded container yields the token stream of the tree -/

theorem toUInt32_lt (i : Int) : toUInt32 i < 2 ^ 32 := by
  simp only [toUInt32]
  have h1 : (0 : Int) ≤ i % 2 ^ 32 := Int.emod_nonneg _ (by norm_num)
  have h2 : i % 2 ^ 32 < 2 ^ 32 := Int.emod_lt_of_pos _ (by norm_num)
  omega

theorem key_accumulate (prev : Nat) (key : Int) (hp : prev < 2 ^ 32) :
    (prev + toUInt32 (key - (prev : Int))) % 2 ^ 32 = toUInt32 key := by
  simp only [toUInt32]
  have h1 : (0 : Int) ≤ (key - prev) % 2 ^ 32 := Int.emod_nonneg _ (by norm_num)
  have h2 : (0 : Int) ≤ key % 2 ^ 32 := Int.emod_nonneg _ (by norm_num)
  omega

theorem toInt32_toUInt32 (key : Int) (h1 : -(2 : Int) ^ 31 ≤ key) (h2 : key < 2 ^ 31) :
    toInt32 (toUInt32 key) = key := by
  have hlt := toUInt32_lt key
  simp only [toInt32, toUInt32] at hlt ⊢
  have h3 : (0 : Int) ≤ key % 2 ^ 32 := Int.emod_nonneg _ (by norm_num)
  split_ifs <;> omega

theorem encElems_data_le (X : Env) (e : JsonbcValue) (rest : List JsonbcValue) :
    (enc X e).1.length ≤ (encElems X (e :: rest)).2.length
      ∧ (encElems X rest).2.length ≤ (encElems X (e :: rest)).2.length := by
  simp [encElems]

theorem encPairs_data_le (X : Env) (prev : Nat) (k : Int) (v : JsonbcValue) (o : Nat)
    (rest : List JsonbcPair) :
    (enc X v).1.length ≤ (encPairs X prev (JsonbcPair.mk k v o :: rest)).2.length
      ∧ (encPairs X (toUInt32 k) rest).2.length
          ≤ (encPairs X prev (JsonbcPair.mk k v o :: rest)).2.length := by
  simp [encPairs]

theorem iterateSteps_cons (X : Env) (skip : Bool) (n : Nat) (it it1 it2 : List JsonbcIterator)
    (r : JsonbcIteratorToken) (v : Option JsonbcValue) (l : List TokenVal)
    (h1 : JsonbcIteratorNext X it skip = .ok (r, v, it1))
    (h2 : iterateSteps X skip n it1 = .ok (l, it2)) :
    iterateSteps X skip (n + 1) it = .ok ((r, v) :: l, it2) := by
  simp [iterateSteps, h1, h2]

theorem next_cons (X : Env) (skip : Bool) (top : JsonbcIterator) (parent : List JsonbcIterator) :
    JsonbcIteratorNext X (top :: parent) skip
      = JsonbcIteratorNext_switch X skip (JsonbcIteratorNext_recurse X skip) top parent := rfl

theorem tokensOf_scalar (X : Env) (kind : JsonbcIteratorToken) (v : JsonbcValue)
    (hs : IsAJsonbcScalar v = true) :
    tokensOf X kind v = [(kind, some (decodedScalar X v))] := by
  cases v <;> simp_all [tokensOf, decodedScalar, IsAJsonbcScalar, JsonbcValue.type]

theorem drop_at_prefix (P S : Bytes) (n : Nat) (h : n = P.length) : (P ++ S).drop n = S := by
  subst h; exact List.drop_left _ _

mutual
theorem container_run (X : Env) :
    ∀ (v : JsonbcValue), WellFormed v → IsAJsonbcScalar v = false →
      (enc X v).1.length ≤ JENTRY_OFFLENMASK →
      ∀ (rest : Bytes) (chain : List JsonbcIterator) (kind : JsonbcIteratorToken),
      ∃ (child child' : JsonbcIterator) (tok0 : TokenVal) (toks : List TokenVal),
        iteratorFromContainer ((enc X v).1 ++ rest) chain = .ok (child :: chain)
        ∧ (∀ rc, JsonbcIteratorNext_switch X false rc child chain
            = .ok (tok0.1, tok0.2, child' :: chain))
        ∧ tokensOf X kind v = tok0 :: toks
        ∧ iterateSteps X false toks.length (child' :: chain) = .ok (toks, chain)
  | jbvArray n es raw, hw, _, hfit, rest, chain, kind => by
    simp only [WellFormed] at hw
    simp only [enc, List.length_append] at hfit
    have hm : JENTRY_OFFLENMASK < 2 ^ 30 := by decide
    have hsz : (encElems X es).1.length < 2 ^ 30 := by omega
    have hrun := elems_run X es hw.2 (by omega)
      ((encode_varbyte (mkHeader (encElems X es).1.length
        (if raw then JB_FSCALAR else JB_FARRAY))) ++ ((encElems X es).1 ++
          ((encElems X es).2 ++ rest)))
      (encode_varbyte (mkHeader (encElems X es).1.length
        (if raw then JB_FSCALAR else JB_FARRAY))) [] [] rest
      (encElems X es).1.length 0 raw
      (encode_varbyte (mkHeader (encElems X es).1.length
        (if raw then JB_FSCALAR else JB_FARRAY))).length
      (encode_varbyte (mkHeader (encElems X es).1.length
        (if raw then JB_FSCALAR else JB_FARRAY))).length
      ((encode_varbyte (mkHeader (encElems X es).1.length
        (if raw then JB_FSCALAR else JB_FARRAY))).length + (encElems X es).1.length)
      0 0 chain (by simp) (by simp) rfl (by simp) rfl rfl
    have hinit := iteratorFromContainer_header (encElems X es).1.length
      (if raw then JB_FSCALAR else JB_FARRAY)
      (by cases raw <;> simp [JB_FSCALAR, JB_FARRAY]) hsz
      ((encElems X es).1 ++ ((encElems X es).2 ++ rest)) chain
    have hflag : decide ((if raw then JB_FSCALAR else JB_FARRAY) = 0) = raw := by
      cases raw <;> simp [JB_FSCALAR, JB_FARRAY]
    have hstate : (if (if raw then JB_FSCALAR else JB_FARRAY) = 1 then JBI_OBJECT_START
        else JBI_ARRAY_START) = JBI_ARRAY_START := by
      cases raw <;> simp [JB_FSCALAR, JB_FARRAY]
    rw [hflag, hstate] at hinit
    have e : encode_varbyte (mkHeader (encElems X es).1.length
        (if raw then JB_FSCALAR else JB_FARRAY)) ++ ((encElems X es).1 ++
          ((encElems X es).2 ++ rest)) = (enc X (jbvArray n es raw)).1 ++ rest := by
      simp only [enc, List.append_assoc]
    rw [e] at hinit hrun
    rw [show (tokensOfElems X es).length + 1
      = (tokensOfElems X es ++ [(WJB_END_ARRAY, none)]).length by simp] at hrun
    have h3 : tokensOf X kind (jbvArray n es raw)
        = (WJB_BEGIN_ARRAY, some (jbvArray (encElems X es).1.length [] raw))
          :: (tokensOfElems X es ++ [(WJB_END_ARRAY, none)]) := by
      simp [tokensOf]
    exact ⟨_, _, _, _, hinit, fun rc => switch_array_start X false rc _ _ _ _ _ _ _ _ _ _,
      h3, hrun⟩
  | jbvObject n ps, hw, _, hfit, rest, chain, kind => by
    simp only [WellFormed] at hw
    simp only [enc, List.length_append] at hfit
    have hm : JENTRY_OFFLENMASK < 2 ^ 30 := by decide
    have hsz : (encPairs X 0 ps).1.length < 2 ^ 30 := by omega
    have hrun := pairs_run X ps 0 (by norm_num) hw.2 (by omega)
      ((encode_varbyte (mkHeader (encPairs X 0 ps).1.length JB_FOBJECT))
        ++ ((encPairs X 0 ps).1 ++ ((encPairs X 0 ps).2 ++ rest)))
      (encode_varbyte (mkHeader (encPairs X 0 ps).1.length JB_FOBJECT)) [] [] rest
      (encPairs X 0 ps).1.length false
      (encode_varbyte (mkHeader (encPairs X 0 ps).1.length JB_FOBJECT)).length
      (encode_varbyte (mkHeader (encPairs X 0 ps).1.length JB_FOBJECT)).length
      ((encode_varbyte (mkHeader (encPairs X 0 ps).1.length JB_FOBJECT)).length
        + (encPairs X 0 ps).1.length)
      0 0 chain (by simp) (by simp) rfl (by simp) rfl rfl
    have hinit := iteratorFromContainer_header (encPairs X 0 ps).1.length JB_FOBJECT
      (by simp [JB_FOBJECT]) hsz ((encPairs X 0 ps).1 ++ ((encPairs X 0 ps).2 ++ rest)) chain
    have hflag : decide (JB_FOBJECT = 0) = false := by simp [JB_FOBJECT]
    have hstate : (if JB_FOBJECT = 1 then JBI_OBJECT_START else JBI_ARRAY_START)
        = JBI_OBJECT_START := by simp [JB_FOBJECT]
    rw [hflag, hstate] at hinit
    have e : encode_varbyte (mkHeader (encPairs X 0 ps).1.length JB_FOBJECT)
        ++ ((encPairs X 0 ps).1 ++ ((encPairs X 0 ps).2 ++ rest))
        = (enc X (jbvObject n ps)).1 ++ rest := by
      simp only [enc, List.append_assoc]
    rw [e] at hinit hrun
    rw [show (tokensOfPairs X ps).length + 1
      = (tokensOfPairs X ps ++ [(WJB_END_OBJECT, none)]).length by simp] at hrun
    have h3 : tokensOf X kind (jbvObject n ps)
        = (WJB_BEGIN_OBJECT, some (jbvObject (encPairs X 0 ps).1.length []))
          :: (tokensOfPairs X ps ++ [(WJB_END_OBJECT, none)]) := by
      simp [tokensOf]
    exact ⟨_, _, _, _, hinit, fun rc => switch_object_start X false rc _ _ _ _ _ _ _ _ _ _,
      h3, hrun⟩
  | jbvNull, _, hs, _, _, _, _ => by simp [IsAJsonbcScalar, JsonbcValue.type] at hs
  | jbvString _, _, hs, _, _, _, _ => by simp [IsAJsonbcScalar, JsonbcValue.type] at hs
  | jbvNumeric _, _, hs, _, _, _, _ => by simp [IsAJsonbcScalar, JsonbcValue.type] at hs
  | jbvBool _, _, hs, _, _, _, _ => by simp [IsAJsonbcScalar, JsonbcValue.type] at hs
  | jbvBinary _ _, hw, _, _, _, _, _ => by simp [WellFormed] at hw
theorem elems_run (X : Env) :
    ∀ (rem : List JsonbcValue), WellFormedElems rem →
      (encElems X rem).2.length ≤ JENTRY_OFFLENMASK →
      ∀ (C H epre dpre rest : Bytes) (size ck : Nat) (sc : Bool)
        (children ptr dp off cvo : Nat) (parent : List JsonbcIterator),
        C = (H ++ epre) ++ ((encElems X rem).1 ++ (dpre ++ ((encElems X rem).2 ++ rest))) →
        size = epre.length + (encElems X rem).1.length → children = H.length →
        ptr = H.length + epre.length → dp = H.length + size → off = dpre.length →
        iterateSteps X false ((tokensOfElems X rem).length + 1)
            (JsonbcIterator.mk C size ck sc children ptr dp off cvo JBI_ARRAY_ELEM :: parent)
          = .ok (tokensOfElems X rem ++ [(WJB_END_ARRAY, none)], parent)
  | [], _, _, C, H, epre, dpre, rest, size, ck, sc, children, ptr, dp, off, cvo, parent,
      hC, hsize, hch, hptr, hdp, hoff => by
    simp only [encElems, List.length_nil, Nat.add_zero] at hsize
    simp only [tokensOfElems, List.length_nil, Nat.zero_add, List.nil_append]
    apply iterateSteps_one
    simp only [JsonbcIteratorNext]
    exact switch_array_end X false _ C size ck sc children ptr dp off cvo parent (by omega)
  | e :: rem, hw, hfit, C, H, epre, dpre, rest, size, ck, sc, children, ptr, dp, off, cvo,
      parent, hC, hsize, hch, hptr, hdp, hoff => by
    simp only [WellFormedElems] at hw
    obtain ⟨hfe, hfr⟩ := encElems_data_le X e rem
    have hC1 : C = (H ++ epre) ++ (encode_varbyte (enc X e).2 ++
        ((encElems X rem).1 ++ (dpre ++ (((enc X e).1 ++ (encElems X rem).2) ++ rest)))) := by
      rw [hC]; simp [encElems]
    have hlt : (H ++ epre).length < children + size := by
      have := encode_varbyte_length_pos (enc X e).2
      simp only [encElems, List.length_append] at hsize
      simp only [List.length_append]; omega
    have hdata : C.drop (dp + off) = (enc X e).1 ++ ((encElems X rem).2 ++ rest) := by
      rw [hC, show (H ++ epre) ++ ((encElems X (e :: rem)).1 ++ (dpre ++
          ((encElems X (e :: rem)).2 ++ rest)))
          = ((H ++ epre) ++ ((encElems X (e :: rem)).1 ++ dpre))
            ++ ((enc X e).1 ++ ((encElems X rem).2 ++ rest)) by simp [encElems]]
      apply drop_at_prefix
      simp only [List.length_append]; omega
    have ih := elems_run X rem hw.2 (by omega) C H (epre ++ encode_varbyte (enc X e).2)
      (dpre ++ (enc X e).1) rest size ck sc children
      (ptr + (encode_varbyte (enc X e).2).length) dp (off + (enc X e).1.length) cvo parent
      (by rw [hC]; simp [encElems])
      (by simp only [encElems, List.length_append] at hsize; simp only [List.length_append]; omega)
      hch (by simp only [List.length_append]; omega) hdp
      (by simp only [List.length_append]; omega)
    have hpA : ptr = (H ++ epre).length := by simp only [List.length_append]; omega
    by_cases hs : IsAJsonbcScalar e = true
    · have hstep := switch_elem_scalar X (JsonbcIteratorNext_recurse X false) e hw.1 hs
        (by omega) (H ++ epre) _ _ size ck sc children dp off cvo parent hlt
        (by rw [← hC1]; exact hdata)
      rw [← hC1, ← hpA] at hstep
      have h := iterateSteps_cons X false _ _ _ _ _ _ _ ((next_cons X false _ _).trans hstep) ih
      simpa [tokensOfElems, tokensOf_scalar X WJB_ELEM e hs] using h
    · have hs' : IsAJsonbcScalar e = false := by simpa using hs
      obtain ⟨child, child', tok0, toks, hinit, hsw, htok, hrun⟩ :=
        container_run X e hw.1 hs' (by omega) ((encElems X rem).2 ++ rest)
          (JsonbcIterator.mk C size ck sc children (ptr + (encode_varbyte (enc X e).2).length)
            dp (off + (enc X e).1.length) cvo JBI_ARRAY_ELEM :: parent) WJB_ELEM
      have hstep := switch_elem_container X (JsonbcIteratorNext_recurse X false) e hw.1 hs'
        (by omega) (H ++ epre) _ _ size ck sc children dp off cvo parent hlt
        (by rw [← hC1]; exact hdata)
      rw [← hC1, ← hpA, hinit] at hstep
      simp only [JsonbcIteratorNext_recurse, hsw] at hstep
      have h2 := iterateSteps_add X false _ _ _ _ _ _ _ hrun ih
      have h := iterateSteps_cons X false _ _ _ _ _ _ _ ((next_cons X false _ _).trans hstep) h2
      have hlen : (tokensOfElems X (e :: rem)).length + 1
          = (toks.length + ((tokensOfElems X rem).length + 1)) + 1 := by
        simp only [tokensOfElems, htok, List.length_append, List.length_cons]; omega
      rw [hlen, h]
      simp [tokensOfElems, htok]
theorem pairs_run (X : Env) :
    ∀ (rem : List JsonbcPair) (prev : Nat), prev < 2 ^ 32 → WellFormedPairs rem →
      (encPairs X prev rem).2.length ≤ JENTRY_OFFLENMASK →
      ∀ (C H epre dpre rest : Bytes) (size : Nat) (sc : Bool)
        (children ptr dp off cvo : Nat) (parent : List JsonbcIterator),
        C = (H ++ epre) ++ ((encPairs X prev rem).1
              ++ (dpre ++ ((encPairs X prev rem).2 ++ rest))) →
        size = epre.length + (encPairs X prev rem).1.length → children = H.length →
        ptr = H.length + epre.length → dp = H.length + size → off = dpre.length →
        iterateSteps X false ((tokensOfPairs X rem).length + 1)
            (JsonbcIterator.mk C size prev sc children ptr dp off cvo JBI_OBJECT_KEY :: parent)
          = .ok (tokensOfPairs X rem ++ [(WJB_END_OBJECT, none)], parent)
  | [], prev, _, _, _, C, H, epre, dpre, rest, size, sc, children, ptr, dp, off, cvo, parent,
      hC, hsize, hch, hptr, hdp, hoff => by
    simp only [encPairs, List.length_nil, Nat.add_zero] at hsize
    simp only [tokensOfPairs, List.length_nil, Nat.zero_add, List.nil_append]
    apply iterateSteps_one
    simp only [JsonbcIteratorNext]
    exact switch_object_end X false _ C size prev sc children ptr dp off cvo parent (by omega)
  | (JsonbcPair.mk key e order) :: rem, prev, hprev, hw, hfit, C, H, epre, dpre, rest, size,
      sc, children, ptr, dp, off, cvo, parent, hC, hsize, hch, hptr, hdp, hoff => by
    simp only [WellFormedPairs] at hw
    obtain ⟨⟨hk1, hk2⟩, hwe, hwr⟩ := hw
    obtain ⟨hfe, hfr⟩ := encPairs_data_le X prev key e order rem
    have hdl := toUInt32_lt (key - (prev : Int))
    have hC0 : C = (H ++ epre) ++ (encode_varbyte (toUInt32 (key - (prev : Int))) ++
        (encode_varbyte (enc X e).2 ++ ((encPairs X (toUInt32 key) rem).1 ++
          (dpre ++ (((enc X e).1 ++ (encPairs X (toUInt32 key) rem).2) ++ rest))))) := by
      rw [hC]; simp [encPairs]
    have hC1 : C = ((H ++ epre) ++ encode_varbyte (toUInt32 (key - (prev : Int)))) ++
        (encode_varbyte (enc X e).2 ++ ((encPairs X (toUInt32 key) rem).1 ++
          (dpre ++ (((enc X e).1 ++ (encPairs X (toUInt32 key) rem).2) ++ rest)))) := by
      rw [hC]; simp [encPairs]
    have hp1 := encode_varbyte_length_pos (toUInt32 (key - (prev : Int)))
    have hp2 := encode_varbyte_length_pos (enc X e).2
    have hsize' : size = epre.length + ((encode_varbyte (toUInt32 (key - (prev : Int)))).length
        + (encode_varbyte (enc X e).2).length + (encPairs X (toUInt32 key) rem).1.length) := by
      simp only [encPairs, List.length_append] at hsize; omega
    have hlt : (H ++ epre).length < children + size := by
      simp only [List.length_append]; omega
    have hdata : C.drop (dp + off)
        = (enc X e).1 ++ ((encPairs X (toUInt32 key) rem).2 ++ rest) := by
      rw [hC, show (H ++ epre) ++ ((encPairs X prev (JsonbcPair.mk key e order :: rem)).1 ++
          (dpre ++ ((encPairs X prev (JsonbcPair.mk key e order :: rem)).2 ++ rest)))
          = ((H ++ epre) ++ ((encPairs X prev (JsonbcPair.mk key e order :: rem)).1 ++ dpre))
            ++ ((enc X e).1 ++ ((encPairs X (toUInt32 key) rem).2 ++ rest)) by simp [encPairs]]
      apply drop_at_prefix
      simp only [encPairs, List.length_append]; omega
    have ih := pairs_run X rem (toUInt32 key) (toUInt32_lt key) hwr (by omega) C H
      (epre ++ (encode_varbyte (toUInt32 (key - (prev : Int))) ++ encode_varbyte (enc X e).2))
      (dpre ++ (enc X e).1) rest size sc children
      (ptr + (encode_varbyte (toUInt32 (key - (prev : Int)))).length
        + (encode_varbyte (enc X e).2).length) dp (off + (enc X e).1.length) cvo parent
      (by rw [hC]; simp [encPairs])
      (by simp only [List.length_append]; omega)
      hch (by simp only [List.length_append]; omega) hdp
      (by simp only [List.length_append]; omega)
    have hpA : ptr = (H ++ epre).length := by simp only [List.length_append]; omega
    have hpA' : ptr + (encode_varbyte (toUInt32 (key - (prev : Int)))).length
        = ((H ++ epre) ++ encode_varbyte (toUInt32 (key - (prev : Int)))).length := by
      simp only [List.length_append]; omega
    -- the key token
    have hkey := switch_object_key X false (JsonbcIteratorNext_recurse X false) (H ++ epre)
      (encode_varbyte (enc X e).2 ++ ((encPairs X (toUInt32 key) rem).1 ++
          (dpre ++ (((enc X e).1 ++ (encPairs X (toUInt32 key) rem).2) ++ rest))))
      (toUInt32 (key - (prev : Int))) hdl size prev sc children dp off cvo parent hlt
    rw [← hC0, ← hpA, key_accumulate prev key hprev, toInt32_toUInt32 key hk1 hk2] at hkey
    by_cases hs : IsAJsonbcScalar e = true
    · have hstep := switch_value_scalar X (JsonbcIteratorNext_recurse X false) e hwe hs
        (by omega) ((H ++ epre) ++ encode_varbyte (toUInt32 (key - (prev : Int)))) _ _ size
        (toUInt32 key) sc children dp off cvo parent (by rw [← hC1]; exact hdata)
      rw [← hC1, ← hpA'] at hstep
      have h1 := iterateSteps_cons X false _ _ _ _ _ _ _ ((next_cons X false _ _).trans hstep) ih
      have h := iterateSteps_cons X false _ _ _ _ _ _ _ ((next_cons X false _ _).trans hkey) h1
      simpa [tokensOfPairs, tokensOf_scalar X WJB_VALUE e hs] using h
    · have hs' : IsAJsonbcScalar e = false := by simpa using hs
      obtain ⟨child, child', tok0, toks, hinit, hsw, htok, hrun⟩ :=
        container_run X e hwe hs' (by omega) ((encPairs X (toUInt32 key) rem).2 ++ rest)
          (JsonbcIterator.mk C size (toUInt32 key) sc children
            (ptr + (encode_varbyte (toUInt32 (key - (prev : Int)))).length
              + (encode_varbyte (enc X e).2).length)
            dp (off + (enc X e).1.length) cvo JBI_OBJECT_KEY :: parent) WJB_VALUE
      have hstep := switch_value_container X (JsonbcIteratorNext_recurse X false) e hwe hs'
        (by omega) ((H ++ epre) ++ encode_varbyte (toUInt32 (key - (prev : Int)))) _ _ size
        (toUInt32 key) sc children dp off cvo parent (by rw [← hC1]; exact hdata)
      rw [← hC1, ← hpA', hinit] at hstep
      simp only [JsonbcIteratorNext_recurse, hsw] at hstep
      have h2 := iterateSteps_add X false _ _ _ _ _ _ _ hrun ih
      have h1 := iterateSteps_cons X false _ _ _ _ _ _ _ ((next_cons X false _ _).trans hstep) h2
      have h := iterateSteps_cons X false _ _ _ _ _ _ _ ((next_cons X false _ _).trans hkey) h1
      have hlen : (tokensOfPairs X (JsonbcPair.mk key e order :: rem)).length + 1
          = ((toks.length + ((tokensOfPairs X rem).length + 1)) + 1) + 1 := by
        simp only [tokensOfPairs, htok, List.length_append, List.length_cons]; omega
      rw [hlen, h]
      simp [tokensOfPairs, htok]
end

/-! ## Root containers -/

mutual
theorem tokensOf_ne_done (X : Env) (kind : JsonbcIteratorToken) (hk : kind ≠ WJB_DONE) :
    ∀ (v : JsonbcValue), ∀ t ∈ tokensOf X kind v, t.1 ≠ WJB_DONE
  | jbvArray _ es _, t, ht => by
    simp only [tokensOf, List.mem_cons, List.mem_append, List.not_mem_nil, or_false] at ht
    rcases ht with rfl | ht | rfl
    · simp
    · exact tokensOfElems_ne_done X es t ht
    · simp
  | jbvObject _ ps, t, ht => by
    simp only [tokensOf, List.mem_cons, List.mem_append, List.not_mem_nil, or_false] at ht
    rcases ht with rfl | ht | rfl
    · simp
    · exact tokensOfPairs_ne_done X ps t ht
    · simp
  | jbvNull, t, ht => by simp only [tokensOf, List.mem_singleton] at ht; subst ht; exact hk
  | jbvString _, t, ht => by simp only [tokensOf, List.mem_singleton] at ht; subst ht; exact hk
  | jbvNumeric _, t, ht => by simp only [tokensOf, List.mem_singleton] at ht; subst ht; exact hk
  | jbvBool _, t, ht => by simp only [tokensOf, List.mem_singleton] at ht; subst ht; exact hk
  | jbvBinary _ _, t, ht => by
    simp only [tokensOf, List.mem_singleton] at ht; subst ht; exact hk
theorem tokensOfElems_ne_done (X : Env) :
    ∀ (l : List JsonbcValue), ∀ t ∈ tokensOfElems X l, t.1 ≠ WJB_DONE
  | [], t, ht => by simp [tokensOfElems] at ht
  | e :: rest, t, ht => by
    simp only [tokensOfElems, List.mem_append] at ht
    rcases ht with ht | ht
    · exact tokensOf_ne_done X WJB_ELEM (by decide) e t ht
    · exact tokensOfElems_ne_done X rest t ht
theorem tokensOfPairs_ne_done (X : Env) :
    ∀ (l : List JsonbcPair), ∀ t ∈ tokensOfPairs X l, t.1 ≠ WJB_DONE
  | [], t, ht => by simp [tokensOfPairs] at ht
  | (JsonbcPair.mk k v o) :: rest, t, ht => by
    simp only [tokensOfPairs, List.mem_cons, List.mem_append] at ht
    rcases ht with rfl | ht | ht
    · simp
    · exact tokensOf_ne_done X WJB_VALUE (by decide) v t ht
    · exact tokensOfPairs_ne_done X rest t ht
end

/-- What `convertToJsonbc` returns for a well-formed container. -/
theorem convertToJsonbc_ok (X : Env) (t : JsonbcValue) (hw : WellFormed t)
    (hs : IsAJsonbcScalar t = false) (jb : Jsonbc) (h : convertToJsonbc X t = .ok jb) :
    jb.root = (enc X t).1 ∧ (enc X t).1.length ≤ JENTRY_OFFLENMASK := by
  simp only [convertToJsonbc] at h
  cases hc : convertJsonbcValue X (reserveFromBuffer [] VARHDRSZ).1 t 0 with
  | error e => rw [hc] at h; simp at h
  | ok r =>
    rw [hc] at h
    obtain ⟨h1, h2⟩ := convertJsonbcValue_ok X t _ 0 r hw hc
    simp only [Except.ok.injEq] at h
    subst h
    subst h1
    refine ⟨?_, h2 (by simp [hs])⟩
    simp [reserveFromBuffer, VARHDRSZ]

/-- Iterating the root container of an encoded tree until `WJB_DONE` yields `tokensOf`. -/
theorem iterate_root (X : Env) (t : JsonbcValue) (hw : WellFormed t)
    (hs : IsAJsonbcScalar t = false) (hfit : (enc X t).1.length ≤ JENTRY_OFFLENMASK)
    (fuel : Nat) (hfuel : (tokensOf X WJB_ELEM t).length < fuel) :
    ∃ it, JsonbcIteratorInit (enc X t).1 = .ok it
      ∧ iterateTokens X false fuel it = .ok (tokensOf X WJB_ELEM t) := by
  obtain ⟨child, child', tok0, toks, hinit, hsw, htok, hrun⟩ :=
    container_run X t hw hs hfit [] [] WJB_ELEM
  rw [List.append_nil] at hinit
  refine ⟨[child], hinit, ?_⟩
  have h := iterateSteps_cons X false _ _ _ _ _ _ _
    ((next_cons X false _ _).trans (hsw _)) hrun
  apply iterateTokens_of_steps X false _ _ _ fuel (by rw [htok]; exact h)
    (tokensOf_ne_done X WJB_ELEM (by decide) t)
  rw [htok] at hfuel
  simpa using hfuel

/-- The builder calls of `JsonbcValueToJsonbc` wrap a scalar in a raw-scalar array. -/
theorem JsonbcValueToJsonbc_scalar (X : Env) (s : JsonbcValue) (hs : IsAJsonbcScalar s = true) :
    JsonbcValueToJsonbc X s = convertToJsonbc X (jbvArray 1 [s] true) := by
  simp [JsonbcValueToJsonbc, hs, pushJsonbcValue, appendElement, pushJsonbcValue_end,
    JSONB_MAX_ELEMS, MaxAllocSize]

theorem JsonbcValueToJsonbc_container (X : Env) (t : JsonbcValue) (hw : WellFormed t)
    (hs : IsAJsonbcScalar t = false) :
    JsonbcValueToJsonbc X t = convertToJsonbc X t := by
  cases t <;> simp_all [JsonbcValueToJsonbc, WellFormed]

/-! ## C3 -/

theorem encode_varbyte_mod (v : Nat) : encode_varbyte (v % 2 ^ 32) = encode_varbyte v := by
  simp [encode_varbyte]

theorem demoEnv_smallNumericExact : SmallNumericExact demoEnv := by
  intro n small h
  simp only [demoEnv, demo_numeric_get_small] at h
  split at h
  · rename_i r
    split at h
    · rename_i hr
      simp only [Option.some.injEq] at h
      subst h
      show demo_small_to_numeric _ = _
      rw [demo_small_to_numeric, encode_varbyte_mod, ← hr]
    · simp at h
  · simp at h

theorem decodedScalar_exact (X : Env) (hnum : SmallNumericExact X) (s : JsonbcValue) :
    decodedScalar X s = s := by
  cases s with
  | jbvNumeric n =>
    cases h : X.numeric_get_small n with
    | none => simp [decodedScalar, h]
    | some u =>
      have := hnum n u h
      simpa [decodedScalar, h] using this
  | jbvNull => rfl
  | jbvString _ => rfl
  | jbvBool _ => rfl
  | jbvArray _ _ _ => rfl
  | jbvObject _ _ => rfl
  | jbvBinary _ _ => rfl

/-- The header that starts the encoding of an array. -/
theorem array_header (X : Env) (n : Nat) (es : List JsonbcValue) (raw : Bool)
    (hfit : (enc X (jbvArray n es raw)).1.length ≤ JENTRY_OFFLENMASK) :
    (decode_varbyte (enc X (jbvArray n es raw)).1 0).1
      = mkHeader (encElems X es).1.length (if raw then JB_FSCALAR else JB_FARRAY)
      ∧ (encElems X es).1.length < 2 ^ 30 := by
  simp only [enc, List.length_append] at hfit
  have hm : JENTRY_OFFLENMASK < 2 ^ 30 := by decide
  have hsz : (encElems X es).1.length < 2 ^ 30 := by omega
  refine ⟨?_, hsz⟩
  simp only [enc, List.append_assoc]
  rw [decode_encode_varbyte _ (mkHeader_lt _ _ (by cases raw <;> simp [JB_FSCALAR, JB_FARRAY])
    hsz)]

/-- The header that starts the encoding of an object. -/
theorem object_header (X : Env) (n : Nat) (ps : List JsonbcPair)
    (hfit : (enc X (jbvObject n ps)).1.length ≤ JENTRY_OFFLENMASK) :
    (decode_varbyte (enc X (jbvObject n ps)).1 0).1
      = mkHeader (encPairs X 0 ps).1.length JB_FOBJECT
      ∧ (encPairs X 0 ps).1.length < 2 ^ 30 := by
  simp only [enc, List.length_append] at hfit
  have hm : JENTRY_OFFLENMASK < 2 ^ 30 := by decide
  have hsz : (encPairs X 0 ps).1.length < 2 ^ 30 := by omega
  refine ⟨?_, hsz⟩
  simp only [enc, List.append_assoc]
  rw [decode_encode_varbyte _ (mkHeader_lt _ _ (by simp [JB_FOBJECT]) hsz)]

/-- C3: for every scalar `s` (null, string, numeric or bool), `JsonbcValueToJsonbc(s)`
produces a container whose header type flag is scalar-wrapper (0), and iterating it
yields exactly `WJB_BEGIN_ARRAY` with `rawScalar = true`, one `WJB_ELEM` carrying `s`,
`WJB_END_ARRAY`, and then `WJB_DONE`. Here `jb` is the container that
`JsonbcValueToJsonbc` returns (it raises the resource-limit error for a payload beyond
`JENTRY_OFFLENMASK`), and the numeric codec is assumed exact on small integers. -/
theorem C3_scalar_wrapper (X : Env) (hnum : SmallNumericExact X) (s : JsonbcValue)
    (hs : IsAJsonbcScalar s = true) (jb : Jsonbc) (henc : JsonbcValueToJsonbc X s = .ok jb) :
    jsonbc_header jb &&& JB_MASK = JB_FSCALAR
      ∧ ∃ it count, JsonbcIteratorInit jb.root = .ok it
        ∧ iterateTokens X false 4 it
          = .ok [(WJB_BEGIN_ARRAY, some (jbvArray count [] true)), (WJB_ELEM, some s),
              (WJB_END_ARRAY, none)] := by
  rw [JsonbcValueToJsonbc_scalar X s hs] at henc
  have hw : WellFormed (jbvArray 1 [s] true) := by
    cases s <;> simp_all [WellFormed, WellFormedElems, IsAJsonbcScalar, JsonbcValue.type]
  obtain ⟨hroot, hfit⟩ := convertToJsonbc_ok X _ hw (by simp [IsAJsonbcScalar, JsonbcValue.type])
    jb henc
  obtain ⟨hh, hsz⟩ := array_header X 1 [s] true hfit
  constructor
  · simp only [jsonbc_header, hroot, hh]
    exact mkHeader_flag _ _ (by simp [JB_FSCALAR]) hsz
  · obtain ⟨it, hinit, hit⟩ := iterate_root X _ hw (by simp [IsAJsonbcScalar, JsonbcValue.type])
      hfit 4 (by simp [tokensOf, tokensOfElems, tokensOf_scalar X WJB_ELEM s hs])
    refine ⟨it, (encElems X [s]).1.length, by rw [hroot]; exact hinit, ?_⟩
    rw [hit]
    simp [tokensOf, tokensOfElems, tokensOf_scalar X WJB_ELEM s hs, decodedScalar_exact X hnum]

theorem C3_scalar_wrapper_witness :
    (SmallNumericExact demoEnv ∧ IsAJsonbcScalar (jbvNumeric [0, 42]) = true
      ∧ JsonbcValueToJsonbc demoEnv (jbvNumeric [0, 42]) = .ok ⟨7, [4, 11, 42]⟩)
    ∧ (jsonbc_header ⟨7, [4, 11, 42]⟩ &&& JB_MASK = JB_FSCALAR
      ∧ ∃ it count, JsonbcIteratorInit (Jsonbc.mk 7 [4, 11, 42]).root = .ok it
        ∧ iterateTokens demoEnv false 4 it
          = .ok [(WJB_BEGIN_ARRAY, some (jbvArray count [] true)),
              (WJB_ELEM, some (jbvNumeric [0, 42])), (WJB_END_ARRAY, none)]) :=
  ⟨⟨demoEnv_smallNumericExact, rfl, rfl⟩,
    C3_scalar_wrapper demoEnv demoEnv_smallNumericExact (jbvNumeric [0, 42]) rfl
      ⟨7, [4, 11, 42]⟩ rfl⟩

/-! ## `uniqueifyJsonbcObject` leaves the pairs in ascending key order -/

theorem compareJsonbcPair_neg (x y : JsonbcPair) (h : (compareJsonbcPair x y).1 < 0) :
    x.key ≤ y.key := by
  simp only [compareJsonbcPair] at h
  by_cases hk : x.key = y.key
  · omega
  · rw [if_pos hk] at h
    by_cases hl : x.key < y.key
    · omega
    · rw [if_neg hl] at h
      simp at h

theorem compareJsonbcPair_nonneg (x y : JsonbcPair) (h : ¬ (compareJsonbcPair x y).1 < 0) :
    y.key ≤ x.key := by
  simp only [compareJsonbcPair] at h
  by_cases hk : x.key = y.key
  · omega
  · rw [if_pos hk] at h
    by_cases hl : x.key < y.key
    · rw [if_pos hl] at h
      simp at h
    · omega

theorem qsort_arg_insert_mem (x : JsonbcPair) :
    ∀ (l : List JsonbcPair) (z : JsonbcPair), z ∈ (qsort_arg_insert x l).1 → z = x ∨ z ∈ l
  | [], z, h => by simpa [qsort_arg_insert] using h
  | y :: ys, z, h => by
    simp only [qsort_arg_insert] at h
    split_ifs at h
    · simpa using h
    · simp only [List.mem_cons] at h
      rcases h with rfl | h
      · simp
      · rcases qsort_arg_insert_mem x ys z h with h | h
        · exact Or.inl h
        · exact Or.inr (List.mem_cons_of_mem _ h)

theorem qsort_arg_insert_sorted (x : JsonbcPair) :
    ∀ (l : List JsonbcPair), l.Pairwise (fun a b => a.key ≤ b.key) →
      (qsort_arg_insert x l).1.Pairwise (fun a b => a.key ≤ b.key)
  | [], _ => by simp [qsort_arg_insert]
  | y :: ys, h => by
    simp only [qsort_arg_insert]
    rw [List.pairwise_cons] at h
    split_ifs with hc
    · have hxy := compareJsonbcPair_neg x y hc
      refine List.Pairwise.cons ?_ (List.Pairwise.cons h.1 h.2)
      intro z hz
      simp only [List.mem_cons] at hz
      rcases hz with rfl | hz
      · exact hxy
      · exact le_trans hxy (h.1 z hz)
    · have hyx := compareJsonbcPair_nonneg x y hc
      refine List.Pairwise.cons ?_ (qsort_arg_insert_sorted x ys h.2)
      intro z hz
      rcases qsort_arg_insert_mem x ys z hz with rfl | hz
      · exact hyx
      · exact h.1 z hz

theorem qsort_arg_sorted :
    ∀ (l : List JsonbcPair), (qsort_arg l).1.Pairwise (fun a b => a.key ≤ b.key)
  | [] => by simp [qsort_arg]
  | x :: xs => by
    simp only [qsort_arg]
    exact qsort_arg_insert_sorted x _ (qsort_arg_sorted xs)

theorem uniqueifyJsonbcObject_loop_sublist :
    ∀ (rest : List JsonbcPair) (res : JsonbcPair) (kept l : List JsonbcPair),
      uniqueifyJsonbcObject_loop res kept rest = .ok l → l.Sublist (kept ++ res :: rest)
  | [], res, kept, l, h => by
    simp only [uniqueifyJsonbcObject_loop, Except.ok.injEq] at h
    subst h
    exact List.Sublist.refl _
  | ptr :: rest, res, kept, l, h => by
    simp only [uniqueifyJsonbcObject_loop] at h
    split at h
    · simp at h
    · split_ifs at h
      · have := uniqueifyJsonbcObject_loop_sublist rest ptr (kept ++ [res]) l h
        simpa using this
      · have := uniqueifyJsonbcObject_loop_sublist rest res kept l h
        refine this.trans ?_
        apply List.Sublist.append_left
        exact List.Sublist.cons₂ _ (List.sublist_cons_self _ _)

/-- The pairs that `uniqueifyJsonbcObject` leaves in an object are in ascending key order. -/
theorem uniqueifyJsonbcObject_sorted (object : JsonbcValue) (n : Nat) (ps : List JsonbcPair)
    (h : uniqueifyJsonbcObject object = .ok (jbvObject n ps)) :
    ps.Pairwise (fun a b => a.key ≤ b.key) := by
  cases object with
  | jbvObject nPairs pairs =>
    simp only [uniqueifyJsonbcObject] at h
    split_ifs at h with h1 h2
    · split at h
      · simp only [Except.ok.injEq, jbvObject.injEq] at h
        rw [← h.2]; exact List.Pairwise.nil
      · rename_i first rest hq
        split at h
        · simp at h
        · rename_i l hl
          simp only [Except.ok.injEq, jbvObject.injEq] at h
          rw [← h.2]
          have hs := uniqueifyJsonbcObject_loop_sublist rest first [] l hl
          have hsorted := qsort_arg_sorted (pairs.take nPairs)
          rw [hq] at hsorted
          exact hsorted.sublist (by simpa using hs)
    · simp only [Except.ok.injEq, jbvObject.injEq] at h
      rw [← h.2]; exact qsort_arg_sorted _
    · simp only [Except.ok.injEq, jbvObject.injEq] at h
      rw [← h.2]
      have hlen : (pairs.take nPairs).length ≤ 1 := by
        rw [List.length_take]; omega
      match hp : pairs.take nPairs, hlen with
      | [], _ => exact List.Pairwise.nil
      | [a], _ => exact List.pairwise_singleton _ _
      | a :: b :: r, hl => simp at hl
  | jbvNull => simp [uniqueifyJsonbcObject] at h
  | jbvString _ => simp [uniqueifyJsonbcObject] at h
  | jbvNumeric _ => simp [uniqueifyJsonbcObject] at h
  | jbvBool _ => simp [uniqueifyJsonbcObject] at h
  | jbvArray _ _ _ => simp [uniqueifyJsonbcObject] at h
  | jbvBinary _ _ => simp [uniqueifyJsonbcObject] at h

/-! ## C1 -/

mutual
theorem tokensOf_events (X : Env) (hnum : SmallNumericExact X) (names : Int → Bytes) :
    ∀ (v : JsonbcValue), KeysNamed X names v →
      (tokensOf X WJB_ELEM v).map eventOf = (eventsOf names true v).map some
        ∧ (tokensOf X WJB_VALUE v).map eventOf = (eventsOf names false v).map some
  | jbvArray _ es raw, hn => by
    simp only [KeysNamed] at hn
    simp [tokensOf, eventsOf, eventOf, tokensOfElems_events X hnum names es hn]
  | jbvObject _ ps, hn => by
    simp only [KeysNamed] at hn
    simp [tokensOf, eventsOf, eventOf, tokensOfPairs_events X hnum names ps hn]
  | jbvNull, _ => by simp [tokensOf, eventsOf, eventOf]
  | jbvString _, _ => by simp [tokensOf, eventsOf, eventOf]
  | jbvNumeric n, _ => by
    simp [tokensOf, eventsOf, eventOf, decodedScalar_exact X hnum]
  | jbvBool _, _ => by simp [tokensOf, eventsOf, eventOf]
  | jbvBinary _ _, _ => by simp [tokensOf, eventsOf, eventOf]
theorem tokensOfElems_events (X : Env) (hnum : SmallNumericExact X) (names : Int → Bytes) :
    ∀ (l : List JsonbcValue), KeysNamedElems X names l →
      (tokensOfElems X l).map eventOf = (eventsOfElems names l).map some
  | [], _ => by simp [tokensOfElems, eventsOfElems]
  | e :: rest, hn => by
    simp only [KeysNamedElems] at hn
    simp [tokensOfElems, eventsOfElems, (tokensOf_events X hnum names e hn.1).1,
      tokensOfElems_events X hnum names rest hn.2]
theorem tokensOfPairs_events (X : Env) (hnum : SmallNumericExact X) (names : Int → Bytes) :
    ∀ (l : List JsonbcPair), KeysNamedPairs X names l →
      (tokensOfPairs X l).map eventOf = (eventsOfPairs names l).map some
  | [], _ => by simp [tokensOfPairs, eventsOfPairs]
  | (JsonbcPair.mk k v o) :: rest, hn => by
    simp only [KeysNamedPairs] at hn
    obtain ⟨⟨h1, h2⟩, hv, hr⟩ := hn
    have hk : X.getNameById k = names k := by rw [← h2, h1]
    simp [tokensOfPairs, eventsOfPairs, eventOf, hk, (tokensOf_events X hnum names v hv).2,
      tokensOfPairs_events X hnum names rest hr]
end

/-- C1: for every value tree `t` made of scalars, arrays and objects (no binary node,
counts equal to the buffer lengths, key ids of type `int32`), whose key ids were obtained
from the names `names key` under a dictionary with `getNameById (getIdByName n) = n` on
these names, iterating the container `jb` returned by `JsonbcValueToJsonbc(t)` with
`JsonbcIteratorNext(skipNested = false)` until `WJB_DONE` yields exactly the token stream
of `t`: the same begin/end nesting, array elements in their original order with equal
scalar values, and object pairs in the order of the pair buffer with the original key
names and equal values; and the pair buffer of every object that the builder finishes
(`uniqueifyJsonbcObject` at `WJB_END_OBJECT`) is in ascending key-id order. The numeric
codec is assumed exact on small integers. -/
theorem C1_tree_roundtrip (X : Env) (hnum : SmallNumericExact X) (names : Int → Bytes)
    (t : JsonbcValue) (hw : WellFormed t) (hroot : IsAJsonbcScalar t = false)
    (hn : KeysNamed X names t) (jb : Jsonbc) (henc : JsonbcValueToJsonbc X t = .ok jb) :
    (∃ it toks, JsonbcIteratorInit jb.root = .ok it
      ∧ (∀ fuel, toks.length < fuel → iterateTokens X false fuel it = .ok toks)
      ∧ toks.map eventOf = (eventsOf names true t).map some)
    ∧ (∀ (object : JsonbcValue) (n : Nat) (ps : List JsonbcPair),
        uniqueifyJsonbcObject object = .ok (jbvObject n ps) →
          ps.Pairwise (fun a b => a.key ≤ b.key)) := by
  refine ⟨?_, uniqueifyJsonbcObject_sorted⟩
  rw [JsonbcValueToJsonbc_container X t hw hroot] at henc
  obtain ⟨hr, hfit⟩ := convertToJsonbc_ok X t hw hroot jb henc
  obtain ⟨it, hinit, _⟩ := iterate_root X t hw hroot hfit _ (Nat.lt_succ_self _)
  refine ⟨it, tokensOf X WJB_ELEM t, by rw [hr]; exact hinit, ?_,
    (tokensOf_events X hnum names t hn).1⟩
  intro fuel hf
  obtain ⟨it', hinit', hit'⟩ := iterate_root X t hw hroot hfit fuel hf
  rw [hinit] at hinit'
  cases hinit'
  exact hit'

theorem demoDocument_wellFormed : WellFormed demoDocument := by
  simp [demoDocument, WellFormed, WellFormedPairs, WellFormedElems]

theorem demoDocument_keysNamed : KeysNamed demoEnv demo_getNameById demoDocument := by
  simp [demoDocument, KeysNamed, KeysNamedPairs, KeysNamedElems, demoEnv, demo_getNameById,
    demo_getIdByName]

theorem C1_tree_roundtrip_witness :
    (SmallNumericExact demoEnv ∧ WellFormed demoDocument
      ∧ KeysNamed demoEnv demo_getNameById demoDocument
      ∧ JsonbcValueToJsonbc demoEnv demoDocument
          = .ok ⟨15, [17, 1, 11, 1, 47, 1, 14, 5, 6, 9, 120]⟩)
    ∧ ((∃ it toks, JsonbcIteratorInit (Jsonbc.mk 15 [17, 1, 11, 1, 47, 1, 14, 5, 6, 9, 120]).root
          = .ok it
        ∧ (∀ fuel, toks.length < fuel → iterateTokens demoEnv false fuel it = .ok toks)
        ∧ toks.map eventOf = (eventsOf demo_getNameById true demoDocument).map some)
      ∧ (∀ (object : JsonbcValue) (n : Nat) (ps : List JsonbcPair),
          uniqueifyJsonbcObject object = .ok (jbvObject n ps) →
            ps.Pairwise (fun a b => a.key ≤ b.key))) :=
  ⟨⟨demoEnv_smallNumericExact, demoDocument_wellFormed, demoDocument_keysNamed, rfl⟩,
    C1_tree_roundtrip demoEnv demoEnv_smallNumericExact demo_getNameById demoDocument
      demoDocument_wellFormed rfl demoDocument_keysNamed _ rfl⟩

/-! ## C4 -/

/-- C4, the code at a failing input: pushing `{"a": true, "a": "x"}` (begin object, key
`a`, value `true`, key `a`, value `"x"`, end object) returns an object with two pairs under
the one key id of `a`: `uniqueifyJsonbcObject` compares the type tags of the two values,
not the keys, to tell a duplicate. -/
theorem C4_duplicate_key_survives :
    pushJsonbcValues demoEnv []
        [(WJB_BEGIN_OBJECT, none), (WJB_KEY, some (jbvString [97])),
          (WJB_VALUE, some (jbvBool true)), (WJB_KEY, some (jbvString [97])),
          (WJB_VALUE, some (jbvString [120])), (WJB_END_OBJECT, none)]
      = .ok ([], some (jbvObject 2
          [JsonbcPair.mk 1 (jbvString [120]) 1, JsonbcPair.mk 1 (jbvBool true) 0])) := rfl

/-! ## C7, C8, C9: the code at failing inputs -/

/-- C7, the code at a failing input: with `x` the encoding of `{"a": 1}`,
`jsonbc_contains(x, x)` is false. -/
theorem C7_contains_self_false :
    JsonbcValueToJsonbc demoEnv (jbvObject 1 [JsonbcPair.mk 1 (jbvNumeric [0, 1]) 0])
        = .ok ⟨8, [9, 1, 11, 1]⟩
      ∧ jsonbc_contains demoEnv ⟨8, [9, 1, 11, 1]⟩ ⟨8, [9, 1, 11, 1]⟩ = .ok false :=
  ⟨rfl, rfl⟩

/-- C8, the code at a failing input: the encoding of `{"a": 1, "b": [true, null, "x"]}`
does not contain the encoding of `{"b": [true]}`. -/
theorem C8_contains_example_false :
    JsonbcValueToJsonbc demoEnv demoDocument
        = .ok ⟨15, [17, 1, 11, 1, 47, 1, 14, 5, 6, 9, 120]⟩
      ∧ JsonbcValueToJsonbc demoEnv
          (jbvObject 1 [JsonbcPair.mk 2 (jbvArray 1 [jbvBool true] false) 0])
        = .ok ⟨9, [9, 2, 23, 6, 5]⟩
      ∧ jsonbc_contains demoEnv ⟨15, [17, 1, 11, 1, 47, 1, 14, 5, 6, 9, 120]⟩
          ⟨9, [9, 2, 23, 6, 5]⟩ = .ok false :=
  ⟨rfl, rfl, rfl⟩

/-- C9, the code at a failing input: the encoding of `[1, 2, 3]` does not contain the
encoding of `[3, 1]`. -/
theorem C9_array_membership_false :
    JsonbcValueToJsonbc demoEnv
        (jbvArray 3 [jbvNumeric [0, 1], jbvNumeric [0, 2], jbvNumeric [0, 3]] false)
        = .ok ⟨11, [14, 11, 11, 11, 1, 2, 3]⟩
      ∧ JsonbcValueToJsonbc demoEnv (jbvArray 2 [jbvNumeric [0, 3], jbvNumeric [0, 1]] false)
        = .ok ⟨9, [10, 11, 11, 3, 1]⟩
      ∧ jsonbc_contains demoEnv ⟨11, [14, 11, 11, 11, 1, 2, 3]⟩ ⟨9, [10, 11, 11, 3, 1]⟩
        = .ok false :=
  ⟨rfl, rfl, rfl⟩

/-! ## C10 -/

theorem iterateSteps_uncons (X : Env) (skip : Bool) (n : Nat) (it it' : List JsonbcIterator)
    (x : TokenVal) (l : List TokenVal)
    (h : iterateSteps X skip (n + 1) it = .ok (x :: l, it')) :
    ∃ it1, JsonbcIteratorNext X it skip = .ok (x.1, x.2, it1)
      ∧ iterateSteps X skip n it1 = .ok (l, it') := by
  simp only [iterateSteps] at h
  cases hn : JsonbcIteratorNext X it skip with
  | error e => rw [hn] at h; simp at h
  | ok res =>
    obtain ⟨r, v, it1⟩ := res
    rw [hn] at h
    simp only at h
    cases hs : iterateSteps X skip n it1 with
    | error e => rw [hs] at h; simp at h
    | ok res2 =>
      obtain ⟨l', it''⟩ := res2
      rw [hs] at h
      simp only [Except.ok.injEq, Prod.mk.injEq, List.cons.injEq] at h
      obtain ⟨⟨rfl, rfl⟩, rfl⟩ := h
      exact ⟨it1, rfl, hs⟩

/-- Opening the root of an encoded object and taking its first two tokens, when the
object has a pair. -/
theorem object_first_tokens (X : Env) (n : Nat) (p : JsonbcPair) (ps : List JsonbcPair)
    (hw : WellFormed (jbvObject n (p :: ps)))
    (hfit : (enc X (jbvObject n (p :: ps))).1.length ≤ JENTRY_OFFLENMASK) :
    ∃ it0 it1 it2, JsonbcIteratorInit (enc X (jbvObject n (p :: ps))).1 = .ok it0
      ∧ JsonbcIteratorNext X it0 false
          = .ok (WJB_BEGIN_OBJECT,
              some (jbvObject (encPairs X 0 (p :: ps)).1.length []), it1 :: [])
      ∧ JsonbcIteratorNext X (it1 :: []) false
          = .ok (WJB_KEY, some (jbvString (X.getNameById p.key)), it2) := by
  obtain ⟨child, child', tok0, toks, hinit, hsw, htok, hrun⟩ :=
    container_run X _ hw (by simp [IsAJsonbcScalar, JsonbcValue.type]) hfit [] [] WJB_ELEM
  rw [List.append_nil] at hinit
  obtain ⟨k, v, o⟩ := p
  simp only [tokensOf, tokensOfPairs, List.cons_append, List.cons.injEq] at htok
  obtain ⟨rfl, rfl⟩ := htok
  simp only [List.length_cons] at hrun
  obtain ⟨it2, hnext, -⟩ := iterateSteps_uncons X false _ _ _ _ _ hrun
  exact ⟨[child], child', it2, hinit, (next_cons X false _ _).trans (hsw _), hnext⟩

/-- Opening the root of an encoded object and taking its first token. -/
theorem object_first_token (X : Env) (n : Nat) (ps : List JsonbcPair)
    (hw : WellFormed (jbvObject n ps))
    (hfit : (enc X (jbvObject n ps)).1.length ≤ JENTRY_OFFLENMASK) :
    ∃ it0 it1, JsonbcIteratorInit (enc X (jbvObject n ps)).1 = .ok it0
      ∧ JsonbcIteratorNext X it0 false
          = .ok (WJB_BEGIN_OBJECT, some (jbvObject (encPairs X 0 ps).1.length []), it1 :: []) := by
  obtain ⟨child, child', tok0, toks, hinit, hsw, htok, hrun⟩ :=
    container_run X _ hw (by simp [IsAJsonbcScalar, JsonbcValue.type]) hfit [] [] WJB_ELEM
  rw [List.append_nil] at hinit
  simp only [tokensOf, List.cons.injEq] at htok
  obtain ⟨rfl, rfl⟩ := htok
  exact ⟨[child], child', hinit, (next_cons X false _ _).trans (hsw _)⟩

theorem root_is_object (X : Env) (n : Nat) (ps : List JsonbcPair) (vl : Nat)
    (hfit : (enc X (jbvObject n ps)).1.length ≤ JENTRY_OFFLENMASK) :
    JB_ROOT_IS_OBJECT ⟨vl, (enc X (jbvObject n ps)).1⟩ = true := by
  obtain ⟨hh, hsz⟩ := object_header X n ps hfit
  simp only [JB_ROOT_IS_OBJECT, jsonbc_header, hh,
    mkHeader_flag _ _ (by simp [JB_FOBJECT] : JB_FOBJECT < 4) hsz]
  rfl

/-- Whenever the rhs object has a pair, `jsonbc_contains` answers false. -/
theorem jsonbc_contains_object_nonempty (X : Env) (nl nr : Nat) (pl pr : List JsonbcPair)
    (hwl : WellFormed (jbvObject nl pl)) (hwr : WellFormed (jbvObject nr pr))
    (jl jr : Jsonbc) (hl : JsonbcValueToJsonbc X (jbvObject nl pl) = .ok jl)
    (hr : JsonbcValueToJsonbc X (jbvObject nr pr) = .ok jr) (hne : pr ≠ []) :
    jsonbc_contains X jl jr = .ok false := by
  have hsl : IsAJsonbcScalar (jbvObject nl pl) = false := by
    simp [IsAJsonbcScalar, JsonbcValue.type]
  have hsr : IsAJsonbcScalar (jbvObject nr pr) = false := by
    simp [IsAJsonbcScalar, JsonbcValue.type]
  rw [JsonbcValueToJsonbc_container X _ hwl hsl] at hl
  rw [JsonbcValueToJsonbc_container X _ hwr hsr] at hr
  obtain ⟨hrl, hfl⟩ := convertToJsonbc_ok X _ hwl hsl jl hl
  obtain ⟨hrr, hfr⟩ := convertToJsonbc_ok X _ hwr hsr jr hr
  obtain ⟨p, ps, rfl⟩ := List.exists_cons_of_ne_nil hne
  obtain ⟨l0, l1, hli, hln⟩ := object_first_token X nl pl hwl hfl
  obtain ⟨r0, r1, r2, hri, hrn, hrk⟩ := object_first_tokens X nr p ps hwr hfr
  have hol : JB_ROOT_IS_OBJECT jl = true := by
    cases jl; simp only at hrl; subst hrl; exact root_is_object X nl pl _ hfl
  have hor : JB_ROOT_IS_OBJECT jr = true := by
    cases jr; simp only at hrr; subst hrr; exact root_is_object X nr _ _ hfr
  simp only [jsonbc_contains, hol, hor, hrl, hrr, hli, hri]
  simp only [ne_eq, not_true_eq_false, if_false]
  obtain ⟨f, hf⟩ : ∃ f, 3 * ((enc X (jbvObject nl pl)).1.length
      + (enc X (jbvObject nr (p :: ps))).1.length) + 3 = f + 2 :=
    ⟨3 * ((enc X (jbvObject nl pl)).1.length
      + (enc X (jbvObject nr (p :: ps))).1.length) + 1, rfl⟩
  rw [hf]
  simp only [JsonbcDeepContains, hln, hrn]
  simp only [ne_eq, not_true_eq_false, if_false, if_true]
  split_ifs
  · rfl
  · simp [JsonbcDeepContains_object, hrk, findJsonbcValueFromContainer]

/-- C10: for encoded objects lhs and rhs, if some key of rhs is absent from lhs, or is
present in lhs with a scalar of a different type or an unequal scalar value, then
`jsonbc_contains(lhs, rhs)` is false. -/
theorem C10_contains_mismatch_false (X : Env) (nl nr : Nat) (pl pr : List JsonbcPair)
    (hwl : WellFormed (jbvObject nl pl)) (hwr : WellFormed (jbvObject nr pr))
    (jl jr : Jsonbc) (hl : JsonbcValueToJsonbc X (jbvObject nl pl) = .ok jl)
    (hr : JsonbcValueToJsonbc X (jbvObject nr pr) = .ok jr)
    (hbad : ∃ p ∈ pr, PairUnmatched X pl p) :
    jsonbc_contains X jl jr = .ok false := by
  obtain ⟨p, hp, -⟩ := hbad
  exact jsonbc_contains_object_nonempty X nl nr pl pr hwl hwr jl jr hl hr
    (List.ne_nil_of_mem hp)

theorem C10_contains_mismatch_false_witness :
    (WellFormed demoDocument
      ∧ WellFormed (jbvObject 1 [JsonbcPair.mk 1 (jbvNumeric [0, 2]) 0])
      ∧ JsonbcValueToJsonbc demoEnv demoDocument
          = .ok ⟨15, [17, 1, 11, 1, 47, 1, 14, 5, 6, 9, 120]⟩
      ∧ JsonbcValueToJsonbc demoEnv (jbvObject 1 [JsonbcPair.mk 1 (jbvNumeric [0, 2]) 0])
          = .ok ⟨8, [9, 1, 11, 2]⟩
      ∧ ∃ p ∈ [JsonbcPair.mk 1 (jbvNumeric [0, 2]) 0],
          PairUnmatched demoEnv
            [JsonbcPair.mk 1 (jbvNumeric [0, 1]) 0,
              JsonbcPair.mk 2 (jbvArray 3 [jbvBool true, jbvNull, jbvString [120]] false) 1] p)
    ∧ jsonbc_contains demoEnv ⟨15, [17, 1, 11, 1, 47, 1, 14, 5, 6, 9, 120]⟩ ⟨8, [9, 1, 11, 2]⟩
        = .ok false :=
  have hw : WellFormed (jbvObject 1 [JsonbcPair.mk 1 (jbvNumeric [0, 2]) 0]) := by
    simp [WellFormed, WellFormedPairs]
  have hbad : ∃ p ∈ [JsonbcPair.mk 1 (jbvNumeric [0, 2]) 0],
      PairUnmatched demoEnv
        [JsonbcPair.mk 1 (jbvNumeric [0, 1]) 0,
          JsonbcPair.mk 2 (jbvArray 3 [jbvBool true, jbvNull, jbvString [120]] false) 1] p :=
    ⟨_, List.mem_singleton.2 rfl, Or.inr ⟨JsonbcPair.mk 1 (jbvNumeric [0, 1]) 0,
      List.mem_cons_self _ _, rfl, rfl, Or.inr rfl⟩⟩
  ⟨⟨demoDocument_wellFormed, hw, rfl, rfl, hbad⟩,
    C10_contains_mismatch_false demoEnv 2 1 _ _ demoDocument_wellFormed hw _ _ rfl rfl hbad⟩

/-! ## Lexicographic comparison -/

theorem cmp_swap_zero {α : Type} (c : α → α → Int) (h : ∀ x y, c x y < 0 ↔ 0 < c y x)
    (x y : α) : c x y = 0 ↔ c y x = 0 := by
  have h1 := h x y
  have h2 := h y x
  omega

theorem lexCmp_swap {α : Type} (c : α → α → Int) (h : ∀ x y, c x y < 0 ↔ 0 < c y x) :
    ∀ (l m : List α), lexCmp c l m < 0 ↔ 0 < lexCmp c m l
  | [], [] => by simp [lexCmp]
  | [], _ :: _ => by simp [lexCmp]
  | _ :: _, [] => by simp [lexCmp]
  | x :: xs, y :: ys => by
    have ih := lexCmp_swap c h xs ys
    have h0 := cmp_swap_zero c h x y
    have h1 := h x y
    simp only [lexCmp]
    by_cases hz : c x y = 0
    · rw [if_pos hz, if_pos (h0.1 hz)]
      exact ih
    · rw [if_neg hz, if_neg (fun e => hz (h0.2 e))]
      exact h1

theorem lexCmp_swap_zero {α : Type} (c : α → α → Int) (h : ∀ x y, c x y < 0 ↔ 0 < c y x)
    (l m : List α) : lexCmp c l m = 0 ↔ lexCmp c m l = 0 :=
  cmp_swap_zero (lexCmp c) (lexCmp_swap c h) l m

theorem lexCmp_trans {α : Type} (c : α → α → Int) (h : ∀ x y, c x y < 0 ↔ 0 < c y x)
    (ht : ∀ x y z, c x y ≤ 0 → c y z ≤ 0 → c x z ≤ 0) :
    ∀ (l m n : List α), lexCmp c l m ≤ 0 → lexCmp c m n ≤ 0 → lexCmp c l n ≤ 0
  | [], _, [] => by simp [lexCmp]
  | [], _, _ :: _ => by simp [lexCmp]
  | _ :: _, [], _ => by simp [lexCmp]
  | _ :: _, _ :: _, [] => by simp [lexCmp]
  | x :: xs, y :: ys, z :: zs => by
    have ih := lexCmp_trans c h ht xs ys zs
    simp only [lexCmp]
    intro h1 h2
    have hxy : c x y ≤ 0 := by
      by_cases e : c x y = 0
      · omega
      · rwa [if_neg e] at h1
    have hyz : c y z ≤ 0 := by
      by_cases e : c y z = 0
      · omega
      · rwa [if_neg e] at h2
    have hxz := ht x y z hxy hyz
    by_cases e : c x z = 0
    · rw [if_pos e]
      have hzx : c z x ≤ 0 := by have := (cmp_swap_zero c h x z).1 e; omega
      have hzy := ht z x y hzx hxy
      have hyx := ht y z x hyz hzx
      have e1 : c x y = 0 := by have := h x y; omega
      have e2 : c y z = 0 := by have := h y z; omega
      rw [if_pos e1] at h1
      rw [if_pos e2] at h2
      exact ih h1 h2
    · rwa [if_neg e]

/-! ## The comparison of tokens is an order -/

theorem valueCmp_swap (X : Env)
    (hs : ∀ x y, X.varstr_cmp x y < 0 ↔ 0 < X.varstr_cmp y x)
    (hn : ∀ x y, X.numeric_cmp x y < 0 ↔ 0 < X.numeric_cmp y x)
    (x y : Option JsonbcValue) : valueCmp X x y < 0 ↔ 0 < valueCmp X y x := by
  rcases x with _ | x <;> rcases y with _ | y
  · simp [valueCmp]
  · simp [valueCmp]
  · simp [valueCmp]
  · cases x <;> cases y <;> simp only [valueCmp, lt_self_iff_false]
    · exact hs _ _
    · exact hn _ _
    · rename_i a b
      cases a <;> cases b <;> simp
    · rename_i na _ ra nb _ rb
      by_cases e : na = nb
      · subst e
        cases ra <;> cases rb <;> simp
      · have e' : nb ≠ na := fun h => e h.symm
        simp only [ne_eq, e, e', not_false_eq_true, if_true]
        split_ifs <;> omega
    · rename_i na _ nb _
      by_cases e : na = nb
      · subst e; simp
      · have e' : nb ≠ na := fun h => e h.symm
        simp only [ne_eq, e, e', not_false_eq_true, if_true]
        split_ifs <;> omega

theorem tokenCmp_swap (X : Env)
    (hs : ∀ x y, X.varstr_cmp x y < 0 ↔ 0 < X.varstr_cmp y x)
    (hn : ∀ x y, X.numeric_cmp x y < 0 ↔ 0 < X.numeric_cmp y x)
    (x y : TokenVal) : tokenCmp X x y < 0 ↔ 0 < tokenCmp X y x := by
  have h := valueCmp_swap X hs hn x.2 y.2
  simp only [tokenCmp]
  split_ifs <;> omega

theorem valueRank_some_nonneg (v : JsonbcValue) : 0 ≤ valueRank (some v) := by
  simp [valueRank]

theorem valueCmp_trans (X : Env)
    (hst : CmpTransitive X.varstr_cmp) (hnt : CmpTransitive X.numeric_cmp)
    (x y z : Option JsonbcValue) (hxy : valueRank x = valueRank y)
    (hyz : valueRank y = valueRank z) :
    valueCmp X x y ≤ 0 → valueCmp X y z ≤ 0 → valueCmp X x z ≤ 0 := by
  rcases x with _ | x
  · rcases z with _ | z
    · simp [valueCmp]
    · have := valueRank_some_nonneg z
      simp only [valueRank] at hxy hyz this
      omega
  rcases y with _ | y
  · have := valueRank_some_nonneg x
    simp only [valueRank] at hxy this
    omega
  rcases z with _ | z
  · have := valueRank_some_nonneg y
    simp only [valueRank] at hyz this
    omega
  simp only [valueRank, Nat.cast_inj] at hxy hyz
  cases x <;> cases y <;> simp only [JsonbcValue.type] at hxy <;>
    first
    | (exfalso; revert hxy; decide)
    | (cases z <;> simp only [JsonbcValue.type] at hyz <;>
        first
        | (exfalso; revert hyz; decide)
        | skip)
  · simp [valueCmp]
  · exact hst _ _ _
  · exact hnt _ _ _
  · rename_i a b c
    cases a <;> cases b <;> cases c <;> simp [valueCmp]
  · rename_i na _ ra nb _ rb nc _ rc
    simp only [valueCmp]
    cases ra <;> cases rb <;> cases rc <;> simp only [ne_eq, not_true_eq_false, if_false,
      if_true, not_false_eq_true, Bool.false_eq_true] <;> split_ifs <;> omega
  · rename_i na _ nb _ nc _
    simp only [valueCmp]
    split_ifs <;> omega
  · simp [valueCmp]

theorem tokenCmp_trans (X : Env)
    (hst : CmpTransitive X.varstr_cmp) (hnt : CmpTransitive X.numeric_cmp)
    (x y z : TokenVal) :
    tokenCmp X x y ≤ 0 → tokenCmp X y z ≤ 0 → tokenCmp X x z ≤ 0 := by
  have h := valueCmp_trans X hst hnt x.2 y.2 z.2
  simp only [tokenCmp]
  intro h1 h2
  split_ifs at h1 h2 ⊢ <;> omega

/-! ## The loop of `compareJsonbcContainers` on token streams -/

theorem iterateSteps_zero_inv (X : Env) (skip : Bool) (it it' : List JsonbcIterator)
    (l : List TokenVal) (h : iterateSteps X skip 0 it = .ok (l, it')) : l = [] ∧ it' = it := by
  simp only [iterateSteps, Except.ok.injEq, Prod.mk.injEq] at h
  exact ⟨h.1.symm, h.2.symm⟩

theorem step_none_left (X : Env) (ra rb : JsonbcIteratorToken) (vb : Option JsonbcValue) :
    compareJsonbcContainers_step X ra rb none vb = .error .undefined_behaviour := by
  simp [compareJsonbcContainers_step]

theorem step_none_right (X : Env) (ra rb : JsonbcIteratorToken) (va : Option JsonbcValue) :
    compareJsonbcContainers_step X ra rb va none = .error .undefined_behaviour := by
  cases va <;> simp [compareJsonbcContainers_step]

/-- The loop of `compareJsonbcContainers` computes `cmpTokens` of the tokens that the two
iterators have left to return. -/
theorem loop_eq_cmpTokens (X : Env) :
    ∀ (la lb : List TokenVal) (ita itb : List JsonbcIterator) (fuel : Nat),
      iterateSteps X false la.length ita = .ok (la, []) →
      iterateSteps X false lb.length itb = .ok (lb, []) →
      (∀ t ∈ la, t.1 ≠ WJB_DONE) → (∀ t ∈ lb, t.1 ≠ WJB_DONE) → la.length < fuel →
      compareJsonbcContainers_loop X fuel ita itb = cmpTokens X la lb
  | [], lb, ita, itb, fuel, ha, hb, _, hdb, hf => by
    obtain ⟨f, rfl⟩ : ∃ f, fuel = f + 1 := ⟨fuel - 1, by simp at hf; omega⟩
    obtain ⟨-, rfl⟩ := iterateSteps_zero_inv X false _ _ _ ha
    cases lb with
    | nil =>
      obtain ⟨-, rfl⟩ := iterateSteps_zero_inv X false _ _ _ hb
      simp [compareJsonbcContainers_loop, JsonbcIteratorNext, cmpTokens]
    | cons y ys =>
      obtain ⟨it1, hn, -⟩ := iterateSteps_uncons X false _ _ _ _ _ hb
      have hy := hdb y (List.mem_cons_self _ _)
      have hna : JsonbcIteratorNext X [] false = .ok (WJB_DONE, none, []) := rfl
      simp only [compareJsonbcContainers_loop, hna, hn, cmpTokens, step_none_left]
      rw [if_neg (fun h => hy h.1.symm), if_neg (fun h => hy h.1.symm)]
  | x :: xs, lb, ita, itb, fuel, ha, hb, hda, hdb, hf => by
    obtain ⟨f, rfl⟩ : ∃ f, fuel = f + 1 := ⟨fuel - 1, by simp at hf; omega⟩
    obtain ⟨ita1, hna, ha1⟩ := iterateSteps_uncons X false _ _ _ _ _ ha
    have hx := hda x (List.mem_cons_self _ _)
    cases lb with
    | nil =>
      obtain ⟨-, rfl⟩ := iterateSteps_zero_inv X false _ _ _ hb
      have hnb : JsonbcIteratorNext X [] false = .ok (WJB_DONE, none, []) := rfl
      simp only [compareJsonbcContainers_loop, hna, hnb, cmpTokens, step_none_right]
      rw [if_neg (fun h => hx h.2), if_neg]
      rintro ⟨h1, h2⟩
      rw [h1] at h2
      rcases h2 with h2 | h2 <;> cases h2
    | cons y ys =>
      obtain ⟨itb1, hnb, hb1⟩ := iterateSteps_uncons X false _ _ _ _ _ hb
      have ih := loop_eq_cmpTokens X xs ys ita1 itb1 f ha1 hb1
        (fun t ht => hda t (List.mem_cons_of_mem _ ht))
        (fun t ht => hdb t (List.mem_cons_of_mem _ ht))
        (by simp only [List.length_cons] at hf; omega)
      simp only [compareJsonbcContainers_loop, hna, hnb, cmpTokens]
      rw [if_neg (fun h => hx h.2), ih]

/-! ## The number of tokens of an encoded tree -/

mutual
theorem tokensOf_length (X : Env) (kind : JsonbcIteratorToken) :
    ∀ (v : JsonbcValue), (tokensOf X kind v).length ≤ 1 + 2 * (enc X v).1.length
  | jbvNull => by simp [tokensOf]
  | jbvString _ => by simp [tokensOf]
  | jbvNumeric _ => by simp [tokensOf]
  | jbvBool _ => by simp [tokensOf]
  | jbvBinary _ _ => by simp [tokensOf]
  | jbvArray _ es raw => by
    have h := tokensOfElems_length X es
    have hp := encode_varbyte_length_pos (mkHeader (encElems X es).1.length
      (if raw then JB_FSCALAR else JB_FARRAY))
    simp only [tokensOf, enc, List.length_cons, List.length_append, List.length_nil]
    omega
  | jbvObject _ ps => by
    have h := tokensOfPairs_length X 0 ps
    have hp := encode_varbyte_length_pos (mkHeader (encPairs X 0 ps).1.length JB_FOBJECT)
    simp only [tokensOf, enc, List.length_cons, List.length_append, List.length_nil]
    omega
theorem tokensOfElems_length (X : Env) :
    ∀ (es : List JsonbcValue),
      (tokensOfElems X es).length ≤ 2 * ((encElems X es).1.length + (encElems X es).2.length)
  | [] => by simp [tokensOfElems]
  | e :: rest => by
    have h1 := tokensOf_length X WJB_ELEM e
    have h2 := tokensOfElems_length X rest
    have hp := encode_varbyte_length_pos (enc X e).2
    simp only [tokensOfElems, encElems, List.length_append]
    omega
theorem tokensOfPairs_length (X : Env) :
    ∀ (prev : Nat) (ps : List JsonbcPair),
      (tokensOfPairs X ps).length
        ≤ 2 * ((encPairs X prev ps).1.length + (encPairs X prev ps).2.length)
  | _, [] => by simp [tokensOfPairs]
  | prev, (JsonbcPair.mk key value _) :: rest => by
    have h1 := tokensOf_length X WJB_VALUE value
    have h2 := tokensOfPairs_length X (toUInt32 key) rest
    have hp := encode_varbyte_length_pos (enc X value).2
    have hk := encode_varbyte_length_pos (toUInt32 (key - (prev : Int)))
    simp only [tokensOfPairs, encPairs, List.length_append, List.length_cons]
    omega
end

/-- On the encodings of two well-formed containers, `compareJsonbcContainers` computes
`cmpTokens` of their token streams. -/
theorem compare_eq_cmpTokens (X : Env) (a b : JsonbcValue) (ha : WellFormed a)
    (hb : WellFormed b) (hsa : IsAJsonbcScalar a = false) (hsb : IsAJsonbcScalar b = false)
    (hfa : (enc X a).1.length ≤ JENTRY_OFFLENMASK)
    (hfb : (enc X b).1.length ≤ JENTRY_OFFLENMASK) :
    compareJsonbcContainers X (enc X a).1 (enc X b).1
      = cmpTokens X (tokensOf X WJB_ELEM a) (tokensOf X WJB_ELEM b) := by
  obtain ⟨ca, ca', ta0, tas, hia, hsa', hta, hra⟩ :=
    container_run X a ha hsa hfa [] [] WJB_ELEM
  obtain ⟨cb, cb', tb0, tbs, hib, hsb', htb, hrb⟩ :=
    container_run X b hb hsb hfb [] [] WJB_ELEM
  rw [List.append_nil] at hia hib
  have h1 := iterateSteps_cons X false _ _ _ _ _ _ _
    ((next_cons X false _ _).trans (hsa' _)) hra
  have h2 := iterateSteps_cons X false _ _ _ _ _ _ _
    ((next_cons X false _ _).trans (hsb' _)) hrb
  have hda := tokensOf_ne_done X WJB_ELEM (by decide) a
  have hdb := tokensOf_ne_done X WJB_ELEM (by decide) b
  have hla := tokensOf_length X WJB_ELEM a
  rw [hta] at hda hla ⊢
  rw [htb] at hdb ⊢
  simp only [compareJsonbcContainers, JsonbcIteratorInit, hia, hib]
  exact loop_eq_cmpTokens X _ _ _ _ _ h1 h2 hda hdb (by omega)

/-! ## The loop computes the lexicographic comparison -/

theorem step_eq_tokenCmp (X : Env) (rx ry : JsonbcIteratorToken) (vx vy : JsonbcValue)
    (hbx : vx.type ≠ 0x12) (hby : vy.type ≠ 0x12) (hd : rx ≠ ry → vx.type ≠ vy.type) :
    compareJsonbcContainers_step X rx ry (some vx) (some vy)
      = .ok (tokenCmp X (rx, some vx) (ry, some vy)) := by
  by_cases ht : vx.type = vy.type
  · have hr : rx = ry := by
      by_contra h
      exact hd h ht
    subst hr
    cases vx <;> cases vy <;> simp only [JsonbcValue.type] at ht hbx hby <;>
      first
      | (exfalso; revert ht; decide)
      | (exfalso; revert hbx; decide)
      | simp [compareJsonbcContainers_step, JsonbcValue.type, compareJsonbcScalarValue,
          tokenCmp, valueRank, valueCmp]
  · simp only [compareJsonbcContainers_step, tokenCmp, valueRank, if_neg ht, ite_self,
      Nat.cast_lt, gt_iff_lt]
    split_ifs <;> first | rfl | omega

theorem agree_cons (X : Env) (rx ry : JsonbcIteratorToken) (vx vy : JsonbcValue)
    (xs ys : List TokenVal) (hbx : vx.type ≠ 0x12) (hby : vy.type ≠ 0x12)
    (hex : rx ≠ WJB_END_ARRAY ∧ rx ≠ WJB_END_OBJECT) (hd : rx ≠ ry → vx.type ≠ vy.type)
    (h : tokenCmp X (rx, some vx) (ry, some vy) = 0 →
      cmpTokens X xs ys = .ok (lexCmp (tokenCmp X) xs ys)) :
    cmpTokens X ((rx, some vx) :: xs) ((ry, some vy) :: ys)
      = .ok (lexCmp (tokenCmp X) ((rx, some vx) :: xs) ((ry, some vy) :: ys)) := by
  simp only [cmpTokens, lexCmp]
  rw [if_neg (fun e => e.2.elim hex.1 hex.2), step_eq_tokenCmp X rx ry vx vy hbx hby hd]
  simp only
  by_cases h0 : tokenCmp X (rx, some vx) (ry, some vy) = 0
  · rw [if_pos h0, if_pos h0]
    exact h h0
  · rw [if_neg h0, if_neg h0]

theorem agree_end (X : Env) (r : JsonbcIteratorToken)
    (hr : r = WJB_END_ARRAY ∨ r = WJB_END_OBJECT) (xs ys : List TokenVal)
    (h : cmpTokens X xs ys = .ok (lexCmp (tokenCmp X) xs ys)) :
    cmpTokens X ((r, none) :: xs) ((r, none) :: ys)
      = .ok (lexCmp (tokenCmp X) ((r, none) :: xs) ((r, none) :: ys)) := by
  rcases hr with rfl | rfl <;> simp [cmpTokens, lexCmp, tokenCmp, valueRank, valueCmp, h]

theorem tokensOf_numeric_exact (X : Env) (hnum : SmallNumericExact X)
    (kind : JsonbcIteratorToken) (n : Numeric) :
    tokensOf X kind (jbvNumeric n) = [(kind, some (jbvNumeric n))] := by
  simp only [tokensOf]
  rw [decodedScalar_exact X hnum]

/-- The first token of a child carries a value of the type of the child. -/
theorem tokensOf_cons (X : Env) (hnum : SmallNumericExact X) (kind : JsonbcIteratorToken)
    (hk : kind = WJB_ELEM ∨ kind = WJB_VALUE) (v : JsonbcValue) (hw : WellFormed v) :
    ∃ r hv tl, tokensOf X kind v = (r, some hv) :: tl ∧ hv.type = v.type ∧ hv.type ≠ 0x12
      ∧ (r ≠ WJB_END_ARRAY ∧ r ≠ WJB_END_OBJECT) := by
  have hk1 : kind ≠ WJB_END_ARRAY ∧ kind ≠ WJB_END_OBJECT := by
    rcases hk with rfl | rfl <;> exact ⟨by decide, by decide⟩
  cases v with
  | jbvNull => exact ⟨kind, jbvNull, [], by simp [tokensOf], rfl, by decide, hk1⟩
  | jbvString s =>
    exact ⟨kind, jbvString s, [], by simp [tokensOf], rfl, by simp [JsonbcValue.type], hk1⟩
  | jbvNumeric n =>
    exact ⟨kind, jbvNumeric n, [], tokensOf_numeric_exact X hnum kind n, rfl,
      by simp [JsonbcValue.type], hk1⟩
  | jbvBool b =>
    exact ⟨kind, jbvBool b, [], by simp [tokensOf], rfl, by simp [JsonbcValue.type], hk1⟩
  | jbvArray n es raw =>
    exact ⟨WJB_BEGIN_ARRAY, jbvArray (encElems X es).1.length [] raw,
      tokensOfElems X es ++ [(WJB_END_ARRAY, none)], by simp only [tokensOf], rfl,
      by simp [JsonbcValue.type], by decide, by decide⟩
  | jbvObject n ps =>
    exact ⟨WJB_BEGIN_OBJECT, jbvObject (encPairs X 0 ps).1.length [],
      tokensOfPairs X ps ++ [(WJB_END_OBJECT, none)], by simp only [tokensOf], rfl,
      by simp [JsonbcValue.type], by decide, by decide⟩
  | jbvBinary _ _ => simp [WellFormed] at hw

theorem tokenCmp_ne_zero_of_type_ne (X : Env) (rx ry : JsonbcIteratorToken)
    (vx vy : JsonbcValue) (h : vx.type ≠ vy.type) :
    tokenCmp X (rx, some vx) (ry, some vy) ≠ 0 := by
  simp only [tokenCmp, valueRank, Nat.cast_lt]
  split_ifs <;> omega

/-- Children of different types are told apart at their first tokens. -/
theorem agree_of_type_ne (X : Env) (hnum : SmallNumericExact X) (kind : JsonbcIteratorToken)
    (hk : kind = WJB_ELEM ∨ kind = WJB_VALUE) (a b : JsonbcValue) (ha : WellFormed a)
    (hb : WellFormed b) (ht : a.type ≠ b.type) (ra rb : List TokenVal) :
    cmpTokens X (tokensOf X kind a ++ ra) (tokensOf X kind b ++ rb)
      = .ok (lexCmp (tokenCmp X) (tokensOf X kind a ++ ra) (tokensOf X kind b ++ rb)) := by
  obtain ⟨r1, v1, t1, e1, ht1, hb1, he1⟩ := tokensOf_cons X hnum kind hk a ha
  obtain ⟨r2, v2, t2, e2, ht2, hb2, -⟩ := tokensOf_cons X hnum kind hk b hb
  rw [e1, e2]
  simp only [List.cons_append]
  have hne : v1.type ≠ v2.type := by rw [ht1, ht2]; exact ht
  exact agree_cons X r1 r2 v1 v2 _ _ hb1 hb2 he1 (fun _ => hne)
    (fun h0 => absurd h0 (tokenCmp_ne_zero_of_type_ne X r1 r2 v1 v2 hne))

theorem tokenCmp_array_zero (X : Env) (r : JsonbcIteratorToken) (na nb : Nat)
    (ea eb : List JsonbcValue) (rawa rawb : Bool)
    (h : tokenCmp X (r, some (jbvArray na ea rawa)) (r, some (jbvArray nb eb rawb)) = 0) :
    na = nb ∧ rawa = rawb := by
  simp only [tokenCmp, valueRank, JsonbcValue.type, lt_self_iff_false, if_false,
    valueCmp] at h
  by_cases e : na = nb
  · refine ⟨e, ?_⟩
    cases rawa <;> cases rawb <;> simp_all
  · rw [if_pos e] at h
    split_ifs at h
    omega

theorem tokenCmp_object_zero (X : Env) (r : JsonbcIteratorToken) (na nb : Nat)
    (pa pb : List JsonbcPair)
    (h : tokenCmp X (r, some (jbvObject na pa)) (r, some (jbvObject nb pb)) = 0) :
    na = nb := by
  simp only [tokenCmp, valueRank, JsonbcValue.type, lt_self_iff_false, if_false,
    valueCmp] at h
  by_contra e
  rw [if_pos e] at h
  split_ifs at h
  omega

theorem tokenCmp_string (X : Env) (r : JsonbcIteratorToken) (a b : Bytes) :
    tokenCmp X (r, some (jbvString a)) (r, some (jbvString b)) = X.varstr_cmp a b := by
  simp [tokenCmp, valueRank, JsonbcValue.type, valueCmp]

theorem tokenCmp_numeric (X : Env) (r : JsonbcIteratorToken) (a b : Numeric) :
    tokenCmp X (r, some (jbvNumeric a)) (r, some (jbvNumeric b)) = X.numeric_cmp a b := by
  simp [tokenCmp, valueRank, JsonbcValue.type, valueCmp]

theorem tokenCmp_bool_zero (X : Env) (r : JsonbcIteratorToken) (a b : Bool)
    (h : tokenCmp X (r, some (jbvBool a)) (r, some (jbvBool b)) = 0) : a = b := by
  cases a <;> cases b <;> simp [tokenCmp, valueRank, JsonbcValue.type, valueCmp] at h ⊢

/-- The dictionary is injective on the keys of trees named by one map. -/
theorem key_eq_of_name_eq (X : Env) (names : Int → Bytes) (ka kb : Int)
    (ha : X.getIdByName (names ka) = ka ∧ X.getNameById (X.getIdByName (names ka)) = names ka)
    (hb : X.getIdByName (names kb) = kb ∧ X.getNameById (X.getIdByName (names kb)) = names kb)
    (h : X.getNameById ka = X.getNameById kb) : ka = kb := by
  have h1 : X.getNameById ka = names ka := by rw [← ha.2, ha.1]
  have h2 : X.getNameById kb = names kb := by rw [← hb.2, hb.1]
  rw [h1, h2] at h
  rw [← ha.1, ← hb.1, h]

mutual
/-- On the tokens of two children met at the same place, followed by tokens on which
the loop computes the lexicographic comparison whenever the two children are encoded
alike, the loop computes the lexicographic comparison. -/
theorem value_agree (X : Env) (hnum : SmallNumericExact X)
    (hse : ∀ x y, X.varstr_cmp x y = 0 → x = y) (hne : ∀ x y, X.numeric_cmp x y = 0 → x = y)
    (names : Int → Bytes) :
    ∀ (a : JsonbcValue), WellFormed a → KeysNamed X names a →
    ∀ (b : JsonbcValue), WellFormed b → KeysNamed X names b →
    ∀ (kind : JsonbcIteratorToken), kind = WJB_ELEM ∨ kind = WJB_VALUE →
    ∀ (ra rb : List TokenVal),
      (enc X a = enc X b → cmpTokens X ra rb = .ok (lexCmp (tokenCmp X) ra rb)) →
      cmpTokens X (tokensOf X kind a ++ ra) (tokensOf X kind b ++ rb)
        = .ok (lexCmp (tokenCmp X) (tokensOf X kind a ++ ra) (tokensOf X kind b ++ rb))
  | jbvNull, hwa, _, b, hwb, _, kind, hk, ra, rb, hc => by
    by_cases ht : (jbvNull).type = b.type
    · cases b <;> first | (simp [JsonbcValue.type] at ht; done) | skip
      have hk1 : kind ≠ WJB_END_ARRAY ∧ kind ≠ WJB_END_OBJECT := by
        rcases hk with rfl | rfl <;> exact ⟨by decide, by decide⟩
      simp only [tokensOf, List.singleton_append]
      exact agree_cons X kind kind _ _ _ _ (by decide) (by decide) hk1 (fun h => absurd rfl h)
        (fun _ => hc rfl)
    · exact agree_of_type_ne X hnum kind hk _ b hwa hwb ht ra rb
  | jbvString s, hwa, _, b, hwb, _, kind, hk, ra, rb, hc => by
    by_cases ht : (jbvString s).type = b.type
    · cases b <;> first | (simp [JsonbcValue.type] at ht; done) | skip
      have hk1 : kind ≠ WJB_END_ARRAY ∧ kind ≠ WJB_END_OBJECT := by
        rcases hk with rfl | rfl <;> exact ⟨by decide, by decide⟩
      simp only [tokensOf, List.singleton_append]
      refine agree_cons X kind kind _ _ _ _ (by simp [JsonbcValue.type])
        (by simp [JsonbcValue.type]) hk1 (fun h => absurd rfl h) (fun h0 => hc ?_)
      rw [tokenCmp_string] at h0
      rw [hse _ _ h0]
    · exact agree_of_type_ne X hnum kind hk _ b hwa hwb ht ra rb
  | jbvNumeric n, hwa, _, b, hwb, _, kind, hk, ra, rb, hc => by
    by_cases ht : (jbvNumeric n).type = b.type
    · cases b <;> first | (simp [JsonbcValue.type] at ht; done) | skip
      have hk1 : kind ≠ WJB_END_ARRAY ∧ kind ≠ WJB_END_OBJECT := by
        rcases hk with rfl | rfl <;> exact ⟨by decide, by decide⟩
      rw [tokensOf_numeric_exact X hnum, tokensOf_numeric_exact X hnum]
      simp only [List.singleton_append]
      refine agree_cons X kind kind _ _ _ _ (by simp [JsonbcValue.type])
        (by simp [JsonbcValue.type]) hk1 (fun h => absurd rfl h) (fun h0 => hc ?_)
      rw [tokenCmp_numeric] at h0
      rw [hne _ _ h0]
    · exact agree_of_type_ne X hnum kind hk _ b hwa hwb ht ra rb
  | jbvBool c, hwa, _, b, hwb, _, kind, hk, ra, rb, hc => by
    by_cases ht : (jbvBool c).type = b.type
    · cases b <;> first | (simp [JsonbcValue.type] at ht; done) | skip
      have hk1 : kind ≠ WJB_END_ARRAY ∧ kind ≠ WJB_END_OBJECT := by
        rcases hk with rfl | rfl <;> exact ⟨by decide, by decide⟩
      simp only [tokensOf, List.singleton_append]
      refine agree_cons X kind kind _ _ _ _ (by simp [JsonbcValue.type])
        (by simp [JsonbcValue.type]) hk1 (fun h => absurd rfl h) (fun h0 => hc ?_)
      rw [tokenCmp_bool_zero X kind _ _ h0]
    · exact agree_of_type_ne X hnum kind hk _ b hwa hwb ht ra rb
  | jbvBinary _ _, hwa, _, _, _, _, _, _, _, _, _ => by simp [WellFormed] at hwa
  | jbvArray n ea rawa, hwa, hka, b, hwb, hkb, kind, hk, ra, rb, hc => by
    by_cases ht : (jbvArray n ea rawa).type = b.type
    · cases b <;> first | (simp [JsonbcValue.type] at ht; done) | skip
      rename_i m eb rawb
      simp only [WellFormed] at hwa hwb
      simp only [KeysNamed] at hka hkb
      simp only [tokensOf, List.cons_append, List.append_assoc, List.singleton_append]
      refine agree_cons X _ _ _ _ _ _ (by simp [JsonbcValue.type])
        (by simp [JsonbcValue.type]) ⟨by decide, by decide⟩ (fun h => absurd rfl h)
        (fun h0 => ?_)
      obtain ⟨hsz, hraw⟩ := tokenCmp_array_zero X _ _ _ _ _ _ _ h0
      subst hraw
      refine elems_agree X hnum hse hne names ea hwa.2 hka eb hwb.2 hkb hsz ra rb
        (fun he => hc ?_)
      simp only [enc, he]
    · exact agree_of_type_ne X hnum kind hk _ b hwa hwb ht ra rb
  | jbvObject n pa, hwa, hka, b, hwb, hkb, kind, hk, ra, rb, hc => by
    by_cases ht : (jbvObject n pa).type = b.type
    · cases b <;> first | (simp [JsonbcValue.type] at ht; done) | skip
      rename_i m pb
      simp only [WellFormed] at hwa hwb
      simp only [KeysNamed] at hka hkb
      simp only [tokensOf, List.cons_append, List.append_assoc, List.singleton_append]
      refine agree_cons X _ _ _ _ _ _ (by simp [JsonbcValue.type])
        (by simp [JsonbcValue.type]) ⟨by decide, by decide⟩ (fun h => absurd rfl h)
        (fun h0 => ?_)
      have hsz := tokenCmp_object_zero X _ _ _ _ _ h0
      refine pairs_agree X hnum hse hne names pa hwa.2 hka pb hwb.2 hkb 0 hsz ra rb
        (fun he => hc ?_)
      simp only [enc, he]
    · exact agree_of_type_ne X hnum kind hk _ b hwa hwb ht ra rb
theorem elems_agree (X : Env) (hnum : SmallNumericExact X)
    (hse : ∀ x y, X.varstr_cmp x y = 0 → x = y) (hne : ∀ x y, X.numeric_cmp x y = 0 → x = y)
    (names : Int → Bytes) :
    ∀ (ea : List JsonbcValue), WellFormedElems ea → KeysNamedElems X names ea →
    ∀ (eb : List JsonbcValue), WellFormedElems eb → KeysNamedElems X names eb →
    (encElems X ea).1.length = (encElems X eb).1.length →
    ∀ (ra rb : List TokenVal),
      (encElems X ea = encElems X eb → cmpTokens X ra rb = .ok (lexCmp (tokenCmp X) ra rb)) →
      cmpTokens X (tokensOfElems X ea ++ (WJB_END_ARRAY, none) :: ra)
          (tokensOfElems X eb ++ (WJB_END_ARRAY, none) :: rb)
        = .ok (lexCmp (tokenCmp X) (tokensOfElems X ea ++ (WJB_END_ARRAY, none) :: ra)
            (tokensOfElems X eb ++ (WJB_END_ARRAY, none) :: rb))
  | [], _, _, eb, _, _, hsz, ra, rb, hc => by
    cases eb with
    | nil =>
      simp only [tokensOfElems, List.nil_append]
      exact agree_end X _ (Or.inl rfl) ra rb (hc rfl)
    | cons b eb =>
      have := encode_varbyte_length_pos (enc X b).2
      simp only [encElems, List.length_nil, List.length_append] at hsz
      omega
  | a :: ea, hwa, hka, eb, hwb, hkb, hsz, ra, rb, hc => by
    cases eb with
    | nil =>
      have := encode_varbyte_length_pos (enc X a).2
      simp only [encElems, List.length_nil, List.length_append] at hsz
      omega
    | cons b eb =>
      simp only [WellFormedElems] at hwa hwb
      simp only [KeysNamedElems] at hka hkb
      simp only [tokensOfElems, List.append_assoc]
      refine value_agree X hnum hse hne names a hwa.1 hka.1 b hwb.1 hkb.1 WJB_ELEM
        (Or.inl rfl) _ _ (fun he => ?_)
      simp only [encElems, he, List.length_append, add_right_inj] at hsz
      refine elems_agree X hnum hse hne names ea hwa.2 hka.2 eb hwb.2 hkb.2 hsz ra rb
        (fun he2 => hc ?_)
      simp only [encElems, he, he2]
theorem pairs_agree (X : Env) (hnum : SmallNumericExact X)
    (hse : ∀ x y, X.varstr_cmp x y = 0 → x = y) (hne : ∀ x y, X.numeric_cmp x y = 0 → x = y)
    (names : Int → Bytes) :
    ∀ (pa : List JsonbcPair), WellFormedPairs pa → KeysNamedPairs X names pa →
    ∀ (pb : List JsonbcPair), WellFormedPairs pb → KeysNamedPairs X names pb →
    ∀ (prev : Nat), (encPairs X prev pa).1.length = (encPairs X prev pb).1.length →
    ∀ (ra rb : List TokenVal),
      (encPairs X prev pa = encPairs X prev pb →
        cmpTokens X ra rb = .ok (lexCmp (tokenCmp X) ra rb)) →
      cmpTokens X (tokensOfPairs X pa ++ (WJB_END_OBJECT, none) :: ra)
          (tokensOfPairs X pb ++ (WJB_END_OBJECT, none) :: rb)
        = .ok (lexCmp (tokenCmp X) (tokensOfPairs X pa ++ (WJB_END_OBJECT, none) :: ra)
            (tokensOfPairs X pb ++ (WJB_END_OBJECT, none) :: rb))
  | [], _, _, pb, _, _, prev, hsz, ra, rb, hc => by
    cases pb with
    | nil =>
      simp only [tokensOfPairs, List.nil_append]
      exact agree_end X _ (Or.inr rfl) ra rb (hc rfl)
    | cons b pb =>
      obtain ⟨kb, vb, ob⟩ := b
      have := encode_varbyte_length_pos (enc X vb).2
      simp only [encPairs, List.length_nil, List.length_append] at hsz
      omega
  | (JsonbcPair.mk ka va oa) :: pa, hwa, hka, pb, hwb, hkb, prev, hsz, ra, rb, hc => by
    cases pb with
    | nil =>
      have := encode_varbyte_length_pos (enc X va).2
      simp only [encPairs, List.length_nil, List.length_append] at hsz
      omega
    | cons b pb =>
      obtain ⟨kb, vb, ob⟩ := b
      simp only [WellFormedPairs] at hwa hwb
      simp only [KeysNamedPairs] at hka hkb
      simp only [tokensOfPairs, List.cons_append, List.append_assoc]
      refine agree_cons X _ _ _ _ _ _ (by simp [JsonbcValue.type])
        (by simp [JsonbcValue.type]) ⟨by decide, by decide⟩ (fun h => absurd rfl h)
        (fun h0 => ?_)
      rw [tokenCmp_string] at h0
      have hkey := key_eq_of_name_eq X names ka kb hka.1 hkb.1 (hse _ _ h0)
      subst hkey
      refine value_agree X hnum hse hne names va hwa.2.1 hka.2.1 vb hwb.2.1 hkb.2.1 WJB_VALUE
        (Or.inr rfl) _ _ (fun he => ?_)
      simp only [encPairs, he, List.length_append, add_right_inj] at hsz
      refine pairs_agree X hnum hse hne names pa hwa.2.2 hka.2.2 pb hwb.2.2 hkb.2.2
        (toUInt32 ka) hsz ra rb (fun he2 => hc ?_)
      simp only [encPairs, he, he2]
end

/-- On the encodings of two well-formed containers whose keys one map names,
`compareJsonbcContainers` returns the lexicographic comparison of the token streams. -/
theorem compare_eq_lex (X : Env) (hnum : SmallNumericExact X)
    (hse : ∀ x y, X.varstr_cmp x y = 0 → x = y) (hne : ∀ x y, X.numeric_cmp x y = 0 → x = y)
    (names : Int → Bytes) (ta tb : JsonbcValue) (hwa : WellFormed ta) (hwb : WellFormed tb)
    (hsa : IsAJsonbcScalar ta = false) (hsb : IsAJsonbcScalar tb = false)
    (hka : KeysNamed X names ta) (hkb : KeysNamed X names tb) (a b : Jsonbc)
    (ha : JsonbcValueToJsonbc X ta = .ok a) (hb : JsonbcValueToJsonbc X tb = .ok b) :
    compareJsonbcContainers X a.root b.root
      = .ok (lexCmp (tokenCmp X) (tokensOf X WJB_ELEM ta) (tokensOf X WJB_ELEM tb)) := by
  rw [JsonbcValueToJsonbc_container X _ hwa hsa] at ha
  rw [JsonbcValueToJsonbc_container X _ hwb hsb] at hb
  obtain ⟨hra, hfa⟩ := convertToJsonbc_ok X _ hwa hsa a ha
  obtain ⟨hrb, hfb⟩ := convertToJsonbc_ok X _ hwb hsb b hb
  rw [hra, hrb, compare_eq_cmpTokens X ta tb hwa hwb hsa hsb hfa hfb]
  have h := value_agree X hnum hse hne names ta hwa hka tb hwb hkb WJB_ELEM (Or.inl rfl)
    [] [] (fun _ => rfl)
  simpa only [List.append_nil] using h

/-! ## The comparison of the concrete environment -/

theorem cmpBytes_eq_lexCmp :
    ∀ (a b : Bytes), cmpBytes a b
      = lexCmp (fun x y : Nat => if x < y then (-1 : Int) else if y < x then 1 else 0) a b
  | [], [] => rfl
  | [], _ :: _ => rfl
  | _ :: _, [] => rfl
  | x :: xs, y :: ys => by
    have ih := cmpBytes_eq_lexCmp xs ys
    simp only [cmpBytes, lexCmp, ih]
    by_cases h1 : x < y
    · simp [h1]
    · by_cases h2 : y < x
      · simp [h1, h2]
      · simp [h1, h2]

theorem cmpBytes_exact : ∀ (a b : Bytes), cmpBytes a b = 0 → a = b
  | [], [], _ => rfl
  | [], _ :: _, h => by simp [cmpBytes] at h
  | _ :: _, [], h => by simp [cmpBytes] at h
  | x :: xs, y :: ys, h => by
    simp only [cmpBytes] at h
    by_cases h1 : x < y
    · simp [h1] at h
    · by_cases h2 : y < x
      · simp [h1, h2] at h
      · rw [if_neg h1, if_neg h2] at h
        have e : x = y := by omega
        rw [e, cmpBytes_exact xs ys h]

theorem cmpBytes_antisymmetric : CmpAntisymmetric cmpBytes := by
  refine ⟨fun a b => ?_, cmpBytes_exact⟩
  rw [cmpBytes_eq_lexCmp, cmpBytes_eq_lexCmp]
  apply lexCmp_swap
  intro x y
  split_ifs <;> omega

theorem cmpBytes_transitive : CmpTransitive cmpBytes := by
  intro a b c
  rw [cmpBytes_eq_lexCmp, cmpBytes_eq_lexCmp, cmpBytes_eq_lexCmp]
  apply lexCmp_trans
  · intro x y
    split_ifs <;> omega
  · intro x y z
    split_ifs <;> omega

/-! ## The order under comparisons that answer 0 on identical arguments only -/

/-- Antisymmetry of `compareJsonbcContainers` on encoded containers when the string and
numeric comparisons change sign under exchange and answer 0 on identical byte strings
only: both comparisons return, and their results have opposite signs. -/
theorem compare_antisymmetric_of_exact (X : Env) (hnum : SmallNumericExact X)
    (hstr : CmpAntisymmetric X.varstr_cmp) (hcmp : CmpAntisymmetric X.numeric_cmp)
    (names : Int → Bytes) (ta tb : JsonbcValue) (hwa : WellFormed ta) (hwb : WellFormed tb)
    (hsa : IsAJsonbcScalar ta = false) (hsb : IsAJsonbcScalar tb = false)
    (hka : KeysNamed X names ta) (hkb : KeysNamed X names tb) (a b : Jsonbc)
    (ha : JsonbcValueToJsonbc X ta = .ok a) (hb : JsonbcValueToJsonbc X tb = .ok b) :
    ∃ r s : Int, compareJsonbcContainers X a.root b.root = .ok r
      ∧ compareJsonbcContainers X b.root a.root = .ok s
      ∧ (r < 0 ↔ 0 < s) ∧ (r = 0 ↔ s = 0) ∧ (0 < r ↔ s < 0) := by
  have hab := compare_eq_lex X hnum hstr.2 hcmp.2 names ta tb hwa hwb hsa hsb hka hkb a b ha hb
  have hba := compare_eq_lex X hnum hstr.2 hcmp.2 names tb ta hwb hwa hsb hsa hkb hka b a hb ha
  have hsw := tokenCmp_swap X hstr.1 hcmp.1
  refine ⟨_, _, hab, hba, lexCmp_swap _ hsw _ _, lexCmp_swap_zero _ hsw _ _, ?_⟩
  exact (lexCmp_swap _ hsw _ _).symm

/-- Transitivity of `compareJsonbcContainers` on encoded containers when the string and
numeric comparisons are transitive, change sign under exchange and answer 0 on identical
byte strings only. -/
theorem compare_transitive_of_exact (X : Env) (hnum : SmallNumericExact X)
    (hstr : CmpAntisymmetric X.varstr_cmp) (hstrt : CmpTransitive X.varstr_cmp)
    (hcmp : CmpAntisymmetric X.numeric_cmp) (hcmpt : CmpTransitive X.numeric_cmp)
    (names : Int → Bytes) (ta tb tc : JsonbcValue)
    (hwa : WellFormed ta) (hwb : WellFormed tb) (hwc : WellFormed tc)
    (hsa : IsAJsonbcScalar ta = false) (hsb : IsAJsonbcScalar tb = false)
    (hsc : IsAJsonbcScalar tc = false)
    (hka : KeysNamed X names ta) (hkb : KeysNamed X names tb) (hkc : KeysNamed X names tc)
    (a b c : Jsonbc) (ha : JsonbcValueToJsonbc X ta = .ok a)
    (hb : JsonbcValueToJsonbc X tb = .ok b) (hc : JsonbcValueToJsonbc X tc = .ok c) :
    ∃ r s t : Int, compareJsonbcContainers X a.root b.root = .ok r
      ∧ compareJsonbcContainers X b.root c.root = .ok s
      ∧ compareJsonbcContainers X a.root c.root = .ok t
      ∧ (r ≤ 0 → s ≤ 0 → t ≤ 0) := by
  have hab := compare_eq_lex X hnum hstr.2 hcmp.2 names ta tb hwa hwb hsa hsb hka hkb a b ha hb
  have hbc := compare_eq_lex X hnum hstr.2 hcmp.2 names tb tc hwb hwc hsb hsc hkb hkc b c hb hc
  have hac := compare_eq_lex X hnum hstr.2 hcmp.2 names ta tc hwa hwc hsa hsc hka hkc a c ha hc
  exact ⟨_, _, _, hab, hbc, hac,
    lexCmp_trans _ (tokenCmp_swap X hstr.1 hcmp.1) (tokenCmp_trans X hstrt hcmpt) _ _ _⟩

/-! ## C5, C6 -/

theorem stripZeros_cmp_swap (x y : Numeric) :
    demo_numeric_cmp_value x y < 0 ↔ 0 < demo_numeric_cmp_value y x :=
  cmpBytes_antisymmetric.1 _ _

theorem stripZeros_cmp_trans : CmpTransitive demo_numeric_cmp_value :=
  fun x y z h1 h2 => cmpBytes_transitive (stripZeros x) (stripZeros y) (stripZeros z) h1 h2

/-- C5, the code at a failing input: `a` is the encoding of the array `[v, 5]` and `b` of
the array `[w]`, where `v` (14 bytes) and `w` (16 bytes) are two images of one numeric, so
that `numeric_cmp` answers 0 on them. The begin tokens carry the same count 2, the first
elements compare as 0, and the next pass meets an element on one side and the end of the
array on the other: it reads the value of the side that ended, which the iterator did
not write. This happens for `(a, b)` and for `(b, a)`. -/
theorem C5_unwritten_value_both_orders :
    JsonbcValueToJsonbc valueEnv
        (jbvArray 2 [jbvNumeric [1, 7, 0, 0, 0, 0, 0, 0, 0, 0, 0, 0, 0, 0], jbvNumeric [0, 5]]
          false)
      = .ok ⟨22, [10, 114, 11, 1, 7, 0, 0, 0, 0, 0, 0, 0, 0, 0, 0, 0, 0, 5]⟩
    ∧ JsonbcValueToJsonbc valueEnv
        (jbvArray 1 [jbvNumeric [1, 7, 0, 0, 0, 0, 0, 0, 0, 0, 0, 0, 0, 0, 0, 0]] false)
      = .ok ⟨23, [10, 130, 1, 1, 7, 0, 0, 0, 0, 0, 0, 0, 0, 0, 0, 0, 0, 0, 0]⟩
    ∧ valueEnv.numeric_cmp [1, 7, 0, 0, 0, 0, 0, 0, 0, 0, 0, 0, 0, 0]
        [1, 7, 0, 0, 0, 0, 0, 0, 0, 0, 0, 0, 0, 0, 0, 0] = 0
    ∧ compareJsonbcContainers valueEnv
        [10, 114, 11, 1, 7, 0, 0, 0, 0, 0, 0, 0, 0, 0, 0, 0, 0, 5]
        [10, 130, 1, 1, 7, 0, 0, 0, 0, 0, 0, 0, 0, 0, 0, 0, 0, 0, 0]
      = .error .undefined_behaviour
    ∧ compareJsonbcContainers valueEnv
        [10, 130, 1, 1, 7, 0, 0, 0, 0, 0, 0, 0, 0, 0, 0, 0, 0, 0, 0]
        [10, 114, 11, 1, 7, 0, 0, 0, 0, 0, 0, 0, 0, 0, 0, 0, 0, 5]
      = .error .undefined_behaviour :=
  ⟨rfl, rfl, rfl, rfl, rfl⟩

/-- C6, the code at a failing input: `a`, `b` and `c` are the encodings of `[v, 6]`,
`[w]` and `[v, 5]`, where `v` (14 bytes) and `w` (16 bytes) are two images of one
numeric. Comparing `a` with `b` and `b` with `c` reads, after the equal first elements,
the value of the side that ended, which the iterator did not write; comparing `a` with
`c` returns 1. -/
theorem C6_unwritten_value_chain :
    JsonbcValueToJsonbc valueEnv
        (jbvArray 2 [jbvNumeric [1, 7, 0, 0, 0, 0, 0, 0, 0, 0, 0, 0, 0, 0], jbvNumeric [0, 6]]
          false)
      = .ok ⟨22, [10, 114, 11, 1, 7, 0, 0, 0, 0, 0, 0, 0, 0, 0, 0, 0, 0, 6]⟩
    ∧ JsonbcValueToJsonbc valueEnv
        (jbvArray 1 [jbvNumeric [1, 7, 0, 0, 0, 0, 0, 0, 0, 0, 0, 0, 0, 0, 0, 0]] false)
      = .ok ⟨23, [10, 130, 1, 1, 7, 0, 0, 0, 0, 0, 0, 0, 0, 0, 0, 0, 0, 0, 0]⟩
    ∧ JsonbcValueToJsonbc valueEnv
        (jbvArray 2 [jbvNumeric [1, 7, 0, 0, 0, 0, 0, 0, 0, 0, 0, 0, 0, 0], jbvNumeric [0, 5]]
          false)
      = .ok ⟨22, [10, 114, 11, 1, 7, 0, 0, 0, 0, 0, 0, 0, 0, 0, 0, 0, 0, 5]⟩
    ∧ compareJsonbcContainers valueEnv
        [10, 114, 11, 1, 7, 0, 0, 0, 0, 0, 0, 0, 0, 0, 0, 0, 0, 6]
        [10, 130, 1, 1, 7, 0, 0, 0, 0, 0, 0, 0, 0, 0, 0, 0, 0, 0, 0]
      = .error .undefined_behaviour
    ∧ compareJsonbcContainers valueEnv
        [10, 130, 1, 1, 7, 0, 0, 0, 0, 0, 0, 0, 0, 0, 0, 0, 0, 0, 0]
        [10, 114, 11, 1, 7, 0, 0, 0, 0, 0, 0, 0, 0, 0, 0, 0, 0, 5]
      = .error .undefined_behaviour
    ∧ compareJsonbcContainers valueEnv
        [10, 114, 11, 1, 7, 0, 0, 0, 0, 0, 0, 0, 0, 0, 0, 0, 0, 6]
        [10, 114, 11, 1, 7, 0, 0, 0, 0, 0, 0, 0, 0, 0, 0, 0, 0, 5]
      = .ok 1 :=
  ⟨rfl, rfl, rfl, rfl, rfl, rfl⟩

/-! ## C16, C17, C18 -/

/-- C16: for every unsigned 32-bit value v, the number of bytes `encode_varbyte(v)` writes
equals `varbyte_size(v)`, and that number is between 1 and 5. -/
theorem C16_varbyte_size (v : Nat) (hv : v < 2 ^ 32) :
    (encode_varbyte v).length = varbyte_size v
      ∧ 1 ≤ varbyte_size v ∧ varbyte_size v ≤ 5 :=
  ⟨encode_varbyte_length v hv, varbyte_size_pos v, varbyte_size_le v⟩

theorem C16_varbyte_size_witness :
    (4294967295 < 2 ^ 32)
      ∧ ((encode_varbyte 4294967295).length = varbyte_size 4294967295
        ∧ 1 ≤ varbyte_size 4294967295 ∧ varbyte_size 4294967295 ≤ 5) :=
  ⟨by decide, C16_varbyte_size 4294967295 (by decide)⟩

/-- C17: for every unsigned 32-bit value v and every byte sequence rest, `decode_varbyte`
run on the bytes of `encode_varbyte(v)` followed by rest returns v and advances the read
pointer by exactly the number of bytes that `encode_varbyte(v)` wrote. -/
theorem C17_decode_consumes (v : Nat) (hv : v < 2 ^ 32) (rest : Bytes) :
    decode_varbyte (encode_varbyte v ++ rest) 0 = (v, (encode_varbyte v).length) := by
  rw [decode_encode_varbyte v hv rest, encode_varbyte_length v hv]

theorem C17_decode_consumes_witness :
    (16384 < 2 ^ 32)
      ∧ decode_varbyte (encode_varbyte 16384 ++ [255, 255, 255]) 0
          = (16384, (encode_varbyte 16384).length) :=
  ⟨by decide, C17_decode_consumes 16384 (by decide) [255, 255, 255]⟩

theorem shr_7F_0 (v : Nat) : (v >>> (7 * 0)) &&& 0x7F = v % 128 := by
  rw [and_7F]; simp
theorem shr_7F_1 (v : Nat) : (v >>> (7 * 1)) &&& 0x7F = v / 128 % 128 := by
  rw [and_7F, Nat.shiftRight_eq_div_pow]
theorem shr_7F_2 (v : Nat) : (v >>> (7 * 2)) &&& 0x7F = v / 16384 % 128 := by
  rw [and_7F, Nat.shiftRight_eq_div_pow]
theorem shr_7F_3 (v : Nat) : (v >>> (7 * 3)) &&& 0x7F = v / 2097152 % 128 := by
  rw [and_7F, Nat.shiftRight_eq_div_pow]
theorem shr_7F_4 (v : Nat) : (v >>> (7 * 4)) &&& 0x7F = v / 268435456 % 128 := by
  rw [and_7F, Nat.shiftRight_eq_div_pow]

/-- C18: for every unsigned 32-bit value v with n = `varbyte_size(v)`, byte i (i < n)
written by `encode_varbyte(v)` has low seven bits equal to `(v >> 7i) & 0x7F`, and its
high bit 0x80 is set when i < n-1 and clear when i = n-1. -/
theorem C18_varbyte_bytes (v : Nat) (hv : v < 2 ^ 32) (i : Nat) (hi : i < varbyte_size v) :
    byteAt (encode_varbyte v) i &&& 0x7F = (v >>> (7 * i)) &&& 0x7F
      ∧ byteAt (encode_varbyte v) i &&& 0x80
          = (if i < varbyte_size v - 1 then 0x80 else 0) := by
  have m : ∀ x : Nat, x % 128 < 128 := fun x => Nat.mod_lt _ (by norm_num)
  rw [encode_varbyte_cases v hv]
  rw [varbyte_size] at hi ⊢
  split_ifs at hi ⊢ with h1 h2 h3 h4
  all_goals interval_cases i
  all_goals
    simp only [byteAt, List.getD_cons_zero, List.getD_cons_succ, shr_7F_0, shr_7F_1,
      shr_7F_2, shr_7F_3, shr_7F_4]
  all_goals
    refine ⟨?_, ?_⟩
  all_goals
    first
    | exact and_7F_hi _ (m _)
    | exact and_7F _
    | exact and_80_hi _ (m _)
    | exact and_80_lo _ (by omega)

theorem C18_varbyte_bytes_witness :
    (300 < 2 ^ 32 ∧ 1 < varbyte_size 300)
      ∧ (byteAt (encode_varbyte 300) 1 &&& 0x7F = (300 >>> (7 * 1)) &&& 0x7F
        ∧ byteAt (encode_varbyte 300) 1 &&& 0x80
            = (if 1 < varbyte_size 300 - 1 then 0x80 else 0)) :=
  ⟨⟨by decide, by decide⟩, C18_varbyte_bytes 300 (by decide) 1 (by decide)⟩

/-! ## C11 -/

theorem encElems_entries_length (X : Env) :
    ∀ (es : List JsonbcValue), es.length ≤ (encElems X es).1.length
  | [] => by simp [encElems]
  | e :: rest => by
    have h := encElems_entries_length X rest
    have hp := encode_varbyte_length_pos (enc X e).2
    simp only [encElems, List.length_cons, List.length_append]
    omega

theorem encPairs_entries_length (X : Env) :
    ∀ (prev : Nat) (ps : List JsonbcPair), 2 * ps.length ≤ (encPairs X prev ps).1.length
  | _, [] => by simp [encPairs]
  | prev, (JsonbcPair.mk key value _) :: rest => by
    have h := encPairs_entries_length X (toUInt32 key) rest
    have hp := encode_varbyte_length_pos (enc X value).2
    have hk := encode_varbyte_length_pos (toUInt32 (key - (prev : Int)))
    simp only [encPairs, List.length_cons, List.length_append]
    omega

/-- C11, as stated, fails: the object `{"a": 1}` has one pair, the header of its encoding
shifted right by the two flag bits is 2, and the `WJB_BEGIN_OBJECT` token reports 2. -/
theorem C11_header_count_counterexample :
    JsonbcValueToJsonbc demoEnv (jbvObject 1 [JsonbcPair.mk 1 (jbvNumeric [0, 1]) 0])
        = .ok ⟨8, [9, 1, 11, 1]⟩
      ∧ (decode_varbyte (Jsonbc.mk 8 [9, 1, 11, 1]).root 0).1 >>> JB_CSHIFT ≠ 1
      ∧ (∃ it, JsonbcIteratorInit (Jsonbc.mk 8 [9, 1, 11, 1]).root = .ok it
          ∧ iterateTokens demoEnv false 9 it
              = .ok [(WJB_BEGIN_OBJECT, some (jbvObject 2 [])),
                  (WJB_KEY, some (jbvString [97])), (WJB_VALUE, some (jbvNumeric [0, 1])),
                  (WJB_END_OBJECT, none)]) :=
  ⟨rfl, by decide, _, rfl, rfl⟩

/-- C11, amended: for every array of n elements and every object of n pairs that the
encoder accepts, the header of the encoded container shifted right by the two type-flag
bits equals the byte length of the entries region (the varbyte entries, each preceded
by its varbyte key delta in an object), which is at least n for an array and at least
2n for an object. -/
theorem C11_header_entries_size (X : Env) (t : JsonbcValue) (hw : WellFormed t)
    (hs : IsAJsonbcScalar t = false) (jb : Jsonbc) (h : JsonbcValueToJsonbc X t = .ok jb) :
    (∀ n es raw, t = jbvArray n es raw →
        (decode_varbyte jb.root 0).1 >>> JB_CSHIFT = (encElems X es).1.length
          ∧ n ≤ (encElems X es).1.length)
      ∧ (∀ n ps, t = jbvObject n ps →
        (decode_varbyte jb.root 0).1 >>> JB_CSHIFT = (encPairs X 0 ps).1.length
          ∧ 2 * n ≤ (encPairs X 0 ps).1.length) := by
  rw [JsonbcValueToJsonbc_container X _ hw hs] at h
  obtain ⟨hr, hfit⟩ := convertToJsonbc_ok X _ hw hs jb h
  rw [hr]
  constructor
  · rintro n es raw rfl
    obtain ⟨hh, hsz⟩ := array_header X n es raw hfit
    simp only [WellFormed] at hw
    rw [hh, mkHeader_size _ _ (by cases raw <;> simp [JB_FSCALAR, JB_FARRAY]) hsz, hw.1]
    exact ⟨rfl, encElems_entries_length X es⟩
  · rintro n ps rfl
    obtain ⟨hh, hsz⟩ := object_header X n ps hfit
    simp only [WellFormed] at hw
    rw [hh, mkHeader_size _ _ (by simp [JB_FOBJECT]) hsz, hw.1]
    exact ⟨rfl, encPairs_entries_length X 0 ps⟩

theorem C11_header_entries_size_witness :
    (WellFormed demoDocument ∧ IsAJsonbcScalar demoDocument = false
      ∧ JsonbcValueToJsonbc demoEnv demoDocument
          = .ok ⟨15, [17, 1, 11, 1, 47, 1, 14, 5, 6, 9, 120]⟩)
    ∧ ((∀ n es raw, demoDocument = jbvArray n es raw →
        (decode_varbyte (Jsonbc.mk 15 [17, 1, 11, 1, 47, 1, 14, 5, 6, 9, 120]).root 0).1
            >>> JB_CSHIFT = (encElems demoEnv es).1.length
          ∧ n ≤ (encElems demoEnv es).1.length)
      ∧ (∀ n ps, demoDocument = jbvObject n ps →
        (decode_varbyte (Jsonbc.mk 15 [17, 1, 11, 1, 47, 1, 14, 5, 6, 9, 120]).root 0).1
            >>> JB_CSHIFT = (encPairs demoEnv 0 ps).1.length
          ∧ 2 * n ≤ (encPairs demoEnv 0 ps).1.length)) :=
  ⟨⟨demoDocument_wellFormed, rfl, rfl⟩,
    C11_header_entries_size demoEnv demoDocument demoDocument_wellFormed rfl _ rfl⟩

/-! ## C12, C13 -/

/-- C12 on a concrete input: the object with the single pair `128 : "0123456789abcdef"`
compares greater than the object `{"a": 1, "b": 2}` of two pairs, and the array
`["0123456789abcdef"]` of one element compares greater than `[null, null]`. -/
theorem C12_fewer_pairs_greater :
    (JsonbcValueToJsonbc demoEnv (jbvObject 1 [JsonbcPair.mk 128
          (jbvString [48, 49, 50, 51, 52, 53, 54, 55, 56, 57, 97, 98, 99, 100, 101, 102]) 0])
        = .ok ⟨25, [17, 128, 1, 129, 1, 48, 49, 50, 51, 52, 53, 54, 55, 56, 57, 97, 98, 99,
            100, 101, 102]⟩
      ∧ JsonbcValueToJsonbc demoEnv (jbvObject 2 [JsonbcPair.mk 1 (jbvNumeric [0, 1]) 0,
          JsonbcPair.mk 2 (jbvNumeric [0, 2]) 1])
        = .ok ⟨11, [17, 1, 11, 1, 11, 1, 2]⟩
      ∧ compareJsonbcContainers demoEnv
          [17, 128, 1, 129, 1, 48, 49, 50, 51, 52, 53, 54, 55, 56, 57, 97, 98, 99, 100, 101,
            102]
          [17, 1, 11, 1, 11, 1, 2] = .ok 1)
    ∧ (JsonbcValueToJsonbc demoEnv (jbvArray 1
          [jbvString [48, 49, 50, 51, 52, 53, 54, 55, 56, 57, 97, 98, 99, 100, 101, 102]] false)
        = .ok ⟨23, [10, 129, 1, 48, 49, 50, 51, 52, 53, 54, 55, 56, 57, 97, 98, 99, 100, 101,
            102]⟩
      ∧ JsonbcValueToJsonbc demoEnv (jbvArray 2 [jbvNull, jbvNull] false) = .ok ⟨7, [10, 6, 6]⟩
      ∧ compareJsonbcContainers demoEnv
          [10, 129, 1, 48, 49, 50, 51, 52, 53, 54, 55, 56, 57, 97, 98, 99, 100, 101, 102]
          [10, 6, 6] = .ok 1) :=
  ⟨⟨rfl, rfl, rfl⟩, rfl, rfl, rfl⟩

/-- C13 on a concrete input: the root string `"0123456789abcdef"` compares greater than
the root numeric 1, although the type rank puts strings before numerics. -/
theorem C13_string_above_numeric :
    JsonbcValueToJsonbc demoEnv
        (jbvString [48, 49, 50, 51, 52, 53, 54, 55, 56, 57, 97, 98, 99, 100, 101, 102])
      = .ok ⟨23, [8, 129, 1, 48, 49, 50, 51, 52, 53, 54, 55, 56, 57, 97, 98, 99, 100, 101,
          102]⟩
    ∧ JsonbcValueToJsonbc demoEnv (jbvNumeric [0, 1]) = .ok ⟨7, [4, 11, 1]⟩
    ∧ compareJsonbcContainers demoEnv
        [8, 129, 1, 48, 49, 50, 51, 52, 53, 54, 55, 56, 57, 97, 98, 99, 100, 101, 102]
        [4, 11, 1] = .ok 1 :=
  ⟨rfl, rfl, rfl⟩

/-! ## C20 -/

/-- C20 on a concrete input: the object that the builder returns for the pushes of
`{"a": true, "a": "x"}` keeps both pairs under key id 1; its encoding holds the key
deltas 1 and 0, and the iterator reports the key `a` twice. -/
theorem C20_zero_key_delta :
    pushJsonbcValues demoEnv []
        [(WJB_BEGIN_OBJECT, none), (WJB_KEY, some (jbvString [97])),
          (WJB_VALUE, some (jbvBool true)), (WJB_KEY, some (jbvString [97])),
          (WJB_VALUE, some (jbvString [120])), (WJB_END_OBJECT, none)]
      = .ok ([], some (jbvObject 2 [JsonbcPair.mk 1 (jbvString [120]) 1,
          JsonbcPair.mk 1 (jbvBool true) 0]))
    ∧ JsonbcValueToJsonbc demoEnv (jbvObject 2 [JsonbcPair.mk 1 (jbvString [120]) 1,
          JsonbcPair.mk 1 (jbvBool true) 0])
      = .ok ⟨10, [17, 1, 9, 0, 5, 120]⟩
    ∧ decode_varbyte [17, 1, 9, 0, 5, 120] 1 = (1, 2)
    ∧ decode_varbyte [17, 1, 9, 0, 5, 120] 3 = (0, 4)
    ∧ (∃ it, JsonbcIteratorInit [17, 1, 9, 0, 5, 120] = .ok it
        ∧ iterateTokens demoEnv false 9 it
            = .ok [(WJB_BEGIN_OBJECT, some (jbvObject 4 [])),
                (WJB_KEY, some (jbvString [97])), (WJB_VALUE, some (jbvString [120])),
                (WJB_KEY, some (jbvString [97])), (WJB_VALUE, some (jbvBool true)),
                (WJB_END_OBJECT, none)]) :=
  ⟨rfl, rfl, by decide, by decide, _, rfl, rfl⟩

/-! ## C19 -/

theorem encElems_flatMap (X : Env) :
    ∀ (es : List JsonbcValue),
      (encElems X es).1 = es.flatMap (fun e => encode_varbyte (enc X e).2)
        ∧ (encElems X es).2 = es.flatMap (fun e => (enc X e).1)
  | [] => by simp [encElems]
  | e :: rest => by
    obtain ⟨h1, h2⟩ := encElems_flatMap X rest
    simp [encElems, h1, h2]

theorem enc_payload_le_of_mem (X : Env) :
    ∀ (es : List JsonbcValue) (e : JsonbcValue), e ∈ es →
      (enc X e).1.length ≤ (encElems X es).2.length
  | [], _, h => by simp at h
  | a :: rest, e, h => by
    simp only [encElems, List.length_append]
    rcases List.mem_cons.1 h with rfl | h'
    · omega
    · have := enc_payload_le_of_mem X rest e h'
      omega

theorem wellFormed_of_mem :
    ∀ (es : List JsonbcValue) (e : JsonbcValue), WellFormedElems es → e ∈ es → WellFormed e
  | [], _, _, h => by simp at h
  | a :: rest, e, hw, h => by
    simp only [WellFormedElems] at hw
    rcases List.mem_cons.1 h with rfl | h'
    · exact hw.1
    · exact wellFormed_of_mem rest e hw.2 h'

/-- The entry of a child is its payload length shifted over the type tag. -/
theorem enc_entry_tag (X : Env) (v : JsonbcValue) (hw : WellFormed v)
    (hfit : (enc X v).1.length < 2 ^ 29) :
    (enc X v).2 = ((enc X v).1.length <<< JENTRY_SHIFT) ||| entryTag X v := by
  have key : ∀ tag len, tag < 8 → len < 2 ^ 29 →
      mkEntry tag len = (len <<< JENTRY_SHIFT) ||| tag := by
    intro tag len ht hl
    simp only [mkEntry, JENTRY_SHIFT]
    rw [Nat.or_comm]
    apply Nat.mod_eq_of_lt
    rw [Nat.or_comm, or_shiftLeft 3 tag len (by simpa using ht)]
    omega
  cases v with
  | jbvNull => simp [enc, entryTag]
  | jbvString s =>
    simp only [enc] at hfit ⊢
    exact key _ _ (by decide) hfit
  | jbvNumeric n =>
    cases hs : X.numeric_get_small n with
    | none =>
      simp only [enc, hs, entryTag] at hfit ⊢
      exact key _ _ (by decide) hfit
    | some u =>
      simp only [enc, hs, entryTag] at hfit ⊢
      rw [encode_varbyte_length _ (Nat.mod_lt _ (by norm_num))] at hfit ⊢
      exact key _ _ (by decide) hfit
  | jbvBool b => cases b <;> simp [enc, entryTag]
  | jbvArray n es raw =>
    simp only [enc, entryTag] at hfit ⊢
    exact key _ _ (by decide) hfit
  | jbvObject n ps =>
    simp only [enc, entryTag] at hfit ⊢
    exact key _ _ (by decide) hfit
  | jbvBinary _ _ => simp [WellFormed] at hw

/-- C19: for every array value with elements e_1..e_n, the container that the encoder
appends to the buffer is the varbyte header, then the varbyte-encoded entries of the
elements in element order, then the payloads of the elements in element order; each
entry equals (payload byte length << 3) | type tag, and the low two bits of the header
are 0 for a scalar wrapper and 2 for a true array. The payload and the entry of an
element are what `convertJsonbcValue` appends and returns for it. -/
theorem C19_array_layout (X : Env) (n : Nat) (es : List JsonbcValue) (raw : Bool)
    (hw : WellFormed (jbvArray n es raw)) (buffer : Bytes) (level : Nat) (r : Bytes × Nat)
    (h : convertJsonbcValue X buffer (jbvArray n es raw) level = .ok r) :
    ∃ header : Nat,
      r.1 = buffer ++ (encode_varbyte header
              ++ es.flatMap (fun e => encode_varbyte (enc X e).2)
              ++ es.flatMap (fun e => (enc X e).1))
        ∧ header &&& JB_MASK = (if raw then 0 else 2)
        ∧ (∀ e ∈ es, (enc X e).2 = ((enc X e).1.length <<< JENTRY_SHIFT) ||| entryTag X e)
        ∧ (∀ e ∈ es, ∀ (buf : Bytes) (lvl : Nat) (r' : Bytes × Nat),
            convertJsonbcValue X buf e lvl = .ok r' →
              r' = (buf ++ (enc X e).1, (enc X e).2)) := by
  obtain ⟨hr, hfit⟩ := convertJsonbcValue_ok X _ buffer level r hw h
  have hfit := hfit (by simp [IsAJsonbcScalar, JsonbcValue.type])
  obtain ⟨-, hsz⟩ := array_header X n es raw hfit
  obtain ⟨h1, h2⟩ := encElems_flatMap X es
  simp only [WellFormed] at hw
  have hm : JENTRY_OFFLENMASK < 2 ^ 29 := by decide
  refine ⟨mkHeader (encElems X es).1.length (if raw then JB_FSCALAR else JB_FARRAY), ?_, ?_,
    ?_, ?_⟩
  · rw [hr]
    simp only [enc, h1, h2]
  · rw [mkHeader_flag _ _ (by cases raw <;> simp [JB_FSCALAR, JB_FARRAY]) hsz]
    cases raw <;> rfl
  · intro e he
    refine enc_entry_tag X e (wellFormed_of_mem es e hw.2 he) ?_
    have := enc_payload_le_of_mem X es e he
    simp only [enc, List.length_append] at hfit
    omega
  · intro e he buf lvl r' hr'
    exact (convertJsonbcValue_ok X e buf lvl r' (wellFormed_of_mem es e hw.2 he) hr').1

theorem C19_array_layout_witness :
    (WellFormed (jbvArray 3 [jbvBool true, jbvNull, jbvString [120]] false)
      ∧ convertJsonbcValue demoEnv [] (jbvArray 3 [jbvBool true, jbvNull, jbvString [120]] false) 0
          = .ok ([14, 5, 6, 9, 120], 47))
    ∧ ∃ header : Nat,
      ([14, 5, 6, 9, 120], 47).1 = [] ++ (encode_varbyte header
              ++ [jbvBool true, jbvNull, jbvString [120]].flatMap
                  (fun e => encode_varbyte (enc demoEnv e).2)
              ++ [jbvBool true, jbvNull, jbvString [120]].flatMap (fun e => (enc demoEnv e).1))
        ∧ header &&& JB_MASK = (if false then 0 else 2)
        ∧ (∀ e ∈ [jbvBool true, jbvNull, jbvString [120]],
            (enc demoEnv e).2 = ((enc demoEnv e).1.length <<< JENTRY_SHIFT) ||| entryTag demoEnv e)
        ∧ (∀ e ∈ [jbvBool true, jbvNull, jbvString [120]],
            ∀ (buf : Bytes) (lvl : Nat) (r' : Bytes × Nat),
            convertJsonbcValue demoEnv buf e lvl = .ok r' →
              r' = (buf ++ (enc demoEnv e).1, (enc demoEnv e).2)) :=
  have hw : WellFormed (jbvArray 3 [jbvBool true, jbvNull, jbvString [120]] false) := by
    simp [WellFormed, WellFormedElems]
  ⟨⟨hw, rfl⟩, C19_array_layout demoEnv 3 _ false hw [] 0 _ rfl⟩

/-! ## The hash of an encoded tree -/

mutual
theorem tokensOf_scalar_value (X : Env) (kind : JsonbcIteratorToken) :
    ∀ (v : JsonbcValue), WellFormed v → ∀ t ∈ tokensOf X kind v,
      (t.1 = WJB_KEY ∨ t.1 = WJB_VALUE ∨ t.1 = WJB_ELEM) →
        ∃ s, t.2 = some s ∧ IsAJsonbcScalar s = true
  | jbvArray _ es _, hw, t, ht, hk => by
    simp only [WellFormed] at hw
    simp only [tokensOf, List.mem_cons, List.mem_append, List.not_mem_nil, or_false] at ht
    rcases ht with rfl | ht | rfl
    · simp at hk
    · exact tokensOfElems_scalar_value X es hw.2 t ht hk
    · simp at hk
  | jbvObject _ ps, hw, t, ht, hk => by
    simp only [WellFormed] at hw
    simp only [tokensOf, List.mem_cons, List.mem_append, List.not_mem_nil, or_false] at ht
    rcases ht with rfl | ht | rfl
    · simp at hk
    · exact tokensOfPairs_scalar_value X ps hw.2 t ht hk
    · simp at hk
  | jbvNull, _, t, ht, _ => by
    simp only [tokensOf, List.mem_singleton] at ht; subst ht; exact ⟨_, rfl, rfl⟩
  | jbvString _, _, t, ht, _ => by
    simp only [tokensOf, List.mem_singleton] at ht; subst ht; exact ⟨_, rfl, rfl⟩
  | jbvNumeric _, _, t, ht, _ => by
    simp only [tokensOf, List.mem_singleton] at ht; subst ht
    exact ⟨_, rfl, decodedScalar_isScalar X _ rfl⟩
  | jbvBool _, _, t, ht, _ => by
    simp only [tokensOf, List.mem_singleton] at ht; subst ht; exact ⟨_, rfl, rfl⟩
  | jbvBinary _ _, hw, _, _, _ => by simp [WellFormed] at hw
theorem tokensOfElems_scalar_value (X : Env) :
    ∀ (l : List JsonbcValue), WellFormedElems l → ∀ t ∈ tokensOfElems X l,
      (t.1 = WJB_KEY ∨ t.1 = WJB_VALUE ∨ t.1 = WJB_ELEM) →
        ∃ s, t.2 = some s ∧ IsAJsonbcScalar s = true
  | [], _, t, ht, _ => by simp [tokensOfElems] at ht
  | e :: rest, hw, t, ht, hk => by
    simp only [WellFormedElems] at hw
    simp only [tokensOfElems, List.mem_append] at ht
    rcases ht with ht | ht
    · exact tokensOf_scalar_value X WJB_ELEM e hw.1 t ht hk
    · exact tokensOfElems_scalar_value X rest hw.2 t ht hk
theorem tokensOfPairs_scalar_value (X : Env) :
    ∀ (l : List JsonbcPair), WellFormedPairs l → ∀ t ∈ tokensOfPairs X l,
      (t.1 = WJB_KEY ∨ t.1 = WJB_VALUE ∨ t.1 = WJB_ELEM) →
        ∃ s, t.2 = some s ∧ IsAJsonbcScalar s = true
  | [], _, t, ht, _ => by simp [tokensOfPairs] at ht
  | (JsonbcPair.mk k v o) :: rest, hw, t, ht, hk => by
    simp only [WellFormedPairs] at hw
    simp only [tokensOfPairs, List.mem_cons, List.mem_append] at ht
    rcases ht with rfl | ht | ht
    · exact ⟨_, rfl, rfl⟩
    · exact tokensOf_scalar_value X WJB_VALUE v hw.2.1 t ht hk
    · exact tokensOfPairs_scalar_value X rest hw.2.2 t ht hk
end

theorem JsonbcHashScalarValue_scalar (X : Env) (s : JsonbcValue)
    (hs : IsAJsonbcScalar s = true) (hash : Nat) :
    JsonbcHashScalarValue X s hash = .ok (rotateLeft1 hash ^^^ scalarHash X (some s)) := by
  cases s <;> first
    | (simp [IsAJsonbcScalar, JsonbcValue.type] at hs; done)
    | simp [JsonbcHashScalarValue, rotateLeft1, scalarHash]

/-- The loop of `jsonbc_hash` folds `hashToken` over the tokens that the iterator has
left to return. -/
theorem hash_loop_eq_fold (X : Env) :
    ∀ (toks : List TokenVal) (it : List JsonbcIterator) (fuel hash : Nat),
      iterateSteps X false toks.length it = .ok (toks, []) →
      (∀ t ∈ toks, t.1 ≠ WJB_DONE) →
      (∀ t ∈ toks, (t.1 = WJB_KEY ∨ t.1 = WJB_VALUE ∨ t.1 = WJB_ELEM) →
        ∃ s, t.2 = some s ∧ IsAJsonbcScalar s = true) →
      toks.length < fuel →
      jsonbc_hash_loop X fuel it hash = .ok (toks.foldl (hashToken X) hash)
  | [], it, fuel, hash, h, _, _, hf => by
    obtain ⟨f, rfl⟩ : ∃ f, fuel = f + 1 := ⟨fuel - 1, by simp at hf; omega⟩
    obtain ⟨-, rfl⟩ := iterateSteps_zero_inv X false _ _ _ h
    simp [jsonbc_hash_loop, JsonbcIteratorNext]
  | x :: xs, it, fuel, hash, h, hd, hsc, hf => by
    obtain ⟨f, rfl⟩ : ∃ f, fuel = f + 1 := ⟨fuel - 1, by simp at hf; omega⟩
    obtain ⟨it1, hn, h1⟩ := iterateSteps_uncons X false _ _ _ _ _ h
    have ih := fun hash' => hash_loop_eq_fold X xs it1 f hash' h1
      (fun t ht => hd t (List.mem_cons_of_mem _ ht))
      (fun t ht => hsc t (List.mem_cons_of_mem _ ht))
      (by simp only [List.length_cons] at hf; omega)
    have hx := hd x (List.mem_cons_self _ _)
    have hxs := hsc x (List.mem_cons_self _ _)
    obtain ⟨r, v⟩ := x
    simp only [jsonbc_hash_loop, hn, List.foldl_cons]
    cases r with
    | WJB_DONE => exact absurd rfl hx
    | WJB_BEGIN_ARRAY => simp only [ih]; rfl
    | WJB_BEGIN_OBJECT => simp only [ih]; rfl
    | WJB_END_ARRAY => simp only [ih]; rfl
    | WJB_END_OBJECT => simp only [ih]; rfl
    | WJB_KEY =>
      obtain ⟨s, rfl, hs⟩ := hxs (Or.inl rfl)
      simp only [JsonbcHashScalarValue_scalar X s hs, ih]; rfl
    | WJB_VALUE =>
      obtain ⟨s, rfl, hs⟩ := hxs (Or.inr (Or.inl rfl))
      simp only [JsonbcHashScalarValue_scalar X s hs, ih]; rfl
    | WJB_ELEM =>
      obtain ⟨s, rfl, hs⟩ := hxs (Or.inr (Or.inr rfl))
      simp only [JsonbcHashScalarValue_scalar X s hs, ih]; rfl

theorem tokensOf_length_pos (X : Env) (kind : JsonbcIteratorToken) (v : JsonbcValue) :
    0 < (tokensOf X kind v).length := by
  cases v <;> simp [tokensOf]

/-- The root count is zero exactly for a container whose token stream is begin, end. -/
theorem root_count_zero_iff (X : Env) (t : JsonbcValue) (hw : WellFormed t)
    (hs : IsAJsonbcScalar t = false) (hfit : (enc X t).1.length ≤ JENTRY_OFFLENMASK)
    (vl : Nat) :
    JB_ROOT_COUNT ⟨vl, (enc X t).1⟩ = 0 ↔ (tokensOf X WJB_ELEM t).length ≤ 2 := by
  cases t with
  | jbvArray n es raw =>
    obtain ⟨hh, hsz⟩ := array_header X n es raw hfit
    simp only [JB_ROOT_COUNT, jsonbc_header, hh,
      mkHeader_size _ _ (by cases raw <;> simp [JB_FSCALAR, JB_FARRAY] :
        (if raw then JB_FSCALAR else JB_FARRAY) < 4) hsz]
    cases es with
    | nil => simp [encElems, tokensOf, tokensOfElems]
    | cons e rest =>
      have h1 := encode_varbyte_length_pos (enc X e).2
      have h2 := tokensOf_length_pos X WJB_ELEM e
      simp only [encElems, tokensOf, tokensOfElems, List.length_append, List.length_cons,
        List.length_nil]
      omega
  | jbvObject n ps =>
    obtain ⟨hh, hsz⟩ := object_header X n ps hfit
    simp only [JB_ROOT_COUNT, jsonbc_header, hh,
      mkHeader_size _ _ (by simp [JB_FOBJECT] : JB_FOBJECT < 4) hsz]
    cases ps with
    | nil => simp [encPairs, tokensOf, tokensOfPairs]
    | cons p rest =>
      obtain ⟨k, v, o⟩ := p
      have h1 := encode_varbyte_length_pos (enc X v).2
      simp only [encPairs, tokensOf, tokensOfPairs, List.length_append, List.length_cons,
        List.length_nil]
      omega
  | jbvNull => simp [IsAJsonbcScalar, JsonbcValue.type] at hs
  | jbvString _ => simp [IsAJsonbcScalar, JsonbcValue.type] at hs
  | jbvNumeric _ => simp [IsAJsonbcScalar, JsonbcValue.type] at hs
  | jbvBool _ => simp [IsAJsonbcScalar, JsonbcValue.type] at hs
  | jbvBinary _ _ => simp [WellFormed] at hw

/-- The value of `jsonbc_hash` on the encoding of a well-formed container. -/
theorem jsonbc_hash_eq (X : Env) (t : JsonbcValue) (hw : WellFormed t)
    (hs : IsAJsonbcScalar t = false) (jb : Jsonbc) (h : JsonbcValueToJsonbc X t = .ok jb) :
    jsonbc_hash X jb = .ok (if (tokensOf X WJB_ELEM t).length ≤ 2 then 0
      else toInt32 ((tokensOf X WJB_ELEM t).foldl (hashToken X) 0)) := by
  rw [JsonbcValueToJsonbc_container X _ hw hs] at h
  obtain ⟨hr, hfit⟩ := convertToJsonbc_ok X _ hw hs jb h
  obtain ⟨vl, root⟩ := jb
  simp only at hr
  subst hr
  have hz := root_count_zero_iff X t hw hs hfit vl
  by_cases hc : JB_ROOT_COUNT ⟨vl, (enc X t).1⟩ = 0
  · simp only [jsonbc_hash, if_pos hc, if_pos (hz.1 hc)]
  · obtain ⟨child, child', tok0, toks, hinit, hsw, htok, hrun⟩ :=
      container_run X t hw hs hfit [] [] WJB_ELEM
    rw [List.append_nil] at hinit
    have h1 := iterateSteps_cons X false _ _ _ _ _ _ _
      ((next_cons X false _ _).trans (hsw _)) hrun
    have hd := tokensOf_ne_done X WJB_ELEM (by decide) t
    have hsv := tokensOf_scalar_value X WJB_ELEM t hw
    have hl := tokensOf_length X WJB_ELEM t
    rw [htok] at hd hsv hl
    have hloop := hash_loop_eq_fold X (tok0 :: toks) [child]
      (2 * (enc X t).1.length + 2) 0 h1 hd hsv (by omega)
    rw [if_neg (fun h => hc (hz.2 h))]
    simp only [jsonbc_hash, if_neg hc, JsonbcIteratorInit, hinit, hloop, htok]

/-! ## C14 -/

/-- C14, as stated, fails on the empty array: `jsonbc_hash` returns 0 for it, while the
fold over its token stream (begin, end) XORs in the array flag constant and yields 2. -/
theorem C14_empty_array_counterexample :
    JsonbcValueToJsonbc demoEnv (jbvArray 0 [] false) = .ok ⟨5, [2]⟩
      ∧ jsonbc_hash demoEnv ⟨5, [2]⟩ = .ok 0
      ∧ (∃ it, JsonbcIteratorInit (Jsonbc.mk 5 [2]).root = .ok it
          ∧ iterateTokens demoEnv false 3 it
              = .ok [(WJB_BEGIN_ARRAY, some (jbvArray 0 [] false)), (WJB_END_ARRAY, none)])
      ∧ toInt32 ([(WJB_BEGIN_ARRAY, some (jbvArray 0 [] false)),
            (WJB_END_ARRAY, none)].foldl (hashToken demoEnv) 0) = 2 :=
  ⟨rfl, rfl, ⟨_, rfl, rfl⟩, by decide⟩

/-- C14, amended: for every container c with at least one child, that is, whose token
stream is longer than begin, end, `jsonbc_hash(c)` equals the left fold over the token
stream of c starting from 0 that XORs in the array flag constant (2) at each
`WJB_BEGIN_ARRAY` and the object flag constant (1) at each `WJB_BEGIN_OBJECT`, and at
each key, value and element token replaces acc by rotateLeft(acc, 1) XOR the scalar
hash of the token value; for the empty array and the empty object `jsonbc_hash(c)` is
0. -/
theorem C14_hash_fold (X : Env) (t : JsonbcValue) (hw : WellFormed t)
    (hs : IsAJsonbcScalar t = false) (jb : Jsonbc) (h : JsonbcValueToJsonbc X t = .ok jb) :
    ∃ it toks, JsonbcIteratorInit jb.root = .ok it
      ∧ (∀ fuel, toks.length < fuel → iterateTokens X false fuel it = .ok toks)
      ∧ jsonbc_hash X jb
          = .ok (if toks.length ≤ 2 then 0 else toInt32 (toks.foldl (hashToken X) 0)) := by
  have hh := jsonbc_hash_eq X t hw hs jb h
  rw [JsonbcValueToJsonbc_container X t hw hs] at h
  obtain ⟨hr, hfit⟩ := convertToJsonbc_ok X t hw hs jb h
  obtain ⟨it, hinit, _⟩ := iterate_root X t hw hs hfit _ (Nat.lt_succ_self _)
  refine ⟨it, tokensOf X WJB_ELEM t, by rw [hr]; exact hinit, ?_, hh⟩
  intro fuel hf
  obtain ⟨it', hinit', hit'⟩ := iterate_root X t hw hs hfit fuel hf
  rw [hinit] at hinit'
  cases hinit'
  exact hit'

theorem C14_hash_fold_witness :
    (WellFormed demoDocument ∧ IsAJsonbcScalar demoDocument = false
      ∧ JsonbcValueToJsonbc demoEnv demoDocument
          = .ok ⟨15, [17, 1, 11, 1, 47, 1, 14, 5, 6, 9, 120]⟩)
    ∧ ∃ it toks,
        JsonbcIteratorInit (Jsonbc.mk 15 [17, 1, 11, 1, 47, 1, 14, 5, 6, 9, 120]).root = .ok it
        ∧ (∀ fuel, toks.length < fuel → iterateTokens demoEnv false fuel it = .ok toks)
        ∧ jsonbc_hash demoEnv ⟨15, [17, 1, 11, 1, 47, 1, 14, 5, 6, 9, 120]⟩
            = .ok (if toks.length ≤ 2 then 0
                else toInt32 (toks.foldl (hashToken demoEnv) 0)) :=
  ⟨⟨demoDocument_wellFormed, rfl, rfl⟩,
    C14_hash_fold demoEnv demoDocument demoDocument_wellFormed rfl _ rfl⟩

/-! ## C15 -/

theorem step_zero_hashToken (X : Env)
    (hhs : ∀ x y, X.varstr_cmp x y = 0 → X.hash_any x = X.hash_any y)
    (hhn : ∀ x y, X.numeric_cmp x y = 0 → X.hash_numeric x = X.hash_numeric y)
    (ra rb : JsonbcIteratorToken) (va vb : Option JsonbcValue)
    (h : compareJsonbcContainers_step X ra rb va vb = .ok 0) (acc : Nat) :
    hashToken X acc (ra, va) = hashToken X acc (rb, vb) := by
  rcases va with _ | va
  · rw [step_none_left] at h; cases h
  rcases vb with _ | vb
  · rw [step_none_right] at h; cases h
  simp only [compareJsonbcContainers_step] at h
  by_cases hr : ra = rb
  · subst hr
    rw [if_pos rfl] at h
    by_cases ht : va.type = vb.type
    · rw [if_pos ht] at h
      have hsc : scalarHash X (some va) = scalarHash X (some vb) := by
        cases va <;> cases vb <;> first
          | (simp [JsonbcValue.type] at ht; done)
          | rfl
          | skip
        · simp only [compareJsonbcScalarValue, Except.ok.injEq] at h
          simp only [scalarHash, hhs _ _ h]
        · simp only [compareJsonbcScalarValue, Except.ok.injEq] at h
          simp only [scalarHash, hhn _ _ h]
        · rename_i a b
          cases a <;> cases b <;> simp [compareJsonbcScalarValue] at h ⊢
      simp only [hashToken, hsc]
    · rw [if_neg ht] at h
      simp only [Except.ok.injEq] at h
      split_ifs at h
      omega
  · rw [if_neg hr] at h
    simp only [Except.ok.injEq] at h
    split_ifs at h
    omega

/-- Token streams on which the loop of `compareJsonbcContainers` ends with 0 have the
same length and the same hash fold. -/
theorem cmpTokens_zero_fold (X : Env)
    (hhs : ∀ x y, X.varstr_cmp x y = 0 → X.hash_any x = X.hash_any y)
    (hhn : ∀ x y, X.numeric_cmp x y = 0 → X.hash_numeric x = X.hash_numeric y) :
    ∀ (la lb : List TokenVal), cmpTokens X la lb = .ok 0 →
      la.length = lb.length
        ∧ ∀ acc, la.foldl (hashToken X) acc = lb.foldl (hashToken X) acc
  | [], [], _ => ⟨rfl, fun _ => rfl⟩
  | [], y :: ys, h => by
    simp only [cmpTokens, step_none_left] at h
    cases h
  | x :: xs, [], h => by
    simp only [cmpTokens, step_none_right] at h
    cases h
  | x :: xs, y :: ys, h => by
    simp only [cmpTokens] at h
    by_cases he : x.1 = y.1 ∧ (x.1 = WJB_END_ARRAY ∨ x.1 = WJB_END_OBJECT)
    · rw [if_pos he] at h
      obtain ⟨h1, h2⟩ := cmpTokens_zero_fold X hhs hhn xs ys h
      refine ⟨by simp [h1], fun acc => ?_⟩
      have hx : hashToken X acc x = acc := by
        rcases he.2 with e | e <;> simp [hashToken, e]
      have hy : hashToken X acc y = acc := by
        rcases he.2 with e | e <;> simp [hashToken, ← he.1, e]
      simp only [List.foldl_cons, hx, hy, h2]
    · rw [if_neg he] at h
      cases hs : compareJsonbcContainers_step X x.1 y.1 x.2 y.2 with
      | error e => rw [hs] at h; cases h
      | ok res =>
        rw [hs] at h
        simp only at h
        by_cases h0 : res = 0
        · subst h0
          rw [if_pos rfl] at h
          obtain ⟨h1, h2⟩ := cmpTokens_zero_fold X hhs hhn xs ys h
          refine ⟨by simp [h1], fun acc => ?_⟩
          have := step_zero_hashToken X hhs hhn x.1 y.1 x.2 y.2 hs acc
          simp only [List.foldl_cons, this, h2]
        · rw [if_neg h0] at h
          simp only [Except.ok.injEq] at h
          exact absurd h h0

/-- C15: for the encodings a and b of any two containers with
`compareJsonbcContainers(a, b) = 0`, `jsonbc_hash(a)` and `jsonbc_hash(b)` return the
same value, given scalar hash functions that give equal hashes to strings that compare
equal and to numerics that compare equal. -/
theorem C15_equal_hash (X : Env)
    (hhs : ∀ x y, X.varstr_cmp x y = 0 → X.hash_any x = X.hash_any y)
    (hhn : ∀ x y, X.numeric_cmp x y = 0 → X.hash_numeric x = X.hash_numeric y)
    (ta tb : JsonbcValue) (hwa : WellFormed ta) (hwb : WellFormed tb)
    (hsa : IsAJsonbcScalar ta = false) (hsb : IsAJsonbcScalar tb = false) (a b : Jsonbc)
    (ha : JsonbcValueToJsonbc X ta = .ok a) (hb : JsonbcValueToJsonbc X tb = .ok b)
    (hc : compareJsonbcContainers X a.root b.root = .ok 0) :
    ∃ h : Int, jsonbc_hash X a = .ok h ∧ jsonbc_hash X b = .ok h := by
  have hha := jsonbc_hash_eq X ta hwa hsa a ha
  have hhb := jsonbc_hash_eq X tb hwb hsb b hb
  rw [JsonbcValueToJsonbc_container X _ hwa hsa] at ha
  rw [JsonbcValueToJsonbc_container X _ hwb hsb] at hb
  obtain ⟨hra, hfa⟩ := convertToJsonbc_ok X _ hwa hsa a ha
  obtain ⟨hrb, hfb⟩ := convertToJsonbc_ok X _ hwb hsb b hb
  rw [hra, hrb, compare_eq_cmpTokens X ta tb hwa hwb hsa hsb hfa hfb] at hc
  obtain ⟨h1, h2⟩ := cmpTokens_zero_fold X hhs hhn _ _ hc
  refine ⟨_, hha, ?_⟩
  rw [hhb, h1, h2]

theorem C15_equal_hash_witness :
    ((∀ x y, demoEnv.varstr_cmp x y = 0 → demoEnv.hash_any x = demoEnv.hash_any y)
      ∧ (∀ x y, demoEnv.numeric_cmp x y = 0 → demoEnv.hash_numeric x = demoEnv.hash_numeric y)
      ∧ WellFormed demoDocument
      ∧ WellFormed (jbvObject 2 [JsonbcPair.mk 1 (jbvNumeric [0, 1]) 4,
          JsonbcPair.mk 2 (jbvArray 3 [jbvBool true, jbvNull, jbvString [120]] false) 9])
      ∧ IsAJsonbcScalar demoDocument = false
      ∧ IsAJsonbcScalar (jbvObject 2 [JsonbcPair.mk 1 (jbvNumeric [0, 1]) 4,
          JsonbcPair.mk 2 (jbvArray 3 [jbvBool true, jbvNull, jbvString [120]] false) 9])
          = false
      ∧ JsonbcValueToJsonbc demoEnv demoDocument
          = .ok ⟨15, [17, 1, 11, 1, 47, 1, 14, 5, 6, 9, 120]⟩
      ∧ JsonbcValueToJsonbc demoEnv (jbvObject 2 [JsonbcPair.mk 1 (jbvNumeric [0, 1]) 4,
          JsonbcPair.mk 2 (jbvArray 3 [jbvBool true, jbvNull, jbvString [120]] false) 9])
          = .ok ⟨15, [17, 1, 11, 1, 47, 1, 14, 5, 6, 9, 120]⟩
      ∧ compareJsonbcContainers demoEnv
          (Jsonbc.mk 15 [17, 1, 11, 1, 47, 1, 14, 5, 6, 9, 120]).root
          (Jsonbc.mk 15 [17, 1, 11, 1, 47, 1, 14, 5, 6, 9, 120]).root = .ok 0)
    ∧ ∃ h : Int, jsonbc_hash demoEnv ⟨15, [17, 1, 11, 1, 47, 1, 14, 5, 6, 9, 120]⟩ = .ok h
        ∧ jsonbc_hash demoEnv ⟨15, [17, 1, 11, 1, 47, 1, 14, 5, 6, 9, 120]⟩ = .ok h :=
  have hhs : ∀ x y, demoEnv.varstr_cmp x y = 0 → demoEnv.hash_any x = demoEnv.hash_any y :=
    fun x y h => by rw [cmpBytes_exact x y h]
  have hhn : ∀ x y, demoEnv.numeric_cmp x y = 0 →
      demoEnv.hash_numeric x = demoEnv.hash_numeric y :=
    fun x y h => by rw [cmpBytes_exact x y h]
  have hw : WellFormed (jbvObject 2 [JsonbcPair.mk 1 (jbvNumeric [0, 1]) 4,
      JsonbcPair.mk 2 (jbvArray 3 [jbvBool true, jbvNull, jbvString [120]] false) 9]) := by
    simp [WellFormed, WellFormedPairs, WellFormedElems]
  ⟨⟨hhs, hhn, demoDocument_wellFormed, hw, rfl, rfl, rfl, rfl, rfl⟩,
    C15_equal_hash demoEnv hhs hhn demoDocument _ demoDocument_wellFormed hw rfl rfl _ _
      rfl rfl rfl⟩

/-! ## Iterating with `skipNested = true` -/

theorem fill_child (X : Env) (v : JsonbcValue) (hw : WellFormed v)
    (hfit : (enc X v).1.length ≤ JENTRY_OFFLENMASK) (base rest : Bytes) (off : Nat)
    (hb : base.drop off = (enc X v).1 ++ rest) :
    fillJsonbcValue X (enc X v).2 base off = skipValue X v rest := by
  by_cases hs : IsAJsonbcScalar v = true
  · rw [fill_scalar X v hs hfit base rest off hb]
    simp [skipValue, hs]
  · have hs' : IsAJsonbcScalar v = false := by simpa using hs
    rw [enc_container_entry X v hw hs', fill_container_entry X _ hfit, hb]
    simp [skipValue, hs']

theorem switch_elem_skip (X : Env)
    (rc : JsonbcIterator → List JsonbcIterator → NextResult) (v : JsonbcValue)
    (hw : WellFormed v) (hfit : (enc X v).1.length ≤ JENTRY_OFFLENMASK) (A B rest : Bytes)
    (size ck : Nat) (sc : Bool) (children dp off cvo : Nat) (parent : List JsonbcIterator)
    (hlt : A.length < children + size)
    (hdata : (A ++ (encode_varbyte (enc X v).2 ++ B)).drop (dp + off) = (enc X v).1 ++ rest) :
    JsonbcIteratorNext_switch X true rc
        (JsonbcIterator.mk (A ++ (encode_varbyte (enc X v).2 ++ B)) size ck sc children
          A.length dp off cvo JBI_ARRAY_ELEM) parent
      = .ok (WJB_ELEM, some (skipValue X v rest),
          JsonbcIterator.mk (A ++ (encode_varbyte (enc X v).2 ++ B)) size ck sc children
            (A.length + (encode_varbyte (enc X v).2).length) dp (off + (enc X v).1.length) cvo
            JBI_ARRAY_ELEM :: parent) := by
  have hd := decode_varbyte_at A B (enc X v).2 (enc_entry_lt X v)
  have hn : ¬ (A.length ≥ children + size) := by omega
  have hf := fill_child X v hw hfit
    ((A ++ (encode_varbyte (enc X v).2 ++ B)).drop dp) rest off
    (by rw [drop_drop_add]; exact hdata)
  have hl := enc_entry_len X v hw hfit
  simp [JsonbcIteratorNext_switch, hd, hn, hf, hl]

theorem switch_value_skip (X : Env)
    (rc : JsonbcIterator → List JsonbcIterator → NextResult) (v : JsonbcValue)
    (hw : WellFormed v) (hfit : (enc X v).1.length ≤ JENTRY_OFFLENMASK) (A B rest : Bytes)
    (size ck : Nat) (sc : Bool) (children dp off cvo : Nat) (parent : List JsonbcIterator)
    (hdata : (A ++ (encode_varbyte (enc X v).2 ++ B)).drop (dp + off) = (enc X v).1 ++ rest) :
    JsonbcIteratorNext_switch X true rc
        (JsonbcIterator.mk (A ++ (encode_varbyte (enc X v).2 ++ B)) size ck sc children
          A.length dp off cvo JBI_OBJECT_VALUE) parent
      = .ok (WJB_VALUE, some (skipValue X v rest),
          JsonbcIterator.mk (A ++ (encode_varbyte (enc X v).2 ++ B)) size ck sc children
            (A.length + (encode_varbyte (enc X v).2).length) dp (off + (enc X v).1.length) cvo
            JBI_OBJECT_KEY :: parent) := by
  have hd := decode_varbyte_at A B (enc X v).2 (enc_entry_lt X v)
  have hf := fill_child X v hw hfit
    ((A ++ (encode_varbyte (enc X v).2 ++ B)).drop dp) rest off
    (by rw [drop_drop_add]; exact hdata)
  have hl := enc_entry_len X v hw hfit
  simp [JsonbcIteratorNext_switch, hd, hf, hl]

theorem elems_run_skip (X : Env) :
    ∀ (rem : List JsonbcValue), WellFormedElems rem →
      (encElems X rem).2.length ≤ JENTRY_OFFLENMASK →
      ∀ (C H epre dpre rest : Bytes) (size ck : Nat) (sc : Bool)
        (children ptr dp off cvo : Nat) (parent : List JsonbcIterator),
        C = (H ++ epre) ++ ((encElems X rem).1 ++ (dpre ++ ((encElems X rem).2 ++ rest))) →
        size = epre.length + (encElems X rem).1.length → children = H.length →
        ptr = H.length + epre.length → dp = H.length + size → off = dpre.length →
        iterateSteps X true ((tokensOfElemsSkip X rem rest).length + 1)
            (JsonbcIterator.mk C size ck sc children ptr dp off cvo JBI_ARRAY_ELEM :: parent)
          = .ok (tokensOfElemsSkip X rem rest ++ [(WJB_END_ARRAY, none)], parent)
  | [], _, _, C, H, epre, dpre, rest, size, ck, sc, children, ptr, dp, off, cvo, parent,
      hC, hsize, hch, hptr, hdp, hoff => by
    simp only [encElems, List.length_nil, Nat.add_zero] at hsize
    simp only [tokensOfElemsSkip, List.length_nil, Nat.zero_add, List.nil_append]
    apply iterateSteps_one
    simp only [JsonbcIteratorNext]
    exact switch_array_end X true _ C size ck sc children ptr dp off cvo parent (by omega)
  | e :: rem, hw, hfit, C, H, epre, dpre, rest, size, ck, sc, children, ptr, dp, off, cvo,
      parent, hC, hsize, hch, hptr, hdp, hoff => by
    simp only [WellFormedElems] at hw
    obtain ⟨hfe, hfr⟩ := encElems_data_le X e rem
    have hC1 : C = (H ++ epre) ++ (encode_varbyte (enc X e).2 ++
        ((encElems X rem).1 ++ (dpre ++ (((enc X e).1 ++ (encElems X rem).2) ++ rest)))) := by
      rw [hC]; simp [encElems]
    have hlt : (H ++ epre).length < children + size := by
      have := encode_varbyte_length_pos (enc X e).2
      simp only [encElems, List.length_append] at hsize
      simp only [List.length_append]; omega
    have hdata : C.drop (dp + off) = (enc X e).1 ++ ((encElems X rem).2 ++ rest) := by
      rw [hC, show (H ++ epre) ++ ((encElems X (e :: rem)).1 ++ (dpre ++
          ((encElems X (e :: rem)).2 ++ rest)))
          = ((H ++ epre) ++ ((encElems X (e :: rem)).1 ++ dpre))
            ++ ((enc X e).1 ++ ((encElems X rem).2 ++ rest)) by simp [encElems]]
      apply drop_at_prefix
      simp only [List.length_append]; omega
    have ih := elems_run_skip X rem hw.2 (by omega) C H (epre ++ encode_varbyte (enc X e).2)
      (dpre ++ (enc X e).1) rest size ck sc children
      (ptr + (encode_varbyte (enc X e).2).length) dp (off + (enc X e).1.length) cvo parent
      (by rw [hC]; simp [encElems])
      (by simp only [encElems, List.length_append] at hsize; simp only [List.length_append]; omega)
      hch (by simp only [List.length_append]; omega) hdp
      (by simp only [List.length_append]; omega)
    have hpA : ptr = (H ++ epre).length := by simp only [List.length_append]; omega
    have hstep := switch_elem_skip X (JsonbcIteratorNext_recurse X true) e hw.1
      (by omega) (H ++ epre) _ _ size ck sc children dp off cvo parent hlt
      (by rw [← hC1]; exact hdata)
    rw [← hC1, ← hpA] at hstep
    have h := iterateSteps_cons X true _ _ _ _ _ _ _ ((next_cons X true _ _).trans hstep) ih
    simpa [tokensOfElemsSkip] using h

theorem pairs_run_skip (X : Env) :
    ∀ (rem : List JsonbcPair) (prev : Nat), prev < 2 ^ 32 → WellFormedPairs rem →
      (encPairs X prev rem).2.length ≤ JENTRY_OFFLENMASK →
      ∀ (C H epre dpre rest : Bytes) (size : Nat) (sc : Bool)
        (children ptr dp off cvo : Nat) (parent : List JsonbcIterator),
        C = (H ++ epre) ++ ((encPairs X prev rem).1
              ++ (dpre ++ ((encPairs X prev rem).2 ++ rest))) →
        size = epre.length + (encPairs X prev rem).1.length → children = H.length →
        ptr = H.length + epre.length → dp = H.length + size → off = dpre.length →
        iterateSteps X true ((tokensOfPairsSkip X rem rest).length + 1)
            (JsonbcIterator.mk C size prev sc children ptr dp off cvo JBI_OBJECT_KEY :: parent)
          = .ok (tokensOfPairsSkip X rem rest ++ [(WJB_END_OBJECT, none)], parent)
  | [], prev, _, _, _, C, H, epre, dpre, rest, size, sc, children, ptr, dp, off, cvo, parent,
      hC, hsize, hch, hptr, hdp, hoff => by
    simp only [encPairs, List.length_nil, Nat.add_zero] at hsize
    simp only [tokensOfPairsSkip, List.length_nil, Nat.zero_add, List.nil_append]
    apply iterateSteps_one
    simp only [JsonbcIteratorNext]
    exact switch_object_end X true _ C size prev sc children ptr dp off cvo parent (by omega)
  | (JsonbcPair.mk key e order) :: rem, prev, hprev, hw, hfit, C, H, epre, dpre, rest, size,
      sc, children, ptr, dp, off, cvo, parent, hC, hsize, hch, hptr, hdp, hoff => by
    simp only [WellFormedPairs] at hw
    obtain ⟨⟨hk1, hk2⟩, hwe, hwr⟩ := hw
    obtain ⟨hfe, hfr⟩ := encPairs_data_le X prev key e order rem
    have hdl := toUInt32_lt (key - (prev : Int))
    have hC0 : C = (H ++ epre) ++ (encode_varbyte (toUInt32 (key - (prev : Int))) ++
        (encode_varbyte (enc X e).2 ++ ((encPairs X (toUInt32 key) rem).1 ++
          (dpre ++ (((enc X e).1 ++ (encPairs X (toUInt32 key) rem).2) ++ rest))))) := by
      rw [hC]; simp [encPairs]
    have hC1 : C = ((H ++ epre) ++ encode_varbyte (toUInt32 (key - (prev : Int)))) ++
        (encode_varbyte (enc X e).2 ++ ((encPairs X (toUInt32 key) rem).1 ++
          (dpre ++ (((enc X e).1 ++ (encPairs X (toUInt32 key) rem).2) ++ rest)))) := by
      rw [hC]; simp [encPairs]
    have hp1 := encode_varbyte_length_pos (toUInt32 (key - (prev : Int)))
    have hp2 := encode_varbyte_length_pos (enc X e).2
    have hsize' : size = epre.length + ((encode_varbyte (toUInt32 (key - (prev : Int)))).length
        + (encode_varbyte (enc X e).2).length + (encPairs X (toUInt32 key) rem).1.length) := by
      simp only [encPairs, List.length_append] at hsize; omega
    have hlt : (H ++ epre).length < children + size := by
      simp only [List.length_append]; omega
    have hdata : C.drop (dp + off)
        = (enc X e).1 ++ ((encPairs X (toUInt32 key) rem).2 ++ rest) := by
      rw [hC, show (H ++ epre) ++ ((encPairs X prev (JsonbcPair.mk key e order :: rem)).1 ++
          (dpre ++ ((encPairs X prev (JsonbcPair.mk key e order :: rem)).2 ++ rest)))
          = ((H ++ epre) ++ ((encPairs X prev (JsonbcPair.mk key e order :: rem)).1 ++ dpre))
            ++ ((enc X e).1 ++ ((encPairs X (toUInt32 key) rem).2 ++ rest)) by simp [encPairs]]
      apply drop_at_prefix
      simp only [encPairs, List.length_append]; omega
    have ih := pairs_run_skip X rem (toUInt32 key) (toUInt32_lt key) hwr (by omega) C H
      (epre ++ (encode_varbyte (toUInt32 (key - (prev : Int))) ++ encode_varbyte (enc X e).2))
      (dpre ++ (enc X e).1) rest size sc children
      (ptr + (encode_varbyte (toUInt32 (key - (prev : Int)))).length
        + (encode_varbyte (enc X e).2).length) dp (off + (enc X e).1.length) cvo parent
      (by rw [hC]; simp [encPairs])
      (by simp only [List.length_append]; omega)
      hch (by simp only [List.length_append]; omega) hdp
      (by simp only [List.length_append]; omega)
    have hpA : ptr = (H ++ epre).length := by simp only [List.length_append]; omega
    have hpA' : ptr + (encode_varbyte (toUInt32 (key - (prev : Int)))).length
        = ((H ++ epre) ++ encode_varbyte (toUInt32 (key - (prev : Int)))).length := by
      simp only [List.length_append]; omega
    have hkey := switch_object_key X true (JsonbcIteratorNext_recurse X true) (H ++ epre)
      (encode_varbyte (enc X e).2 ++ ((encPairs X (toUInt32 key) rem).1 ++
          (dpre ++ (((enc X e).1 ++ (encPairs X (toUInt32 key) rem).2) ++ rest))))
      (toUInt32 (key - (prev : Int))) hdl size prev sc children dp off cvo parent hlt
    rw [← hC0, ← hpA, key_accumulate prev key hprev, toInt32_toUInt32 key hk1 hk2] at hkey
    have hstep := switch_value_skip X (JsonbcIteratorNext_recurse X true) e hwe
      (by omega) ((H ++ epre) ++ encode_varbyte (toUInt32 (key - (prev : Int)))) _ _ size
      (toUInt32 key) sc children dp off cvo parent (by rw [← hC1]; exact hdata)
    rw [← hC1, ← hpA'] at hstep
    have h1 := iterateSteps_cons X true _ _ _ _ _ _ _ ((next_cons X true _ _).trans hstep) ih
    have h := iterateSteps_cons X true _ _ _ _ _ _ _ ((next_cons X true _ _).trans hkey) h1
    simpa [tokensOfPairsSkip] using h

/-- Opening an encoded container and stepping over its begin token leaves an iterator
from which both ways of iterating run to the end of the container. -/
theorem container_run_both (X : Env) :
    ∀ (v : JsonbcValue), WellFormed v → IsAJsonbcScalar v = false →
      (enc X v).1.length ≤ JENTRY_OFFLENMASK →
      ∀ (rest : Bytes) (chain : List JsonbcIterator) (kind : JsonbcIteratorToken),
      ∃ (child child' : JsonbcIterator) (tok0 : TokenVal) (toks toksS : List TokenVal),
        iteratorFromContainer ((enc X v).1 ++ rest) chain = .ok (child :: chain)
        ∧ (∀ skip rc, JsonbcIteratorNext_switch X skip rc child chain
            = .ok (tok0.1, tok0.2, child' :: chain))
        ∧ tokensOf X kind v = tok0 :: toks
        ∧ tokensOfSkip X v rest = tok0 :: toksS
        ∧ iterateSteps X false toks.length (child' :: chain) = .ok (toks, chain)
        ∧ iterateSteps X true toksS.length (child' :: chain) = .ok (toksS, chain)
  | jbvArray n es raw, hw, _, hfit, rest, chain, kind => by
    simp only [WellFormed] at hw
    simp only [enc, List.length_append] at hfit
    have hm : JENTRY_OFFLENMASK < 2 ^ 30 := by decide
    have hsz : (encElems X es).1.length < 2 ^ 30 := by omega
    have hrun := elems_run X es hw.2 (by omega)
      ((encode_varbyte (mkHeader (encElems X es).1.length
        (if raw then JB_FSCALAR else JB_FARRAY))) ++ ((encElems X es).1 ++
          ((encElems X es).2 ++ rest)))
      (encode_varbyte (mkHeader (encElems X es).1.length
        (if raw then JB_FSCALAR else JB_FARRAY))) [] [] rest
      (encElems X es).1.length 0 raw
      (encode_varbyte (mkHeader (encElems X es).1.length
        (if raw then JB_FSCALAR else JB_FARRAY))).length
      (encode_varbyte (mkHeader (encElems X es).1.length
        (if raw then JB_FSCALAR else JB_FARRAY))).length
      ((encode_varbyte (mkHeader (encElems X es).1.length
        (if raw then JB_FSCALAR else JB_FARRAY))).length + (encElems X es).1.length)
      0 0 chain (by simp) (by simp) rfl (by simp) rfl rfl
    have hrunS := elems_run_skip X es hw.2 (by omega)
      ((encode_varbyte (mkHeader (encElems X es).1.length
        (if raw then JB_FSCALAR else JB_FARRAY))) ++ ((encElems X es).1 ++
          ((encElems X es).2 ++ rest)))
      (encode_varbyte (mkHeader (encElems X es).1.length
        (if raw then JB_FSCALAR else JB_FARRAY))) [] [] rest
      (encElems X es).1.length 0 raw
      (encode_varbyte (mkHeader (encElems X es).1.length
        (if raw then JB_FSCALAR else JB_FARRAY))).length
      (encode_varbyte (mkHeader (encElems X es).1.length
        (if raw then JB_FSCALAR else JB_FARRAY))).length
      ((encode_varbyte (mkHeader (encElems X es).1.length
        (if raw then JB_FSCALAR else JB_FARRAY))).length + (encElems X es).1.length)
      0 0 chain (by simp) (by simp) rfl (by simp) rfl rfl
    have hinit := iteratorFromContainer_header (encElems X es).1.length
      (if raw then JB_FSCALAR else JB_FARRAY)
      (by cases raw <;> simp [JB_FSCALAR, JB_FARRAY]) hsz
      ((encElems X es).1 ++ ((encElems X es).2 ++ rest)) chain
    have hflag : decide ((if raw then JB_FSCALAR else JB_FARRAY) = 0) = raw := by
      cases raw <;> simp [JB_FSCALAR, JB_FARRAY]
    have hstate : (if (if raw then JB_FSCALAR else JB_FARRAY) = 1 then JBI_OBJECT_START
        else JBI_ARRAY_START) = JBI_ARRAY_START := by
      cases raw <;> simp [JB_FSCALAR, JB_FARRAY]
    rw [hflag, hstate] at hinit
    have e : encode_varbyte (mkHeader (encElems X es).1.length
        (if raw then JB_FSCALAR else JB_FARRAY)) ++ ((encElems X es).1 ++
          ((encElems X es).2 ++ rest)) = (enc X (jbvArray n es raw)).1 ++ rest := by
      simp only [enc, List.append_assoc]
    rw [e] at hinit hrun hrunS
    rw [show (tokensOfElems X es).length + 1
      = (tokensOfElems X es ++ [(WJB_END_ARRAY, none)]).length by simp] at hrun
    rw [show (tokensOfElemsSkip X es rest).length + 1
      = (tokensOfElemsSkip X es rest ++ [(WJB_END_ARRAY, none)]).length by simp] at hrunS
    have h3 : tokensOf X kind (jbvArray n es raw)
        = (WJB_BEGIN_ARRAY, some (jbvArray (encElems X es).1.length [] raw))
          :: (tokensOfElems X es ++ [(WJB_END_ARRAY, none)]) := by
      simp [tokensOf]
    exact ⟨_, _, _, _, _, hinit,
      fun skip rc => switch_array_start X skip rc _ _ _ _ _ _ _ _ _ _, h3, rfl, hrun, hrunS⟩
  | jbvObject n ps, hw, _, hfit, rest, chain, kind => by
    simp only [WellFormed] at hw
    simp only [enc, List.length_append] at hfit
    have hm : JENTRY_OFFLENMASK < 2 ^ 30 := by decide
    have hsz : (encPairs X 0 ps).1.length < 2 ^ 30 := by omega
    have hrun := pairs_run X ps 0 (by norm_num) hw.2 (by omega)
      ((encode_varbyte (mkHeader (encPairs X 0 ps).1.length JB_FOBJECT))
        ++ ((encPairs X 0 ps).1 ++ ((encPairs X 0 ps).2 ++ rest)))
      (encode_varbyte (mkHeader (encPairs X 0 ps).1.length JB_FOBJECT)) [] [] rest
      (encPairs X 0 ps).1.length false
      (encode_varbyte (mkHeader (encPairs X 0 ps).1.length JB_FOBJECT)).length
      (encode_varbyte (mkHeader (encPairs X 0 ps).1.length JB_FOBJECT)).length
      ((encode_varbyte (mkHeader (encPairs X 0 ps).1.length JB_FOBJECT)).length
        + (encPairs X 0 ps).1.length)
      0 0 chain (by simp) (by simp) rfl (by simp) rfl rfl
    have hrunS := pairs_run_skip X ps 0 (by norm_num) hw.2 (by omega)
      ((encode_varbyte (mkHeader (encPairs X 0 ps).1.length JB_FOBJECT))
        ++ ((encPairs X 0 ps).1 ++ ((encPairs X 0 ps).2 ++ rest)))
      (encode_varbyte (mkHeader (encPairs X 0 ps).1.length JB_FOBJECT)) [] [] rest
      (encPairs X 0 ps).1.length false
      (encode_varbyte (mkHeader (encPairs X 0 ps).1.length JB_FOBJECT)).length
      (encode_varbyte (mkHeader (encPairs X 0 ps).1.length JB_FOBJECT)).length
      ((encode_varbyte (mkHeader (encPairs X 0 ps).1.length JB_FOBJECT)).length
        + (encPairs X 0 ps).1.length)
      0 0 chain (by simp) (by simp) rfl (by simp) rfl rfl
    have hinit := iteratorFromContainer_header (encPairs X 0 ps).1.length JB_FOBJECT
      (by simp [JB_FOBJECT]) hsz ((encPairs X 0 ps).1 ++ ((encPairs X 0 ps).2 ++ rest)) chain
    have hflag : decide (JB_FOBJECT = 0) = false := by simp [JB_FOBJECT]
    have hstate : (if JB_FOBJECT = 1 then JBI_OBJECT_START else JBI_ARRAY_START)
        = JBI_OBJECT_START := by simp [JB_FOBJECT]
    rw [hflag, hstate] at hinit
    have e : encode_varbyte (mkHeader (encPairs X 0 ps).1.length JB_FOBJECT)
        ++ ((encPairs X 0 ps).1 ++ ((encPairs X 0 ps).2 ++ rest))
        = (enc X (jbvObject n ps)).1 ++ rest := by
      simp only [enc, List.append_assoc]
    rw [e] at hinit hrun hrunS
    rw [show (tokensOfPairs X ps).length + 1
      = (tokensOfPairs X ps ++ [(WJB_END_OBJECT, none)]).length by simp] at hrun
    rw [show (tokensOfPairsSkip X ps rest).length + 1
      = (tokensOfPairsSkip X ps rest ++ [(WJB_END_OBJECT, none)]).length by simp] at hrunS
    have h3 : tokensOf X kind (jbvObject n ps)
        = (WJB_BEGIN_OBJECT, some (jbvObject (encPairs X 0 ps).1.length []))
          :: (tokensOfPairs X ps ++ [(WJB_END_OBJECT, none)]) := by
      simp [tokensOf]
    exact ⟨_, _, _, _, _, hinit,
      fun skip rc => switch_object_start X skip rc _ _ _ _ _ _ _ _ _ _, h3, rfl, hrun, hrunS⟩
  | jbvNull, _, hs, _, _, _, _ => by simp [IsAJsonbcScalar, JsonbcValue.type] at hs
  | jbvString _, _, hs, _, _, _, _ => by simp [IsAJsonbcScalar, JsonbcValue.type] at hs
  | jbvNumeric _, _, hs, _, _, _, _ => by simp [IsAJsonbcScalar, JsonbcValue.type] at hs
  | jbvBool _, _, hs, _, _, _, _ => by simp [IsAJsonbcScalar, JsonbcValue.type] at hs
  | jbvBinary _ _, hw, _, _, _, _, _ => by simp [WellFormed] at hw

/-! ## C22 -/

mutual
theorem tokensOf_not_binary (X : Env) (kind : JsonbcIteratorToken) :
    ∀ (v : JsonbcValue), WellFormed v → ∀ t ∈ tokensOf X kind v,
      ∀ (len : Nat) (data : Bytes), t.2 ≠ some (jbvBinary len data)
  | jbvArray _ es _, hw, t, ht, len, data => by
    simp only [WellFormed] at hw
    simp only [tokensOf, List.mem_cons, List.mem_append, List.not_mem_nil, or_false] at ht
    rcases ht with rfl | ht | rfl
    · simp
    · exact tokensOfElems_not_binary X es hw.2 t ht len data
    · simp
  | jbvObject _ ps, hw, t, ht, len, data => by
    simp only [WellFormed] at hw
    simp only [tokensOf, List.mem_cons, List.mem_append, List.not_mem_nil, or_false] at ht
    rcases ht with rfl | ht | rfl
    · simp
    · exact tokensOfPairs_not_binary X ps hw.2 t ht len data
    · simp
  | jbvNull, _, t, ht, _, _ => by
    simp only [tokensOf, List.mem_singleton] at ht; subst ht; simp
  | jbvString _, _, t, ht, _, _ => by
    simp only [tokensOf, List.mem_singleton] at ht; subst ht; simp
  | jbvNumeric n, _, t, ht, len, data => by
    simp only [tokensOf, List.mem_singleton] at ht; subst ht
    have h := decodedScalar_isScalar X (jbvNumeric n) rfl
    intro e
    simp only [Option.some.injEq] at e
    rw [e] at h
    simp [IsAJsonbcScalar, JsonbcValue.type] at h
  | jbvBool _, _, t, ht, _, _ => by
    simp only [tokensOf, List.mem_singleton] at ht; subst ht; simp
  | jbvBinary _ _, hw, _, _, _, _ => by simp [WellFormed] at hw
theorem tokensOfElems_not_binary (X : Env) :
    ∀ (l : List JsonbcValue), WellFormedElems l → ∀ t ∈ tokensOfElems X l,
      ∀ (len : Nat) (data : Bytes), t.2 ≠ some (jbvBinary len data)
  | [], _, t, ht, _, _ => by simp [tokensOfElems] at ht
  | e :: rest, hw, t, ht, len, data => by
    simp only [WellFormedElems] at hw
    simp only [tokensOfElems, List.mem_append] at ht
    rcases ht with ht | ht
    · exact tokensOf_not_binary X WJB_ELEM e hw.1 t ht len data
    · exact tokensOfElems_not_binary X rest hw.2 t ht len data
theorem tokensOfPairs_not_binary (X : Env) :
    ∀ (l : List JsonbcPair), WellFormedPairs l → ∀ t ∈ tokensOfPairs X l,
      ∀ (len : Nat) (data : Bytes), t.2 ≠ some (jbvBinary len data)
  | [], _, t, ht, _, _ => by simp [tokensOfPairs] at ht
  | (JsonbcPair.mk k v o) :: rest, hw, t, ht, len, data => by
    simp only [WellFormedPairs] at hw
    simp only [tokensOfPairs, List.mem_cons, List.mem_append] at ht
    rcases ht with rfl | ht | ht
    · simp
    · exact tokensOf_not_binary X WJB_VALUE v hw.2.1 t ht len data
    · exact tokensOfPairs_not_binary X rest hw.2.2 t ht len data
end

theorem tokensOfElemsSkip_ne_done (X : Env) :
    ∀ (l : List JsonbcValue) (tail : Bytes), ∀ t ∈ tokensOfElemsSkip X l tail, t.1 ≠ WJB_DONE
  | [], _, t, ht => by simp [tokensOfElemsSkip] at ht
  | e :: rest, tail, t, ht => by
    simp only [tokensOfElemsSkip, List.mem_cons] at ht
    rcases ht with rfl | ht
    · simp
    · exact tokensOfElemsSkip_ne_done X rest tail t ht

theorem tokensOfPairsSkip_ne_done (X : Env) :
    ∀ (l : List JsonbcPair) (tail : Bytes), ∀ t ∈ tokensOfPairsSkip X l tail, t.1 ≠ WJB_DONE
  | [], _, t, ht => by simp [tokensOfPairsSkip] at ht
  | (JsonbcPair.mk k v o) :: rest, tail, t, ht => by
    simp only [tokensOfPairsSkip, List.mem_cons] at ht
    rcases ht with rfl | rfl | ht
    · simp
    · simp
    · exact tokensOfPairsSkip_ne_done X rest tail t ht

theorem tokensOfSkip_ne_done (X : Env) (v : JsonbcValue) (tail : Bytes) :
    ∀ t ∈ tokensOfSkip X v tail, t.1 ≠ WJB_DONE := by
  intro t ht
  cases v with
  | jbvArray n es raw =>
    simp only [tokensOfSkip, List.mem_cons, List.mem_append, List.not_mem_nil, or_false] at ht
    rcases ht with rfl | ht | rfl
    · simp
    · exact tokensOfElemsSkip_ne_done X es tail t ht
    · simp
  | jbvObject n ps =>
    simp only [tokensOfSkip, List.mem_cons, List.mem_append, List.not_mem_nil, or_false] at ht
    rcases ht with rfl | ht | rfl
    · simp
    · exact tokensOfPairsSkip_ne_done X ps tail t ht
    · simp
  | jbvNull => simp [tokensOfSkip] at ht
  | jbvString _ => simp [tokensOfSkip] at ht
  | jbvNumeric _ => simp [tokensOfSkip] at ht
  | jbvBool _ => simp [tokensOfSkip] at ht
  | jbvBinary _ _ => simp [tokensOfSkip] at ht

theorem tokensOfElemsSkip_length (X : Env) :
    ∀ (l : List JsonbcValue) (tail : Bytes), (tokensOfElemsSkip X l tail).length = l.length
  | [], _ => rfl
  | e :: rest, tail => by simp [tokensOfElemsSkip, tokensOfElemsSkip_length X rest tail]

theorem tokensOfPairsSkip_length (X : Env) :
    ∀ (l : List JsonbcPair) (tail : Bytes),
      (tokensOfPairsSkip X l tail).length = 2 * l.length
  | [], _ => rfl
  | (JsonbcPair.mk k v o) :: rest, tail => by
    simp only [tokensOfPairsSkip, List.length_cons, tokensOfPairsSkip_length X rest tail]
    omega

/-- Iterating the root container of an encoded tree with `skipNested = true`. -/
theorem iterate_root_skip (X : Env) (t : JsonbcValue) (hw : WellFormed t)
    (hs : IsAJsonbcScalar t = false) (hfit : (enc X t).1.length ≤ JENTRY_OFFLENMASK)
    (fuel : Nat) (hfuel : (tokensOfSkip X t []).length < fuel) :
    ∃ it, JsonbcIteratorInit (enc X t).1 = .ok it
      ∧ iterateTokens X true fuel it = .ok (tokensOfSkip X t []) := by
  obtain ⟨child, child', tok0, toks, toksS, hinit, hsw, -, htokS, -, hrunS⟩ :=
    container_run_both X t hw hs hfit [] [] WJB_ELEM
  rw [List.append_nil] at hinit
  refine ⟨[child], hinit, ?_⟩
  have h := iterateSteps_cons X true _ _ _ _ _ _ _
    ((next_cons X true _ _).trans (hsw _ _)) hrunS
  apply iterateTokens_of_steps X true _ _ _ fuel (by rw [htokS]; exact h)
    (tokensOfSkip_ne_done X t [])
  rw [htokS] at hfuel
  simpa using hfuel

/-- C22: iterating an encoded container with `skipNested = false` returns no token that
carries a binary value: the stream is the one of the tree, where each nested container
appears as its own run from begin to end. Iterating it with `skipNested = true` returns
begin, one token for each child and end: each nested container child is one
`WJB_ELEM` or `WJB_VALUE` token carrying the binary value of the child (`skipValue`), so
that an array of n elements yields n + 2 tokens and an object of n pairs 2n + 2. -/
theorem C22_skip_nested (X : Env) (t : JsonbcValue) (hw : WellFormed t)
    (hs : IsAJsonbcScalar t = false) (jb : Jsonbc) (h : JsonbcValueToJsonbc X t = .ok jb) :
    (∃ it toks, JsonbcIteratorInit jb.root = .ok it
        ∧ (∀ fuel, toks.length < fuel → iterateTokens X false fuel it = .ok toks)
        ∧ toks = tokensOf X WJB_ELEM t
        ∧ ∀ tv ∈ toks, ∀ (len : Nat) (data : Bytes), tv.2 ≠ some (jbvBinary len data))
      ∧ (∃ it toks, JsonbcIteratorInit jb.root = .ok it
        ∧ (∀ fuel, toks.length < fuel → iterateTokens X true fuel it = .ok toks)
        ∧ toks = tokensOfSkip X t []
        ∧ (∀ n es raw, t = jbvArray n es raw → toks.length = es.length + 2)
        ∧ (∀ n ps, t = jbvObject n ps → toks.length = 2 * ps.length + 2)
        ∧ (∀ (c : JsonbcValue) (rest : Bytes), IsAJsonbcScalar c = false →
            skipValue X c rest = jbvBinary (enc X c).1.length ((enc X c).1 ++ rest))) := by
  rw [JsonbcValueToJsonbc_container X t hw hs] at h
  obtain ⟨hr, hfit⟩ := convertToJsonbc_ok X t hw hs jb h
  rw [hr]
  constructor
  · obtain ⟨it, hinit, _⟩ := iterate_root X t hw hs hfit _ (Nat.lt_succ_self _)
    refine ⟨it, tokensOf X WJB_ELEM t, hinit, ?_, rfl, tokensOf_not_binary X WJB_ELEM t hw⟩
    intro fuel hf
    obtain ⟨it', hinit', hit'⟩ := iterate_root X t hw hs hfit fuel hf
    rw [hinit] at hinit'
    cases hinit'
    exact hit'
  · obtain ⟨it, hinit, _⟩ := iterate_root_skip X t hw hs hfit _ (Nat.lt_succ_self _)
    refine ⟨it, tokensOfSkip X t [], hinit, ?_, rfl, ?_, ?_, ?_⟩
    · intro fuel hf
      obtain ⟨it', hinit', hit'⟩ := iterate_root_skip X t hw hs hfit fuel hf
      rw [hinit] at hinit'
      cases hinit'
      exact hit'
    · rintro n es raw rfl
      simp [tokensOfSkip, tokensOfElemsSkip_length]
    · rintro n ps rfl
      simp [tokensOfSkip, tokensOfPairsSkip_length]
    · intro c rest hc
      simp [skipValue, hc]

theorem C22_skip_nested_witness :
    (WellFormed demoDocument ∧ IsAJsonbcScalar demoDocument = false
      ∧ JsonbcValueToJsonbc demoEnv demoDocument
          = .ok ⟨15, [17, 1, 11, 1, 47, 1, 14, 5, 6, 9, 120]⟩)
    ∧ ((∃ it toks,
          JsonbcIteratorInit (Jsonbc.mk 15 [17, 1, 11, 1, 47, 1, 14, 5, 6, 9, 120]).root = .ok it
        ∧ (∀ fuel, toks.length < fuel → iterateTokens demoEnv false fuel it = .ok toks)
        ∧ toks = tokensOf demoEnv WJB_ELEM demoDocument
        ∧ ∀ tv ∈ toks, ∀ (len : Nat) (data : Bytes), tv.2 ≠ some (jbvBinary len data))
      ∧ (∃ it toks,
          JsonbcIteratorInit (Jsonbc.mk 15 [17, 1, 11, 1, 47, 1, 14, 5, 6, 9, 120]).root = .ok it
        ∧ (∀ fuel, toks.length < fuel → iterateTokens demoEnv true fuel it = .ok toks)
        ∧ toks = tokensOfSkip demoEnv demoDocument []
        ∧ (∀ n es raw, demoDocument = jbvArray n es raw → toks.length = es.length + 2)
        ∧ (∀ n ps, demoDocument = jbvObject n ps → toks.length = 2 * ps.length + 2)
        ∧ (∀ (c : JsonbcValue) (rest : Bytes), IsAJsonbcScalar c = false →
            skipValue demoEnv c rest
              = jbvBinary (enc demoEnv c).1.length ((enc demoEnv c).1 ++ rest)))) :=
  ⟨⟨demoDocument_wellFormed, rfl, rfl⟩,
    C22_skip_nested demoEnv demoDocument demoDocument_wellFormed rfl _ rfl⟩

/-! ## Containment at the roots: C23, C24, C25, C26 -/

theorem root_is_object_array (X : Env) (n : Nat) (es : List JsonbcValue) (raw : Bool)
    (vl : Nat) (hfit : (enc X (jbvArray n es raw)).1.length ≤ JENTRY_OFFLENMASK) :
    JB_ROOT_IS_OBJECT ⟨vl, (enc X (jbvArray n es raw)).1⟩ = false := by
  obtain ⟨hh, hsz⟩ := array_header X n es raw hfit
  simp only [JB_ROOT_IS_OBJECT, jsonbc_header, hh,
    mkHeader_flag _ _ (by cases raw <;> simp [JB_FSCALAR, JB_FARRAY] :
      (if raw then JB_FSCALAR else JB_FARRAY) < 4) hsz]
  cases raw <;> rfl

/-- What `JsonbcValueToJsonbc` returns for a well-formed container, with its root flag
test. -/
theorem encoded_root (X : Env) (t : JsonbcValue) (hw : WellFormed t)
    (hs : IsAJsonbcScalar t = false) (jb : Jsonbc) (h : JsonbcValueToJsonbc X t = .ok jb) :
    jb.root = (enc X t).1 ∧ (enc X t).1.length ≤ JENTRY_OFFLENMASK
      ∧ JB_ROOT_IS_OBJECT jb = decide (t.type = 0x11) := by
  rw [JsonbcValueToJsonbc_container X _ hw hs] at h
  obtain ⟨hr, hfit⟩ := convertToJsonbc_ok X _ hw hs jb h
  refine ⟨hr, hfit, ?_⟩
  obtain ⟨vl, root⟩ := jb
  simp only at hr
  subst hr
  cases t with
  | jbvArray n es raw => rw [root_is_object_array X n es raw vl hfit]; rfl
  | jbvObject n ps => rw [root_is_object X n ps vl hfit]; rfl
  | jbvNull => simp [IsAJsonbcScalar, JsonbcValue.type] at hs
  | jbvString _ => simp [IsAJsonbcScalar, JsonbcValue.type] at hs
  | jbvNumeric _ => simp [IsAJsonbcScalar, JsonbcValue.type] at hs
  | jbvBool _ => simp [IsAJsonbcScalar, JsonbcValue.type] at hs
  | jbvBinary _ _ => simp [WellFormed] at hw

/-- An object contains the empty object. -/
theorem contains_object_empty (X : Env) (nl nr : Nat) (pl : List JsonbcPair)
    (hwl : WellFormed (jbvObject nl pl)) (hwr : WellFormed (jbvObject nr []))
    (jl jr : Jsonbc) (hl : JsonbcValueToJsonbc X (jbvObject nl pl) = .ok jl)
    (hr : JsonbcValueToJsonbc X (jbvObject nr []) = .ok jr) :
    jsonbc_contains X jl jr = .ok true := by
  obtain ⟨hrl, hfl, hol⟩ := encoded_root X _ hwl rfl jl hl
  obtain ⟨hrr, hfr, hor⟩ := encoded_root X _ hwr rfl jr hr
  replace hol : JB_ROOT_IS_OBJECT jl = true := by rw [hol]; rfl
  replace hor : JB_ROOT_IS_OBJECT jr = true := by rw [hor]; rfl
  obtain ⟨cl, cl', tl0, tl, tlS, hli, hlsw, hlt, -, -, -⟩ :=
    container_run_both X _ hwl rfl hfl [] [] WJB_ELEM
  obtain ⟨cr, cr', tr0, tr, trS, hri, hrsw, hrt, -, hrrun, -⟩ :=
    container_run_both X _ hwr rfl hfr [] [] WJB_ELEM
  rw [List.append_nil] at hli hri
  simp only [tokensOf, tokensOfPairs, List.nil_append, List.cons.injEq] at hlt hrt
  obtain ⟨rfl, -⟩ := hlt
  obtain ⟨rfl, rfl⟩ := hrt
  obtain ⟨r2, hrend, -⟩ := iterateSteps_uncons X false _ _ _ _ _ hrrun
  have hln := (next_cons X false cl []).trans (hlsw false _)
  have hrn := (next_cons X false cr []).trans (hrsw false _)
  simp only [jsonbc_contains, hol, hor, hrl, hrr, JsonbcIteratorInit, hli, hri]
  simp only [ne_eq, not_true_eq_false, if_false]
  obtain ⟨f, hf⟩ : ∃ f, 3 * ((enc X (jbvObject nl pl)).1.length
      + (enc X (jbvObject nr [])).1.length) + 3 = f + 2 :=
    ⟨3 * ((enc X (jbvObject nl pl)).1.length + (enc X (jbvObject nr [])).1.length) + 1, rfl⟩
  rw [hf]
  simp only [JsonbcDeepContains, hln, hrn]
  simp only [ne_eq, not_true_eq_false, if_false, if_true, encPairs, List.length_nil,
    Nat.not_lt_zero]
  simp [JsonbcDeepContains_object, hrend]

/-- A true array contains the empty array. -/
theorem contains_array_empty (X : Env) (nl nr : Nat) (el : List JsonbcValue)
    (hwl : WellFormed (jbvArray nl el false)) (hwr : WellFormed (jbvArray nr [] false))
    (jl jr : Jsonbc) (hl : JsonbcValueToJsonbc X (jbvArray nl el false) = .ok jl)
    (hr : JsonbcValueToJsonbc X (jbvArray nr [] false) = .ok jr) :
    jsonbc_contains X jl jr = .ok true := by
  obtain ⟨hrl, hfl, hol⟩ := encoded_root X _ hwl rfl jl hl
  obtain ⟨hrr, hfr, hor⟩ := encoded_root X _ hwr rfl jr hr
  replace hol : JB_ROOT_IS_OBJECT jl = false := by rw [hol]; rfl
  replace hor : JB_ROOT_IS_OBJECT jr = false := by rw [hor]; rfl
  obtain ⟨cl, cl', tl0, tl, tlS, hli, hlsw, hlt, -, -, -⟩ :=
    container_run_both X _ hwl rfl hfl [] [] WJB_ELEM
  obtain ⟨cr, cr', tr0, tr, trS, hri, hrsw, hrt, hrtS, -, hrrunS⟩ :=
    container_run_both X _ hwr rfl hfr [] [] WJB_ELEM
  rw [List.append_nil] at hli hri
  simp only [tokensOf, List.cons.injEq] at hlt hrt
  obtain ⟨rfl, -⟩ := hlt
  obtain ⟨rfl, -⟩ := hrt
  simp only [tokensOfSkip, tokensOfElemsSkip, List.nil_append, List.cons.injEq, true_and]
    at hrtS
  subst hrtS
  obtain ⟨r2, hrend, -⟩ := iterateSteps_uncons X true _ _ _ _ _ hrrunS
  have hln := (next_cons X false cl []).trans (hlsw false _)
  have hrn := (next_cons X false cr []).trans (hrsw false _)
  simp only [jsonbc_contains, hol, hor, hrl, hrr, JsonbcIteratorInit, hli, hri]
  simp only [ne_eq, not_true_eq_false, if_false]
  obtain ⟨f, hf⟩ : ∃ f, 3 * ((enc X (jbvArray nl el false)).1.length
      + (enc X (jbvArray nr [] false)).1.length) + 3 = f + 2 :=
    ⟨3 * ((enc X (jbvArray nl el false)).1.length
      + (enc X (jbvArray nr [] false)).1.length) + 1, rfl⟩
  rw [hf]
  simp only [JsonbcDeepContains, hln, hrn]
  simp [JsonbcDeepContains_array, hrend]

/-! ## C23 -/

/-- C23: every encoded object contains the encoded empty object, and every encoded
non-scalar array contains the encoded empty array. -/
theorem C23_contains_empty (X : Env) (t : JsonbcValue) (hw : WellFormed t) (jx : Jsonbc)
    (hx : JsonbcValueToJsonbc X t = .ok jx) :
    (∀ n ps, t = jbvObject n ps →
        ∃ je, JsonbcValueToJsonbc X (jbvObject 0 []) = .ok je
          ∧ jsonbc_contains X jx je = .ok true)
      ∧ (∀ n es, t = jbvArray n es false →
        ∃ je, JsonbcValueToJsonbc X (jbvArray 0 [] false) = .ok je
          ∧ jsonbc_contains X jx je = .ok true) := by
  constructor
  · rintro n ps rfl
    exact ⟨⟨5, [1]⟩, rfl, contains_object_empty X n 0 ps hw (by simp [WellFormed, WellFormedPairs])
      jx _ hx rfl⟩
  · rintro n es rfl
    exact ⟨⟨5, [2]⟩, rfl, contains_array_empty X n 0 es hw (by simp [WellFormed, WellFormedElems])
      jx _ hx rfl⟩

theorem C23_contains_empty_witness :
    (WellFormed demoDocument
      ∧ JsonbcValueToJsonbc demoEnv demoDocument
          = .ok ⟨15, [17, 1, 11, 1, 47, 1, 14, 5, 6, 9, 120]⟩)
    ∧ ((∀ n ps, demoDocument = jbvObject n ps →
        ∃ je, JsonbcValueToJsonbc demoEnv (jbvObject 0 []) = .ok je
          ∧ jsonbc_contains demoEnv ⟨15, [17, 1, 11, 1, 47, 1, 14, 5, 6, 9, 120]⟩ je = .ok true)
      ∧ (∀ n es, demoDocument = jbvArray n es false →
        ∃ je, JsonbcValueToJsonbc demoEnv (jbvArray 0 [] false) = .ok je
          ∧ jsonbc_contains demoEnv ⟨15, [17, 1, 11, 1, 47, 1, 14, 5, 6, 9, 120]⟩ je
              = .ok true)) :=
  ⟨⟨demoDocument_wellFormed, rfl⟩,
    C23_contains_empty demoEnv demoDocument demoDocument_wellFormed _ rfl⟩

/-! ## C24 -/

/-- C24: for every encoded object o and every encoded array a (true array or scalar
wrapper), `jsonbc_contains(o, a)` and `jsonbc_contains(a, o)` are both false. -/
theorem C24_object_array_mismatch (X : Env) (no na : Nat) (ps : List JsonbcPair)
    (es : List JsonbcValue) (raw : Bool) (hwo : WellFormed (jbvObject no ps))
    (hwa : WellFormed (jbvArray na es raw)) (jo ja : Jsonbc)
    (ho : JsonbcValueToJsonbc X (jbvObject no ps) = .ok jo)
    (ha : JsonbcValueToJsonbc X (jbvArray na es raw) = .ok ja) :
    jsonbc_contains X jo ja = .ok false ∧ jsonbc_contains X ja jo = .ok false := by
  obtain ⟨-, -, hoo⟩ := encoded_root X _ hwo rfl jo ho
  obtain ⟨-, -, hoa⟩ := encoded_root X _ hwa rfl ja ha
  replace hoo : JB_ROOT_IS_OBJECT jo = true := by rw [hoo]; rfl
  replace hoa : JB_ROOT_IS_OBJECT ja = false := by rw [hoa]; rfl
  simp [jsonbc_contains, hoo, hoa]

theorem C24_object_array_mismatch_witness :
    (WellFormed (jbvObject 1 [JsonbcPair.mk 1 (jbvNumeric [0, 1]) 0])
      ∧ WellFormed (jbvArray 1 [jbvNumeric [0, 1]] true)
      ∧ JsonbcValueToJsonbc demoEnv (jbvObject 1 [JsonbcPair.mk 1 (jbvNumeric [0, 1]) 0])
          = .ok ⟨8, [9, 1, 11, 1]⟩
      ∧ JsonbcValueToJsonbc demoEnv (jbvArray 1 [jbvNumeric [0, 1]] true) = .ok ⟨7, [4, 11, 1]⟩)
    ∧ (jsonbc_contains demoEnv ⟨8, [9, 1, 11, 1]⟩ ⟨7, [4, 11, 1]⟩ = .ok false
      ∧ jsonbc_contains demoEnv ⟨7, [4, 11, 1]⟩ ⟨8, [9, 1, 11, 1]⟩ = .ok false) :=
  have hwo : WellFormed (jbvObject 1 [JsonbcPair.mk 1 (jbvNumeric [0, 1]) 0]) := by
    simp [WellFormed, WellFormedPairs]
  have hwa : WellFormed (jbvArray 1 [jbvNumeric [0, 1]] true) := by
    simp [WellFormed, WellFormedElems]
  ⟨⟨hwo, hwa, rfl, rfl⟩, C24_object_array_mismatch demoEnv 1 1 _ _ true hwo hwa _ _ rfl rfl⟩

/-! ## C25 -/

theorem wellFormed_scalar (s : JsonbcValue) (hs : IsAJsonbcScalar s = true) : WellFormed s := by
  cases s <;> first
    | (simp [IsAJsonbcScalar, JsonbcValue.type] at hs; done)
    | simp [WellFormed]

/-- C25: for every encoded root scalar s and every encoded true array a,
`jsonbc_contains(s, a)` is false and `jsonbc_contains(a, s)` is false. -/
theorem C25_scalar_array_mismatch (X : Env) (s : JsonbcValue)
    (hs : IsAJsonbcScalar s = true) (n : Nat) (es : List JsonbcValue)
    (hwa : WellFormed (jbvArray n es false)) (js ja : Jsonbc)
    (hjs : JsonbcValueToJsonbc X s = .ok js)
    (hja : JsonbcValueToJsonbc X (jbvArray n es false) = .ok ja) :
    jsonbc_contains X js ja = .ok false ∧ jsonbc_contains X ja js = .ok false := by
  have hws : WellFormed (jbvArray 1 [s] true) := by
    simp [WellFormed, WellFormedElems, wellFormed_scalar s hs]
  rw [JsonbcValueToJsonbc_scalar X s hs,
    ← JsonbcValueToJsonbc_container X (jbvArray 1 [s] true) hws rfl] at hjs
  obtain ⟨hrs, hfs, hos⟩ := encoded_root X _ hws rfl js hjs
  obtain ⟨hra, hfa, hoa⟩ := encoded_root X _ hwa rfl ja hja
  replace hos : JB_ROOT_IS_OBJECT js = false := by rw [hos]; rfl
  replace hoa : JB_ROOT_IS_OBJECT ja = false := by rw [hoa]; rfl
  obtain ⟨cs, cs', ts0, ts, tsS, hsi, hssw, hst, hstS, -, hsrunS⟩ :=
    container_run_both X _ hws rfl hfs [] [] WJB_ELEM
  obtain ⟨ca, ca', ta0, ta, taS, hai, hasw, hat, -, -, -⟩ :=
    container_run_both X _ hwa rfl hfa [] [] WJB_ELEM
  rw [List.append_nil] at hsi hai
  simp only [tokensOf, List.cons.injEq] at hst hat
  obtain ⟨rfl, -⟩ := hst
  obtain ⟨rfl, -⟩ := hat
  simp only [tokensOfSkip, tokensOfElemsSkip, List.cons_append, List.nil_append,
    List.cons.injEq, true_and] at hstS
  subst hstS
  obtain ⟨s2, hselem, -⟩ := iterateSteps_uncons X true _ _ _ _ _ hsrunS
  have hsn := (next_cons X false cs []).trans (hssw false _)
  have han := (next_cons X false ca []).trans (hasw false _)
  have hsv : IsAJsonbcScalar (skipValue X s (encElems X []).2) = true := by
    simp only [skipValue, hs, if_true]
    exact decodedScalar_isScalar X s hs
  constructor
  · simp only [jsonbc_contains, hos, hoa, hrs, hra, JsonbcIteratorInit, hsi, hai]
    simp only [ne_eq, not_true_eq_false, if_false]
    obtain ⟨f, hf⟩ : ∃ f, 3 * ((enc X (jbvArray 1 [s] true)).1.length
        + (enc X (jbvArray n es false)).1.length) + 3 = f + 2 :=
      ⟨3 * ((enc X (jbvArray 1 [s] true)).1.length
        + (enc X (jbvArray n es false)).1.length) + 1, rfl⟩
    rw [hf]
    simp [JsonbcDeepContains, hsn, han]
  · simp only [jsonbc_contains, hos, hoa, hrs, hra, JsonbcIteratorInit, hsi, hai]
    simp only [ne_eq, not_true_eq_false, if_false]
    obtain ⟨f, hf⟩ : ∃ f, 3 * ((enc X (jbvArray n es false)).1.length
        + (enc X (jbvArray 1 [s] true)).1.length) + 3 = f + 2 :=
      ⟨3 * ((enc X (jbvArray n es false)).1.length
        + (enc X (jbvArray 1 [s] true)).1.length) + 1, rfl⟩
    rw [hf]
    simp only [JsonbcDeepContains, hsn, han]
    simp [JsonbcDeepContains_array, hselem, hsv, findJsonbcValueFromContainer]

theorem C25_scalar_array_mismatch_witness :
    (IsAJsonbcScalar (jbvNumeric [0, 1]) = true
      ∧ WellFormed (jbvArray 3 [jbvNumeric [0, 1], jbvNumeric [0, 2], jbvNumeric [0, 3]] false)
      ∧ JsonbcValueToJsonbc demoEnv (jbvNumeric [0, 1]) = .ok ⟨7, [4, 11, 1]⟩
      ∧ JsonbcValueToJsonbc demoEnv
          (jbvArray 3 [jbvNumeric [0, 1], jbvNumeric [0, 2], jbvNumeric [0, 3]] false)
          = .ok ⟨11, [14, 11, 11, 11, 1, 2, 3]⟩)
    ∧ (jsonbc_contains demoEnv ⟨7, [4, 11, 1]⟩ ⟨11, [14, 11, 11, 11, 1, 2, 3]⟩ = .ok false
      ∧ jsonbc_contains demoEnv ⟨11, [14, 11, 11, 11, 1, 2, 3]⟩ ⟨7, [4, 11, 1]⟩ = .ok false) :=
  have hwa : WellFormed
      (jbvArray 3 [jbvNumeric [0, 1], jbvNumeric [0, 2], jbvNumeric [0, 3]] false) := by
    simp [WellFormed, WellFormedElems]
  ⟨⟨rfl, hwa, rfl, rfl⟩,
    C25_scalar_array_mismatch demoEnv (jbvNumeric [0, 1]) rfl 3 _ hwa _ _ rfl rfl⟩

/-! ## C26 -/

/-- C27: for all containers a and b, `jsonbc_contained(a, b)` equals
`jsonbc_contains(b, a)`. -/
theorem C27_contained_commutator (X : Env) (a b : Jsonbc) :
    jsonbc_contained X a b = jsonbc_contains X b a := rfl

/-- C30: for all containers a and b, with c the value that
`compareJsonbcContainers(a, b)` returns: `jsonbc_eq` is true iff c = 0, `jsonbc_ne` iff
c != 0, `jsonbc_lt` iff c < 0, `jsonbc_gt` iff c > 0, `jsonbc_le` iff c <= 0, `jsonbc_ge`
iff c >= 0, and `jsonbc_cmp` returns c; hence exactly one of lt, eq, gt holds. -/
theorem C30_operators (X : Env) (a b : Jsonbc) (c : Int)
    (h : compareJsonbcContainers X a.root b.root = .ok c) :
    jsonbc_eq X a b = .ok (decide (c = 0))
      ∧ jsonbc_ne X a b = .ok (decide (c ≠ 0))
      ∧ jsonbc_lt X a b = .ok (decide (c < 0))
      ∧ jsonbc_gt X a b = .ok (decide (c > 0))
      ∧ jsonbc_le X a b = .ok (decide (c ≤ 0))
      ∧ jsonbc_ge X a b = .ok (decide (c ≥ 0))
      ∧ jsonbc_cmp X a b = .ok c
      ∧ ((jsonbc_lt X a b = .ok true ∧ jsonbc_eq X a b = .ok false
            ∧ jsonbc_gt X a b = .ok false)
          ∨ (jsonbc_lt X a b = .ok false ∧ jsonbc_eq X a b = .ok true
            ∧ jsonbc_gt X a b = .ok false)
          ∨ (jsonbc_lt X a b = .ok false ∧ jsonbc_eq X a b = .ok false
            ∧ jsonbc_gt X a b = .ok true)) := by
  simp only [jsonbc_eq, jsonbc_ne, jsonbc_lt, jsonbc_gt, jsonbc_le, jsonbc_ge, jsonbc_cmp, h,
    Except.ok.injEq, decide_eq_true_eq, decide_eq_false_iff_not, true_and]
  rcases lt_trichotomy c 0 with hc | hc | hc
  · exact Or.inl ⟨hc, by omega, by omega⟩
  · exact Or.inr (Or.inl ⟨by omega, hc, by omega⟩)
  · exact Or.inr (Or.inr ⟨by omega, by omega, hc⟩)

theorem C30_operators_witness :
    (compareJsonbcContainers demoEnv (Jsonbc.mk 8 [9, 1, 11, 1]).root
        (Jsonbc.mk 11 [17, 1, 11, 1, 11, 1, 2]).root = .ok (-1))
    ∧ (jsonbc_eq demoEnv ⟨8, [9, 1, 11, 1]⟩ ⟨11, [17, 1, 11, 1, 11, 1, 2]⟩
          = .ok (decide ((-1 : Int) = 0))
      ∧ jsonbc_ne demoEnv ⟨8, [9, 1, 11, 1]⟩ ⟨11, [17, 1, 11, 1, 11, 1, 2]⟩
          = .ok (decide ((-1 : Int) ≠ 0))
      ∧ jsonbc_lt demoEnv ⟨8, [9, 1, 11, 1]⟩ ⟨11, [17, 1, 11, 1, 11, 1, 2]⟩
          = .ok (decide ((-1 : Int) < 0))
      ∧ jsonbc_gt demoEnv ⟨8, [9, 1, 11, 1]⟩ ⟨11, [17, 1, 11, 1, 11, 1, 2]⟩
          = .ok (decide ((-1 : Int) > 0))
      ∧ jsonbc_le demoEnv ⟨8, [9, 1, 11, 1]⟩ ⟨11, [17, 1, 11, 1, 11, 1, 2]⟩
          = .ok (decide ((-1 : Int) ≤ 0))
      ∧ jsonbc_ge demoEnv ⟨8, [9, 1, 11, 1]⟩ ⟨11, [17, 1, 11, 1, 11, 1, 2]⟩
          = .ok (decide ((-1 : Int) ≥ 0))
      ∧ jsonbc_cmp demoEnv ⟨8, [9, 1, 11, 1]⟩ ⟨11, [17, 1, 11, 1, 11, 1, 2]⟩ = .ok (-1)
      ∧ ((jsonbc_lt demoEnv ⟨8, [9, 1, 11, 1]⟩ ⟨11, [17, 1, 11, 1, 11, 1, 2]⟩ = .ok true
            ∧ jsonbc_eq demoEnv ⟨8, [9, 1, 11, 1]⟩ ⟨11, [17, 1, 11, 1, 11, 1, 2]⟩ = .ok false
            ∧ jsonbc_gt demoEnv ⟨8, [9, 1, 11, 1]⟩ ⟨11, [17, 1, 11, 1, 11, 1, 2]⟩ = .ok false)
          ∨ (jsonbc_lt demoEnv ⟨8, [9, 1, 11, 1]⟩ ⟨11, [17, 1, 11, 1, 11, 1, 2]⟩ = .ok false
            ∧ jsonbc_eq demoEnv ⟨8, [9, 1, 11, 1]⟩ ⟨11, [17, 1, 11, 1, 11, 1, 2]⟩ = .ok true
            ∧ jsonbc_gt demoEnv ⟨8, [9, 1, 11, 1]⟩ ⟨11, [17, 1, 11, 1, 11, 1, 2]⟩ = .ok false)
          ∨ (jsonbc_lt demoEnv ⟨8, [9, 1, 11, 1]⟩ ⟨11, [17, 1, 11, 1, 11, 1, 2]⟩ = .ok false
            ∧ jsonbc_eq demoEnv ⟨8, [9, 1, 11, 1]⟩ ⟨11, [17, 1, 11, 1, 11, 1, 2]⟩ = .ok false
            ∧ jsonbc_gt demoEnv ⟨8, [9, 1, 11, 1]⟩ ⟨11, [17, 1, 11, 1, 11, 1, 2]⟩
                = .ok true))) :=
  ⟨rfl, C30_operators demoEnv ⟨8, [9, 1, 11, 1]⟩ ⟨11, [17, 1, 11, 1, 11, 1, 2]⟩ (-1) rfl⟩
/-! ## C28, C29 -/

/-- The root of the encoding of a scalar is the encoding of the array that wraps it. -/
theorem encoded_scalar_root (X : Env) (s : JsonbcValue) (hs : IsAJsonbcScalar s = true)
    (js : Jsonbc) (hjs : JsonbcValueToJsonbc X s = .ok js) :
    WellFormed (jbvArray 1 [s] true) ∧ js.root = (enc X (jbvArray 1 [s] true)).1
      ∧ (enc X (jbvArray 1 [s] true)).1.length ≤ JENTRY_OFFLENMASK := by
  have hws : WellFormed (jbvArray 1 [s] true) := by
    simp [WellFormed, WellFormedElems, wellFormed_scalar s hs]
  rw [JsonbcValueToJsonbc_scalar X s hs,
    ← JsonbcValueToJsonbc_container X (jbvArray 1 [s] true) hws rfl] at hjs
  obtain ⟨hrs, hfs, -⟩ := encoded_root X _ hws rfl js hjs
  exact ⟨hws, hrs, hfs⟩

/-- The first call of `JsonbcIteratorNext` on the encoding of an array. -/
theorem array_first_token (X : Env) (n : Nat) (es : List JsonbcValue) (raw : Bool)
    (hw : WellFormed (jbvArray n es raw))
    (hf : (enc X (jbvArray n es raw)).1.length ≤ JENTRY_OFFLENMASK) :
    ∃ it it', JsonbcIteratorInit (enc X (jbvArray n es raw)).1 = .ok it
      ∧ JsonbcIteratorNext X it false
          = .ok (WJB_BEGIN_ARRAY, some (jbvArray (encElems X es).1.length [] raw), it') := by
  obtain ⟨c, c', t0, ts, hi, hsw, ht, -⟩ := container_run X _ hw rfl hf [] [] WJB_ELEM
  rw [List.append_nil] at hi
  simp only [tokensOf, List.cons.injEq] at ht
  obtain ⟨rfl, -⟩ := ht
  exact ⟨[c], [c'], hi, (next_cons X false c []).trans (hsw _)⟩

/-- C28, the code at a failing input: the encoding of the root scalar `null` compares
greater than the encoding of the empty array. -/
theorem C28_null_above_empty_array :
    JsonbcValueToJsonbc demoEnv jbvNull = .ok ⟨6, [4, 6]⟩
    ∧ JsonbcValueToJsonbc demoEnv (jbvArray 0 [] false) = .ok ⟨5, [2]⟩
    ∧ compareJsonbcContainers demoEnv [4, 6] [2] = .ok 1 :=
  ⟨rfl, rfl, rfl⟩

/-- What `compareJsonbcContainers` returns for an encoded root scalar and an encoded true
array: the test of the counts that the two begin-array tokens carry comes after the test
of the raw-scalar flag and overrides it, so that the flag decides only when the counts
are equal. -/
theorem compare_scalar_with_array (X : Env) (s : JsonbcValue) (hs : IsAJsonbcScalar s = true)
    (n : Nat) (es : List JsonbcValue) (hwa : WellFormed (jbvArray n es false))
    (js ja : Jsonbc) (hjs : JsonbcValueToJsonbc X s = .ok js)
    (hja : JsonbcValueToJsonbc X (jbvArray n es false) = .ok ja) :
    ∃ its its' ita ita' ns na,
      JsonbcIteratorInit js.root = .ok its
      ∧ JsonbcIteratorNext X its false = .ok (WJB_BEGIN_ARRAY, some (jbvArray ns [] true), its')
      ∧ JsonbcIteratorInit ja.root = .ok ita
      ∧ JsonbcIteratorNext X ita false
          = .ok (WJB_BEGIN_ARRAY, some (jbvArray na [] false), ita')
      ∧ compareJsonbcContainers X js.root ja.root
          = .ok (if ns ≠ na then (if ns > na then 1 else -1) else -1) := by
  obtain ⟨hws, hrs, hfs⟩ := encoded_scalar_root X s hs js hjs
  obtain ⟨hra, hfa, -⟩ := encoded_root X _ hwa rfl ja hja
  obtain ⟨its, its', hsi, hsn⟩ := array_first_token X 1 [s] true hws hfs
  obtain ⟨ita, ita', hai, han⟩ := array_first_token X n es false hwa hfa
  refine ⟨its, its', ita, ita', _, _, by rw [hrs]; exact hsi, hsn, by rw [hra]; exact hai,
    han, ?_⟩
  rw [hrs, hra, compare_eq_cmpTokens X _ _ hws hwa rfl rfl hfs hfa]
  simp only [tokensOf, cmpTokens, compareJsonbcContainers_step, JsonbcValue.type]
  by_cases h : (encElems X [s]).1.length = (encElems X es).1.length
  · simp [h]
  · by_cases h2 : (encElems X [s]).1.length > (encElems X es).1.length <;> simp [h, h2]

/-- C29 on a concrete input: the encoding of the root string `"b"` compares greater than
the encoding of the root string `"aa"`, under byte-wise lexical `varstr_cmp`. -/
theorem C29_b_above_aa :
    JsonbcValueToJsonbc demoEnv (jbvString [98]) = .ok ⟨7, [4, 9, 98]⟩
    ∧ JsonbcValueToJsonbc demoEnv (jbvString [97, 97]) = .ok ⟨8, [4, 17, 97, 97]⟩
    ∧ demoEnv.varstr_cmp [98] [97, 97] = 1
    ∧ compareJsonbcContainers demoEnv [4, 9, 98] [4, 17, 97, 97] = .ok 1 :=
  ⟨rfl, rfl, rfl, rfl⟩

/-- C29, amended: for any two root string scalars x and y whose begin-array tokens carry
the same count, `compareJsonbcContainers` returns `varstr_cmp(x, y)` on their encodings:
the strings are compared lexically, not by length first. -/
theorem C29_strings_lexical (X : Env) (x y : Bytes) (jx jy : Jsonbc)
    (hjx : JsonbcValueToJsonbc X (jbvString x) = .ok jx)
    (hjy : JsonbcValueToJsonbc X (jbvString y) = .ok jy)
    (itx itx' ity ity' : List JsonbcIterator) (n : Nat)
    (hix : JsonbcIteratorInit jx.root = .ok itx)
    (hnx : JsonbcIteratorNext X itx false
      = .ok (WJB_BEGIN_ARRAY, some (jbvArray n [] true), itx'))
    (hiy : JsonbcIteratorInit jy.root = .ok ity)
    (hny : JsonbcIteratorNext X ity false
      = .ok (WJB_BEGIN_ARRAY, some (jbvArray n [] true), ity')) :
    compareJsonbcContainers X jx.root jy.root = .ok (X.varstr_cmp x y) := by
  obtain ⟨hwx, hrx, hfx⟩ := encoded_scalar_root X (jbvString x) rfl jx hjx
  obtain ⟨hwy, hry, hfy⟩ := encoded_scalar_root X (jbvString y) rfl jy hjy
  obtain ⟨itx0, itx0', hxi, hxn⟩ := array_first_token X 1 [jbvString x] true hwx hfx
  obtain ⟨ity0, ity0', hyi, hyn⟩ := array_first_token X 1 [jbvString y] true hwy hfy
  rw [hrx, hxi] at hix
  rw [hry, hyi] at hiy
  cases hix
  cases hiy
  rw [hxn] at hnx
  rw [hyn] at hny
  simp only [Except.ok.injEq, Prod.mk.injEq, Option.some.injEq, JsonbcValue.jbvArray.injEq,
    true_and, and_true] at hnx hny
  have h : (encElems X [jbvString x]).1.length = (encElems X [jbvString y]).1.length :=
    hnx.1.trans hny.1.symm
  rw [hrx, hry, compare_eq_cmpTokens X _ _ hwx hwy rfl rfl hfx hfy]
  simp only [tokensOf, tokensOfElems, List.append_nil, List.cons_append, List.nil_append,
    cmpTokens, compareJsonbcContainers_step, JsonbcValue.type, compareJsonbcScalarValue, h]
  by_cases h0 : X.varstr_cmp x y = 0 <;> simp [h0]

theorem C29_strings_lexical_witness :
    (JsonbcValueToJsonbc demoEnv (jbvString [98]) = .ok ⟨7, [4, 9, 98]⟩
      ∧ JsonbcValueToJsonbc demoEnv (jbvString [97, 97]) = .ok ⟨8, [4, 17, 97, 97]⟩
      ∧ JsonbcIteratorInit [4, 9, 98]
          = .ok [JsonbcIterator.mk [4, 9, 98] 1 0 true 1 1 2 0 0 JBI_ARRAY_START]
      ∧ JsonbcIteratorNext demoEnv
            [JsonbcIterator.mk [4, 9, 98] 1 0 true 1 1 2 0 0 JBI_ARRAY_START] false
          = .ok (WJB_BEGIN_ARRAY, some (jbvArray 1 [] true),
              [JsonbcIterator.mk [4, 9, 98] 1 0 true 1 1 2 0 0 JBI_ARRAY_ELEM])
      ∧ JsonbcIteratorInit [4, 17, 97, 97]
          = .ok [JsonbcIterator.mk [4, 17, 97, 97] 1 0 true 1 1 2 0 0 JBI_ARRAY_START]
      ∧ JsonbcIteratorNext demoEnv
            [JsonbcIterator.mk [4, 17, 97, 97] 1 0 true 1 1 2 0 0 JBI_ARRAY_START] false
          = .ok (WJB_BEGIN_ARRAY, some (jbvArray 1 [] true),
              [JsonbcIterator.mk [4, 17, 97, 97] 1 0 true 1 1 2 0 0 JBI_ARRAY_ELEM]))
    ∧ compareJsonbcContainers demoEnv [4, 9, 98] [4, 17, 97, 97]
        = .ok (demoEnv.varstr_cmp [98] [97, 97]) :=
  ⟨⟨rfl, rfl, rfl, rfl, rfl, rfl⟩,
    C29_strings_lexical demoEnv [98] [97, 97] ⟨7, [4, 9, 98]⟩ ⟨8, [4, 17, 97, 97]⟩ rfl rfl
      _ _ _ _ 1 rfl rfl rfl rfl⟩

/-! ## C21: the encoding of an object does not depend on the insertion order -/

theorem pushJsonbcValues_cons (X : Env) (ps : List JsonbcParseState)
    (a : JsonbcIteratorToken × Option JsonbcValue)
    (rest : List (JsonbcIteratorToken × Option JsonbcValue)) (hr : rest ≠ []) :
    pushJsonbcValues X ps (a :: rest)
      = match pushJsonbcValue X ps a.1 a.2 with
        | .error e => .error e
        | .ok (ps, _) => pushJsonbcValues X ps rest := by
  cases rest with
  | nil => exact absurd rfl hr
  | cons b r => cases a; rfl

theorem pairPushes_append_ne_nil (kvs : List (Bytes × JsonbcValue))
    (tail : List (JsonbcIteratorToken × Option JsonbcValue)) (ht : tail ≠ []) :
    pairPushes kvs ++ tail ≠ [] := by
  simp [ht]

theorem push_pairs (X : Env) :
    ∀ (kvs : List (Bytes × JsonbcValue)) (pairs : List JsonbcPair) (size : Nat)
      (next : List JsonbcParseState)
      (tail : List (JsonbcIteratorToken × Option JsonbcValue)), tail ≠ [] →
      pairs.length + kvs.length ≤ JSONB_MAX_PAIRS →
      ∃ size', pushJsonbcValues X (JsonbcParseState.mk (jbvObject pairs.length pairs) size :: next)
          (pairPushes kvs ++ tail)
        = pushJsonbcValues X
            (JsonbcParseState.mk (jbvObject (pairs.length + kvs.length)
              (pairs ++ pushedPairs X pairs.length kvs)) size' :: next) tail
  | [], pairs, size, next, tail, _, _ => ⟨size, by simp [pairPushes, pushedPairs]⟩
  | (k, v) :: rest, pairs, size, next, tail, ht, hl => by
    simp only [List.length_cons] at hl
    have hlt : ¬ pairs.length ≥ JSONB_MAX_PAIRS := by omega
    obtain ⟨size', ih⟩ := push_pairs X rest
      (pairs ++ [JsonbcPair.mk (convertKeyNameToId X k) v pairs.length])
      (if pairs.length ≥ size then size * 2 else size) next tail ht
      (by simp only [List.length_append, List.length_singleton]; omega)
    refine ⟨size', ?_⟩
    simp only [List.length_append, List.length_singleton] at ih
    simp only [pairPushes, List.cons_append]
    rw [pushJsonbcValues_cons X _ _ _ (by simp),
      show pushJsonbcValue X
          (JsonbcParseState.mk (jbvObject pairs.length pairs) size :: next)
          (WJB_KEY, some (jbvString k)).1 (WJB_KEY, some (jbvString k)).2
        = .ok (JsonbcParseState.mk (jbvObject pairs.length
            (pairs ++ [JsonbcPair.mk (convertKeyNameToId X k) jbvNull pairs.length]))
            (if pairs.length ≥ size then size * 2 else size) :: next, none) by
        simp [pushJsonbcValue, appendKey, hlt]]
    simp only []
    rw [pushJsonbcValues_cons X _ _ _ (pairPushes_append_ne_nil rest tail ht),
      show pushJsonbcValue X
          (JsonbcParseState.mk (jbvObject pairs.length
            (pairs ++ [JsonbcPair.mk (convertKeyNameToId X k) jbvNull pairs.length]))
            (if pairs.length ≥ size then size * 2 else size) :: next)
          (WJB_VALUE, some v).1 (WJB_VALUE, some v).2
        = .ok (JsonbcParseState.mk (jbvObject (pairs.length + 1)
            (pairs ++ [JsonbcPair.mk (convertKeyNameToId X k) v pairs.length]))
            (if pairs.length ≥ size then size * 2 else size) :: next, none) by
        simp [pushJsonbcValue, appendValue]]
    simp only []
    rw [ih]
    simp [pushedPairs, Nat.add_assoc, Nat.add_comm 1]

theorem qsort_arg_insert_perm (x : JsonbcPair) :
    ∀ (l : List JsonbcPair), (qsort_arg_insert x l).1.Perm (x :: l)
  | [] => by simp [qsort_arg_insert]
  | y :: ys => by
    simp only [qsort_arg_insert]
    split_ifs
    · exact List.Perm.refl _
    · exact ((qsort_arg_insert_perm x ys).cons y).trans (List.Perm.swap x y ys)

theorem qsort_arg_perm : ∀ (l : List JsonbcPair), (qsort_arg l).1.Perm l
  | [] => by simp [qsort_arg]
  | x :: xs => by
    simp only [qsort_arg]
    exact (qsort_arg_insert_perm x _).trans ((qsort_arg_perm xs).cons x)

theorem qsort_arg_insert_flag (x : JsonbcPair) :
    ∀ (l : List JsonbcPair), (∀ y ∈ l, x.key ≠ y.key) → (qsort_arg_insert x l).2 = false
  | [], _ => by simp [qsort_arg_insert]
  | y :: ys, h => by
    have hy : x.key ≠ y.key := h y (List.mem_cons_self _ _)
    have hc : (compareJsonbcPair x y).2 = false := by simp [compareJsonbcPair, hy]
    simp only [qsort_arg_insert]
    split_ifs
    · exact hc
    · simp [hc, qsort_arg_insert_flag x ys (fun z hz => h z (List.mem_cons_of_mem _ hz))]

theorem qsort_arg_flag :
    ∀ (l : List JsonbcPair), (l.map JsonbcPair.key).Nodup → (qsort_arg l).2 = false
  | [], _ => by simp [qsort_arg]
  | x :: xs, h => by
    simp only [List.map_cons, List.nodup_cons] at h
    simp only [qsort_arg, qsort_arg_flag xs h.2, Bool.false_or]
    apply qsort_arg_insert_flag
    intro y hy hxy
    exact h.1 (hxy ▸ List.mem_map_of_mem _ ((qsort_arg_perm xs).subset hy))

theorem qsort_arg_short : ∀ (l : List JsonbcPair), l.length ≤ 1 → (qsort_arg l).1 = l
  | [], _ => by simp [qsort_arg]
  | [x], _ => by simp [qsort_arg, qsort_arg_insert]
  | _ :: _ :: _, h => by simp at h

/-- With pairwise distinct keys `uniqueifyJsonbcObject` returns the sorted pairs. -/
theorem uniqueifyJsonbcObject_nodup (pairs : List JsonbcPair)
    (h : (pairs.map JsonbcPair.key).Nodup) :
    uniqueifyJsonbcObject (jbvObject pairs.length pairs)
      = .ok (jbvObject pairs.length (qsort_arg pairs).1) := by
  simp only [uniqueifyJsonbcObject, List.take_length]
  split_ifs with h1 h2
  · rw [qsort_arg_flag pairs h] at h2
    cases h2
  · rfl
  · rw [qsort_arg_short pairs (by omega)]

theorem pushedPairs_length (X : Env) :
    ∀ (kvs : List (Bytes × JsonbcValue)) (i : Nat), (pushedPairs X i kvs).length = kvs.length
  | [], _ => rfl
  | (_, _) :: rest, i => by simp [pushedPairs, pushedPairs_length X rest (i + 1)]

theorem pushedPairs_content (X : Env) :
    ∀ (kvs : List (Bytes × JsonbcValue)) (i : Nat),
      (pushedPairs X i kvs).map pairContent = kvs.map (fun p => (X.getIdByName p.1, p.2))
  | [], _ => rfl
  | (_, _) :: rest, i => by
    simp [pushedPairs, pairContent, JsonbcPair.key, JsonbcPair.value, convertKeyNameToId,
      pushedPairs_content X rest (i + 1)]

theorem map_key_eq (l : List JsonbcPair) :
    l.map JsonbcPair.key = (l.map pairContent).map Prod.fst := by
  simp [List.map_map, Function.comp_def, pairContent]

/-- What the pushes of `objectPushes` return when the key ids are pairwise distinct. -/
theorem pushJsonbcValues_object (X : Env) (kvs : List (Bytes × JsonbcValue))
    (hl : kvs.length ≤ JSONB_MAX_PAIRS)
    (hnd : (kvs.map (fun p => X.getIdByName p.1)).Nodup) :
    pushJsonbcValues X [] (objectPushes kvs)
      = .ok ([], some (jbvObject kvs.length (qsort_arg (pushedPairs X 0 kvs)).1)) := by
  obtain ⟨size', h⟩ := push_pairs X kvs [] 4 [] [(WJB_END_OBJECT, none)] (by simp)
    (by simpa using hl)
  have hk : ((pushedPairs X 0 kvs).map JsonbcPair.key).Nodup := by
    rw [map_key_eq, pushedPairs_content, List.map_map]
    exact hnd
  have hu := uniqueifyJsonbcObject_nodup (pushedPairs X 0 kvs) hk
  rw [pushedPairs_length] at hu
  simp only [objectPushes]
  rw [pushJsonbcValues_cons X _ _ _ (by simp)]
  simp only [pushJsonbcValue]
  simp only [List.length_nil, List.nil_append, Nat.zero_add] at h
  rw [h]
  simp [pushJsonbcValues, pushJsonbcValue, hu, pushJsonbcValue_end]

theorem qsort_arg_content_sorted (l : List JsonbcPair) (h : (l.map JsonbcPair.key).Nodup) :
    ((qsort_arg l).1.map pairContent).Pairwise (fun a b => a.1 < b.1) := by
  have hp := qsort_arg_perm l
  have hn : ((qsort_arg l).1.map JsonbcPair.key).Nodup :=
    (List.Perm.nodup_iff (hp.map _)).mpr h
  have hs := qsort_arg_sorted l
  rw [List.pairwise_map]
  rw [List.Nodup, List.pairwise_map] at hn
  refine (hs.and hn).imp ?_
  intro a b hab
  exact lt_of_le_of_ne hab.1 hab.2

theorem content_eq_of_perm (l1 l2 : List (Int × JsonbcValue)) (hp : l1.Perm l2)
    (h1 : l1.Pairwise (fun a b => a.1 < b.1)) (h2 : l2.Pairwise (fun a b => a.1 < b.1)) :
    l1 = l2 := by
  haveI : IsAntisymm (Int × JsonbcValue) (fun a b => a.1 < b.1) :=
    ⟨fun a b hab hba => absurd hab (not_lt.mpr (le_of_lt hba))⟩
  exact List.eq_of_perm_of_sorted hp h1 h2

/-- The pair loop of the encoder reads key and value of a pair, not its `order`. -/
theorem convertJsonbcObject_loop_content (X : Env) :
    ∀ (p1 p2 : List JsonbcPair), p1.map pairContent = p2.map pairContent →
      ∀ (buffer offsets : Bytes) (totallen prev_key n level : Nat),
        convertJsonbcObject_loop X buffer offsets totallen prev_key n p1 level
          = convertJsonbcObject_loop X buffer offsets totallen prev_key n p2 level
  | [], [], _, _, _, _, _, _, _ => rfl
  | [], _ :: _, h, _, _, _, _, _, _ => by simp at h
  | _ :: _, [], h, _, _, _, _, _, _ => by simp at h
  | (JsonbcPair.mk k1 v1 o1) :: r1, (JsonbcPair.mk k2 v2 o2) :: r2, h, buffer, offsets,
      totallen, prev_key, n, level => by
    simp only [List.map_cons, List.cons.injEq, pairContent, JsonbcPair.key, JsonbcPair.value,
      Prod.mk.injEq] at h
    obtain ⟨⟨rfl, rfl⟩, hr⟩ := h
    cases n with
    | zero => simp [convertJsonbcObject_loop]
    | succ n =>
      simp only [convertJsonbcObject_loop]
      cases convertJsonbcValue X buffer v1 (level + 1) with
      | error e => rfl
      | ok r =>
        simp only []
        split_ifs
        · rfl
        · exact convertJsonbcObject_loop_content X r1 r2 hr _ _ _ _ _ _

theorem JsonbcValueToJsonbc_content (X : Env) (n : Nat) (p1 p2 : List JsonbcPair)
    (h : p1.map pairContent = p2.map pairContent) :
    JsonbcValueToJsonbc X (jbvObject n p1) = JsonbcValueToJsonbc X (jbvObject n p2) := by
  have hs : ∀ p, IsAJsonbcScalar (jbvObject n p) = false := fun _ => rfl
  simp only [JsonbcValueToJsonbc, hs, convertToJsonbc, convertJsonbcValue,
    convertJsonbcObject_loop_content X p1 p2 h]
  rfl

/-- C21: for two objects built by pushing the same key/value pairs, with pairwise
distinct key ids, in two different insertion orders, `pushJsonbcValue` returns an object
for each, and `JsonbcValueToJsonbc` gives the same result, byte for byte, for the two. -/
theorem C21_canonical_disk_order (X : Env) (kvs1 kvs2 : List (Bytes × JsonbcValue))
    (hperm : kvs1.Perm kvs2) (hnd : (kvs1.map (fun p => X.getIdByName p.1)).Nodup)
    (hlen : kvs1.length ≤ JSONB_MAX_PAIRS) :
    ∃ o1 o2, pushJsonbcValues X [] (objectPushes kvs1) = .ok ([], some o1)
      ∧ pushJsonbcValues X [] (objectPushes kvs2) = .ok ([], some o2)
      ∧ JsonbcValueToJsonbc X o1 = JsonbcValueToJsonbc X o2 := by
  have hnd2 : (kvs2.map (fun p => X.getIdByName p.1)).Nodup :=
    (List.Perm.nodup_iff (hperm.map _)).mp hnd
  have hlen2 : kvs2.length ≤ JSONB_MAX_PAIRS := hperm.length_eq ▸ hlen
  refine ⟨_, _, pushJsonbcValues_object X kvs1 hlen hnd,
    pushJsonbcValues_object X kvs2 hlen2 hnd2, ?_⟩
  have hk : ∀ kvs : List (Bytes × JsonbcValue),
      (kvs.map (fun p => X.getIdByName p.1)).Nodup →
      ((pushedPairs X 0 kvs).map JsonbcPair.key).Nodup := by
    intro kvs h
    rw [map_key_eq, pushedPairs_content, List.map_map]
    exact h
  rw [hperm.length_eq]
  apply JsonbcValueToJsonbc_content
  apply content_eq_of_perm _ _ _ (qsort_arg_content_sorted _ (hk kvs1 hnd))
    (qsort_arg_content_sorted _ (hk kvs2 hnd2))
  refine (((qsort_arg_perm _).map _).trans ?_).trans ((qsort_arg_perm _).map _).symm
  rw [pushedPairs_content, pushedPairs_content]
  exact hperm.map _

theorem C21_canonical_disk_order_witness :
    (List.Perm [([97], jbvNumeric [0, 1]), ([98], jbvString [120]), ([99], jbvNull)]
        [([99], jbvNull), ([97], jbvNumeric [0, 1]), ([98], jbvString [120])]
      ∧ ([([97], jbvNumeric [0, 1]), ([98], jbvString [120]), ([99], jbvNull)].map
          (fun p => demoEnv.getIdByName p.1)).Nodup
      ∧ [([97], jbvNumeric [0, 1]), ([98], jbvString [120]), ([99], jbvNull)].length
          ≤ JSONB_MAX_PAIRS)
    ∧ ∃ o1 o2,
      pushJsonbcValues demoEnv []
          (objectPushes [([97], jbvNumeric [0, 1]), ([98], jbvString [120]), ([99], jbvNull)])
        = .ok ([], some o1)
      ∧ pushJsonbcValues demoEnv []
          (objectPushes [([99], jbvNull), ([97], jbvNumeric [0, 1]), ([98], jbvString [120])])
        = .ok ([], some o2)
      ∧ JsonbcValueToJsonbc demoEnv o1 = JsonbcValueToJsonbc demoEnv o2 :=
  have hperm : List.Perm [([97], jbvNumeric [0, 1]), ([98], jbvString [120]), ([99], jbvNull)]
      [([99], jbvNull), ([97], jbvNumeric [0, 1]), ([98], jbvString [120])] :=
    ((List.Perm.swap _ _ _).trans ((List.Perm.swap _ _ _).cons _)).symm
  have hnd : ([([97], jbvNumeric [0, 1]), ([98], jbvString [120]), ([99], jbvNull)].map
      (fun p => demoEnv.getIdByName p.1)).Nodup := by decide
  have hlen : [([97], jbvNumeric [0, 1]), ([98], jbvString [120]), ([99], jbvNull)].length
      ≤ JSONB_MAX_PAIRS := by decide
  ⟨⟨hperm, hnd, hlen⟩, C21_canonical_disk_order demoEnv _ _ hperm hnd hlen⟩

/-! ## C31, C32 -/

/-- C31, the code at a failing input: `jsonbc_exists` is false for the key `a` on the
encoding of `{"a": 1}`, and false for the string `x` on the encoding of `["x"]`. -/
theorem C31_exists_false :
    (JsonbcValueToJsonbc demoEnv (jbvObject 1 [JsonbcPair.mk 1 (jbvNumeric [0, 1]) 0])
        = .ok ⟨8, [9, 1, 11, 1]⟩
      ∧ demoEnv.getIdByName [97] = 1
      ∧ jsonbc_exists ⟨8, [9, 1, 11, 1]⟩ [97] = false)
    ∧ (JsonbcValueToJsonbc demoEnv (jbvArray 1 [jbvString [120]] false) = .ok ⟨7, [6, 9, 120]⟩
      ∧ jsonbc_exists ⟨7, [6, 9, 120]⟩ [120] = false) :=
  ⟨⟨rfl, rfl, rfl⟩, rfl, rfl⟩

/-- C32, the code at a failing input: `getIthJsonbcValueFromContainer` returns `NULL`
for the index 0 on the encoding of `[1, 2, 3]`. -/
theorem C32_ith_null :
    JsonbcValueToJsonbc demoEnv
        (jbvArray 3 [jbvNumeric [0, 1], jbvNumeric [0, 2], jbvNumeric [0, 3]] false)
      = .ok ⟨11, [14, 11, 11, 11, 1, 2, 3]⟩
    ∧ getIthJsonbcValueFromContainer [14, 11, 11, 11, 1, 2, 3] 0 = none :=
  ⟨rfl, rfl⟩

/-! ## C36 -/

/-- C36: `jsonbc_recv` reads the leading version byte of the message; when it is 1 the
result is `jsonbc_from_cstring` of the text of the rest of the message, and for every
other version byte it raises an error and produces no value. -/
theorem C36_recv_version (pq_getmsgint : Bytes → Except Err (Nat × Bytes))
    (pq_getmsgtext : Bytes → Except Err Bytes)
    (jsonbc_from_cstring : Bytes → Except Err Jsonbc) (buf rest : Bytes) (version : Nat)
    (hv : pq_getmsgint buf = .ok (version, rest)) :
    (version = 1 → ∀ str, pq_getmsgtext rest = .ok str →
        jsonbc_recv pq_getmsgint pq_getmsgtext jsonbc_from_cstring buf
          = jsonbc_from_cstring str)
      ∧ (version ≠ 1 →
        jsonbc_recv pq_getmsgint pq_getmsgtext jsonbc_from_cstring buf = .error .elog_error
          ∧ ∀ jb, jsonbc_recv pq_getmsgint pq_getmsgtext jsonbc_from_cstring buf ≠ .ok jb)
      ∧ (∀ jb, jsonbc_recv pq_getmsgint pq_getmsgtext jsonbc_from_cstring buf = .ok jb →
          version = 1) := by
  refine ⟨?_, ?_, ?_⟩
  · intro h1 str hs
    simp [jsonbc_recv, hv, h1, hs]
  · intro h1
    simp [jsonbc_recv, hv, h1]
  · intro jb h
    by_contra h1
    simp [jsonbc_recv, hv, h1] at h

theorem C36_recv_version_witness :
    demo_pq_getmsgint [2, 110, 117, 108, 108] = .ok (2, [110, 117, 108, 108])
    ∧ ((2 = 1 → ∀ str, demo_pq_getmsgtext [110, 117, 108, 108] = .ok str →
        jsonbc_recv demo_pq_getmsgint demo_pq_getmsgtext demo_jsonbc_from_cstring
            [2, 110, 117, 108, 108]
          = demo_jsonbc_from_cstring str)
      ∧ (2 ≠ 1 →
        jsonbc_recv demo_pq_getmsgint demo_pq_getmsgtext demo_jsonbc_from_cstring
            [2, 110, 117, 108, 108] = .error .elog_error
          ∧ ∀ jb, jsonbc_recv demo_pq_getmsgint demo_pq_getmsgtext demo_jsonbc_from_cstring
            [2, 110, 117, 108, 108] ≠ .ok jb)
      ∧ (∀ jb, jsonbc_recv demo_pq_getmsgint demo_pq_getmsgtext demo_jsonbc_from_cstring
            [2, 110, 117, 108, 108] = .ok jb → 2 = 1)) :=
  ⟨rfl, C36_recv_version demo_pq_getmsgint demo_pq_getmsgtext demo_jsonbc_from_cstring
    [2, 110, 117, 108, 108] [110, 117, 108, 108] 2 rfl⟩

/-! ## C37 -/

/-- C37: for every byte sequence and position, `decode_varbyte` advances the pointer by
at least 1 and at most 5 bytes, its result depends on the five bytes from the position
on only, and the value returned is below 2^32; when the first four bytes have the
continuation bit set, the fifth byte is taken whole, whatever its top bit, and the
result is the assembled value modulo 2^32. -/
theorem C37_decode_at_most_five (buf : Bytes) (p : Nat) :
    p < (decode_varbyte buf p).2 ∧ (decode_varbyte buf p).2 ≤ p + MAX_VARBYTE_SIZE
      ∧ (decode_varbyte buf p).1 < 2 ^ 32
      ∧ (∀ buf2 : Bytes, (∀ i, i < 5 → byteAt buf2 (p + i) = byteAt buf (p + i)) →
          decode_varbyte buf2 p = decode_varbyte buf p)
      ∧ (byteAt buf p &&& 0x80 ≠ 0 ∧ byteAt buf (p + 1) &&& 0x80 ≠ 0
          ∧ byteAt buf (p + 2) &&& 0x80 ≠ 0 ∧ byteAt buf (p + 3) &&& 0x80 ≠ 0 →
        decode_varbyte buf p
          = (((byteAt buf p &&& 0x7F) ||| ((byteAt buf (p + 1) &&& 0x7F) <<< 7)
              ||| ((byteAt buf (p + 2) &&& 0x7F) <<< 14)
              ||| ((byteAt buf (p + 3) &&& 0x7F) <<< 21)
              ||| (byteAt buf (p + 4) <<< 28)) % 2 ^ 32, p + 5)) := by
  have hm : ∀ x : Nat, x % 2 ^ 32 < 2 ^ 32 := fun x => Nat.mod_lt _ (by norm_num)
  refine ⟨?_, ?_, ?_, ?_, ?_⟩
  · simp only [decode_varbyte]; split_ifs <;> simp
  · simp only [decode_varbyte, MAX_VARBYTE_SIZE]; split_ifs <;> simp
  · simp only [decode_varbyte]; split_ifs <;> exact hm _
  · intro buf2 h
    have h0 := h 0 (by norm_num)
    have h1 := h 1 (by norm_num)
    have h2 := h 2 (by norm_num)
    have h3 := h 3 (by norm_num)
    have h4 := h 4 (by norm_num)
    rw [Nat.add_zero] at h0
    simp only [decode_varbyte, h0, h1, h2, h3, h4]
  · rintro ⟨h0, h1, h2, h3⟩
    simp only [decode_varbyte, h0, h1, h2, h3, ne_eq, not_false_eq_true, if_true]

theorem C37_decode_at_most_five_witness :
    (byteAt [255, 255, 255, 255, 255, 1] 0 &&& 0x80 ≠ 0
      ∧ byteAt [255, 255, 255, 255, 255, 1] 1 &&& 0x80 ≠ 0
      ∧ byteAt [255, 255, 255, 255, 255, 1] 2 &&& 0x80 ≠ 0
      ∧ byteAt [255, 255, 255, 255, 255, 1] 3 &&& 0x80 ≠ 0)
    ∧ decode_varbyte [255, 255, 255, 255, 255, 1] 0 = (4294967295, 5) :=
  ⟨by decide,
    ((C37_decode_at_most_five [255, 255, 255, 255, 255, 1] 0).2.2.2.2 (by decide)).trans
      (by decide)⟩
/-! ## C38 -/

/-- C38: for a numeric n for which `numeric_get_small` yields the 32-bit value u,
`convertJsonbcScalar` appends the varbyte of u and stores an entry with tag 3
(small integer) and length `varbyte_size(u)`, and `fillJsonbcValue` on that entry and
payload yields `small_to_numeric(u)`; for every other numeric it appends the bytes of the
numeric and stores an entry with tag 2 (numeric) whose length is their number. -/
theorem C38_numeric_entry (X : Env) (n : Numeric) (buffer : Bytes)
    (hlen : n.length < 2 ^ 29) :
    (∀ u, X.numeric_get_small n = some u →
        ∃ entry, convertJsonbcScalar X buffer (jbvNumeric n)
            = .ok (buffer ++ encode_varbyte (u % 2 ^ 32), entry)
          ∧ entry &&& JENTRY_TYPEMASK = JENTRY_ISINTEGER
          ∧ JBE_OFFLENFLD entry = varbyte_size (u % 2 ^ 32)
          ∧ (encode_varbyte (u % 2 ^ 32)).length = varbyte_size (u % 2 ^ 32)
          ∧ ∀ pre rest : Bytes,
              fillJsonbcValue X entry (pre ++ (encode_varbyte (u % 2 ^ 32) ++ rest)) pre.length
                = jbvNumeric (X.small_to_numeric (u % 2 ^ 32)))
      ∧ (X.numeric_get_small n = none →
        ∃ entry, convertJsonbcScalar X buffer (jbvNumeric n) = .ok (buffer ++ n, entry)
          ∧ entry &&& JENTRY_TYPEMASK = JENTRY_ISNUMERIC
          ∧ JBE_OFFLENFLD entry = n.length
          ∧ ∀ pre rest : Bytes,
              fillJsonbcValue X entry (pre ++ (n ++ rest)) pre.length = jbvNumeric n) := by
  have hm : ∀ x : Nat, x % 2 ^ 32 < 2 ^ 32 := fun x => Nat.mod_lt _ (by norm_num)
  constructor
  · intro u hu
    have hsz : varbyte_size (u % 2 ^ 32) < 2 ^ 29 := by
      have := varbyte_size_le (u % 2 ^ 32); omega
    have htag : mkEntry JENTRY_ISINTEGER (varbyte_size (u % 2 ^ 32)) &&& JENTRY_TYPEMASK
        = JENTRY_ISINTEGER := mkEntry_tag _ _ (by decide) hsz
    refine ⟨mkEntry JENTRY_ISINTEGER (varbyte_size (u % 2 ^ 32)), ?_, htag,
      mkEntry_len _ _ (by decide) hsz, encode_varbyte_length _ (hm u), ?_⟩
    · simp [convertJsonbcScalar, hu, mkEntry]
    · intro pre rest
      rw [fill_tag X _ 3 htag, decode_varbyte_at pre rest _ (hm u)]
      simp
  · intro hu
    have htag : mkEntry JENTRY_ISNUMERIC n.length &&& JENTRY_TYPEMASK = JENTRY_ISNUMERIC :=
      mkEntry_tag _ _ (by decide) hlen
    have hl : mkEntry JENTRY_ISNUMERIC n.length >>> JENTRY_SHIFT = n.length :=
      mkEntry_len _ _ (by decide) hlen
    refine ⟨mkEntry JENTRY_ISNUMERIC n.length, ?_, htag, hl, ?_⟩
    · simp [convertJsonbcScalar, hu, mkEntry, appendToBuffer]
    · intro pre rest
      rw [fill_tag X _ 2 htag, hl]
      simp

theorem C38_numeric_entry_witness :
    ([0, 200, 1] : Numeric).length < 2 ^ 29
    ∧ ((∀ u, demoEnv.numeric_get_small [0, 200, 1] = some u →
        ∃ entry, convertJsonbcScalar demoEnv [] (jbvNumeric [0, 200, 1])
            = .ok ([] ++ encode_varbyte (u % 2 ^ 32), entry)
          ∧ entry &&& JENTRY_TYPEMASK = JENTRY_ISINTEGER
          ∧ JBE_OFFLENFLD entry = varbyte_size (u % 2 ^ 32)
          ∧ (encode_varbyte (u % 2 ^ 32)).length = varbyte_size (u % 2 ^ 32)
          ∧ ∀ pre rest : Bytes,
              fillJsonbcValue demoEnv entry (pre ++ (encode_varbyte (u % 2 ^ 32) ++ rest))
                  pre.length
                = jbvNumeric (demoEnv.small_to_numeric (u % 2 ^ 32)))
      ∧ (demoEnv.numeric_get_small [0, 200, 1] = none →
        ∃ entry, convertJsonbcScalar demoEnv [] (jbvNumeric [0, 200, 1])
            = .ok ([] ++ [0, 200, 1], entry)
          ∧ entry &&& JENTRY_TYPEMASK = JENTRY_ISNUMERIC
          ∧ JBE_OFFLENFLD entry = ([0, 200, 1] : Numeric).length
          ∧ ∀ pre rest : Bytes,
              fillJsonbcValue demoEnv entry (pre ++ ([0, 200, 1] ++ rest)) pre.length
                = jbvNumeric [0, 200, 1])) :=
  ⟨by decide, C38_numeric_entry demoEnv [0, 200, 1] [] (by decide)⟩

/-! ## C34 -/

/-- C34 on a concrete input: the table holds the single row `(1, "a")`; in the object
encoded as `09 07 06` the key id is 7, for which `getNameById` of `dict.c` returns `NULL`.
The iterator returns a key token for it, and the value and end tokens after it. -/
theorem C34_key_token_without_name :
    getNameById [(1, [97])] 7 = none
    ∧ decode_varbyte [9, 7, 6] 1 = (7, 2)
    ∧ JsonbcIteratorInit [9, 7, 6]
        = .ok [JsonbcIterator.mk [9, 7, 6] 2 0 false 1 1 3 0 0 JBI_OBJECT_START]
    ∧ iterateTokens (dictEnv [(1, [97])]) false 5
          [JsonbcIterator.mk [9, 7, 6] 2 0 false 1 1 3 0 0 JBI_OBJECT_START]
        = .ok [(WJB_BEGIN_OBJECT, some (jbvObject 2 [])), (WJB_KEY, some (jbvString [])),
            (WJB_VALUE, some jbvNull), (WJB_END_OBJECT, none)] :=
  ⟨rfl, by decide, rfl, rfl⟩

/-- C34, amended: when `JsonbcIteratorNext` reaches an object key, it returns a key token
that carries the name which `getNameById` gives for the accumulated key id, whatever that
is; the call has no error exit at an object key. -/
theorem C34_key_token_unchecked (X : Env) (it : JsonbcIterator)
    (parent : List JsonbcIterator) (skipNested : Bool) (hstate : it.state = JBI_OBJECT_KEY)
    (hmore : it.childrenPtr < it.children + it.childrenSize) :
    ∃ it2, JsonbcIteratorNext X (it :: parent) skipNested
        = .ok (WJB_KEY,
            some (jbvString (X.getNameById (toInt32
              ((it.curKey + (decode_varbyte it.container it.childrenPtr).1) % 2 ^ 32)))),
            it2 :: parent)
      ∧ it2.state = JBI_OBJECT_VALUE
      ∧ it2.curKey = (it.curKey + (decode_varbyte it.container it.childrenPtr).1) % 2 ^ 32 := by
  have hn : ¬ it.childrenPtr ≥ it.children + it.childrenSize := by omega
  refine ⟨JsonbcIterator.mk it.container it.childrenSize
    ((it.curKey + (decode_varbyte it.container it.childrenPtr).1) % 2 ^ 32) it.isScalar
    it.children (decode_varbyte it.container it.childrenPtr).2 it.dataProper it.curDataOffset
    it.curValueOffset JBI_OBJECT_VALUE, ?_, rfl, rfl⟩
  simp only [JsonbcIteratorNext, JsonbcIteratorNext_switch, hstate, hn, if_false]

theorem C34_key_token_unchecked_witness :
    ((JsonbcIterator.mk [9, 7, 6] 2 0 false 1 1 3 0 0 JBI_OBJECT_KEY).state = JBI_OBJECT_KEY
      ∧ (JsonbcIterator.mk [9, 7, 6] 2 0 false 1 1 3 0 0 JBI_OBJECT_KEY).childrenPtr
          < (JsonbcIterator.mk [9, 7, 6] 2 0 false 1 1 3 0 0 JBI_OBJECT_KEY).children
            + (JsonbcIterator.mk [9, 7, 6] 2 0 false 1 1 3 0 0 JBI_OBJECT_KEY).childrenSize)
    ∧ ∃ it2, JsonbcIteratorNext (dictEnv [(1, [97])])
          [JsonbcIterator.mk [9, 7, 6] 2 0 false 1 1 3 0 0 JBI_OBJECT_KEY] false
        = .ok (WJB_KEY,
            some (jbvString ((dictEnv [(1, [97])]).getNameById (toInt32
              (((JsonbcIterator.mk [9, 7, 6] 2 0 false 1 1 3 0 0 JBI_OBJECT_KEY).curKey
                + (decode_varbyte
                    (JsonbcIterator.mk [9, 7, 6] 2 0 false 1 1 3 0 0 JBI_OBJECT_KEY).container
                    (JsonbcIterator.mk [9, 7, 6] 2 0 false 1 1 3 0 0
                      JBI_OBJECT_KEY).childrenPtr).1) % 2 ^ 32)))),
            [it2])
      ∧ it2.state = JBI_OBJECT_VALUE
      ∧ it2.curKey
          = ((JsonbcIterator.mk [9, 7, 6] 2 0 false 1 1 3 0 0 JBI_OBJECT_KEY).curKey
              + (decode_varbyte
                  (JsonbcIterator.mk [9, 7, 6] 2 0 false 1 1 3 0 0 JBI_OBJECT_KEY).container
                  (JsonbcIterator.mk [9, 7, 6] 2 0 false 1 1 3 0 0
                    JBI_OBJECT_KEY).childrenPtr).1) % 2 ^ 32 :=
  ⟨⟨rfl, by decide⟩,
    C34_key_token_unchecked (dictEnv [(1, [97])])
      (JsonbcIterator.mk [9, 7, 6] 2 0 false 1 1 3 0 0 JBI_OBJECT_KEY) [] false rfl
      (by decide)⟩

/-! ## C35 -/

theorem step_zero_iff (X : Env) (ra rb : JsonbcIteratorToken) (va vb : Option JsonbcValue)
    (hne : ¬ (ra = rb ∧ (ra = WJB_END_ARRAY ∨ ra = WJB_END_OBJECT))) :
    compareJsonbcContainers_step X ra rb va vb = .ok 0 ↔ tokensAgree X (ra, va) (rb, vb) := by
  by_cases hr : ra = rb
  · subst hr
    have he : ¬ (ra = WJB_END_ARRAY ∨ ra = WJB_END_OBJECT) := fun h => hne ⟨rfl, h⟩
    simp only [tokensAgree, he, if_false, true_and]
    cases va with
    | none => simp [compareJsonbcContainers_step]
    | some a =>
      cases vb with
      | none => simp [compareJsonbcContainers_step]
      | some b =>
        cases a <;> cases b <;>
          simp [compareJsonbcContainers_step, compareJsonbcScalarValue, JsonbcValue.type] <;>
          (split_ifs <;> simp_all)
  · simp only [tokensAgree, hr, false_and, iff_false]
    cases va with
    | none => simp [compareJsonbcContainers_step]
    | some a =>
      cases vb with
      | none => simp [compareJsonbcContainers_step]
      | some b =>
        simp only [compareJsonbcContainers_step, hr, if_false]
        split_ifs <;> simp

theorem cmpTokens_zero_iff (X : Env) :
    ∀ (l1 l2 : List TokenVal),
      cmpTokens X l1 l2 = .ok 0 ↔ List.Forall₂ (tokensAgree X) l1 l2
  | [], [] => by simp [cmpTokens]
  | [], y :: ys => by simp [cmpTokens, compareJsonbcContainers_step]
  | x :: xs, [] => by
    simp only [cmpTokens, List.forall₂_nil_right_iff]
    cases hx : x.2 <;> simp [compareJsonbcContainers_step]
  | x :: xs, y :: ys => by
    have ih := cmpTokens_zero_iff X xs ys
    simp only [cmpTokens, List.forall₂_cons]
    by_cases he : x.1 = y.1 ∧ (x.1 = WJB_END_ARRAY ∨ x.1 = WJB_END_OBJECT)
    · have ha : tokensAgree X x y := by
        unfold tokensAgree
        exact ⟨he.1, by rw [if_pos he.2]; trivial⟩
      rw [if_pos he, ih]
      exact ⟨fun h => ⟨ha, h⟩, fun h => h.2⟩
    · rw [if_neg he]
      have hs : compareJsonbcContainers_step X x.1 y.1 x.2 y.2 = .ok 0 ↔ tokensAgree X x y :=
        step_zero_iff X x.1 y.1 x.2 y.2 he
      cases hc : compareJsonbcContainers_step X x.1 y.1 x.2 y.2 with
      | error e =>
        rw [hc] at hs
        constructor
        · intro h; cases h
        · intro h
          exact absurd (hs.2 h.1) (by simp)
      | ok res =>
        rw [hc] at hs
        simp only [Except.ok.injEq] at hs
        by_cases h0 : res = 0
        · simp only [h0, if_true, ih]
          exact ⟨fun h => ⟨hs.1 h0, h⟩, fun h => h.2⟩
        · simp only [h0, if_false, Except.ok.injEq, false_iff]
          intro h
          exact h0 (hs.2 h.1)

/-- C40: for two encoded containers, `compareJsonbcContainers` returns 0 if and only if
the token streams that the iterator returns for them have the same length and agree
position by position: same kind of token, equal counts (and raw-scalar flags) in begin
tokens, and scalars equal under `compareJsonbcScalarValue`. -/
theorem C40_compare_zero_iff (X : Env) (a b : JsonbcValue) (hwa : WellFormed a)
    (hwb : WellFormed b) (hsa : IsAJsonbcScalar a = false) (hsb : IsAJsonbcScalar b = false)
    (ja jb : Jsonbc) (hja : JsonbcValueToJsonbc X a = .ok ja)
    (hjb : JsonbcValueToJsonbc X b = .ok jb) :
    ∃ ita itb ta tb, JsonbcIteratorInit ja.root = .ok ita
      ∧ JsonbcIteratorInit jb.root = .ok itb
      ∧ (∀ fuel, ta.length < fuel → iterateTokens X false fuel ita = .ok ta)
      ∧ (∀ fuel, tb.length < fuel → iterateTokens X false fuel itb = .ok tb)
      ∧ (compareJsonbcContainers X ja.root jb.root = .ok 0
          ↔ List.Forall₂ (tokensAgree X) ta tb)
      ∧ (compareJsonbcContainers X ja.root jb.root = .ok 0 → ta.length = tb.length) := by
  obtain ⟨hra, hfa, -⟩ := encoded_root X a hwa hsa ja hja
  obtain ⟨hrb, hfb, -⟩ := encoded_root X b hwb hsb jb hjb
  obtain ⟨ita, hia, -⟩ := iterate_root X a hwa hsa hfa _ (Nat.lt_succ_self _)
  obtain ⟨itb, hib, -⟩ := iterate_root X b hwb hsb hfb _ (Nat.lt_succ_self _)
  have hiff : compareJsonbcContainers X ja.root jb.root = .ok 0
      ↔ List.Forall₂ (tokensAgree X) (tokensOf X WJB_ELEM a) (tokensOf X WJB_ELEM b) := by
    rw [hra, hrb, compare_eq_cmpTokens X a b hwa hwb hsa hsb hfa hfb]
    exact cmpTokens_zero_iff X _ _
  refine ⟨ita, itb, tokensOf X WJB_ELEM a, tokensOf X WJB_ELEM b, by rw [hra]; exact hia,
    by rw [hrb]; exact hib, ?_, ?_, hiff, fun h => (hiff.1 h).length_eq⟩
  · intro fuel hf
    obtain ⟨it2, hi2, ht2⟩ := iterate_root X a hwa hsa hfa fuel hf
    rw [hia] at hi2
    cases hi2
    exact ht2
  · intro fuel hf
    obtain ⟨it2, hi2, ht2⟩ := iterate_root X b hwb hsb hfb fuel hf
    rw [hib] at hi2
    cases hi2
    exact ht2

theorem C40_compare_zero_iff_witness :
    (WellFormed demoDocument ∧ WellFormed (jbvArray 1 [jbvNumeric [0, 1]] true)
      ∧ IsAJsonbcScalar demoDocument = false
      ∧ IsAJsonbcScalar (jbvArray 1 [jbvNumeric [0, 1]] true) = false
      ∧ JsonbcValueToJsonbc demoEnv demoDocument
          = .ok ⟨15, [17, 1, 11, 1, 47, 1, 14, 5, 6, 9, 120]⟩
      ∧ JsonbcValueToJsonbc demoEnv (jbvArray 1 [jbvNumeric [0, 1]] true)
          = .ok ⟨7, [4, 11, 1]⟩)
    ∧ ∃ ita itb ta tb,
      JsonbcIteratorInit [17, 1, 11, 1, 47, 1, 14, 5, 6, 9, 120] = .ok ita
      ∧ JsonbcIteratorInit [4, 11, 1] = .ok itb
      ∧ (∀ fuel, ta.length < fuel → iterateTokens demoEnv false fuel ita = .ok ta)
      ∧ (∀ fuel, tb.length < fuel → iterateTokens demoEnv false fuel itb = .ok tb)
      ∧ (compareJsonbcContainers demoEnv [17, 1, 11, 1, 47, 1, 14, 5, 6, 9, 120] [4, 11, 1]
            = .ok 0
          ↔ List.Forall₂ (tokensAgree demoEnv) ta tb)
      ∧ (compareJsonbcContainers demoEnv [17, 1, 11, 1, 47, 1, 14, 5, 6, 9, 120] [4, 11, 1]
            = .ok 0 → ta.length = tb.length) :=
  have hw2 : WellFormed (jbvArray 1 [jbvNumeric [0, 1]] true) := by
    simp [WellFormed, WellFormedElems]
  ⟨⟨demoDocument_wellFormed, hw2, rfl, rfl, rfl, rfl⟩,
    C40_compare_zero_iff demoEnv demoDocument (jbvArray 1 [jbvNumeric [0, 1]] true)
      demoDocument_wellFormed hw2 rfl rfl ⟨15, [17, 1, 11, 1, 47, 1, 14, 5, 6, 9, 120]⟩
      ⟨7, [4, 11, 1]⟩ rfl rfl⟩
/-! ## The encoder succeeds exactly on trees that fit -/

theorem convertJsonbcArray_finish_eval (buffer data offs : Bytes) (tl : Nat) (raw : Bool) :
    convertJsonbcArray_finish buffer.length raw (.ok (buffer ++ data, offs, tl))
      = if ((encode_varbyte (mkHeader offs.length
              (if raw then JB_FSCALAR else JB_FARRAY)) ++ offs) ++ data).length
            ≤ JENTRY_OFFLENMASK
        then .ok (buffer ++ ((encode_varbyte (mkHeader offs.length
              (if raw then JB_FSCALAR else JB_FARRAY)) ++ offs) ++ data),
          mkEntry JENTRY_ISCONTAINER
            ((encode_varbyte (mkHeader offs.length
              (if raw then JB_FSCALAR else JB_FARRAY)) ++ offs) ++ data).length)
        else .error .program_limit_exceeded := by
  simp only [convertJsonbcArray_finish, mkHeader_array, insertHeaderAndEntries_append]
  rw [List.length_append buffer, Nat.add_sub_cancel_left]
  by_cases hfit : ((encode_varbyte (mkHeader offs.length
      (if raw then JB_FSCALAR else JB_FARRAY)) ++ offs) ++ data).length ≤ JENTRY_OFFLENMASK
  · rw [if_neg (by omega), if_pos hfit]
    rfl
  · rw [if_pos (by omega), if_neg hfit]

theorem convertJsonbcObject_finish_eval (buffer data offs : Bytes) (tl : Nat) :
    convertJsonbcObject_finish buffer.length (.ok (buffer ++ data, offs, tl))
      = if ((encode_varbyte (mkHeader offs.length JB_FOBJECT) ++ offs) ++ data).length
            ≤ JENTRY_OFFLENMASK
        then .ok (buffer ++ ((encode_varbyte (mkHeader offs.length JB_FOBJECT) ++ offs)
              ++ data),
          mkEntry JENTRY_ISCONTAINER
            ((encode_varbyte (mkHeader offs.length JB_FOBJECT) ++ offs) ++ data).length)
        else .error .program_limit_exceeded := by
  simp only [convertJsonbcObject_finish, insertHeaderAndEntries_append]
  rw [List.length_append buffer, Nat.add_sub_cancel_left]
  by_cases hfit : ((encode_varbyte (mkHeader offs.length JB_FOBJECT) ++ offs) ++ data).length
      ≤ JENTRY_OFFLENMASK
  · have hfit2 := hfit
    simp only [mkHeader] at hfit2
    rw [if_neg (by omega), if_pos hfit]
    rfl
  · have hfit2 := hfit
    simp only [mkHeader] at hfit2
    rw [if_pos (by omega), if_neg hfit]

mutual
/-- The result of `convertJsonbcValue` on a well-formed tree: the layout `enc` when the
tree is a scalar or a container of at most `JENTRY_OFFLENMASK` bytes, and the
resource-limit error otherwise. -/
theorem convertJsonbcValue_eval (X : Env) :
    ∀ (val : JsonbcValue) (buffer : Bytes) (level : Nat), WellFormed val →
      convertJsonbcValue X buffer val level
        = if IsAJsonbcScalar val = true ∨ (enc X val).1.length ≤ JENTRY_OFFLENMASK
          then .ok (buffer ++ (enc X val).1, (enc X val).2)
          else .error .program_limit_exceeded
  | jbvNull, buffer, level, _ => by
    simp [convertJsonbcValue, convertJsonbcScalar, enc, IsAJsonbcScalar, JsonbcValue.type]
  | jbvString s, buffer, level, _ => by
    simp [convertJsonbcValue, convertJsonbcScalar, enc, IsAJsonbcScalar, JsonbcValue.type,
      appendToBuffer, mkEntry]
  | jbvNumeric n, buffer, level, _ => by
    cases hs : X.numeric_get_small n <;>
      simp [convertJsonbcValue, convertJsonbcScalar, enc, hs, IsAJsonbcScalar,
        JsonbcValue.type, appendToBuffer, mkEntry]
  | jbvBool b, buffer, level, _ => by
    simp [convertJsonbcValue, convertJsonbcScalar, enc, IsAJsonbcScalar, JsonbcValue.type]
  | jbvArray nElems elems raw, buffer, level, hw => by
    simp only [WellFormed] at hw
    obtain ⟨hn, hwe⟩ := hw
    subst hn
    have hsc : IsAJsonbcScalar (jbvArray elems.length elems raw) = false := rfl
    obtain ⟨h1, h2⟩ := convertJsonbcArray_loop_eval X elems buffer [] 0 level hwe
    simp only [convertJsonbcValue, hsc, Bool.false_eq_true, false_or]
    by_cases hfit : (enc X (jbvArray elems.length elems raw)).1.length ≤ JENTRY_OFFLENMASK
    · rw [if_pos hfit]
      have hd : 0 + (encElems X elems).2.length ≤ JENTRY_OFFLENMASK := by
        simp only [enc, List.length_append] at hfit
        omega
      obtain ⟨tl, hl⟩ := h2 hd
      rw [hl, List.nil_append, convertJsonbcArray_finish_eval]
      simp only [enc] at hfit ⊢
      rw [if_pos hfit]
    · rw [if_neg hfit]
      rcases h1 with hl | ⟨tl, hl⟩
      · rw [hl]; rfl
      · rw [hl, List.nil_append, convertJsonbcArray_finish_eval]
        simp only [enc] at hfit
        rw [if_neg hfit]
  | jbvObject nPairs pairs, buffer, level, hw => by
    simp only [WellFormed] at hw
    obtain ⟨hn, hwe⟩ := hw
    subst hn
    have hsc : IsAJsonbcScalar (jbvObject pairs.length pairs) = false := rfl
    obtain ⟨h1, h2⟩ := convertJsonbcObject_loop_eval X pairs buffer [] 0 0 level hwe
    simp only [convertJsonbcValue, hsc, Bool.false_eq_true, false_or]
    by_cases hfit : (enc X (jbvObject pairs.length pairs)).1.length ≤ JENTRY_OFFLENMASK
    · rw [if_pos hfit]
      have hd : 0 + (encPairs X 0 pairs).2.length ≤ JENTRY_OFFLENMASK := by
        simp only [enc, List.length_append] at hfit
        omega
      obtain ⟨tl, hl⟩ := h2 hd
      rw [hl, List.nil_append, convertJsonbcObject_finish_eval]
      simp only [enc] at hfit ⊢
      rw [if_pos hfit]
    · rw [if_neg hfit]
      rcases h1 with hl | ⟨tl, hl⟩
      · rw [hl]; rfl
      · rw [hl, List.nil_append, convertJsonbcObject_finish_eval]
        simp only [enc] at hfit
        rw [if_neg hfit]
  | jbvBinary _ _, buffer, level, hw => by
    simp [WellFormed] at hw
theorem convertJsonbcArray_loop_eval (X : Env) :
    ∀ (elems : List JsonbcValue) (buffer offsets : Bytes) (totallen level : Nat),
      WellFormedElems elems →
      (convertJsonbcArray_loop X buffer offsets totallen elems.length elems level
            = .error .program_limit_exceeded
          ∨ ∃ tl, convertJsonbcArray_loop X buffer offsets totallen elems.length elems level
            = .ok (buffer ++ (encElems X elems).2, offsets ++ (encElems X elems).1, tl))
        ∧ (totallen + (encElems X elems).2.length ≤ JENTRY_OFFLENMASK →
          ∃ tl, convertJsonbcArray_loop X buffer offsets totallen elems.length elems level
            = .ok (buffer ++ (encElems X elems).2, offsets ++ (encElems X elems).1, tl))
  | [], buffer, offsets, totallen, level, _ => by
    simp [convertJsonbcArray_loop, encElems]
  | e :: rest, buffer, offsets, totallen, level, hw => by
    simp only [WellFormedElems] at hw
    have hv := convertJsonbcValue_eval X e buffer (level + 1) hw.1
    obtain ⟨r1, r2⟩ := convertJsonbcArray_loop_eval X rest (buffer ++ (enc X e).1)
      (offsets ++ encode_varbyte (enc X e).2)
      (totallen + JBE_OFFLENFLD (enc X e).2) level hw.2
    have hshape : ∀ tl : Nat,
        (Except.ok (buffer ++ (enc X e).1 ++ (encElems X rest).2,
            offsets ++ encode_varbyte (enc X e).2 ++ (encElems X rest).1, tl)
          : Except Err (Bytes × Bytes × Nat))
        = .ok (buffer ++ (encElems X (e :: rest)).2, offsets ++ (encElems X (e :: rest)).1,
            tl) := by
      intro tl; simp [encElems]
    simp only [List.length_cons, convertJsonbcArray_loop]
    constructor
    · by_cases hf : IsAJsonbcScalar e = true ∨ (enc X e).1.length ≤ JENTRY_OFFLENMASK
      · rw [hv, if_pos hf]
        simp only []
        split_ifs
        · exact Or.inl rfl
        · rcases r1 with hl | ⟨tl, hl⟩
          · exact Or.inl hl
          · exact Or.inr ⟨tl, hl.trans (hshape tl)⟩
      · rw [hv, if_neg hf]
        exact Or.inl rfl
    · intro hd
      simp only [encElems, List.length_append] at hd
      have hfe : (enc X e).1.length ≤ JENTRY_OFFLENMASK := by omega
      have hlen : JBE_OFFLENFLD (enc X e).2 = (enc X e).1.length :=
        enc_entry_len X e hw.1 hfe
      rw [hv, if_pos (Or.inr hfe)]
      simp only []
      rw [if_neg (by rw [hlen]; omega)]
      obtain ⟨tl, hl⟩ := r2 (by rw [hlen]; omega)
      exact ⟨tl, hl.trans (hshape tl)⟩
theorem convertJsonbcObject_loop_eval (X : Env) :
    ∀ (pairs : List JsonbcPair) (buffer offsets : Bytes) (totallen prev_key level : Nat),
      WellFormedPairs pairs →
      (convertJsonbcObject_loop X buffer offsets totallen prev_key pairs.length pairs level
            = .error .program_limit_exceeded
          ∨ ∃ tl, convertJsonbcObject_loop X buffer offsets totallen prev_key pairs.length
              pairs level
            = .ok (buffer ++ (encPairs X prev_key pairs).2,
                offsets ++ (encPairs X prev_key pairs).1, tl))
        ∧ (totallen + (encPairs X prev_key pairs).2.length ≤ JENTRY_OFFLENMASK →
          ∃ tl, convertJsonbcObject_loop X buffer offsets totallen prev_key pairs.length
              pairs level
            = .ok (buffer ++ (encPairs X prev_key pairs).2,
                offsets ++ (encPairs X prev_key pairs).1, tl))
  | [], buffer, offsets, totallen, prev_key, level, _ => by
    simp [convertJsonbcObject_loop, encPairs]
  | (JsonbcPair.mk key value order) :: rest, buffer, offsets, totallen, prev_key, level,
      hw => by
    simp only [WellFormedPairs] at hw
    have hv := convertJsonbcValue_eval X value buffer (level + 1) hw.2.1
    obtain ⟨r1, r2⟩ := convertJsonbcObject_loop_eval X rest (buffer ++ (enc X value).1)
      (offsets ++ encode_varbyte (toUInt32 (key - (prev_key : Int)))
        ++ encode_varbyte (enc X value).2)
      (totallen + JBE_OFFLENFLD (enc X value).2) (toUInt32 key) level hw.2.2
    have hshape : ∀ tl : Nat,
        (Except.ok (buffer ++ (enc X value).1 ++ (encPairs X (toUInt32 key) rest).2,
            offsets ++ encode_varbyte (toUInt32 (key - (prev_key : Int)))
              ++ encode_varbyte (enc X value).2 ++ (encPairs X (toUInt32 key) rest).1, tl)
          : Except Err (Bytes × Bytes × Nat))
        = .ok (buffer ++ (encPairs X prev_key (JsonbcPair.mk key value order :: rest)).2,
            offsets ++ (encPairs X prev_key (JsonbcPair.mk key value order :: rest)).1,
            tl) := by
      intro tl; simp [encPairs]
    simp only [List.length_cons, convertJsonbcObject_loop]
    constructor
    · by_cases hf : IsAJsonbcScalar value = true
          ∨ (enc X value).1.length ≤ JENTRY_OFFLENMASK
      · rw [hv, if_pos hf]
        simp only []
        split_ifs
        · exact Or.inl rfl
        · rcases r1 with hl | ⟨tl, hl⟩
          · exact Or.inl hl
          · exact Or.inr ⟨tl, hl.trans (hshape tl)⟩
      · rw [hv, if_neg hf]
        exact Or.inl rfl
    · intro hd
      simp only [encPairs, List.length_append] at hd
      have hfe : (enc X value).1.length ≤ JENTRY_OFFLENMASK := by omega
      have hlen : JBE_OFFLENFLD (enc X value).2 = (enc X value).1.length :=
        enc_entry_len X value hw.2.1 hfe
      rw [hv, if_pos (Or.inr hfe)]
      simp only []
      rw [if_neg (by rw [hlen]; omega)]
      obtain ⟨tl, hl⟩ := r2 (by rw [hlen]; omega)
      exact ⟨tl, hl.trans (hshape tl)⟩
end
/-! ## Nodes of a tree: well-formedness and sizes -/

mutual
theorem subtrees_wellFormed :
    ∀ (t c : JsonbcValue), WellFormed t → c ∈ subtrees t → WellFormed c
  | jbvNull, c, hw, h => by simp only [subtrees, List.mem_singleton] at h; rw [h]; exact hw
  | jbvString _, c, hw, h => by simp only [subtrees, List.mem_singleton] at h; rw [h]; exact hw
  | jbvNumeric _, c, hw, h => by simp only [subtrees, List.mem_singleton] at h; rw [h]; exact hw
  | jbvBool _, c, hw, h => by simp only [subtrees, List.mem_singleton] at h; rw [h]; exact hw
  | jbvBinary _ _, c, hw, h => by simp only [subtrees, List.mem_singleton] at h; rw [h]; exact hw
  | jbvArray n es raw, c, hw, h => by
    simp only [subtrees, List.mem_cons] at h
    rcases h with rfl | h
    · exact hw
    · simp only [WellFormed] at hw
      exact subtreesElems_wellFormed es c hw.2 h
  | jbvObject n ps, c, hw, h => by
    simp only [subtrees, List.mem_cons] at h
    rcases h with rfl | h
    · exact hw
    · simp only [WellFormed] at hw
      exact subtreesPairs_wellFormed ps c hw.2 h
theorem subtreesElems_wellFormed :
    ∀ (es : List JsonbcValue) (c : JsonbcValue), WellFormedElems es →
      c ∈ subtreesElems es → WellFormed c
  | [], c, _, h => by simp [subtreesElems] at h
  | e :: rest, c, hw, h => by
    simp only [WellFormedElems] at hw
    simp only [subtreesElems, List.mem_append] at h
    rcases h with h | h
    · exact subtrees_wellFormed e c hw.1 h
    · exact subtreesElems_wellFormed rest c hw.2 h
theorem subtreesPairs_wellFormed :
    ∀ (ps : List JsonbcPair) (c : JsonbcValue), WellFormedPairs ps →
      c ∈ subtreesPairs ps → WellFormed c
  | [], c, _, h => by simp [subtreesPairs] at h
  | (JsonbcPair.mk key value order) :: rest, c, hw, h => by
    simp only [WellFormedPairs] at hw
    simp only [subtreesPairs, List.mem_append] at h
    rcases h with h | h
    · exact subtrees_wellFormed value c hw.2.1 h
    · exact subtreesPairs_wellFormed rest c hw.2.2 h
end

mutual
theorem subtrees_size (X : Env) :
    ∀ (t c : JsonbcValue), c ∈ subtrees t → (enc X c).1.length ≤ (enc X t).1.length
  | jbvNull, c, h => by simp only [subtrees, List.mem_singleton] at h; rw [h]
  | jbvString _, c, h => by simp only [subtrees, List.mem_singleton] at h; rw [h]
  | jbvNumeric _, c, h => by simp only [subtrees, List.mem_singleton] at h; rw [h]
  | jbvBool _, c, h => by simp only [subtrees, List.mem_singleton] at h; rw [h]
  | jbvBinary _ _, c, h => by simp only [subtrees, List.mem_singleton] at h; rw [h]
  | jbvArray n es raw, c, h => by
    simp only [subtrees, List.mem_cons] at h
    rcases h with rfl | h
    · exact Nat.le_refl _
    · have := subtreesElems_size X es c h
      simp only [enc, List.length_append]
      omega
  | jbvObject n ps, c, h => by
    simp only [subtrees, List.mem_cons] at h
    rcases h with rfl | h
    · exact Nat.le_refl _
    · have := subtreesPairs_size X ps c 0 h
      simp only [enc, List.length_append]
      omega
theorem subtreesElems_size (X : Env) :
    ∀ (es : List JsonbcValue) (c : JsonbcValue), c ∈ subtreesElems es →
      (enc X c).1.length ≤ (encElems X es).2.length
  | [], c, h => by simp [subtreesElems] at h
  | e :: rest, c, h => by
    simp only [subtreesElems, List.mem_append] at h
    simp only [encElems, List.length_append]
    rcases h with h | h
    · have := subtrees_size X e c h
      omega
    · have := subtreesElems_size X rest c h
      omega
theorem subtreesPairs_size (X : Env) :
    ∀ (ps : List JsonbcPair) (c : JsonbcValue) (prev_key : Nat), c ∈ subtreesPairs ps →
      (enc X c).1.length ≤ (encPairs X prev_key ps).2.length
  | [], c, _, h => by simp [subtreesPairs] at h
  | (JsonbcPair.mk key value order) :: rest, c, prev_key, h => by
    simp only [subtreesPairs, List.mem_append] at h
    simp only [encPairs, List.length_append]
    rcases h with h | h
    · have := subtrees_size X value c h
      omega
    · have := subtreesPairs_size X rest c (toUInt32 key) h
      omega
end

theorem subtrees_self : ∀ (t : JsonbcValue), t ∈ subtrees t
  | jbvNull => by simp [subtrees]
  | jbvString _ => by simp [subtrees]
  | jbvNumeric _ => by simp [subtrees]
  | jbvBool _ => by simp [subtrees]
  | jbvBinary _ _ => by simp [subtrees]
  | jbvArray _ _ _ => by simp [subtrees]
  | jbvObject _ _ => by simp [subtrees]

theorem subtreesElems_mem :
    ∀ (es : List JsonbcValue) (e : JsonbcValue), e ∈ es → e ∈ subtreesElems es
  | [], _, h => by simp at h
  | a :: rest, e, h => by
    simp only [subtreesElems, List.mem_append]
    rcases List.mem_cons.1 h with rfl | h
    · exact Or.inl (subtrees_self _)
    · exact Or.inr (subtreesElems_mem rest e h)

theorem encodedTree_wellFormed (t : JsonbcValue) (hw : WellFormed t) :
    WellFormed (encodedTree t) ∧ IsAJsonbcScalar (encodedTree t) = false := by
  unfold encodedTree
  by_cases hs : IsAJsonbcScalar t = true
  · rw [if_pos hs]
    exact ⟨by simp [WellFormed, WellFormedElems, hw], rfl⟩
  · rw [if_neg hs]
    exact ⟨hw, by simpa using hs⟩

/-- What `convertToJsonbc` returns for a well-formed container. -/
theorem convertToJsonbc_eval (X : Env) (t : JsonbcValue) (hw : WellFormed t)
    (hs : IsAJsonbcScalar t = false) :
    convertToJsonbc X t
      = if (enc X t).1.length ≤ JENTRY_OFFLENMASK
        then .ok ⟨VARHDRSZ + (enc X t).1.length, (enc X t).1⟩
        else .error .program_limit_exceeded := by
  simp only [convertToJsonbc, convertJsonbcValue_eval X t _ 0 hw, hs, Bool.false_eq_true,
    false_or]
  split_ifs
  · simp [reserveFromBuffer, VARHDRSZ]
    omega
  · rfl

theorem JsonbcValueToJsonbc_eval (X : Env) (t : JsonbcValue) (hw : WellFormed t) :
    JsonbcValueToJsonbc X t
      = if (enc X (encodedTree t)).1.length ≤ JENTRY_OFFLENMASK
        then .ok ⟨VARHDRSZ + (enc X (encodedTree t)).1.length, (enc X (encodedTree t)).1⟩
        else .error .program_limit_exceeded := by
  obtain ⟨hwe, hse⟩ := encodedTree_wellFormed t hw
  rw [← convertToJsonbc_eval X _ hwe hse]
  unfold encodedTree
  by_cases hs : IsAJsonbcScalar t = true
  · rw [if_pos hs, JsonbcValueToJsonbc_scalar X t hs]
  · rw [if_neg hs, JsonbcValueToJsonbc_container X t hw (by simpa using hs)]

/-! ## C33 -/

/-- C33: for every well-formed value tree, `JsonbcValueToJsonbc` either fails with the
resource-limit error or returns the container laid out by `enc`, in which the length
field of the entry of every node equals the byte length of that node's payload; it fails
with that error whenever the encoding of some array or object of the tree, header and
entries included, is longer than `JENTRY_OFFLENMASK` bytes. -/
theorem C33_length_fields_exact (X : Env) (t : JsonbcValue) (hw : WellFormed t) :
    (JsonbcValueToJsonbc X t = .error .program_limit_exceeded
        ∨ ∃ jb, JsonbcValueToJsonbc X t = .ok jb ∧ jb.root = (enc X (encodedTree t)).1
          ∧ ∀ c ∈ subtrees (encodedTree t),
              JBE_OFFLENFLD (enc X c).2 = (enc X c).1.length)
      ∧ (∀ c ∈ subtrees (encodedTree t), IsAJsonbcScalar c = false →
          (enc X c).1.length > JENTRY_OFFLENMASK →
          JsonbcValueToJsonbc X t = .error .program_limit_exceeded) := by
  obtain ⟨hwe, hse⟩ := encodedTree_wellFormed t hw
  rw [JsonbcValueToJsonbc_eval X t hw]
  constructor
  · by_cases hfit : (enc X (encodedTree t)).1.length ≤ JENTRY_OFFLENMASK
    · rw [if_pos hfit]
      refine Or.inr ⟨_, rfl, rfl, ?_⟩
      intro c hc
      exact enc_entry_len X c (subtrees_wellFormed _ c hwe hc)
        (le_trans (subtrees_size X _ c hc) hfit)
    · rw [if_neg hfit]
      exact Or.inl rfl
  · intro c hc _ hbig
    have := subtrees_size X _ c hc
    rw [if_neg (by omega)]

theorem C33_length_fields_exact_witness :
    WellFormed demoDocument
    ∧ ((JsonbcValueToJsonbc demoEnv demoDocument = .error .program_limit_exceeded
        ∨ ∃ jb, JsonbcValueToJsonbc demoEnv demoDocument = .ok jb
          ∧ jb.root = (enc demoEnv (encodedTree demoDocument)).1
          ∧ ∀ c ∈ subtrees (encodedTree demoDocument),
              JBE_OFFLENFLD (enc demoEnv c).2 = (enc demoEnv c).1.length)
      ∧ (∀ c ∈ subtrees (encodedTree demoDocument), IsAJsonbcScalar c = false →
          (enc demoEnv c).1.length > JENTRY_OFFLENMASK →
          JsonbcValueToJsonbc demoEnv demoDocument = .error .program_limit_exceeded)) :=
  ⟨demoDocument_wellFormed, C33_length_fields_exact demoEnv demoDocument
    demoDocument_wellFormed⟩
/-! ## C39: a nested container is encoded as it is on its own -/

theorem encElems_append (X : Env) :
    ∀ (l1 l2 : List JsonbcValue),
      encElems X (l1 ++ l2)
        = ((encElems X l1).1 ++ (encElems X l2).1, (encElems X l1).2 ++ (encElems X l2).2)
  | [], l2 => by simp [encElems]
  | e :: rest, l2 => by simp [encElems, encElems_append X rest l2]

theorem encPairs_append_cons (X : Env) :
    ∀ (q1 q2 : List JsonbcPair) (prev_key : Nat) (key : Int) (value : JsonbcValue)
      (order : Nat),
      ∃ prev : Nat,
        encPairs X prev_key (q1 ++ JsonbcPair.mk key value order :: q2)
          = ((encPairs X prev_key q1).1
              ++ ((encode_varbyte (toUInt32 (key - (prev : Int)))
                ++ encode_varbyte (enc X value).2) ++ (encPairs X (toUInt32 key) q2).1),
            (encPairs X prev_key q1).2 ++ ((enc X value).1 ++ (encPairs X (toUInt32 key) q2).2))
  | [], q2, prev_key, key, value, order => ⟨prev_key, by simp [encPairs]⟩
  | (JsonbcPair.mk k v o) :: rest, q2, prev_key, key, value, order => by
    obtain ⟨prev, h⟩ := encPairs_append_cons X rest q2 (toUInt32 k) key value order
    exact ⟨prev, by simp [encPairs, h]⟩

theorem wellFormedPairs_value :
    ∀ (q1 q2 : List JsonbcPair) (key : Int) (value : JsonbcValue) (order : Nat),
      WellFormedPairs (q1 ++ JsonbcPair.mk key value order :: q2) → WellFormed value
  | [], _, _, _, _, hw => by
    simp only [List.nil_append, WellFormedPairs] at hw
    exact hw.2.1
  | (JsonbcPair.mk k v o) :: rest, q2, key, value, order, hw => by
    simp only [List.cons_append, WellFormedPairs] at hw
    exact wellFormedPairs_value rest q2 key value order hw.2.2

/-- Iterating a buffer that starts with the encoding of a container yields the tokens of
that container, whatever follows the encoding. -/
theorem iterate_container_prefix (X : Env) (c : JsonbcValue) (hw : WellFormed c)
    (hs : IsAJsonbcScalar c = false) (hfit : (enc X c).1.length ≤ JENTRY_OFFLENMASK)
    (rest : Bytes) (fuel : Nat) (hfuel : (tokensOf X WJB_ELEM c).length < fuel) :
    ∃ it, JsonbcIteratorInit ((enc X c).1 ++ rest) = .ok it
      ∧ iterateTokens X false fuel it = .ok (tokensOf X WJB_ELEM c) := by
  obtain ⟨child, child', tok0, toks, hinit, hsw, htok, hrun⟩ :=
    container_run X c hw hs hfit rest [] WJB_ELEM
  refine ⟨[child], hinit, ?_⟩
  have h := iterateSteps_cons X false _ _ _ _ _ _ _
    ((next_cons X false _ _).trans (hsw _)) hrun
  apply iterateTokens_of_steps X false _ _ _ fuel (by rw [htok]; exact h)
    (tokensOf_ne_done X WJB_ELEM (by decide) c)
  rw [htok] at hfuel
  simpa using hfuel

/-- A nested container taken on its own: its encoding succeeds, the root of the result is
the payload `enc` gives it, the length field of its entry is the length of that payload,
the binary value that stands for it when nested containers are skipped points to these
bytes, and iterating from there yields the tokens of the container. -/
theorem child_standalone (X : Env) (c : JsonbcValue) (hw : WellFormed c)
    (hs : IsAJsonbcScalar c = false) (hfit : (enc X c).1.length ≤ JENTRY_OFFLENMASK) :
    ∃ jc, JsonbcValueToJsonbc X c = .ok jc ∧ jc.root = (enc X c).1
      ∧ JBE_OFFLENFLD (enc X c).2 = jc.root.length
      ∧ (∀ rest : Bytes, skipValue X c rest = jbvBinary jc.root.length (jc.root ++ rest))
      ∧ (∀ (rest : Bytes) (fuel : Nat), (tokensOf X WJB_ELEM c).length < fuel →
          ∃ it, JsonbcIteratorInit (jc.root ++ rest) = .ok it
            ∧ iterateTokens X false fuel it = .ok (tokensOf X WJB_ELEM c)) := by
  refine ⟨⟨VARHDRSZ + (enc X c).1.length, (enc X c).1⟩, ?_, rfl,
    enc_entry_len X c hw hfit, ?_, ?_⟩
  · rw [JsonbcValueToJsonbc_container X c hw hs, convertToJsonbc_eval X c hw hs, if_pos hfit]
  · intro rest
    simp [skipValue, hs]
  · intro rest fuel hf
    exact iterate_container_prefix X c hw hs hfit rest fuel hf

/-- C39: for every array or object c that is a child inside an encoded tree t, the
payload of c's entry, which follows the payloads of the children before it in the data
region of its parent, is the root container of the encoding of c on its own, and the
length field of the entry is its byte count; the binary value returned for c with
`skipNested = true` points to these bytes, and iterating from there yields the tokens of
c as a standalone container. -/
theorem C39_nested_container_standalone (X : Env) (t : JsonbcValue) (hw : WellFormed t)
    (hs : IsAJsonbcScalar t = false) (jb : Jsonbc) (h : JsonbcValueToJsonbc X t = .ok jb)
    (c : JsonbcValue) (hc : IsAJsonbcScalar c = false) :
    jb.root = (enc X t).1
      ∧ (∀ n l1 l2 raw, jbvArray n (l1 ++ c :: l2) raw ∈ subtrees t →
        ∃ jc, JsonbcValueToJsonbc X c = .ok jc
          ∧ (enc X (jbvArray n (l1 ++ c :: l2) raw)).1
              = (encode_varbyte (mkHeader (encElems X (l1 ++ c :: l2)).1.length
                    (if raw then JB_FSCALAR else JB_FARRAY))
                  ++ ((encElems X l1).1 ++ (encode_varbyte (enc X c).2 ++ (encElems X l2).1)))
                ++ ((encElems X l1).2 ++ (jc.root ++ (encElems X l2).2))
          ∧ JBE_OFFLENFLD (enc X c).2 = jc.root.length
          ∧ (∀ rest : Bytes, skipValue X c rest = jbvBinary jc.root.length (jc.root ++ rest))
          ∧ (∀ (rest : Bytes) (fuel : Nat), (tokensOf X WJB_ELEM c).length < fuel →
              ∃ it, JsonbcIteratorInit (jc.root ++ rest) = .ok it
                ∧ iterateTokens X false fuel it = .ok (tokensOf X WJB_ELEM c)))
      ∧ (∀ n q1 q2 key order, jbvObject n (q1 ++ JsonbcPair.mk key c order :: q2) ∈ subtrees t →
        ∃ jc, JsonbcValueToJsonbc X c = .ok jc
          ∧ (∃ prev : Nat, (enc X (jbvObject n (q1 ++ JsonbcPair.mk key c order :: q2))).1
              = (encode_varbyte (mkHeader
                    (encPairs X 0 (q1 ++ JsonbcPair.mk key c order :: q2)).1.length JB_FOBJECT)
                  ++ ((encPairs X 0 q1).1
                    ++ ((encode_varbyte (toUInt32 (key - (prev : Int)))
                      ++ encode_varbyte (enc X c).2) ++ (encPairs X (toUInt32 key) q2).1)))
                ++ ((encPairs X 0 q1).2 ++ (jc.root ++ (encPairs X (toUInt32 key) q2).2)))
          ∧ JBE_OFFLENFLD (enc X c).2 = jc.root.length
          ∧ (∀ rest : Bytes, skipValue X c rest = jbvBinary jc.root.length (jc.root ++ rest))
          ∧ (∀ (rest : Bytes) (fuel : Nat), (tokensOf X WJB_ELEM c).length < fuel →
              ∃ it, JsonbcIteratorInit (jc.root ++ rest) = .ok it
                ∧ iterateTokens X false fuel it = .ok (tokensOf X WJB_ELEM c))) := by
  obtain ⟨hroot, hfit, -⟩ := encoded_root X t hw hs jb h
  refine ⟨hroot, ?_, ?_⟩
  · intro n l1 l2 raw hp
    have hwp := subtrees_wellFormed t _ hw hp
    have hsz := subtrees_size X t _ hp
    simp only [WellFormed] at hwp
    have hwc : WellFormed c := wellFormed_of_mem _ c hwp.2 (by simp)
    have hfc : (enc X c).1.length ≤ JENTRY_OFFLENMASK := by
      have h1 := enc_payload_le_of_mem X (l1 ++ c :: l2) c (by simp)
      simp only [enc, List.length_append] at hsz
      omega
    obtain ⟨jc, h1, h2, h3, h4, h5⟩ := child_standalone X c hwc hc hfc
    refine ⟨jc, h1, ?_, h3, h4, h5⟩
    rw [h2]
    simp only [enc, encElems_append, encElems]
  · intro n q1 q2 key order hp
    have hwp := subtrees_wellFormed t _ hw hp
    have hsz := subtrees_size X t _ hp
    simp only [WellFormed] at hwp
    have hwc : WellFormed c := wellFormedPairs_value q1 q2 key c order hwp.2
    obtain ⟨prev, happ⟩ := encPairs_append_cons X q1 q2 0 key c order
    have hfc : (enc X c).1.length ≤ JENTRY_OFFLENMASK := by
      simp only [enc, List.length_append] at hsz
      have h1 := congrArg (fun p => p.2.length) happ
      simp only [List.length_append] at h1
      omega
    obtain ⟨jc, h1, h2, h3, h4, h5⟩ := child_standalone X c hwc hc hfc
    refine ⟨jc, h1, ⟨prev, ?_⟩, h3, h4, h5⟩
    rw [h2]
    simp only [enc]
    rw [happ]

theorem C39_nested_container_standalone_witness :
    (WellFormed demoDocument ∧ IsAJsonbcScalar demoDocument = false
      ∧ JsonbcValueToJsonbc demoEnv demoDocument
          = .ok ⟨15, [17, 1, 11, 1, 47, 1, 14, 5, 6, 9, 120]⟩
      ∧ IsAJsonbcScalar (jbvArray 3 [jbvBool true, jbvNull, jbvString [120]] false) = false
      ∧ jbvObject 2 ([JsonbcPair.mk 1 (jbvNumeric [0, 1]) 0]
            ++ JsonbcPair.mk 2 (jbvArray 3 [jbvBool true, jbvNull, jbvString [120]] false) 1
              :: [])
          ∈ subtrees demoDocument)
    ∧ ∃ jc, JsonbcValueToJsonbc demoEnv
            (jbvArray 3 [jbvBool true, jbvNull, jbvString [120]] false) = .ok jc
      ∧ (∃ prev : Nat, (enc demoEnv (jbvObject 2 ([JsonbcPair.mk 1 (jbvNumeric [0, 1]) 0]
            ++ JsonbcPair.mk 2 (jbvArray 3 [jbvBool true, jbvNull, jbvString [120]] false) 1
              :: []))).1
          = (encode_varbyte (mkHeader
                (encPairs demoEnv 0 ([JsonbcPair.mk 1 (jbvNumeric [0, 1]) 0]
                  ++ JsonbcPair.mk 2
                    (jbvArray 3 [jbvBool true, jbvNull, jbvString [120]] false) 1
                    :: [])).1.length JB_FOBJECT)
              ++ ((encPairs demoEnv 0 [JsonbcPair.mk 1 (jbvNumeric [0, 1]) 0]).1
                ++ ((encode_varbyte (toUInt32 (2 - (prev : Int)))
                  ++ encode_varbyte
                    (enc demoEnv
                      (jbvArray 3 [jbvBool true, jbvNull, jbvString [120]] false)).2)
                  ++ (encPairs demoEnv (toUInt32 2) []).1)))
            ++ ((encPairs demoEnv 0 [JsonbcPair.mk 1 (jbvNumeric [0, 1]) 0]).2
              ++ (jc.root ++ (encPairs demoEnv (toUInt32 2) []).2)))
      ∧ JBE_OFFLENFLD
          (enc demoEnv (jbvArray 3 [jbvBool true, jbvNull, jbvString [120]] false)).2
          = jc.root.length
      ∧ (∀ rest : Bytes,
          skipValue demoEnv (jbvArray 3 [jbvBool true, jbvNull, jbvString [120]] false) rest
            = jbvBinary jc.root.length (jc.root ++ rest))
      ∧ (∀ (rest : Bytes) (fuel : Nat),
          (tokensOf demoEnv WJB_ELEM
            (jbvArray 3 [jbvBool true, jbvNull, jbvString [120]] false)).length < fuel →
          ∃ it, JsonbcIteratorInit (jc.root ++ rest) = .ok it
            ∧ iterateTokens demoEnv false fuel it
              = .ok (tokensOf demoEnv WJB_ELEM
                  (jbvArray 3 [jbvBool true, jbvNull, jbvString [120]] false))) :=
  have hmem : jbvObject 2 ([JsonbcPair.mk 1 (jbvNumeric [0, 1]) 0]
        ++ JsonbcPair.mk 2 (jbvArray 3 [jbvBool true, jbvNull, jbvString [120]] false) 1
          :: [])
      ∈ subtrees demoDocument := by
    simp [demoDocument, subtrees]
  ⟨⟨demoDocument_wellFormed, rfl, rfl, rfl, hmem⟩,
    (C39_nested_container_standalone demoEnv demoDocument demoDocument_wellFormed rfl
      ⟨15, [17, 1, 11, 1, 47, 1, 14, 5, 6, 9, 120]⟩ rfl
      (jbvArray 3 [jbvBool true, jbvNull, jbvString [120]] false) rfl).2.2 2
      [JsonbcPair.mk 1 (jbvNumeric [0, 1]) 0] [] 2 1 hmem⟩

/-! ## C2 -/

/-- C2: for every unsigned 32-bit value `v`, `decode_varbyte` applied to the bytes written by
`encode_varbyte(v)` returns `v`. -/
theorem C2_varbyte_roundtrip (v : Nat) (hv : v < 2 ^ 32) :
    (decode_varbyte (encode_varbyte v) 0).1 = v := by
  have h := decode_encode_varbyte v hv []
  rw [List.append_nil] at h
  rw [h]

theorem C2_varbyte_roundtrip_witness :
    (4294967295 : Nat) < 2 ^ 32 ∧
      (decode_varbyte (encode_varbyte 4294967295) 0).1 = 4294967295 :=
  ⟨by decide, C2_varbyte_roundtrip 4294967295 (by decide)⟩

end JB
